import Mathlib

/-!
Day 12 polyomino packing solver: a shallow embedding of `day12.c`

The definitions below follow `src/day12.c` function by function and keep its names.

Modelling conventions:

* a C `int` is an `Int`.  `solve_region_fast` works on unchecked input, so the `int`
  products and the `int` sum it forms from `W`, `H` and the counts (`W * H`, `area_sum`)
  are reduced with `int_wrap`, their value on a two's complement machine; the functions
  called behind its guards are described for runs without signed overflow (which C leaves
  undefined);
* an array index or loop counter that the code keeps non-negative is a `Nat`;
* a `uint64_t` word is a `Nat`, reduced modulo `2 ^ 64` where a shift can overflow;
* a fixed-capacity array with a length field (`Poly.c` / `Poly.n`,
  `Shape.ori` / `Shape.ori_n`, `PlaceList.data` / `PlaceList.n`) is a `List`,
  the length field being the length of the list;
* the mutable search context `Ctx` is passed and returned explicitly;
* memory allocation is assumed to succeed.
-/

namespace Day12

/-! ## Constants -/

def MAX_SHAPES : Nat := 128

def MAX_CELLS_PER_SHAPE : Nat := 64

def MAX_ORI : Nat := 16

def INT_MAX : Int := 2147483647

/-- The value an `int` expression takes on a two's complement machine when its exact
value is `v`: `v` reduced modulo `2 ^ 32` into `[-2 ^ 31, 2 ^ 31)`. -/
def int_wrap (v : Int) : Int := (v + 2147483648) % 4294967296 - 2147483648

/-! ## Data model -/

/-- A board or shape cell `(x, y)`. -/
structure Cell where
  x : Int
  y : Int
deriving DecidableEq, Repr

/-- A polyomino: the used prefix `c[0..n)` of the cell array and the bounding box. -/
structure Poly where
  c : List Cell
  w : Int
  h : Int
deriving DecidableEq, Repr

/-- The field `n` of the C struct: the number of cells in use. -/
def Poly.n (p : Poly) : Nat := p.c.length

/-- A shape: id, base polyomino, the used prefix `ori[0..ori_n)` and the area. -/
structure Shape where
  id : Int
  base : Poly
  ori : List Poly
  area : Int
deriving DecidableEq, Repr

/-- The field `ori_n` of the C struct. -/
def Shape.ori_n (s : Shape) : Nat := s.ori.length

/-- A packed bitmask: `nwords` 64-bit words, bit `k` living in word `k / 64`. -/
abbrev Mask := List Nat

/-! ## Polyomino canonicalisation -/

/-- The comparison callback handed to `qsort`: ascending by `y`, then by `x`. -/
def cmp_cell (a b : Cell) : Int :=
  if a.y ≠ b.y then (if a.y < b.y then -1 else 1)
  else if a.x ≠ b.x then (if a.x < b.x then -1 else 1)
  else 0

/-- The order `qsort` sorts by: `a` may precede `b` when `cmp_cell a b ≤ 0`. -/
def cell_le (a b : Cell) : Prop := cmp_cell a b ≤ 0

instance : DecidableRel cell_le := fun a b => inferInstanceAs (Decidable (cmp_cell a b ≤ 0))

/-- Sorting of the cell array with `qsort` and `cmp_cell`.  `cmp_cell` returns `0` only
for identical cells, so every correct sort yields the same array; insertion sort is used. -/
def poly_sort (p : Poly) : Poly :=
  if p.n ≤ 0 then p else { p with c := p.c.insertionSort cell_le }

/-- Translation of the cells to the origin, bounding box, then sort. -/
def poly_norm (p : Poly) : Poly :=
  match p.c with
  | [] => p
  | c0 :: rest =>
    let minx := rest.foldl (fun m c => if c.x < m then c.x else m) c0.x
    let miny := rest.foldl (fun m c => if c.y < m then c.y else m) c0.y
    let maxx := rest.foldl (fun m c => if c.x > m then c.x else m) c0.x
    let maxy := rest.foldl (fun m c => if c.y > m then c.y else m) c0.y
    poly_sort
      { c := p.c.map (fun c => { x := c.x - minx, y := c.y - miny })
        w := (maxx - minx) + 1
        h := (maxy - miny) + 1 }

/-- Equality of polyominoes as the code tests it: same `n` and the same cells, index by
index (the bounding box is not compared). -/
def poly_eq (a b : Poly) : Bool :=
  if a.n ≠ b.n then false
  else (List.zip a.c b.c).all (fun ab => !(ab.1.x ≠ ab.2.x || ab.1.y ≠ ab.2.y))

/-- Rotation by a quarter turn, `(x, y) ↦ (y, -x)`, then `poly_norm`. -/
def poly_rot90 (src : Poly) : Poly :=
  poly_norm { c := src.c.map (fun c => { x := c.y, y := -c.x }), w := 0, h := 0 }

/-- Mirror image, `(x, y) ↦ (-x, y)`, then `poly_norm`. -/
def poly_flipx (src : Poly) : Poly :=
  poly_norm { c := src.c.map (fun c => { x := -c.x, y := c.y }), w := 0, h := 0 }

/-- One round of the deduplicating loop of `shape_make_oris`: the candidate is appended
unless it is `poly_eq` to a member already stored or the array is full. -/
def ori_push (ori : List Poly) (cand : Poly) : List Poly :=
  if ori.any (fun o => poly_eq cand o) then ori
  else if ori.length < MAX_ORI then ori ++ [cand]
  else ori

/-- The orientation list of a shape, rebuilt from its base polyomino. -/
def shape_make_oris (s : Shape) : Shape :=
  let p := poly_norm s.base
  let r0 := p
  let r1 := poly_rot90 r0
  let r2 := poly_rot90 r1
  let r3 := poly_rot90 r2
  let f0 := poly_flipx r0
  let f1 := poly_rot90 f0
  let f2 := poly_rot90 f1
  let f3 := poly_rot90 f2
  { s with ori := [r0, r1, r2, r3, f0, f1, f2, f3].foldl ori_push [] }

/-- The record `commit_shape` stores at `sh[id]` for the parsed polyomino `cur`
(the assignments of `commit_shape` after its two range checks). -/
def commit_shape_record (id : Int) (cur : Poly) : Shape :=
  shape_make_oris { id := id, base := poly_norm cur, ori := [], area := (poly_norm cur).n }

/-! ## Bitmasks -/

def nwords_for_board (W H : Int) : Int :=
  let bits := int_wrap (W * H)
  Int.tdiv (int_wrap (bits + 63)) 64

def bitset_zero (nwords : Nat) : Mask := List.replicate nwords 0

/-- The statement `b[idx >> 6] |= 1ULL << (idx & 63)`. -/
def bitset_set (b : Mask) (idx : Nat) : Mask :=
  b.set (idx >>> 6) (b.getD (idx >>> 6) 0 ||| (1 <<< (idx &&& 63)))

def mask_overlaps (occ m : Mask) (nwords : Nat) : Bool :=
  (List.range nwords).any (fun i => (occ.getD i 0 &&& m.getD i 0) ≠ 0)

def mask_apply (occ m : Mask) (nwords : Nat) : Mask :=
  (List.range nwords).foldl (fun o i => o.set i (o.getD i 0 ||| m.getD i 0)) occ

def mask_unapply (occ m : Mask) (nwords : Nat) : Mask :=
  (List.range nwords).foldl (fun o i => o.set i (o.getD i 0 ^^^ m.getD i 0)) occ

/-! ## Placement enumeration -/

/-- The mask of orientation `p` placed with its bounding box corner at `(x0, y0)`:
the inner loop of `build_placements_for_shape`. -/
def placement_mask (p : Poly) (W : Int) (x0 y0 : Int) (nwords : Nat) : Mask :=
  p.c.foldl
    (fun tmp c =>
      let x := x0 + c.x
      let y := y0 + c.y
      let idx := y * W + x
      bitset_set tmp idx.toNat)
    (bitset_zero nwords)

/-- All translations of one orientation, `y0` outermost. -/
def placements_of_ori (p : Poly) (W H : Int) (nwords : Nat) : List Mask :=
  if p.w > W ∨ p.h > H then []
  else
    (List.range (H - p.h + 1).toNat).flatMap (fun (y0 : Nat) =>
      (List.range (W - p.w + 1).toNat).map (fun (x0 : Nat) =>
        placement_mask p W (x0 : Int) (y0 : Int) nwords))

/-- Appends to `out` every placement of every orientation of `s` that fits the board. -/
def build_placements_for_shape (out : List Mask) (s : Shape) (W H : Int) (nwords : Nat) :
    List Mask :=
  out ++ s.ori.flatMap (fun p => placements_of_ori p W H nwords)

/-! ## Parity prune -/

/-- Black and white cell counts of a polyomino, cell `(0, 0)` being black. -/
def poly_bw_counts (p : Poly) : Int × Int :=
  p.c.foldl
    (fun bw c =>
      let parity := (c.x + c.y) % 2
      if parity = 0 then (bw.1 + 1, bw.2) else (bw.1, bw.2 + 1))
    (0, 0)

/-- The value `d = |b0 - w0|` both loops of `parity_prune_possible` compute from
`sh[si].ori[0]`. -/
def shape_imbalance (s : Shape) : Int :=
  let bw := poly_bw_counts (s.ori.getD 0 { c := [], w := 0, h := 0 })
  let d := bw.1 - bw.2
  if d < 0 then -d else d

/-- First loop of `parity_prune_possible`: the clamped sum of the imbalances. -/
def parity_sumD (need : List Int) (area_sum : Int) : List Shape → Nat → Int → Int
  | [], _, sumD => sumD
  | s :: rest, si, sumD =>
    let cnt := need.getD si 0
    if cnt ≤ 0 then parity_sumD need area_sum rest (si + 1) sumD
    else
      let d := shape_imbalance s
      let sumD1 := sumD + d * cnt
      parity_sumD need area_sum rest (si + 1) (if sumD1 > area_sum then area_sum else sumD1)

/-- The word `v` that is or-ed into `dp[i]` by the shifting loop. -/
def dp_shift_word (dp : List Nat) (i wshift bshift : Nat) : Nat :=
  if wshift ≤ i then
    let src := i - wshift
    let v := (dp.getD src 0 <<< bshift) % 2 ^ 64
    if bshift ≠ 0 ∧ 1 ≤ src then v ||| (dp.getD (src - 1) 0 >>> (64 - bshift)) else v
  else 0

/-- The in-place loop `for (i = nwords - 1; i >= 0; i--) dp[i] |= v`; the first argument
counts the words still to be processed, so the word updated next is the one below it. -/
def dp_shift_pass (wshift bshift : Nat) : Nat → List Nat → List Nat
  | 0, dp => dp
  | i + 1, dp =>
    dp_shift_pass wshift bshift i (dp.set i (dp.getD i 0 ||| dp_shift_word dp i wshift bshift))

/-- One repetition of the subset-sum update: shift by `d`, or in, clear the spare bits. -/
def dp_rep (d nwords nbits : Nat) (dp : List Nat) : List Nat :=
  let shift := d
  let wshift := shift / 64
  let bshift := shift % 64
  let dp1 := dp_shift_pass wshift bshift nwords dp
  let extra := (nwords * 64 : Int) - nbits
  if extra > 0 then
    dp1.set (nwords - 1) (dp1.getD (nwords - 1) 0 &&& ((2 ^ 64 - 1) >>> extra.toNat))
  else dp1

/-- The loop `for (rep = 0; rep < cnt; rep++)`. -/
def dp_reps (d nwords nbits : Nat) : Nat → List Nat → List Nat
  | 0, dp => dp
  | rep + 1, dp => dp_reps d nwords nbits rep (dp_rep d nwords nbits dp)

/-- Second loop of `parity_prune_possible`: the subset-sum bitset. -/
def parity_dp (need : List Int) (nwords nbits : Nat) : List Shape → Nat → List Nat → List Nat
  | [], _, dp => dp
  | s :: rest, si, dp =>
    let cnt := need.getD si 0
    if cnt ≤ 0 then parity_dp need nwords nbits rest (si + 1) dp
    else
      let d := shape_imbalance s
      if d = 0 then parity_dp need nwords nbits rest (si + 1) dp
      else parity_dp need nwords nbits rest (si + 1) (dp_reps d.toNat nwords nbits cnt.toNat dp)

/-- The test the final loop applies to one value of `t`. -/
def parity_accepts (dp : List Nat) (sumD area_sum Bcap Wcap : Int) (t : Nat) : Bool :=
  if (dp.getD (t / 64) 0 &&& (1 <<< (t % 64))) = 0 then false
  else
    let signed_imb := sumD - 2 * (t : Int)
    if (area_sum + signed_imb) % 2 ≠ 0 then false
    else
      let black_used := Int.tdiv (area_sum + signed_imb) 2
      let white_used := area_sum - black_used
      if black_used < 0 ∨ white_used < 0 then false
      else decide (black_used ≤ Bcap ∧ white_used ≤ Wcap)

/-- Checkerboard feasibility of a demand (`sh_n` and `need_n` are the lengths of the two
lists). -/
def parity_prune_possible (sh : List Shape) (W H : Int) (need : List Int) (area_sum : Int) :
    Bool :=
  let board_area := W * H
  let Bcap := Int.tdiv (board_area + 1) 2
  let Wcap := Int.tdiv board_area 2
  let sumD := parity_sumD need area_sum sh 0 0
  let nbits := sumD + 1
  let nwords := Int.tdiv (nbits + 63) 64
  let dp0 := (List.replicate nwords.toNat 0).set 0 1
  let dp := parity_dp need nwords.toNat nbits.toNat sh 0 dp0
  (List.range (sumD + 1).toNat).any (fun t => parity_accepts dp sumD area_sum Bcap Wcap t)

/-! ## Search -/

/-- The search context. -/
structure Ctx where
  W : Int
  H : Int
  nwords : Nat
  sh : List Shape
  sh_n : Nat
  place : List (List Mask)
  need : List Int
  last_idx : List Int
  area : List Int
  occ : Mask
  remaining_area : Int
  free_cells : Int
deriving DecidableEq, Repr

/-- The first index a type may still use: `last_idx + 1`, clamped at `0`. -/
def start_index (last : Int) : Nat :=
  let start := last + 1
  if start < 0 then 0 else start.toNat

/-- The counting loop of `choose_next_type` over the placements from `start` on, with
its early exit once `best_count` is reached. -/
def count_compatible (occ : Mask) (nwords : Nat) (best_count : Int) : List Mask → Int → Int
  | [], cnt => cnt
  | m :: ms, cnt =>
    if !mask_overlaps occ m nwords then
      if cnt + 1 ≥ best_count then cnt + 1
      else count_compatible occ nwords best_count ms (cnt + 1)
    else count_compatible occ nwords best_count ms cnt

/-- The loop over the types `t, t + 1, ...`; the first argument is the number of types
left to look at. -/
def choose_next_type_loop (c : Ctx) : Nat → Nat → Int → Int → Int
  | 0, _, best, _ => best
  | k + 1, t, best, best_count =>
    if c.need.getD t 0 ≤ 0 then choose_next_type_loop c k (t + 1) best best_count
    else
      let pl := c.place.getD t []
      let start := start_index (c.last_idx.getD t 0)
      let cnt := count_compatible c.occ c.nwords best_count (pl.drop start) 0
      if cnt = 0 then (t : Int)
      else if cnt < best_count then
        if cnt ≤ 1 then (t : Int)
        else choose_next_type_loop c k (t + 1) (t : Int) cnt
      else choose_next_type_loop c k (t + 1) best best_count

def choose_next_type (c : Ctx) : Int :=
  choose_next_type_loop c c.sh_n 0 (-1) INT_MAX

/-- The placement loop of `dfs` for type `t`, over the masks at indices `i, i + 1, ...`;
`call` is the recursive call.  The result is `none` when the recursion budget is used up,
otherwise the returned flag with the context as the code leaves it. -/
def dfs_loop (call : Ctx → Option (Bool × Ctx)) (t : Nat) :
    List Mask → Nat → Ctx → Option (Bool × Ctx)
  | [], _, c => some (false, c)
  | m :: ms, i, c =>
    if mask_overlaps c.occ m c.nwords then dfs_loop call t ms (i + 1) c
    else
      let c1 : Ctx :=
        { c with
          last_idx := c.last_idx.set t (i : Int)
          occ := mask_apply c.occ m c.nwords
          free_cells := c.free_cells - c.area.getD t 0 }
      match call c1 with
      | none => none
      | some (true, c2) => some (true, c2)
      | some (false, c2) =>
        dfs_loop call t ms (i + 1)
          { c2 with
            free_cells := c2.free_cells + c2.area.getD t 0
            occ := mask_unapply c2.occ m c2.nwords }

/-- The recursive search; the first argument bounds the recursion depth. -/
def dfs : Nat → Ctx → Option (Bool × Ctx)
  | 0, _ => none
  | fuel + 1, c =>
    if c.remaining_area = 0 then some (true, c)
    else if c.remaining_area > c.free_cells then some (false, c)
    else
      let t := choose_next_type c
      if t < 0 then some (false, c)
      else
        let tn := t.toNat
        let pl := c.place.getD tn []
        if pl.length = 0 then some (false, c)
        else
          let saved_last := c.last_idx.getD tn 0
          let start := start_index saved_last
          let c1 : Ctx :=
            { c with
              need := c.need.set tn (c.need.getD tn 0 - 1)
              remaining_area := c.remaining_area - c.area.getD tn 0 }
          match dfs_loop (dfs fuel) tn (pl.drop start) start c1 with
          | none => none
          | some (true, c2) => some (true, c2)
          | some (false, c2) =>
            some (false,
              { c2 with
                remaining_area := c2.remaining_area + c2.area.getD tn 0
                need := c2.need.set tn (c2.need.getD tn 0 + 1)
                last_idx := c2.last_idx.set tn saved_last })

/-! ## Region driver -/

/-- The demand of shape `i`: `(i < need_n) ? need_in[i] : 0`. -/
def need_at (need_in : List Int) (i : Nat) : Int := need_in.getD i 0

/-- First loop of `solve_region_fast`: `none` when it returns `false` early, otherwise
the accumulated `area_sum`, an `int` (`area_sum += sh[i].area * c.need[i]`). -/
def solve_area_loop (need_in : List Int) : List Shape → Nat → Int → Option Int
  | [], _, area_sum => some area_sum
  | s :: rest, i, area_sum =>
    if need_at need_in i < 0 then none
    else if need_at need_in i > 0 then
      if s.area ≤ 0 then none
      else solve_area_loop need_in rest (i + 1)
        (int_wrap (area_sum + int_wrap (s.area * need_at need_in i)))
    else solve_area_loop need_in rest (i + 1) area_sum

/-- Second loop of `solve_region_fast`: `none` when it returns `false` early, otherwise
the placement lists, empty for the shapes that are not demanded.  `build` stands for
`build_placements_for_shape`. -/
def solve_place_loop (build : List Mask → Shape → Int → Int → Nat → List Mask)
    (need_in : List Int) (W H : Int) (nwords : Nat) :
    List Shape → Nat → Option (List (List Mask))
  | [], _ => some []
  | s :: rest, i =>
    if need_at need_in i ≤ 0 then
      (solve_place_loop build need_in W H nwords rest (i + 1)).map (fun ps => [] :: ps)
    else
      let bbox_ok := s.ori.any (fun p => decide (p.w ≤ W ∧ p.h ≤ H))
      if !bbox_ok then none
      else
        let pl := build [] s W H nwords
        if pl.length = 0 then none
        else (solve_place_loop build need_in W H nwords rest (i + 1)).map (fun ps => pl :: ps)

/-- The context `solve_region_fast` hands to `dfs`. -/
def initial_ctx (sh : List Shape) (W H : Int) (need_in : List Int) (place : List (List Mask))
    (area_sum : Int) : Ctx :=
  { W := W
    H := H
    nwords := (nwords_for_board W H).toNat
    sh := sh
    sh_n := sh.length
    place := place
    need := (List.range sh.length).map (fun i => need_at need_in i)
    last_idx := List.replicate sh.length (-1)
    area := sh.map (fun s => s.area)
    occ := bitset_zero (nwords_for_board W H).toNat
    remaining_area := area_sum
    free_cells := int_wrap (W * H) }

/-- The body of `solve_region_fast` with its two callees as parameters: `build` stands
for `build_placements_for_shape` and `search` for the call `dfs(&c)`.  A result that is
the same for every `build` or `search` is one reached without calling them. -/
def solve_region_with (build : List Mask → Shape → Int → Int → Nat → List Mask)
    (search : Ctx → Option (Bool × Ctx))
    (sh : List Shape) (W H : Int) (need_in : List Int) : Option Bool :=
  if nwords_for_board W H > 64 then some false
  else
    match solve_area_loop need_in sh 0 0 with
    | none => some false
    | some area_sum =>
      if area_sum = 0 then some true
      else if area_sum > int_wrap (W * H) then some false
      else if !parity_prune_possible sh W H need_in area_sum then some false
      else
        match solve_place_loop build need_in W H (nwords_for_board W H).toNat sh 0 with
        | none => some false
        | some place => (search (initial_ctx sh W H need_in place area_sum)).map (fun r => r.1)

/-- The recursion budget given to `dfs`: one more than the number of demanded pieces,
which bounds the recursion depth. -/
def dfs_budget (c : Ctx) : Nat := (c.need.map Int.toNat).sum + 1

/-- The call `dfs(&c)` made by `solve_region_fast`. -/
def dfs_call (c : Ctx) : Option (Bool × Ctx) := dfs (dfs_budget c) c

/-- Decides one region; `none` would mean that the recursion budget was too small. -/
def solve_region_fast (sh : List Shape) (W H : Int) (need_in : List Int) : Option Bool :=
  solve_region_with build_placements_for_shape dfs_call sh W H need_in

/-! ## Specification vocabulary -/

/-- The demanded area `Σ counts[i] * area[i]` over the shapes from index `i` on. -/
def demand_area_from (need_in : List Int) : List Shape → Nat → Int
  | [], _ => 0
  | s :: rest, i => need_at need_in i * s.area + demand_area_from need_in rest (i + 1)

/-- The demanded area `Σ counts[i] * area[i]` of a region. -/
def demand_area (sh : List Shape) (need_in : List Int) : Int := demand_area_from need_in sh 0

/-- The demand check of a region over the integers: `none` when a count is negative or a
demanded shape has no cell, otherwise the demanded area added to the start value. -/
def demand_area_checked (need_in : List Int) : List Shape → Nat → Int → Option Int
  | [], _, area_sum => some area_sum
  | s :: rest, i, area_sum =>
    if need_at need_in i < 0 then none
    else if need_at need_in i > 0 then
      if s.area ≤ 0 then none
      else demand_area_checked need_in rest (i + 1) (area_sum + s.area * need_at need_in i)
    else demand_area_checked need_in rest (i + 1) area_sum

/-- The number of 64-bit words that hold the `W * H` bits of a board, `⌈W * H / 64⌉`. -/
def board_words (W H : Int) : Int := Int.tdiv (W * H + 63) 64

/-- The placement list of shape `i` on the board: what `build_placements_for_shape`
produces with masks of as many words as the board needs. -/
def placement_list (sh : List Shape) (W H : Int) (i : Nat) : List Mask :=
  match sh.get? i with
  | some s => build_placements_for_shape [] s W H (board_words W H).toNat
  | none => []

/-- The mask of the pick `(i, j)`: placement `j` of shape `i`. -/
def pick_mask (sh : List Shape) (W H : Int) (a : Nat × Nat) : Mask :=
  (placement_list sh W H a.1).getD a.2 []

/-- Bit `k` of a packed mask. -/
def mask_bit (m : Mask) (k : Nat) : Bool := (m.getD (k / 64) 0).testBit (k % 64)

/-- A selection of placements for a demand: `sel` lists picks `(i, j)`, each naming
placement `j` of shape `i`; shape `i` is picked `counts[i]` times and the masks of two
picks never overlap. -/
structure IsSelection (sh : List Shape) (W H : Int) (need_in : List Int)
    (sel : List (Nat × Nat)) : Prop where
  in_list : ∀ a ∈ sel, a.1 < sh.length ∧ a.2 < (placement_list sh W H a.1).length
  count : ∀ i, i < sh.length →
    (((sel.filter (fun a => a.1 = i)).length : Nat) : Int) = need_at need_in i
  disjoint : sel.Pairwise (fun a b =>
    mask_overlaps (pick_mask sh W H a) (pick_mask sh W H b) (board_words W H).toNat = false)

/-- A shape as the reader stores it: the record `commit_shape` builds from a parsed
polyomino whose cells are pairwise distinct. -/
def Shape.Committed (s : Shape) : Prop :=
  ∃ (id : Int) (cur : Poly), cur.c.Nodup ∧ s = commit_shape_record id cur

/-- The reference search of the specification, "exhaustive DFS without the prune": the
steps of `solve_region_fast` with the call of `parity_prune_possible` left out, the word
count, the demanded area and the board area being taken over the integers. -/
def solve_region_noprune (sh : List Shape) (W H : Int) (need_in : List Int) : Option Bool :=
  if board_words W H > 64 then some false
  else
    match demand_area_checked need_in sh 0 0 with
    | none => some false
    | some area_sum =>
      if area_sum = 0 then some true
      else if area_sum > W * H then some false
      else
        match solve_place_loop build_placements_for_shape need_in W H
            (board_words W H).toNat sh 0 with
        | none => some false
        | some place => (dfs_call (initial_ctx sh W H need_in place area_sum)).map (fun r => r.1)

/-- The loop of `main` over the parsed regions `(W, H, counts)`: the number printed. -/
def main_ok_count (sh : List Shape) : List (Int × Int × List Int) → Int
  | [] => 0
  | (W, H, counts) :: rest =>
    if solve_region_fast sh W H counts = some true then main_ok_count sh rest + 1
    else main_ok_count sh rest

/-! ## Scenario inputs -/

/-- The glyph `#` as the reader parses it. -/
def glyph_monomino : Poly := { c := [⟨0, 0⟩], w := 1, h := 1 }

/-- The glyph `##` as the reader parses it. -/
def glyph_domino : Poly := { c := [⟨0, 0⟩, ⟨1, 0⟩], w := 2, h := 1 }

/-- The glyph `#.` / `##` as the reader parses it. -/
def glyph_l_tromino : Poly := { c := [⟨0, 0⟩, ⟨0, 1⟩, ⟨1, 1⟩], w := 2, h := 2 }

/-- The glyph `###` / `.#.` as the reader parses it. -/
def glyph_t_tetromino : Poly := { c := [⟨0, 0⟩, ⟨1, 0⟩, ⟨2, 0⟩, ⟨1, 1⟩], w := 3, h := 2 }

/-- The glyph `##` / `##` as the reader parses it. -/
def glyph_square : Poly := { c := [⟨0, 0⟩, ⟨1, 0⟩, ⟨0, 1⟩, ⟨1, 1⟩], w := 2, h := 2 }

/-- The glyph `.` as the reader parses it: a shape header followed by a row without `#`. -/
def glyph_empty : Poly := { c := [], w := 1, h := 1 }

/-! ## Proof vocabulary: the eight symmetries of the square -/

/-- The cell map of `poly_rot90`. -/
def rot_cell (c : Cell) : Cell := { x := c.y, y := -c.x }

/-- The cell map of `poly_flipx`. -/
def flip_cell (c : Cell) : Cell := { x := -c.x, y := c.y }

/-- `poly_norm` applied to a bare cell list. -/
def norm_cells (l : List Cell) : Poly := poly_norm { c := l, w := 0, h := 0 }

/-- The eight candidates of `shape_make_oris`, by the names the code gives them: `rk` is
`k` quarter turns, `fk` is the mirror image followed by `k` quarter turns. -/
inductive D4 where
  | r0 | r1 | r2 | r3 | f0 | f1 | f2 | f3
deriving DecidableEq, Fintype, Repr

/-- The cell map of a symmetry. -/
def D4.act : D4 → Cell → Cell
  | .r0, c => c
  | .r1, c => rot_cell c
  | .r2, c => rot_cell (rot_cell c)
  | .r3, c => rot_cell (rot_cell (rot_cell c))
  | .f0, c => flip_cell c
  | .f1, c => rot_cell (flip_cell c)
  | .f2, c => rot_cell (rot_cell (flip_cell c))
  | .f3, c => rot_cell (rot_cell (rot_cell (flip_cell c)))

/-- The symmetry `g` followed by a quarter turn. -/
def D4.rotL : D4 → D4
  | .r0 => .r1 | .r1 => .r2 | .r2 => .r3 | .r3 => .r0
  | .f0 => .f1 | .f1 => .f2 | .f2 => .f3 | .f3 => .f0

/-- The symmetry `g` followed by the mirror image. -/
def D4.flipL : D4 → D4
  | .r0 => .f0 | .r1 => .f3 | .r2 => .f2 | .r3 => .f1
  | .f0 => .r0 | .f1 => .r3 | .f2 => .r2 | .f3 => .r1

/-- Composition of symmetries: `D4.mul g h` is `h` followed by `g`. -/
def D4.mul (g h : D4) : D4 :=
  match g with
  | .r0 => h
  | .r1 => h.rotL
  | .r2 => h.rotL.rotL
  | .r3 => h.rotL.rotL.rotL
  | .f0 => h.flipL
  | .f1 => h.flipL.rotL
  | .f2 => h.flipL.rotL.rotL
  | .f3 => h.flipL.rotL.rotL.rotL

/-- The inverse symmetry. -/
def D4.inv : D4 → D4
  | .r0 => .r0 | .r1 => .r3 | .r2 => .r2 | .r3 => .r1
  | .f0 => .f0 | .f1 => .f1 | .f2 => .f2 | .f3 => .f3

/-- The candidate of `shape_make_oris` for the symmetry `g` of the cell list `b`. -/
def ori_cand (b : List Cell) (g : D4) : Poly := norm_cells (b.map g.act)

/-! ## Proof vocabulary: bounds and search states -/

/-- The value `m` is the least value of `f` over the list. -/
def IsMinOf (f : Cell → Int) (l : List Cell) (m : Int) : Prop :=
  (∀ c ∈ l, m ≤ f c) ∧ ∃ c ∈ l, m = f c

/-- The value `m` is the greatest value of `f` over the list. -/
def IsMaxOf (f : Cell → Int) (l : List Cell) (m : Int) : Prop :=
  (∀ c ∈ l, f c ≤ m) ∧ ∃ c ∈ l, m = f c

/-- The contexts `c` and `c'` agree except possibly in `last_idx[t]`. -/
def SameUpToLast (t : Nat) (c c' : Ctx) : Prop :=
  ∃ l : List Int, c' = { c with last_idx := l } ∧ ∀ x, l.set t x = c.last_idx.set t x

/-- The number of pieces still to be placed. -/
def total_need (c : Ctx) : Nat := (c.need.map Int.toNat).sum

/-- The mask of the pick `(t, i)` in a search context: placement `i` of type `t`. -/
def Ctx.mask (c : Ctx) (a : Nat × Nat) : Mask := (c.place.getD a.1 []).getD a.2 []

/-- The context after `dfs` has placed the pick `(t, i)`: one piece less is needed, the
mask is applied, and `last_idx[t]` is `i`. -/
def place_piece (c : Ctx) (a : Nat × Nat) : Ctx :=
  { c with
    need := c.need.set a.1 (c.need.getD a.1 0 - 1)
    remaining_area := c.remaining_area - c.area.getD a.1 0
    last_idx := c.last_idx.set a.1 (a.2 : Int)
    occ := mask_apply c.occ (c.mask a) c.nwords
    free_cells := c.free_cells - c.area.getD a.1 0 }

/-- The pick `(t, i)` is one `dfs` may make in the context: type `t` is still needed,
`i` is a placement index above `last_idx[t]`, and the mask is free. -/
def CanPlace (c : Ctx) (a : Nat × Nat) : Prop :=
  0 < c.need.getD a.1 0 ∧ a.1 < c.sh_n ∧ a.2 < (c.place.getD a.1 []).length ∧
    c.last_idx.getD a.1 0 < (a.2 : Int) ∧ mask_overlaps c.occ (c.mask a) c.nwords = false

/-- The context `c'` is reached from `c` by placing the picks of the list in order. -/
inductive Run : Ctx → List (Nat × Nat) → Ctx → Prop
  | nil (c : Ctx) : Run c [] c
  | cons (c : Ctx) (a : Nat × Nat) (picks : List (Nat × Nat)) (c' : Ctx) :
      CanPlace c a → Run (place_piece c a) picks c' → Run c (a :: picks) c'

/-- The picks of `sel` complete the search from the context `c`: they are distinct, use
indices above `last_idx`, are free and pairwise disjoint, and supply exactly the pieces
still needed. -/
structure Completion (c : Ctx) (sel : List (Nat × Nat)) : Prop where
  nodup : sel.Nodup
  valid : ∀ a ∈ sel, a.1 < c.sh_n ∧ a.2 < (c.place.getD a.1 []).length ∧
    c.last_idx.getD a.1 0 < (a.2 : Int) ∧ mask_overlaps c.occ (c.mask a) c.nwords = false
  disjoint : ∀ a ∈ sel, ∀ b ∈ sel, a ≠ b →
    mask_overlaps (c.mask a) (c.mask b) c.nwords = false
  count : ∀ t, t < c.sh_n →
    (((sel.filter (fun a => a.1 = t)).length : Nat) : Int) = c.need.getD t 0
  remaining : c.remaining_area = (sel.map (fun a => c.area.getD a.1 0)).sum
  fits : c.remaining_area ≤ c.free_cells
  last_len : c.last_idx.length = c.sh_n
  occ_len : c.nwords ≤ c.occ.length
  place_small : ∀ r, ((c.place.getD r []).length : Int) < INT_MAX

/-! ## Proof vocabulary: cells, bits and colours -/

/-- The number of black cells of a cell list, cell `(0, 0)` being black. -/
def black_count (l : List Cell) : Nat := l.countP (fun c => decide ((c.x + c.y) % 2 = 0))

/-- The bit index of the board cell covered by cell `c` of an orientation placed at
`(x0, y0)`: the value `idx` of `build_placements_for_shape`. -/
def cell_idx (W x0 y0 : Int) (c : Cell) : Nat := ((y0 + c.y) * W + (x0 + c.x)).toNat

/-- The set of bits of a mask of `n` words. -/
def mask_bits (m : Mask) (n : Nat) : Finset Nat :=
  (Finset.range (64 * n)).filter (fun k => mask_bit m k = true)

/-- Bit `k` of a board of width `W` is a black cell: `x + y` is even for `x = k % W`,
`y = k / W`. -/
def bit_black (W : Nat) (k : Nat) : Prop := (k % W + k / W) % 2 = 0

instance (W k : Nat) : Decidable (bit_black W k) := inferInstanceAs (Decidable (_ = _))

/-- The cell `c` of an orientation placed at `(x0, y0)` lies on the `W x H` board. -/
def InBoard (W H x0 y0 : Int) (c : Cell) : Prop :=
  0 ≤ x0 + c.x ∧ x0 + c.x < W ∧ 0 ≤ y0 + c.y ∧ y0 + c.y < H

/-- Every word of the array is a `uint64_t` value. -/
def WordsOK (dp : List Nat) : Prop := ∀ i, dp.getD i 0 < 2 ^ 64

/-! ## Proof vocabulary: sums over the shape array -/

/-- The sum of `f i sh[i]` over the shapes of the list, the first having index `si`. -/
def idx_sum (f : Nat → Shape → Int) : List Shape → Nat → Int
  | [], _ => 0
  | s :: rest, si => f si s + idx_sum f rest (si + 1)

/-- The subset sum reached when `kf i` of the pieces of shape `i` contribute their
imbalance. -/
def reach_target (kf : Nat → Nat) : List Shape → Nat → Nat
  | [], _ => 0
  | s :: rest, si => kf si * (shape_imbalance s).toNat + reach_target kf rest (si + 1)

/-- A placeholder for reads of the shape array outside its length. -/
def Shape.none : Shape := { id := 0, base := { c := [], w := 0, h := 0 }, ori := [], area := 0 }

/-! ## Specification vocabulary: bit counts and observed search states -/

/-- The number of set bits of a mask, `popcount` in the specification. -/
def popcount (m : Mask) : Nat := (mask_bits m m.length).card

/-- The number of placements `build_placements_for_shape` appends for one orientation:
`(W - p.w + 1) * (H - p.h + 1)` when the bounding box fits the board, none otherwise. -/
def ori_placement_count (p : Poly) (W H : Int) : Nat :=
  if p.w ≤ W ∧ p.h ≤ H then ((W - p.w + 1) * (H - p.h + 1)).toNat else 0

/-- The points of `dfs` at which the search state is observed: the entry of a call, the
head of the placement loop for type `t` (before each test `i < pl->n`), and a `return`. -/
inductive DfsPoint where
  | entry
  | loop (t : Nat)
  | ret
deriving DecidableEq, Repr

/-- The placement loop of `dfs` as in `dfs_loop`, with the log of the observed states. -/
def dfs_loop_log (call : Ctx → Option (Bool × Ctx × List (DfsPoint × Ctx))) (t : Nat) :
    List Mask → Nat → Ctx → Option (Bool × Ctx × List (DfsPoint × Ctx))
  | [], _, c => some (false, c, [(DfsPoint.loop t, c)])
  | m :: ms, i, c =>
    if mask_overlaps c.occ m c.nwords then
      (dfs_loop_log call t ms (i + 1) c).map
        (fun r => (r.1, r.2.1, (DfsPoint.loop t, c) :: r.2.2))
    else
      let c1 : Ctx :=
        { c with
          last_idx := c.last_idx.set t (i : Int)
          occ := mask_apply c.occ m c.nwords
          free_cells := c.free_cells - c.area.getD t 0 }
      match call c1 with
      | none => none
      | some (true, c2, log) => some (true, c2, (DfsPoint.loop t, c) :: log)
      | some (false, c2, log) =>
        (dfs_loop_log call t ms (i + 1)
          { c2 with
            free_cells := c2.free_cells + c2.area.getD t 0
            occ := mask_unapply c2.occ m c2.nwords }).map
          (fun r => (r.1, r.2.1, (DfsPoint.loop t, c) :: (log ++ r.2.2)))

/-- The recursive search as in `dfs`, with the log of the observed states in the order in
which the run passes them. -/
def dfs_log : Nat → Ctx → Option (Bool × Ctx × List (DfsPoint × Ctx))
  | 0, _ => none
  | fuel + 1, c =>
    if c.remaining_area = 0 then some (true, c, [(DfsPoint.entry, c), (DfsPoint.ret, c)])
    else if c.remaining_area > c.free_cells then
      some (false, c, [(DfsPoint.entry, c), (DfsPoint.ret, c)])
    else
      let t := choose_next_type c
      if t < 0 then some (false, c, [(DfsPoint.entry, c), (DfsPoint.ret, c)])
      else
        let tn := t.toNat
        let pl := c.place.getD tn []
        if pl.length = 0 then some (false, c, [(DfsPoint.entry, c), (DfsPoint.ret, c)])
        else
          let saved_last := c.last_idx.getD tn 0
          let start := start_index saved_last
          let c1 : Ctx :=
            { c with
              need := c.need.set tn (c.need.getD tn 0 - 1)
              remaining_area := c.remaining_area - c.area.getD tn 0 }
          match dfs_loop_log (dfs_log fuel) tn (pl.drop start) start c1 with
          | none => none
          | some (true, c2, log) =>
            some (true, c2, (DfsPoint.entry, c) :: (log ++ [(DfsPoint.ret, c2)]))
          | some (false, c2, log) =>
            let c3 : Ctx :=
              { c2 with
                remaining_area := c2.remaining_area + c2.area.getD tn 0
                need := c2.need.set tn (c2.need.getD tn 0 + 1)
                last_idx := c2.last_idx.set tn saved_last }
            some (false, c3, (DfsPoint.entry, c) :: (log ++ [(DfsPoint.ret, c3)]))

/-- The search state `x` of the log satisfies `popcount(occ) + remaining_area = a`. -/
def AreaBalance (a : Int) (c : Ctx) : Prop := (popcount c.occ : Int) + c.remaining_area = a

/-- Every state of the log balances: at an entry and at a return of `dfs` to `a`, at the
head of the placement loop for type `t` to `a - area[t]`. -/
def LogBalanced (a : Int) (log : List (DfsPoint × Ctx)) : Prop :=
  ∀ x ∈ log, match x.1 with
    | DfsPoint.loop t => AreaBalance (a - x.2.area.getD t 0) x.2
    | _ => AreaBalance a x.2

/-- The occupancy has `nwords` words, and every placement mask of the context has `nwords`
words and as many bits as its type has cells. -/
def SearchWF (c : Ctx) : Prop :=
  c.occ.length = c.nwords ∧
    ∀ t, ∀ m ∈ c.place.getD t [], m.length = c.nwords ∧ (popcount m : Int) = c.area.getD t 0

end Day12

/-!
Day 08 minimum-spanning-tree driver: a shallow embedding of `day08.c`

The definitions follow `src/day08.c` function by function and keep its names.  The
conventions are those of the Day 12 part; in addition

* the file-scope arrays `parent_` and `size_` are the two lists of a `UF` value, passed
  and returned explicitly; `uf_init(n)` makes them lists of length `n`;
* the number of points `n` and the point indices stored in `parent_` and in the edges are
  `Nat`s (the code keeps them non-negative), the sizes, `components`, `last_a` and
  `last_b` are `Int`s, and `u64` values are `Nat`s reduced modulo `2 ^ 64`;
* each `while` loop of `uf_find` follows parent links; it is given `n + 1` rounds, and the
  result is `none` when that is not enough.  A walk of more than `n` links through an
  array of `n` entries passes some entry twice, so `none` stands for a loop that never
  ends.
-/

namespace Day08

/-! ## Types -/

def MAX_PT : Nat := 4096

structure Pt where
  x : Int
  y : Int
  z : Int
deriving DecidableEq, Repr

structure Edge where
  d2 : Nat
  a : Nat
  b : Nat
deriving DecidableEq, Repr

/-- The arrays `parent_` and `size_`, entries `0 .. n-1`. -/
structure UF where
  parent : List Nat
  size : List Int
deriving DecidableEq, Repr

/-! ## Union-find -/

def uf_init (n : Nat) : UF :=
  { parent := List.range n, size := List.replicate n 1 }

/-- The first loop of `uf_find`: `while (parent_[r] != r) r = parent_[r];`.  The first
argument is the number of rounds left. -/
def uf_find_root (parent : List Nat) : Nat → Nat → Option Nat
  | 0, _ => none
  | fuel + 1, r =>
    if parent.getD r 0 ≠ r then uf_find_root parent fuel (parent.getD r 0) else some r

/-- The second loop of `uf_find`, which points every entry on the walk from `x` to the
root `r`. -/
def uf_compress (r : Nat) : Nat → List Nat → Nat → Option (List Nat)
  | 0, _, _ => none
  | fuel + 1, parent, x =>
    if parent.getD x 0 ≠ x then uf_compress r fuel (parent.set x r) (parent.getD x 0)
    else some parent

/-- The root of `x` and the arrays after path compression. -/
def uf_find (u : UF) (x : Nat) : Option (Nat × UF) :=
  match uf_find_root u.parent (u.parent.length + 1) x with
  | none => none
  | some r =>
    match uf_compress r (u.parent.length + 1) u.parent x with
    | none => none
    | some parent => some (r, { u with parent := parent })

def uf_union_roots (u : UF) (rx ry : Nat) : UF :=
  if rx = ry then u
  else
    let swap := u.size.getD rx 0 < u.size.getD ry 0
    let rx1 := if swap then ry else rx
    let ry1 := if swap then rx else ry
    { parent := u.parent.set ry1 rx1
      size := u.size.set rx1 (u.size.getD rx1 0 + u.size.getD ry1 0) }

def uf_union (u : UF) (x y : Nat) : Option UF :=
  match uf_find u x with
  | none => none
  | some (rx, u1) =>
    match uf_find u1 y with
    | none => none
    | some (ry, u2) => some (uf_union_roots u2 rx ry)

/-! ## Edges -/

/-- The cast `(u64)v` of an `i64` value. -/
def to_u64 (v : Int) : Nat := (v % 2 ^ 64).toNat

def sq_euclid (p q : Pt) : Nat :=
  let dx := p.x - q.x
  let dy := p.y - q.y
  let dz := p.z - q.z
  (to_u64 (dx * dx) + to_u64 (dy * dy) + to_u64 (dz * dz)) % 2 ^ 64

def edge_cmp (ea eb : Edge) : Int :=
  if ea.d2 < eb.d2 then -1
  else if ea.d2 > eb.d2 then 1
  else if ea.a ≠ eb.a then (if ea.a < eb.a then -1 else 1)
  else if ea.b ≠ eb.b then (if ea.b < eb.b then -1 else 1)
  else 0

/-- The order `qsort` sorts by. -/
def edge_le (ea eb : Edge) : Prop := edge_cmp ea eb ≤ 0

instance : DecidableRel edge_le := fun a b => inferInstanceAs (Decidable (edge_cmp a b ≤ 0))

/-- The edge array `main` fills: all pairs `i < j`, `i` outermost. -/
def build_edges (pts : List Pt) : List Edge :=
  (List.range pts.length).flatMap (fun (i : Nat) =>
    (List.range' (i + 1) (pts.length - (i + 1))).map (fun (j : Nat) =>
      ({ d2 := sq_euclid (pts.getD i ⟨0, 0, 0⟩) (pts.getD j ⟨0, 0, 0⟩), a := i, b := j } : Edge)))

/-- The edge array after `qsort` with `edge_cmp`.  `edge_cmp` returns `0` only for edges
with the same `(d2, a, b)`, so every correct sort yields the same array. -/
def sort_edges (edges : List Edge) : List Edge := edges.insertionSort edge_le

/-! ## Part 1 -/

/-- The union loop of `solve_part1` over the edges it considers. -/
def part1_loop : List Edge → UF → Option UF
  | [], u => some u
  | e :: es, u =>
    match uf_find u e.a with
    | none => none
    | some (ra, u1) =>
      match uf_find u1 e.b with
      | none => none
      | some (rb, u2) =>
        if ra ≠ rb then part1_loop es (uf_union_roots u2 ra rb) else part1_loop es u2

/-- One round of the selection of the three largest sizes. -/
def top3_step (t : Nat × Nat × Nat) (s : Nat) : Nat × Nat × Nat :=
  if s > t.1 then (s, t.1, t.2.1)
  else if s > t.2.1 then (t.1, s, t.2.1)
  else if s > t.2.2 then (t.1, t.2.1, s)
  else t

/-- The loop `for (i = 0; i < n; i++)` over the roots. -/
def top3 (u : UF) (n : Nat) : Nat × Nat × Nat :=
  (List.range n).foldl
    (fun t i => if u.parent.getD i 0 = i then top3_step t (to_u64 (u.size.getD i 0)) else t)
    (0, 0, 0)

def solve_part1 (edges : List Edge) (n : Nat) (K : Nat) : Option Nat :=
  let limit := if edges.length > K then K else edges.length
  match part1_loop (edges.take limit) (uf_init n) with
  | none => none
  | some u =>
    let t := top3 u n
    some (((t.1 * t.2.1) % 2 ^ 64 * t.2.2) % 2 ^ 64)

/-! ## Part 2 -/

/-- The variables of the loop of `solve_part2`. -/
structure Part2State where
  uf : UF
  components : Int
  last_a : Int
  last_b : Int
deriving DecidableEq, Repr

/-- The loop of `solve_part2`, with its `continue` and its `break`. -/
def part2_loop : List Edge → Part2State → Option Part2State
  | [], s => some s
  | e :: es, s =>
    match uf_find s.uf e.a with
    | none => none
    | some (ra, u1) =>
      match uf_find u1 e.b with
      | none => none
      | some (rb, u2) =>
        if ra = rb then part2_loop es { s with uf := u2 }
        else
          let s1 : Part2State :=
            { uf := uf_union_roots u2 ra rb
              components := s.components - 1
              last_a := (e.a : Int)
              last_b := (e.b : Int) }
          if s1.components = 1 then some s1 else part2_loop es s1

/-- The state in which the loop of `solve_part2` starts. -/
def part2_init (n : Nat) : Part2State :=
  { uf := uf_init n, components := (n : Int), last_a := -1, last_b := -1 }

def solve_part2 (edges : List Edge) (n : Nat) (pts : List Pt) : Option Nat :=
  if n ≤ 1 then some 0
  else
    match part2_loop edges (part2_init n) with
    | none => none
    | some s =>
      if s.components ≠ 1 ∨ s.last_a < 0 ∨ s.last_b < 0 then some 0
      else
        let xa := to_u64 (pts.getD s.last_a.toNat ⟨0, 0, 0⟩).x
        let xb := to_u64 (pts.getD s.last_b.toNat ⟨0, 0, 0⟩).x
        some ((xa * xb) % 2 ^ 64)

/-- The value of `K` in `main`. -/
def PART1_K : Nat := 1000

/-- The four points of scenario S6. -/
def s6_points : List Pt := [⟨0, 0, 0⟩, ⟨1, 0, 0⟩, ⟨0, 1, 0⟩, ⟨0, 0, 1⟩]

/-! ## Specification vocabulary -/

/-- Some edge of the list joins `a` and `b`. -/
def Linked (edges : List Edge) (a b : Nat) : Prop := ∃ e ∈ edges, e.a = a ∧ e.b = b

/-- The points `a` and `b` are connected by edges of the list. -/
def Conn (edges : List Edge) : Nat → Nat → Prop := Relation.EqvGen (Linked edges)

/-- The edges connect all `n` points. -/
def AllConnected (n : Nat) (edges : List Edge) : Prop := ∀ i j, i < n → j < n → Conn edges i j

/-- The connected component of `r` among the points `0 .. n-1` has `k` points. -/
def IsClassSize (n : Nat) (edges : List Edge) (r k : Nat) : Prop :=
  ∃ members : Finset Nat, (∀ i, i ∈ members ↔ i < n ∧ Conn edges r i) ∧ members.card = k

/-- The root of `x`: what the first loop of `uf_find` returns. -/
def uf_root (u : UF) (x : Nat) : Nat :=
  (uf_find_root u.parent (u.parent.length + 1) x).getD x

/-- The number of elements `0 .. n-1` whose root is `r`. -/
def class_count (u : UF) (n r : Nat) : Nat :=
  ((Finset.range n).filter (fun i => uf_root u i = r)).card

/-- The number of roots among `0 .. n-1`. -/
def root_count (u : UF) (n : Nat) : Nat :=
  ((Finset.range n).filter (fun i => u.parent.getD i 0 = i)).card

/-- The states of the arrays reached from `uf_init(n)` by calls of `uf_find` on elements
and of `uf_union_roots` on two distinct roots. -/
inductive Reachable (n : Nat) : UF → Prop
  | init : Reachable n (uf_init n)
  | find (u u1 : UF) (x r : Nat) :
      Reachable n u → x < n → uf_find u x = some (r, u1) → Reachable n u1
  | union (u : UF) (rx ry : Nat) :
      Reachable n u → rx < n → ry < n → rx ≠ ry →
      u.parent.getD rx 0 = rx → u.parent.getD ry 0 = ry → Reachable n (uf_union_roots u rx ry)

/-! ## Proof vocabulary -/

/-- The walk along parent links from `x` ends in the root `r`. -/
inductive RootOf (parent : List Nat) : Nat → Nat → Prop
  | root (r : Nat) : parent.getD r 0 = r → RootOf parent r r
  | step (x r : Nat) :
      parent.getD x 0 ≠ x → RootOf parent (parent.getD x 0) r → RootOf parent x r

/-- The parent array of `n` entries points inside the array and upwards in the rank
`rk`. -/
def Ranked (n : Nat) (rk : Nat → Nat) (parent : List Nat) : Prop :=
  parent.length = n ∧
    ∀ i, i < n → parent.getD i 0 < n ∧ (parent.getD i 0 ≠ i → rk i < rk (parent.getD i 0))

/-- The parent array is a forest. -/
def Forest (n : Nat) (parent : List Nat) : Prop := ∃ rk, Ranked n rk parent

/-- The union-find arrays represent the connectivity of the edges, which join points
`0 .. n-1`, and every root knows the size of its class. -/
structure Tracks (n : Nat) (edges : List Edge) (u : UF) : Prop where
  valid : ∀ e ∈ edges, e.a < n ∧ e.b < n
  forest : Forest n u.parent
  size_len : u.size.length = n
  conn : ∀ i j, i < n → j < n → (uf_root u i = uf_root u j ↔ Conn edges i j)
  sizes : ∀ r, r < n → u.parent.getD r 0 = r → u.size.getD r 0 = (class_count u n r : Int)

/-- The triple holds the three largest of the values seen so far, three zeros included. -/
def Top3Inv (t : Nat × Nat × Nat) (seen : List Nat) : Prop :=
  t.2.1 ≤ t.1 ∧ t.2.2 ≤ t.2.1 ∧
    ∃ rest, (seen ++ [0, 0, 0]).Perm (t.1 :: t.2.1 :: t.2.2 :: rest) ∧ ∀ x ∈ rest, x ≤ t.2.2

/-- The roots among `0 .. n-1`, in index order. -/
def root_list (u : UF) (n : Nat) : List Nat :=
  (List.range n).filter (fun i => u.parent.getD i 0 = i)

end Day08

/-!
The shared header `lib/aoc.h`: macros and line helpers

* an `int` is an `Int` in the range of 32 bits; the bitwise operators `^` and `&` act on
  its two's complement bit pattern, a `Nat` below `2 ^ 32`;
* a macro over two variables is a function on the pair of their values;
* a line of input is the list of its characters, as `read_line` leaves it (without the
  line end); `sscanf` is modelled for the conversions the programs use, `%d` and `%lld`
  reading an optional sign and decimal digits after optional white space, without a bound
  on the value.
-/

namespace Aoc

/-! ## Machine integers and the branch-free macros -/

def INT_MIN : Int := -2147483648

def INT_MAX : Int := 2147483647

/-- The value is an `int`. -/
def IsInt32 (v : Int) : Prop := INT_MIN ≤ v ∧ v ≤ INT_MAX

instance (v : Int) : Decidable (IsInt32 v) := inferInstanceAs (Decidable (_ ∧ _))

/-- The bit pattern of an `int`. -/
def to_bits (v : Int) : Nat := (v % 2 ^ 32).toNat

/-- The `int` with the given bit pattern. -/
def of_bits (n : Nat) : Int := if n < 2 ^ 31 then (n : Int) else (n : Int) - 2 ^ 32

/-- The operator `^` on `int`s. -/
def bit_xor (a b : Int) : Int := of_bits (to_bits a ^^^ to_bits b)

/-- The operator `&` on `int`s. -/
def bit_and (a b : Int) : Int := of_bits (to_bits a &&& to_bits b)

/-- The value of the comparison `a < b`, an `int` that is 0 or 1. -/
def lt_flag (a b : Int) : Int := if a < b then 1 else 0

/-- The macro `MIN(a, b)`: `((b) ^ (((a) ^ (b)) & -((a) < (b))))`. -/
def MIN (a b : Int) : Int := bit_xor b (bit_and (bit_xor a b) (-(lt_flag a b)))

/-- The macro `MAX(a, b)`: `((a) ^ (((a) ^ (b)) & -((a) < (b))))`. -/
def MAX (a b : Int) : Int := bit_xor a (bit_and (bit_xor a b) (-(lt_flag a b)))

/-- The macro `CLAMP(x, lo, hi)`: `(MAX((lo), MIN((x), (hi))))`. -/
def CLAMP (x lo hi : Int) : Int := MAX lo (MIN x hi)

/-- The macro `SWAP(a, b)` on the values of the two variables:
`_t = a; a = b; b = _t;`. -/
def SWAP {α : Type} (ab : α × α) : α × α :=
  let t := ab.1
  let a := ab.2
  let b := t
  (a, b)

/-! ## Lines -/

/-- The C function `isspace` in the "C" locale. -/
def isspace (c : Char) : Bool :=
  c.toNat = 32 || (9 ≤ c.toNat && c.toNat ≤ 13)

def is_blank_line (s : List Char) : Bool := s.all isspace

/-- The value of a run of decimal digits. -/
def digits_value (ds : List Char) : Nat := ds.foldl (fun acc d => acc * 10 + (d.toNat - 48)) 0

/-- The conversion `%d` (or `%lld`) of `sscanf`: the number read and the rest of the
input, or `none` when no number can be read. -/
def scan_int (s : List Char) : Option (Int × List Char) :=
  let s1 := s.dropWhile isspace
  let neg := s1.head? = some '-'
  let s2 := if s1.head? = some '-' ∨ s1.head? = some '+' then s1.tail
    else s1
  let ds := s2.takeWhile Char.isDigit
  if ds = [] then none
  else some (if neg then -(digits_value ds : Int) else (digits_value ds : Int),
    s2.dropWhile Char.isDigit)

end Aoc

namespace Day12

/-! ## Input parsing and the driver `main`

Standard input is the list of its lines, each shorter than the line buffer.  The arrays
`sh` and `present` of the reader are lists of `MAX_SHAPES` entries; an entry of `sh` that
is never written is indeterminate in C and holds `Shape.none` here. -/

/-- The call `sscanf(s, "%dx%d", &w, &h)`: the number of conversions, `w` and `h`. -/
def scan_dims (s : List Char) : Int × Int × Int :=
  match Aoc.scan_int s with
  | none => (0, 0, 0)
  | some (w, r1) =>
    if r1.head? ≠ some 'x' then (1, w, 0)
    else
      match Aoc.scan_int r1.tail with
      | none => (1, w, 0)
      | some (h, _) => (2, w, h)

def is_region_line (s : List Char) : Bool :=
  let r := scan_dims s
  decide (r.1 = 2 ∧ r.2.1 > 0 ∧ r.2.2 > 0 ∧ ':' ∈ s)

/-- The function `parse_shape_header`: the id when the line starts with `id:`, from
`sscanf(s, "%d%c", &id, &c)`. -/
def parse_shape_header (s : List Char) : Option Int :=
  match Aoc.scan_int s with
  | none => none
  | some (id, r) =>
    match r.head? with
    | none => none
    | some c => if c = ':' ∧ id ≥ 0 then some id else none

/-- The loop of `parse_region` over the text after the colon.  Every round reads at
least one character, so the first argument, the length of the text, bounds the rounds. -/
def parse_counts (counts_cap : Nat) : Nat → List Char → List Int → Option (List Int)
  | 0, _, counts => some counts
  | fuel + 1, p, counts =>
    let p1 := p.dropWhile (fun ch => ch = ' ' ∨ ch = '\t')
    if p1 = [] then some counts
    else if counts.length ≥ counts_cap then none
    else
      match Aoc.scan_int p1 with
      | none => none
      | some (v, rest) =>
        parse_counts counts_cap fuel rest (counts ++ [Aoc.of_bits (Aoc.to_bits v)])

/-- The function `parse_region`: `W`, `H` and the counts, or `none` when it returns
`false`. -/
def parse_region (s : List Char) (counts_cap : Nat) : Option (Int × Int × List Int) :=
  if ':' ∉ s then none
  else
    let r := scan_dims s
    if r.1 ≠ 2 then none
    else if r.2.1 ≤ 0 ∨ r.2.2 ≤ 0 then none
    else
      let p := (s.dropWhile (fun ch => ch ≠ ':')).tail
      match parse_counts counts_cap p.length p [] with
      | none => none
      | some counts => some (r.2.1, r.2.2, counts)

/-- The function `commit_shape`: the arrays `sh` and `present` and `max_id` after the
call, or `none` when it returns `-1`. -/
def commit_shape (sh : List Shape) (present : List Bool) (max_id : Int) (id : Int)
    (cur : Poly) : Option (List Shape × List Bool × Int) :=
  if id < 0 ∨ id ≥ MAX_SHAPES then none
  else if present.getD id.toNat false then none
  else
    some (sh.set id.toNat (commit_shape_record id cur), present.set id.toNat true,
      if id > max_id then id else max_id)

/-- The loop of the reader over the characters of a glyph row `y`: the column reached
and the cells of the current shape, or `none` on an error. -/
def glyph_row (y : Int) : List Char → Int → List Cell → Option (Int × List Cell)
  | [], x, c => some (x, c)
  | ch :: rest, x, c =>
    if ch = '#' then
      if c.length ≥ MAX_CELLS_PER_SHAPE then none
      else glyph_row y rest (x + 1) (c ++ [⟨x, y⟩])
    else if ch = '.' then glyph_row y rest (x + 1) c
    else if ch = ' ' ∨ ch = '\t' then glyph_row y rest x c
    else none

/-- The variables of `read_shapes_and_regions`. -/
structure Reader where
  sh : List Shape
  present : List Bool
  max_id : Int
  sh_n : Int
  regions : List (List Char)
  cur_id : Int
  cur : Poly
  in_shape : Bool
deriving DecidableEq, Repr

def Reader.init : Reader :=
  ⟨List.replicate MAX_SHAPES Shape.none, List.replicate MAX_SHAPES false, -1, 0, [], -1,
    ⟨[], 0, 0⟩, false⟩

/-- The pending commit of the reader: `commit_shape` on the current shape when
`in_shape` is set. -/
def commit_pending (r : Reader) : Option (List Shape × List Bool × Int) :=
  if r.in_shape then commit_shape r.sh r.present r.max_id r.cur_id r.cur
  else some (r.sh, r.present, r.max_id)

/-- The `while` loop of `read_shapes_and_regions` over the lines; `none` when it
returns `-1`. -/
def read_loop : List (List Char) → Reader → Option Reader
  | [], r => some r
  | line :: rest, r =>
    if Aoc.is_blank_line line then read_loop rest r
    else if is_region_line line then
      if r.regions.length ≥ 4096 then none
      else read_loop rest { r with regions := r.regions ++ [line] }
    else
      match parse_shape_header line with
      | some id =>
        match commit_pending r with
        | none => none
        | some (sh, present, max_id) =>
          read_loop rest ⟨sh, present, max_id, max_id + 1, r.regions, id, ⟨[], 0, 0⟩, true⟩
      | none =>
        if !r.in_shape then none
        else
          match glyph_row r.cur.h line 0 r.cur.c with
          | none => none
          | some (x, c) =>
            read_loop rest { r with cur := ⟨c, if x > r.cur.w then x else r.cur.w, r.cur.h + 1⟩ }

/-- The function `read_shapes_and_regions`: the array `sh`, `sh_n` and the region lines,
or `none` when it returns `-1`. -/
def read_shapes_and_regions (lines : List (List Char)) :
    Option (List Shape × Int × List (List Char)) :=
  match read_loop lines Reader.init with
  | none => none
  | some r =>
    match commit_pending r with
    | none => none
    | some (sh, _, max_id) => some (sh, max_id + 1, r.regions)

/-- The state of the reader while it reads the rows of a first shape without cells. -/
def EmptyShapeState (id : Int) (r : Reader) : Prop :=
  r.sh = Reader.init.sh ∧ r.present = Reader.init.present ∧ r.max_id = -1 ∧
    r.regions = [] ∧ r.cur_id = id ∧ r.cur.c = [] ∧ r.in_shape = true

def EXIT_SUCCESS : Int := 0

def EXIT_FAILURE : Int := 1

/-- The outcome of a run of `main`: the exit status and the count printed, if it is
printed. -/
structure MainResult where
  status : Int
  printed : Option Int
deriving DecidableEq, Repr

/-- The loop of `main` over the region lines, `ok_count` being the count so far; `none`
when the search of a region does not return. -/
def main_loop (sh : List Shape) : List (List Char) → Int → Option MainResult
  | [], ok_count => some ⟨EXIT_SUCCESS, some ok_count⟩
  | line :: rest, ok_count =>
    match parse_region line MAX_SHAPES with
    | none => some ⟨EXIT_FAILURE, none⟩
    | some (W, H, counts) =>
      match solve_region_fast sh W H counts with
      | none => none
      | some ok => main_loop sh rest (if ok then ok_count + 1 else ok_count)

/-- The function `main` on the lines of standard input. -/
def main (lines : List (List Char)) : Option MainResult :=
  match read_shapes_and_regions lines with
  | none => some ⟨EXIT_FAILURE, none⟩
  | some (sh, sh_n, regions) =>
    if sh_n ≤ 0 then some ⟨EXIT_FAILURE, none⟩
    else main_loop (sh.take sh_n.toNat) regions 0

/-! ## Vocabulary for `choose_next_type` -/

/-- The number of placements of type `t` at indices above `last_idx[t]` whose masks do not
overlap `occ`. -/
def compatible_count (c : Ctx) (t : Nat) : Nat :=
  ((c.place.getD t []).drop (start_index (c.last_idx.getD t 0))).countP
    (fun m => !mask_overlaps c.occ m c.nwords)

/-- The glyph `###` as the reader parses it. -/
def glyph_i_tromino : Poly := { c := [⟨0, 0⟩, ⟨1, 0⟩, ⟨2, 0⟩], w := 3, h := 1 }

/-- The placement lists of the straight tromino (shape 0) and the L-tromino (shape 1) on
the 3 x 3 board. -/
def s30_place : List (List Mask) :=
  [[[7], [56], [448], [73], [146], [292]],
    [[25], [50], [200], [400], [26], [52], [208], [416], [19], [38], [152], [304], [11], [22],
      [88], [176]]]

/-- The context at the start of the search for two straight trominoes and one L-tromino
on the 3 x 3 board. -/
def s30_start : Ctx :=
  initial_ctx [commit_shape_record 0 glyph_i_tromino, commit_shape_record 1 glyph_l_tromino] 3 3
    [2, 1] s30_place 9

/-- The state of that search after one straight tromino is placed on the middle row
(placement 1 of shape 0). -/
def s30_state : Ctx :=
  { s30_start with occ := [56], need := [1, 1], last_idx := [1, -1], remaining_area := 6, free_cells := 6 }

/-- The variables `best` and `best_count` of `choose_next_type` before it looks at type
`t`: no demanded type below `t` has fewer than two compatible placements, and `best` is
the first of them with the fewest, `best_count`, if there is one. -/
def ChooseInv (c : Ctx) (t : Nat) (best best_count : Int) : Prop :=
  (∀ u, u < t → 0 < c.need.getD u 0 → 2 ≤ compatible_count c u) ∧
    ((best = -1 ∧ best_count = INT_MAX ∧ ∀ u, u < t → c.need.getD u 0 ≤ 0) ∨
      (∃ b : Nat, best = (b : Int) ∧ b < t ∧ 0 < c.need.getD b 0 ∧
        best_count = (compatible_count c b : Int) ∧
        (∀ u, u < b → 0 < c.need.getD u 0 → compatible_count c b < compatible_count c u) ∧
        (∀ u, b < u → u < t → 0 < c.need.getD u 0 →
          compatible_count c b ≤ compatible_count c u)))

/-- What `choose_next_type` returns: `-1` when no type is demanded, otherwise a demanded
type `r` with fewer compatible placements than every demanded type before it and, unless
it has at most one, no more than any demanded type after it. -/
def ChoosePost (c : Ctx) (res : Int) : Prop :=
  (res = -1 ∧ ∀ u, u < c.sh_n → c.need.getD u 0 ≤ 0) ∨
    (∃ r : Nat, res = (r : Int) ∧ r < c.sh_n ∧ 0 < c.need.getD r 0 ∧
      (∀ u, u < r → 0 < c.need.getD u 0 → compatible_count c r < compatible_count c u) ∧
      (compatible_count c r ≤ 1 ∨
        ∀ u, r < u → u < c.sh_n → 0 < c.need.getD u 0 →
          compatible_count c r ≤ compatible_count c u))

/-! ## The recursive calls of `dfs` -/

/-- The placement loop of `dfs` as in `dfs_loop`, with the list of the recursive calls
made: each as the pair of the state in which the calling `dfs` was entered (`caller`) and
the state handed to the call. -/
def dfs_loop_calls (call : Ctx → Option (Bool × Ctx × List (Ctx × Ctx))) (caller : Ctx)
    (t : Nat) : List Mask → Nat → Ctx → Option (Bool × Ctx × List (Ctx × Ctx))
  | [], _, c => some (false, c, [])
  | m :: ms, i, c =>
    if mask_overlaps c.occ m c.nwords then dfs_loop_calls call caller t ms (i + 1) c
    else
      let c1 : Ctx :=
        { c with
          last_idx := c.last_idx.set t (i : Int)
          occ := mask_apply c.occ m c.nwords
          free_cells := c.free_cells - c.area.getD t 0 }
      match call c1 with
      | none => none
      | some (true, c2, log) => some (true, c2, (caller, c1) :: log)
      | some (false, c2, log) =>
        (dfs_loop_calls call caller t ms (i + 1)
          { c2 with
            free_cells := c2.free_cells + c2.area.getD t 0
            occ := mask_unapply c2.occ m c2.nwords }).map
          (fun r => (r.1, r.2.1, (caller, c1) :: (log ++ r.2.2)))

/-- The recursive search as in `dfs`, with the list of all recursive calls made during the
run, at every depth. -/
def dfs_calls : Nat → Ctx → Option (Bool × Ctx × List (Ctx × Ctx))
  | 0, _ => none
  | fuel + 1, c =>
    if c.remaining_area = 0 then some (true, c, [])
    else if c.remaining_area > c.free_cells then some (false, c, [])
    else
      let t := choose_next_type c
      if t < 0 then some (false, c, [])
      else
        let tn := t.toNat
        let pl := c.place.getD tn []
        if pl.length = 0 then some (false, c, [])
        else
          let saved_last := c.last_idx.getD tn 0
          let start := start_index saved_last
          let c1 : Ctx :=
            { c with
              need := c.need.set tn (c.need.getD tn 0 - 1)
              remaining_area := c.remaining_area - c.area.getD tn 0 }
          match dfs_loop_calls (dfs_calls fuel) c tn (pl.drop start) start c1 with
          | none => none
          | some (true, c2, log) => some (true, c2, log)
          | some (false, c2, log) =>
            some (false,
              { c2 with
                remaining_area := c2.remaining_area + c2.area.getD tn 0
                need := c2.need.set tn (c2.need.getD tn 0 + 1)
                last_idx := c2.last_idx.set tn saved_last }, log)

/-- Every call of the list is made with one piece fewer to place than its caller has:
the sum of `need` is smaller by one. -/
def CallsDescend (log : List (Ctx × Ctx)) : Prop :=
  ∀ pq ∈ log, pq.2.need.sum + 1 = pq.1.need.sum ∧ total_need pq.2 + 1 = total_need pq.1

/-! ## Vocabulary for the parity prune -/

end Day12

namespace Day08

/-! ## The driver `main`

Standard input is the list of its lines, each shorter than the line buffer of `main`.
Of a run the model keeps the exit status and the two numbers of the lines `Part1:` and
`Part2:`, when they are printed; allocation is taken to succeed. -/

def EXIT_SUCCESS : Int := 0

def EXIT_FAILURE : Int := 1

/-- The outcome of a run of `main`: the exit status and the numbers printed after
`Part1:` and `Part2:`, if these lines are printed. -/
structure MainResult where
  status : Int
  printed : Option (Nat × Nat)
deriving DecidableEq, Repr

/-- The call `sscanf(buf, "%lld,%lld,%lld", &x, &y, &z)`: the number of conversions and
the point read (coordinates not converted keep their initial 0). -/
def scan_point (buf : List Char) : Int × Pt :=
  match Aoc.scan_int buf with
  | none => (0, ⟨0, 0, 0⟩)
  | some (x, r1) =>
    if r1.head? ≠ some ',' then (1, ⟨x, 0, 0⟩)
    else
      match Aoc.scan_int r1.tail with
      | none => (1, ⟨x, 0, 0⟩)
      | some (y, r2) =>
        if r2.head? ≠ some ',' then (2, ⟨x, y, 0⟩)
        else
          match Aoc.scan_int r2.tail with
          | none => (2, ⟨x, y, 0⟩)
          | some (z, _) => (3, ⟨x, y, z⟩)

/-- The reading loop of `main`; `none` when it returns `EXIT_FAILURE`. -/
def read_points : List (List Char) → List Pt → Option (List Pt)
  | [], pts => some pts
  | buf :: rest, pts =>
    if Aoc.is_blank_line buf then read_points rest pts
    else
      let r := scan_point buf
      if r.1 ≠ 3 then none
      else if pts.length ≥ MAX_PT then none
      else read_points rest (pts ++ [r.2])

/-- The function `main` on the lines of standard input; `none` when a solver does not
return. -/
def main (lines : List (List Char)) : Option MainResult :=
  match read_points lines [] with
  | none => some ⟨EXIT_FAILURE, none⟩
  | some pts =>
    let n := pts.length
    if n = 0 then some ⟨EXIT_FAILURE, none⟩
    else
      let ecount_u := (n * (n - 1)) % 2 ^ 64 / 2
      if ecount_u = 0 then some ⟨EXIT_SUCCESS, some (1, 0)⟩
      else if ecount_u > 100000000 then some ⟨EXIT_FAILURE, none⟩
      else
        let edges := build_edges pts
        if edges.length ≠ ecount_u then some ⟨EXIT_FAILURE, none⟩
        else
          let sorted := sort_edges edges
          match solve_part1 sorted n PART1_K with
          | none => none
          | some part1 =>
            match solve_part2 sorted n pts with
            | none => none
            | some part2 => some ⟨EXIT_SUCCESS, some (part1, part2)⟩

/-! ## Vocabulary for path compression -/

/-- The element `y` lies on the walk along parent links that starts at `x` and stops at a
root. -/
inductive OnPath (parent : List Nat) : Nat → Nat → Prop
  | here (x : Nat) : OnPath parent x x
  | step (x y : Nat) :
      parent.getD x 0 ≠ x → OnPath parent (parent.getD x 0) y → OnPath parent x y

end Day08

/-!
Day 01 dial: a shallow embedding of `process_line` of `day01.c`

A line is the list of its characters; `int` and `long long` values are `Int`s, the
operators `/` and `%` of C being `Int.tdiv` and `Int.tmod`; the counters `part1` and
`part2` do not overflow on the runs described.
-/

namespace Day01

def MODULUS : Int := 100

def LLONG_MAX : Int := 9223372036854775807

def LLONG_MIN : Int := -9223372036854775808

def mod_int (value m : Int) : Int :=
  let r := Int.tmod value m
  if r < 0 then r + m else r

/-- The call `strtoll(p, &endptr, 10)`: the value, cut off at the range of `long long`,
and the rest of the text, or `none` when no number is read (`endptr == p`). -/
def strtoll (p : List Char) : Option (Int × List Char) :=
  match Aoc.scan_int p with
  | none => none
  | some (v, rest) =>
    some (if v > LLONG_MAX then LLONG_MAX else if v < LLONG_MIN then LLONG_MIN else v, rest)

/-- The variables `pos`, `part1` and `part2` that `process_line` updates. -/
structure Dial where
  pos : Int
  part1 : Int
  part2 : Int
deriving DecidableEq, Repr

/-- The function `process_line`; `none` when it ends the program with `exit(EXIT_FAILURE)`. -/
def process_line (line : List Char) (st : Dial) : Option Dial :=
  match line with
  | [] => some st
  | dir :: p =>
    if dir ≠ 'L' ∧ dir ≠ 'R' then none
    else if p = [] then none
    else
      match strtoll p with
      | none => none
      | some (dist_full, _) =>
        if dist_full < 0 then none
        else
          let s := mod_int st.pos MODULUS
          let d := dist_full
          let hits :=
            if d > 0 then
              let t0 :=
                if dir = 'R' then
                  (if Int.tmod (MODULUS - s) MODULUS = 0 then MODULUS
                  else Int.tmod (MODULUS - s) MODULUS)
                else (if Int.tmod s MODULUS = 0 then MODULUS else Int.tmod s MODULUS)
              if t0 ≤ d then 1 + Int.tdiv (d - t0) MODULUS else 0
            else 0
          let part2 := st.part2 + hits
          let step := Int.tmod dist_full MODULUS
          let pos :=
            if dir = 'L' then mod_int (st.pos - step) MODULUS
            else mod_int (st.pos + step) MODULUS
          some ⟨pos, if pos = 0 then st.part1 + 1 else st.part1, part2⟩

end Day01

/-!
Day 03 joltage: a shallow embedding of `output_joltage` of `day03.c`

A bank is the list of its characters, all of them bytes below 128 (as the digits are), so
that comparing two `char`s is comparing their codes; `size_t` indices are `Nat`s and the
`u64` accumulator is a `Nat` reduced modulo `2 ^ 64`.
-/

namespace Day03

/-- The constant `k` of `output_joltage`. -/
def K : Nat := 12

/-- The cast `(u8)(ch - '0')`. -/
def digit_u8 (ch : Char) : Nat := (ch.toNat + 208) % 256

/-- One round of the loop `for (j = start; j <= end; j++)` on the pair
`(best_ch, best_pos)`. -/
def scan_step (s : List Char) (b : Char × Nat) (j : Nat) : Char × Nat :=
  let ch := s.getD j (Char.ofNat 0)
  if ch.toNat > b.1.toNat then (ch, j) else b

/-- The loop `for (picked = 0; picked < k; picked++)`; the first argument is the number
`k - picked` of digits still to pick. -/
def pick_loop (s : List Char) (len : Nat) : Nat → Nat → Nat → Nat
  | 0, _, val => val
  | r + 1, start, val =>
    let end_incl := len - (r + 1)
    let b := (List.range' start (end_incl + 1 - start)).foldl (scan_step s) ('0', start)
    pick_loop s len r (b.2 + 1) ((val * 10 + (b.1.toNat - 48)) % 2 ^ 64)

def output_joltage (s : List Char) : Nat :=
  let len := s.length
  if len = 0 then 0
  else if len ≤ K then s.foldl (fun val ch => (val * 10 + digit_u8 ch) % 2 ^ 64) 0
  else pick_loop s len K 0 0

/-- The decimal value of a digit character. -/
def digit_val (c : Char) : Nat := c.toNat - 48

/-- The character is a decimal digit. -/
def IsDigit (c : Char) : Prop := 48 ≤ c.toNat ∧ c.toNat ≤ 57

instance (c : Char) : Decidable (IsDigit c) := inferInstanceAs (Decidable (_ ∧ _))

/-- The state `(best_ch, best_pos)` of the scan of the window that starts at `start`, before
index `j` is looked at. -/
def ScanInv (s : List Char) (start j : Nat) (b : Char × Nat) : Prop :=
  start ≤ b.2 ∧ 48 ≤ b.1.toNat ∧ (j = start → b.2 = start ∧ b.1.toNat = 48) ∧
    (start < j → b.2 < j ∧ (s.getD b.2 (Char.ofNat 0)).toNat = b.1.toNat) ∧
    (∀ i, start ≤ i → i < j → (s.getD i (Char.ofNat 0)).toNat ≤ b.1.toNat) ∧
    ∀ i, start ≤ i → i < b.2 → (s.getD i (Char.ofNat 0)).toNat < b.1.toNat

end Day03

/-!
Day 05 interval merge: a shallow embedding of `merge_ranges` of `day05.c`

A `u64` value is a `Nat` below `2 ^ 64`, and `+` wraps modulo `2 ^ 64`; the array `r` is a
list, and `merge_ranges` returns the entries `r[0..w)` it leaves, the count `w` being the
length of that list.
-/

namespace Day05

structure Range where
  lo : Nat
  hi : Nat
deriving DecidableEq, Repr

/-- The largest `u64` value. -/
def U64_MAX : Nat := 2 ^ 64 - 1

def cmp_range (ra rb : Range) : Int :=
  if ra.lo < rb.lo then -1
  else if ra.lo > rb.lo then 1
  else if ra.hi < rb.hi then -1
  else if ra.hi > rb.hi then 1
  else 0

/-- The order `qsort` sorts by. -/
def range_le (ra rb : Range) : Prop := cmp_range ra rb ≤ 0

instance : DecidableRel range_le := fun a b => inferInstanceAs (Decidable (cmp_range a b ≤ 0))

/-- The loop of `merge_ranges` over the entries `r[i..n)` still to read: `cur` is the range
being grown and `out` the entries `r[0..w)` written so far. -/
def merge_loop : List Range → Range → List Range → List Range
  | [], cur, out => out ++ [cur]
  | next :: rest, cur, out =>
    if next.lo ≤ (cur.hi + 1) % 2 ^ 64 then
      merge_loop rest (if next.hi > cur.hi then { cur with hi := next.hi } else cur) out
    else merge_loop rest next (out ++ [cur])

/-- The function `merge_ranges`: the merged entries `r[0..w)`.  Two ranges that compare
equal under `cmp_range` are equal, so every correct sort yields the same array. -/
def merge_ranges (r : List Range) : List Range :=
  match r.insertionSort range_le with
  | [] => []
  | r0 :: rest => merge_loop rest r0 []

/-- The value `v` lies in one of the ranges. -/
def InRanges (l : List Range) (v : Nat) : Prop := ∃ x ∈ l, x.lo ≤ v ∧ v ≤ x.hi

/-- The ranges are in ascending order, pairwise disjoint and not adjacent, each with
`lo ≤ hi`. -/
def Merged (l : List Range) : Prop :=
  l.Pairwise (fun a b => a.hi + 1 < b.lo) ∧ ∀ x ∈ l, x.lo ≤ x.hi

end Day05

namespace Day12

/-! ## The first two loops of `solve_region_fast` -/

/-- An `int` expression whose exact value is in range has that value. -/
theorem int_wrap_eq (v : Int) (h0 : -2147483648 ≤ v) (h1 : v ≤ 2147483647) :
    int_wrap v = v := by
  unfold int_wrap
  omega

theorem int_wrap_range (v : Int) : -2147483648 ≤ int_wrap v ∧ int_wrap v ≤ 2147483647 := by
  unfold int_wrap
  omega

/-- On a board whose cell count fits an `int` with 63 to spare the word count is the
exact `⌈W * H / 64⌉`. -/
theorem nwords_for_board_eq (W H : Int) (h0 : 0 ≤ W * H) (h1 : W * H ≤ INT_MAX - 63) :
    nwords_for_board W H = board_words W H := by
  unfold INT_MAX at h1
  unfold nwords_for_board board_words
  simp only []
  rw [int_wrap_eq (W * H) (by omega) (by omega), int_wrap_eq (W * H + 63) (by omega) (by omega)]

theorem board_words_le (W H : Int) (h0 : 0 ≤ W * H) (h : W * H ≤ 4096) :
    board_words W H ≤ 64 := by
  unfold board_words
  rw [Int.tdiv_eq_ediv (by omega) (by omega)]
  omega

theorem nwords_for_board_le (W H : Int) (h0 : 0 ≤ W * H) (h : W * H ≤ 4096) :
    nwords_for_board W H ≤ 64 := by
  rw [nwords_for_board_eq W H h0 (by unfold INT_MAX; omega)]
  exact board_words_le W H h0 h

theorem solve_area_loop_zero (need_in : List Int) (sh : List Shape) (i : Nat) (acc : Int)
    (h : ∀ j, j < sh.length → need_at need_in (i + j) = 0) :
    solve_area_loop need_in sh i acc = some acc := by
  induction sh generalizing i with
  | nil => rfl
  | cons s rest ih =>
    have h0 : need_at need_in i = 0 := by simpa using h 0 (by simp)
    have hrest : ∀ j, j < rest.length → need_at need_in (i + 1 + j) = 0 := by
      intro j hj
      have := h (j + 1) (by simpa using hj)
      simpa [Nat.add_assoc, Nat.add_comm 1 j] using this
    simp [solve_area_loop, h0, ih (i + 1) hrest]

/-- When the first loop runs to its end, no demand is negative and every demanded shape
has positive area. -/
theorem solve_area_loop_checks (need_in : List Int) (sh : List Shape) (i : Nat) (acc a : Int)
    (h : solve_area_loop need_in sh i acc = some a) :
    ∀ j (hj : j < sh.length), 0 ≤ need_at need_in (i + j) ∧
      (0 < need_at need_in (i + j) → 0 < (sh.get ⟨j, hj⟩).area) := by
  induction sh generalizing i acc with
  | nil =>
    intro j hj
    simp at hj
  | cons s rest ih =>
    simp only [solve_area_loop] at h
    by_cases hneg : need_at need_in i < 0
    · simp [hneg] at h
    · by_cases hpos : need_at need_in i > 0
      · by_cases harea : s.area ≤ 0
        · simp [hneg, hpos, harea] at h
        · simp only [hneg, hpos, harea, if_false, if_true] at h
          have h2 := ih (i + 1) _ h
          intro j hj
          cases j with
          | zero => exact ⟨by simpa using le_of_lt hpos, fun _ => by simpa using harea⟩
          | succ j =>
            have := h2 j (by simpa using hj)
            simpa [Nat.add_assoc, Nat.add_comm 1 j] using this
      · simp only [hneg, hpos, if_false] at h
        have h2 := ih (i + 1) _ h
        have hz : need_at need_in i = 0 := by omega
        intro j hj
        cases j with
        | zero => exact ⟨by simp [hz], fun h' => by simp [hz] at h'⟩
        | succ j =>
          have := h2 j (by simpa using hj)
          simpa [Nat.add_assoc, Nat.add_comm 1 j] using this

theorem demand_area_checked_zero (need_in : List Int) (sh : List Shape) (i : Nat) (acc : Int)
    (h : ∀ j, j < sh.length → need_at need_in (i + j) = 0) :
    demand_area_checked need_in sh i acc = some acc := by
  induction sh generalizing i with
  | nil => rfl
  | cons s rest ih =>
    have h0 : need_at need_in i = 0 := by simpa using h 0 (by simp)
    have hrest : ∀ j, j < rest.length → need_at need_in (i + 1 + j) = 0 := by
      intro j hj
      have := h (j + 1) (by simpa using hj)
      simpa [Nat.add_assoc, Nat.add_comm 1 j] using this
    simp [demand_area_checked, h0, ih (i + 1) hrest]

/-- When the demand check succeeds, the sum it returns is the demanded area added to the
start value, no demand is negative, and every demanded shape has positive area. -/
theorem demand_area_checked_some (need_in : List Int) (sh : List Shape) (i : Nat)
    (acc a : Int) (h : demand_area_checked need_in sh i acc = some a) :
    a = acc + demand_area_from need_in sh i ∧
      ∀ j (hj : j < sh.length), 0 ≤ need_at need_in (i + j) ∧
        (0 < need_at need_in (i + j) → 0 < (sh.get ⟨j, hj⟩).area) := by
  induction sh generalizing i acc with
  | nil =>
    simp only [demand_area_checked, Option.some.injEq] at h
    simp [demand_area_from, h]
  | cons s rest ih =>
    simp only [demand_area_checked] at h
    by_cases hneg : need_at need_in i < 0
    · simp [hneg] at h
    · by_cases hpos : need_at need_in i > 0
      · by_cases harea : s.area ≤ 0
        · simp [hneg, hpos, harea] at h
        · simp only [hneg, hpos, harea, if_false, if_true] at h
          obtain ⟨h1, h2⟩ := ih (i + 1) _ h
          refine ⟨?_, ?_⟩
          · rw [h1]; simp only [demand_area_from]; ring
          · intro j hj
            cases j with
            | zero => exact ⟨by simpa using le_of_lt hpos, fun _ => by simpa using harea⟩
            | succ j =>
              have := h2 j (by simpa using hj)
              simpa [Nat.add_assoc, Nat.add_comm 1 j] using this
      · simp only [hneg, hpos, if_false] at h
        obtain ⟨h1, h2⟩ := ih (i + 1) _ h
        have hz : need_at need_in i = 0 := by omega
        refine ⟨?_, ?_⟩
        · rw [h1]; simp [demand_area_from, hz]
        · intro j hj
          cases j with
          | zero => exact ⟨by simp [hz], fun h' => by simp [hz] at h'⟩
          | succ j =>
            have := h2 j (by simpa using hj)
            simpa [Nat.add_assoc, Nat.add_comm 1 j] using this

/-- The demanded area is at least the area of any one demanded shape when no demand is
negative and demanded shapes have positive area. -/
theorem demand_area_from_nonneg (need_in : List Int) (sh : List Shape) (i : Nat)
    (h : ∀ j (hj : j < sh.length), 0 ≤ need_at need_in (i + j) ∧
        (0 < need_at need_in (i + j) → 0 < (sh.get ⟨j, hj⟩).area)) :
    0 ≤ demand_area_from need_in sh i ∧
      ((∃ j, j < sh.length ∧ 0 < need_at need_in (i + j)) → 0 < demand_area_from need_in sh i) := by
  induction sh generalizing i with
  | nil => simp [demand_area_from]
  | cons s rest ih =>
    have hrest : ∀ j (hj : j < rest.length), 0 ≤ need_at need_in (i + 1 + j) ∧
        (0 < need_at need_in (i + 1 + j) → 0 < (rest.get ⟨j, hj⟩).area) := by
      intro j hj
      have := h (j + 1) (by simpa using hj)
      simpa [Nat.add_assoc, Nat.add_comm 1 j] using this
    obtain ⟨ih1, ih2⟩ := ih (i + 1) hrest
    have h0 := h 0 (by simp)
    simp only [Nat.add_zero, List.get_eq_getElem, List.getElem_cons_zero] at h0
    have hterm : 0 ≤ need_at need_in i * s.area := by
      rcases h0.1.lt_or_eq with hp | hz
      · exact le_of_lt (Int.mul_pos hp (h0.2 hp))
      · simp [← hz]
    refine ⟨by simp only [demand_area_from]; omega, ?_⟩
    rintro ⟨j, hj, hpos⟩
    simp only [demand_area_from]
    cases j with
    | zero =>
      have hp : 0 < need_at need_in i := by simpa using hpos
      have := Int.mul_pos hp (h0.2 hp)
      omega
    | succ j =>
      have := ih2 ⟨j, by simpa using hj, by simpa [Nat.add_assoc, Nat.add_comm 1 j] using hpos⟩
      omega

/-- Without overflow the first loop of `solve_region_fast` computes the demanded area: if
no demand is negative, demanded shapes have positive area and the start value plus the
demanded area is at most `INT_MAX`, the loop returns their sum. -/
theorem solve_area_loop_exact (need_in : List Int) (sh : List Shape) (i : Nat) (acc : Int)
    (hacc : 0 ≤ acc) (hfit : acc + demand_area_from need_in sh i ≤ INT_MAX)
    (h : ∀ j (hj : j < sh.length), 0 ≤ need_at need_in (i + j) ∧
        (0 < need_at need_in (i + j) → 0 < (sh.get ⟨j, hj⟩).area)) :
    solve_area_loop need_in sh i acc = some (acc + demand_area_from need_in sh i) := by
  induction sh generalizing i acc with
  | nil => simp [solve_area_loop, demand_area_from]
  | cons s rest ih =>
    have hrest : ∀ j (hj : j < rest.length), 0 ≤ need_at need_in (i + 1 + j) ∧
        (0 < need_at need_in (i + 1 + j) → 0 < (rest.get ⟨j, hj⟩).area) := by
      intro j hj
      have := h (j + 1) (by simpa using hj)
      simpa [Nat.add_assoc, Nat.add_comm 1 j] using this
    have hnn := (demand_area_from_nonneg need_in rest (i + 1) hrest).1
    have h0 := h 0 (by simp)
    simp only [Nat.add_zero, List.get_eq_getElem, List.getElem_cons_zero] at h0
    unfold INT_MAX at hfit
    simp only [demand_area_from] at hfit ⊢
    simp only [solve_area_loop]
    rw [if_neg (by omega)]
    by_cases hpos : need_at need_in i > 0
    · have harea := h0.2 hpos
      have hprod : 0 < need_at need_in i * s.area := Int.mul_pos hpos harea
      rw [if_pos hpos, if_neg (by omega), Int.mul_comm s.area,
        int_wrap_eq (need_at need_in i * s.area) (by omega) (by omega),
        int_wrap_eq (acc + need_at need_in i * s.area) (by omega) (by omega),
        ih (i + 1) (acc + need_at need_in i * s.area) (by omega)
          (by unfold INT_MAX; omega) hrest]
      congr 1
      omega
    · have hz : need_at need_in i = 0 := by omega
      rw [if_neg hpos, ih (i + 1) acc hacc (by unfold INT_MAX; rw [hz] at hfit; omega) hrest,
        hz]
      congr 1
      omega

/-- When the first loop runs to its end on a demand whose area is at most `INT_MAX`, the
sum it returns is the demanded area, no demand is negative, and every demanded shape has
positive area. -/
theorem solve_area_loop_some (need_in : List Int) (sh : List Shape) (a : Int)
    (hfit : demand_area sh need_in ≤ INT_MAX)
    (h : solve_area_loop need_in sh 0 0 = some a) :
    a = demand_area sh need_in ∧
      ∀ j (hj : j < sh.length), 0 ≤ need_at need_in (0 + j) ∧
        (0 < need_at need_in (0 + j) → 0 < (sh.get ⟨j, hj⟩).area) := by
  have hchk := solve_area_loop_checks need_in sh 0 0 a h
  have he := solve_area_loop_exact need_in sh 0 0 (le_refl 0)
    (by unfold demand_area at hfit; omega) hchk
  rw [h] at he
  refine ⟨?_, hchk⟩
  have := Option.some.inj he
  unfold demand_area
  omega

/-- The first loop of `solve_region_fast` and the demand check over the integers fail
together. -/
theorem solve_area_loop_none_iff (need_in : List Int) (sh : List Shape) (i : Nat)
    (acc acc' : Int) :
    solve_area_loop need_in sh i acc = none ↔ demand_area_checked need_in sh i acc' = none := by
  induction sh generalizing i acc acc' with
  | nil => simp [solve_area_loop, demand_area_checked]
  | cons s rest ih =>
    simp only [solve_area_loop, demand_area_checked]
    split_ifs
    · exact Iff.rfl
    · exact Iff.rfl
    · exact ih _ _ _
    · exact ih _ _ _

/-- The second loop returns early as soon as a demanded shape has no orientation whose
bounding box fits the board. -/
theorem solve_place_loop_bbox (build : List Mask → Shape → Int → Int → Nat → List Mask)
    (need_in : List Int) (W H : Int) (nwords : Nat) (sh : List Shape) (i : Nat)
    (h : ∃ j, ∃ hj : j < sh.length, 0 < need_at need_in (i + j) ∧
        ∀ p ∈ (sh.get ⟨j, hj⟩).ori, p.w > W ∨ p.h > H) :
    solve_place_loop build need_in W H nwords sh i = none := by
  induction sh generalizing i with
  | nil => obtain ⟨j, hj, _⟩ := h; simp at hj
  | cons s rest ih =>
    obtain ⟨j, hj, hpos, hbox⟩ := h
    cases j with
    | zero =>
      have hp : ¬ need_at need_in i ≤ 0 := by
        have : 0 < need_at need_in i := by simpa using hpos
        omega
      have hb : (s.ori.any fun p => decide (p.w ≤ W ∧ p.h ≤ H)) = false := by
        rw [List.any_eq_false]
        intro p hp'
        have := hbox p (by simpa using hp')
        simp only [decide_eq_true_eq, not_and, not_le]
        intro hw
        rcases this with h1 | h1
        · omega
        · exact h1
      simp only [solve_place_loop, if_neg hp, hb, Bool.not_false, if_true]
    | succ j =>
      have hrec := ih (i + 1) ⟨j, by simpa using hj,
        by simpa [Nat.add_assoc, Nat.add_comm 1 j] using hpos, by simpa using hbox⟩
      simp only [solve_place_loop, hrec, Option.map_none']
      split_ifs <;> rfl

/-! ## The symmetries form a group acting on cells -/

theorem D4.act_rotL (h : D4) (c : Cell) : h.rotL.act c = rot_cell (h.act c) := by
  cases h <;> simp [D4.rotL, D4.act, rot_cell, flip_cell]

theorem D4.act_flipL (h : D4) (c : Cell) : h.flipL.act c = flip_cell (h.act c) := by
  cases h <;> simp [D4.flipL, D4.act, rot_cell, flip_cell]

theorem D4.act_mul (g h : D4) (c : Cell) : (D4.mul g h).act c = g.act (h.act c) := by
  cases g <;> simp only [D4.mul, D4.act_rotL, D4.act_flipL] <;> rfl

theorem D4.inv_mul : ∀ g : D4, D4.mul g.inv g = .r0 := by decide

theorem D4.mul_inv_cancel_left : ∀ g x : D4, D4.mul g (D4.mul g.inv x) = x := by decide

theorem D4.inv_mul_cancel_left : ∀ g x : D4, D4.mul g.inv (D4.mul g x) = x := by decide

theorem D4.mul_one : ∀ g : D4, D4.mul g .r0 = g := by decide

theorem D4.mul_left_cancel (g x y : D4) (h : D4.mul g x = D4.mul g y) : x = y := by
  have := congrArg (D4.mul g.inv) h
  simpa [D4.inv_mul_cancel_left] using this

/-- Every symmetry is additive on cells. -/
theorem D4.act_add (g : D4) (c : Cell) (dx dy : Int) :
    g.act { x := c.x + dx, y := c.y + dy } =
      { x := (g.act c).x + (g.act ⟨dx, dy⟩).x, y := (g.act c).y + (g.act ⟨dx, dy⟩).y } := by
  cases g <;> simp [D4.act, rot_cell, flip_cell, neg_add] <;> omega

/-! ## The order of `cmp_cell` -/

theorem cell_le_iff (a b : Cell) : cell_le a b ↔ a.y < b.y ∨ (a.y = b.y ∧ a.x ≤ b.x) := by
  unfold cell_le cmp_cell
  split_ifs <;> omega

theorem cell_le_total : IsTotal Cell cell_le := ⟨fun a b => by rw [cell_le_iff, cell_le_iff]; omega⟩

theorem cell_le_trans : IsTrans Cell cell_le :=
  ⟨fun a b c => by rw [cell_le_iff, cell_le_iff, cell_le_iff]; omega⟩

theorem cell_le_antisymm : IsAntisymm Cell cell_le :=
  ⟨fun a b => by
    rw [cell_le_iff, cell_le_iff]
    intro h1 h2
    cases a; cases b
    simp only [Cell.mk.injEq] at *
    omega⟩

theorem insertionSort_eq_of_perm {l l' : List Cell} (h : l.Perm l') :
    l.insertionSort cell_le = l'.insertionSort cell_le := by
  haveI := cell_le_total
  haveI := cell_le_trans
  haveI := cell_le_antisymm
  exact List.eq_of_perm_of_sorted
    (((List.perm_insertionSort cell_le l).trans h).trans (List.perm_insertionSort cell_le l').symm)
    (List.sorted_insertionSort cell_le l) (List.sorted_insertionSort cell_le l')

/-! ## `poly_norm` depends on the cells only up to order and translation -/

theorem foldl_min_spec (f : Cell → Int) (l : List Cell) (a : Int) :
    l.foldl (fun m c => if f c < m then f c else m) a ≤ a ∧
      (∀ c ∈ l, l.foldl (fun m c => if f c < m then f c else m) a ≤ f c) ∧
      (l.foldl (fun m c => if f c < m then f c else m) a = a ∨
        ∃ c ∈ l, l.foldl (fun m c => if f c < m then f c else m) a = f c) := by
  induction l generalizing a with
  | nil => simp
  | cons c l ih =>
    simp only [List.foldl_cons, List.mem_cons, forall_eq_or_imp, exists_eq_or_imp]
    obtain ⟨h1, h2, h3⟩ := ih (if f c < a then f c else a)
    by_cases hc : f c < a
    · simp only [hc, if_true] at h1 h2 h3 ⊢
      refine ⟨by omega, ⟨h1, h2⟩, ?_⟩
      rcases h3 with h3 | h3
      · exact Or.inr (Or.inl h3)
      · exact Or.inr (Or.inr h3)
    · simp only [hc, if_false] at h1 h2 h3 ⊢
      refine ⟨h1, ⟨by omega, h2⟩, ?_⟩
      rcases h3 with h3 | h3
      · exact Or.inl h3
      · exact Or.inr (Or.inr h3)

theorem foldl_max_spec (f : Cell → Int) (l : List Cell) (a : Int) :
    a ≤ l.foldl (fun m c => if f c > m then f c else m) a ∧
      (∀ c ∈ l, f c ≤ l.foldl (fun m c => if f c > m then f c else m) a) ∧
      (l.foldl (fun m c => if f c > m then f c else m) a = a ∨
        ∃ c ∈ l, l.foldl (fun m c => if f c > m then f c else m) a = f c) := by
  induction l generalizing a with
  | nil => simp
  | cons c l ih =>
    simp only [List.foldl_cons, List.mem_cons, forall_eq_or_imp, exists_eq_or_imp]
    obtain ⟨h1, h2, h3⟩ := ih (if f c > a then f c else a)
    by_cases hc : f c > a
    · simp only [hc, if_true] at h1 h2 h3 ⊢
      refine ⟨by omega, ⟨h1, h2⟩, ?_⟩
      rcases h3 with h3 | h3
      · exact Or.inr (Or.inl h3)
      · exact Or.inr (Or.inr h3)
    · simp only [hc, if_false] at h1 h2 h3 ⊢
      refine ⟨h1, ⟨by omega, h2⟩, ?_⟩
      rcases h3 with h3 | h3
      · exact Or.inl h3
      · exact Or.inr (Or.inr h3)

theorem isMinOf_foldl (f : Cell → Int) (c0 : Cell) (rest : List Cell) :
    IsMinOf f (c0 :: rest) (rest.foldl (fun m c => if f c < m then f c else m) (f c0)) := by
  obtain ⟨h1, h2, h3⟩ := foldl_min_spec f rest (f c0)
  refine ⟨?_, ?_⟩
  · intro c hc
    rcases List.mem_cons.mp hc with rfl | hc
    · exact h1
    · exact h2 c hc
  · rcases h3 with h3 | ⟨c, hc, h3⟩
    · exact ⟨c0, by simp, h3⟩
    · exact ⟨c, by simp [hc], h3⟩

theorem isMaxOf_foldl (f : Cell → Int) (c0 : Cell) (rest : List Cell) :
    IsMaxOf f (c0 :: rest) (rest.foldl (fun m c => if f c > m then f c else m) (f c0)) := by
  obtain ⟨h1, h2, h3⟩ := foldl_max_spec f rest (f c0)
  refine ⟨?_, ?_⟩
  · intro c hc
    rcases List.mem_cons.mp hc with rfl | hc
    · exact h1
    · exact h2 c hc
  · rcases h3 with h3 | ⟨c, hc, h3⟩
    · exact ⟨c0, by simp, h3⟩
    · exact ⟨c, by simp [hc], h3⟩

theorem IsMinOf.min_unique {f : Cell → Int} {l : List Cell} {m m' : Int}
    (h : IsMinOf f l m) (h' : IsMinOf f l m') : m = m' := by
  obtain ⟨a, ⟨c, hc, rfl⟩⟩ := h
  obtain ⟨a', ⟨c', hc', rfl⟩⟩ := h'
  have := a c' hc'
  have := a' c hc
  omega

theorem IsMaxOf.max_unique {f : Cell → Int} {l : List Cell} {m m' : Int}
    (h : IsMaxOf f l m) (h' : IsMaxOf f l m') : m = m' := by
  obtain ⟨a, ⟨c, hc, rfl⟩⟩ := h
  obtain ⟨a', ⟨c', hc', rfl⟩⟩ := h'
  have := a c' hc'
  have := a' c hc
  omega

theorem IsMinOf.min_perm_map {f : Cell → Int} {l l' : List Cell} {m d : Int} (g : Cell → Cell)
    (h : IsMinOf f l m) (hp : l'.Perm (l.map g)) (hg : ∀ c, f (g c) = f c + d) :
    IsMinOf f l' (m + d) := by
  obtain ⟨h1, c, hc, rfl⟩ := h
  refine ⟨?_, g c, hp.symm.subset (List.mem_map_of_mem g hc), (hg c).symm⟩
  intro c' hc'
  obtain ⟨c'', hc'', rfl⟩ := List.mem_map.mp (hp.subset hc')
  have := h1 c'' hc''
  rw [hg]; omega

theorem IsMaxOf.max_perm_map {f : Cell → Int} {l l' : List Cell} {m d : Int} (g : Cell → Cell)
    (h : IsMaxOf f l m) (hp : l'.Perm (l.map g)) (hg : ∀ c, f (g c) = f c + d) :
    IsMaxOf f l' (m + d) := by
  obtain ⟨h1, c, hc, rfl⟩ := h
  refine ⟨?_, g c, hp.symm.subset (List.mem_map_of_mem g hc), (hg c).symm⟩
  intro c' hc'
  obtain ⟨c'', hc'', rfl⟩ := List.mem_map.mp (hp.subset hc')
  have := h1 c'' hc''
  rw [hg]; omega

/-- The result of `poly_norm` on a polyomino with at least one cell. -/
theorem poly_norm_cons (c0 : Cell) (rest : List Cell) (w h : Int) :
    poly_norm { c := c0 :: rest, w := w, h := h } =
      { c := ((c0 :: rest).map (fun c =>
            ({ x := c.x - rest.foldl (fun m c => if c.x < m then c.x else m) c0.x,
               y := c.y - rest.foldl (fun m c => if c.y < m then c.y else m) c0.y } : Cell))
          ).insertionSort cell_le
        w := (rest.foldl (fun m c => if c.x > m then c.x else m) c0.x -
              rest.foldl (fun m c => if c.x < m then c.x else m) c0.x) + 1
        h := (rest.foldl (fun m c => if c.y > m then c.y else m) c0.y -
              rest.foldl (fun m c => if c.y < m then c.y else m) c0.y) + 1 } := by
  simp [poly_norm, poly_sort, Poly.n]

/-- `poly_norm` gives the same result on two polyominoes whose cell lists agree up to
order and a translation. -/
theorem poly_norm_congr (p q : Poly) (dx dy : Int) (hp : p.c ≠ [])
    (h : q.c.Perm (p.c.map (fun c => ({ x := c.x + dx, y := c.y + dy } : Cell)))) :
    poly_norm q = poly_norm p := by
  obtain ⟨pc, pw, ph⟩ := p
  obtain ⟨qc, qw, qh⟩ := q
  simp only at hp h
  obtain ⟨c0, rest, rfl⟩ := List.exists_cons_of_ne_nil hp
  have hq : qc ≠ [] := by
    intro hnil; subst hnil
    simpa using h.length_eq
  obtain ⟨d0, rest', rfl⟩ := List.exists_cons_of_ne_nil hq
  rw [poly_norm_cons, poly_norm_cons]
  have hminx := (isMinOf_foldl Cell.x d0 rest').min_unique
    ((isMinOf_foldl Cell.x c0 rest).min_perm_map _ h (fun c => rfl))
  have hminy := (isMinOf_foldl Cell.y d0 rest').min_unique
    ((isMinOf_foldl Cell.y c0 rest).min_perm_map _ h (fun c => rfl))
  have hmaxx := (isMaxOf_foldl Cell.x d0 rest').max_unique
    ((isMaxOf_foldl Cell.x c0 rest).max_perm_map _ h (fun c => rfl))
  have hmaxy := (isMaxOf_foldl Cell.y d0 rest').max_unique
    ((isMaxOf_foldl Cell.y c0 rest).max_perm_map _ h (fun c => rfl))
  rw [hminx, hminy, hmaxx, hmaxy]
  congr 1
  · apply insertionSort_eq_of_perm
    refine (h.map _).trans ?_
    rw [List.map_map]
    apply List.Perm.of_eq
    apply List.map_congr_left
    intro c _
    simp only [Function.comp, Cell.mk.injEq]
    constructor <;> omega
  · omega
  · omega

/-! ## Candidates of `shape_make_oris` as images of the base under the symmetries -/

theorem poly_norm_eq_norm_cells (p : Poly) (hp : p.c ≠ []) : poly_norm p = norm_cells p.c := by
  unfold norm_cells
  symm
  apply poly_norm_congr p _ 0 0 hp
  simp

/-- The cells of a normalised polyomino are the given cells, reordered and translated. -/
theorem norm_cells_perm (l : List Cell) (hl : l ≠ []) :
    ∃ dx dy : Int, (norm_cells l).c.Perm (l.map (fun c => ({ x := c.x + dx, y := c.y + dy } : Cell))) := by
  obtain ⟨c0, rest, rfl⟩ := List.exists_cons_of_ne_nil hl
  unfold norm_cells
  rw [poly_norm_cons]
  refine ⟨-(rest.foldl (fun m c => if c.x < m then c.x else m) c0.x),
    -(rest.foldl (fun m c => if c.y < m then c.y else m) c0.y), ?_⟩
  simp only
  refine (List.perm_insertionSort cell_le _).trans ?_
  apply List.Perm.of_eq
  apply List.map_congr_left
  intro c _
  simp only [Cell.mk.injEq]
  constructor <;> omega

theorem norm_cells_ne_nil (l : List Cell) (hl : l ≠ []) : (norm_cells l).c ≠ [] := by
  obtain ⟨dx, dy, h⟩ := norm_cells_perm l hl
  intro hnil
  rw [hnil] at h
  have := h.length_eq
  simp only [List.length_nil, List.length_map] at this
  exact hl (List.length_eq_zero.mp this.symm)

theorem norm_cells_congr (l l' : List Cell) (dx dy : Int) (hl : l ≠ [])
    (h : l'.Perm (l.map (fun c => ({ x := c.x + dx, y := c.y + dy } : Cell)))) :
    norm_cells l' = norm_cells l :=
  poly_norm_congr { c := l, w := 0, h := 0 } { c := l', w := 0, h := 0 } dx dy hl h

/-- Applying a symmetry to the normalised cells and normalising again is the same as
applying it to the original cells and normalising once. -/
theorem norm_cells_act (k : D4) (l : List Cell) (hl : l ≠ []) :
    norm_cells ((norm_cells l).c.map k.act) = norm_cells (l.map k.act) := by
  obtain ⟨dx, dy, h⟩ := norm_cells_perm l hl
  apply norm_cells_congr (l.map k.act) _ (k.act ⟨dx, dy⟩).x (k.act ⟨dx, dy⟩).y (by simpa using hl)
  refine (h.map k.act).trans ?_
  rw [List.map_map, List.map_map]
  apply List.Perm.of_eq
  apply List.map_congr_left
  intro c _
  simp only [Function.comp]
  exact D4.act_add k c dx dy

theorem map_act_r0 (l : List Cell) : l.map D4.r0.act = l := by
  have : D4.r0.act = id := funext fun _ => rfl
  rw [this, List.map_id]

theorem norm_cells_idem (l : List Cell) (hl : l ≠ []) :
    norm_cells (norm_cells l).c = norm_cells l := by
  have := norm_cells_act .r0 l hl
  rwa [map_act_r0, map_act_r0] at this

theorem ori_cand_mul (b : List Cell) (hb : b ≠ []) (k g : D4) :
    ori_cand b (D4.mul k g) = norm_cells ((ori_cand b g).c.map k.act) := by
  unfold ori_cand
  rw [norm_cells_act k _ (by simpa using hb), List.map_map]
  congr 1
  apply List.map_congr_left
  intro c _
  exact D4.act_mul k g c

/-- Equal candidates stay equal when a further symmetry is applied to both. -/
theorem ori_cand_congr (b : List Cell) (hb : b ≠ []) (k x y : D4)
    (h : ori_cand b x = ori_cand b y) : ori_cand b (D4.mul k x) = ori_cand b (D4.mul k y) := by
  rw [ori_cand_mul b hb, ori_cand_mul b hb, h]

theorem ori_cand_cells_ne_nil (b : List Cell) (hb : b ≠ []) (g : D4) : (ori_cand b g).c ≠ [] :=
  norm_cells_ne_nil _ (by simpa using hb)

theorem poly_rot90_ori_cand (b : List Cell) (hb : b ≠ []) (g : D4) :
    poly_rot90 (ori_cand b g) = ori_cand b (D4.mul .r1 g) := by
  rw [ori_cand_mul b hb]
  rfl

theorem poly_flipx_ori_cand (b : List Cell) (hb : b ≠ []) (g : D4) :
    poly_flipx (ori_cand b g) = ori_cand b (D4.mul .f0 g) := by
  rw [ori_cand_mul b hb]
  rfl

theorem poly_norm_eq_ori_cand (p : Poly) (hp : p.c ≠ []) : poly_norm p = ori_cand p.c .r0 := by
  rw [poly_norm_eq_norm_cells p hp, ori_cand, map_act_r0]

/-- A candidate is determined by its cell list. -/
theorem ori_cand_eq_of_cells (b : List Cell) (hb : b ≠ []) (g h : D4)
    (hc : (ori_cand b g).c = (ori_cand b h).c) : ori_cand b g = ori_cand b h := by
  have hg := norm_cells_idem (b.map g.act) (by simpa using hb)
  have hh := norm_cells_idem (b.map h.act) (by simpa using hb)
  unfold ori_cand at hc ⊢
  rw [← hg, ← hh, hc]

/-! ## `poly_eq` -/

theorem zip_all_eq_iff (l l' : List Cell) (h : l.length = l'.length) :
    (List.zip l l').all (fun ab => !(ab.1.x ≠ ab.2.x || ab.1.y ≠ ab.2.y)) = true ↔ l = l' := by
  induction l generalizing l' with
  | nil =>
    cases l' with
    | nil => simp
    | cons => simp at h
  | cons a l ih =>
    cases l' with
    | nil => simp at h
    | cons a' l' =>
      have hlen : l.length = l'.length := by simpa using h
      have := ih l' hlen
      simp only [List.zip_cons_cons, List.all_cons, Bool.and_eq_true, this, List.cons.injEq]
      constructor
      · rintro ⟨h1, h2⟩
        refine ⟨?_, h2⟩
        cases a; cases a'
        simp at h1
        simp [h1.1, h1.2]
      · rintro ⟨rfl, h2⟩
        simp [h2]

/-- The test `poly_eq` compares exactly the cell lists. -/
theorem poly_eq_iff (a b : Poly) : poly_eq a b = true ↔ a.c = b.c := by
  unfold poly_eq Poly.n
  by_cases hlen : a.c.length = b.c.length
  · simp only [ne_eq, hlen, not_true_eq_false, if_false]
    exact zip_all_eq_iff a.c b.c hlen
  · simp only [ne_eq, hlen, not_false_eq_true, if_true]
    constructor
    · intro h; cases h
    · intro h; rw [h] at hlen; exact absurd rfl hlen

theorem poly_eq_ori_cand (b : List Cell) (hb : b ≠ []) (g h : D4) :
    poly_eq (ori_cand b g) (ori_cand b h) = true ↔ ori_cand b g = ori_cand b h := by
  rw [poly_eq_iff]
  exact ⟨ori_cand_eq_of_cells b hb g h, fun e => by rw [e]⟩

/-! ## The deduplicating loop of `shape_make_oris` -/

/-- The loop keeps one copy of every candidate, in order of first appearance. -/
theorem foldl_ori_push_spec (e : D4 → Poly)
    (he : ∀ g h, poly_eq (e g) (e h) = true ↔ e g = e h) (gs : List D4) (acc : List Poly)
    (hacc : ∀ p ∈ acc, ∃ g, p = e g) (hnd : acc.Nodup)
    (hlen : acc.length + gs.length ≤ MAX_ORI) :
    ((gs.map e).foldl ori_push acc).Nodup ∧
      (∀ p, p ∈ (gs.map e).foldl ori_push acc ↔ p ∈ acc ∨ p ∈ gs.map e) := by
  induction gs generalizing acc with
  | nil => simp [hnd]
  | cons g gs ih =>
    have hany : (acc.any fun o => poly_eq (e g) o) = true ↔ e g ∈ acc := by
      rw [List.any_eq_true]
      constructor
      · rintro ⟨o, ho, heq⟩
        obtain ⟨g', rfl⟩ := hacc o ho
        rw [(he g g').mp heq]; exact ho
      · intro hmem
        exact ⟨e g, hmem, (he g g).mpr rfl⟩
    simp only [List.map_cons, List.foldl_cons, List.length_cons] at hlen ⊢
    by_cases hmem : e g ∈ acc
    · have hpush : ori_push acc (e g) = acc := by
        unfold ori_push
        rw [if_pos (hany.mpr hmem)]
      rw [hpush]
      obtain ⟨h1, h2⟩ := ih acc hacc hnd (by omega)
      refine ⟨h1, fun p => ?_⟩
      rw [h2 p, List.mem_cons]
      constructor
      · rintro (h | h)
        · exact Or.inl h
        · exact Or.inr (Or.inr h)
      · rintro (h | rfl | h)
        · exact Or.inl h
        · exact Or.inl hmem
        · exact Or.inr h
    · have hpush : ori_push acc (e g) = acc ++ [e g] := by
        unfold ori_push
        rw [if_neg (fun h => hmem (hany.mp h)), if_pos (by omega)]
      rw [hpush]
      obtain ⟨h1, h2⟩ := ih (acc ++ [e g])
        (by
          intro p hp
          rcases List.mem_append.mp hp with hp | hp
          · exact hacc p hp
          · exact ⟨g, by simpa using hp⟩)
        (by
          rw [List.nodup_append]
          refine ⟨hnd, List.nodup_singleton _, ?_⟩
          intro a ha hb
          have : a = e g := by simpa using hb
          subst this
          exact hmem ha)
        (by simp only [List.length_append, List.length_singleton]; omega)
      refine ⟨h1, fun p => ?_⟩
      rw [h2 p]
      simp only [List.mem_append, List.mem_cons, List.mem_singleton, List.not_mem_nil]
      tauto

/-! ## Counting the distinct candidates -/

theorem D4.card_univ : (Finset.univ : Finset D4).card = 8 := by decide

/-- A map on the symmetries that respects composition on the left takes 1, 2, 4 or 8
distinct values: its value classes are the cosets of the class of the identity. -/
theorem D4.card_image_of_congr {α : Type} [DecidableEq α] (e : D4 → α)
    (hcongr : ∀ k x y, e x = e y → e (D4.mul k x) = e (D4.mul k y)) :
    (Finset.univ.image e).card = 1 ∨ (Finset.univ.image e).card = 2 ∨
      (Finset.univ.image e).card = 4 ∨ (Finset.univ.image e).card = 8 := by
  have hfib : ∀ g : D4, (Finset.univ.filter (fun x => e x = e g)).card =
      (Finset.univ.filter (fun x => e x = e D4.r0)).card := by
    intro g
    have himg : Finset.univ.filter (fun x => e x = e g) =
        (Finset.univ.filter (fun x => e x = e D4.r0)).image (D4.mul g) := by
      ext x
      simp only [Finset.mem_filter, Finset.mem_univ, true_and, Finset.mem_image]
      constructor
      · intro hx
        refine ⟨D4.mul g.inv x, ?_, D4.mul_inv_cancel_left g x⟩
        have := hcongr g.inv x g hx
        rwa [D4.inv_mul] at this
      · rintro ⟨h, hh, rfl⟩
        have := hcongr g h D4.r0 hh
        rwa [D4.mul_one] at this
    rw [himg, Finset.card_image_of_injective _ (fun x y h => D4.mul_left_cancel g x y h)]
  have hsum := Finset.card_eq_sum_card_fiberwise
    (s := (Finset.univ : Finset D4)) (t := Finset.univ.image e) (f := e)
    (fun x _ => Finset.mem_image_of_mem e (Finset.mem_univ x))
  have hconst : ∀ b ∈ Finset.univ.image e,
      (Finset.univ.filter (fun x => e x = b)).card =
        (Finset.univ.filter (fun x => e x = e D4.r0)).card := by
    intro b hb
    obtain ⟨g, _, rfl⟩ := Finset.mem_image.mp hb
    exact hfib g
  rw [Finset.sum_congr rfl hconst, Finset.sum_const, smul_eq_mul, D4.card_univ] at hsum
  have hle : (Finset.univ.image e).card ≤ 8 := by
    have := Finset.card_image_le (s := (Finset.univ : Finset D4)) (f := e)
    rwa [D4.card_univ] at this
  generalize (Finset.univ.image e).card = n at hsum hle
  generalize (Finset.univ.filter (fun x => e x = e D4.r0)).card = m at hsum
  have hm : m ≤ 8 := by
    rcases Nat.eq_zero_or_pos n with hn | hn
    · subst hn; omega
    · nlinarith
  interval_cases n <;> interval_cases m <;> omega

/-! ## The orientation list -/

theorem shape_make_oris_ori (s : Shape) (hs : s.base.c ≠ []) :
    (shape_make_oris s).ori =
      (([D4.r0, D4.r1, D4.r2, D4.r3, D4.f0, D4.f1, D4.f2, D4.f3]).map
        (ori_cand s.base.c)).foldl ori_push [] := by
  unfold shape_make_oris
  simp only [poly_norm_eq_ori_cand s.base hs, poly_rot90_ori_cand _ hs,
    poly_flipx_ori_cand _ hs, List.map_cons, List.map_nil]
  rfl

/-- C10: for every base polyomino with at least one cell, the orientation list built by
`shape_make_oris` has no two `poly_eq`-equal members, has 1, 2, 4 or 8 members, and for
each member `p` both `poly_rot90 p` and `poly_flipx p` are `poly_eq` to a member. -/
theorem shape_make_oris_orbit (s : Shape) (hs : s.base.c ≠ []) :
    (∀ i j : Fin (shape_make_oris s).ori.length, i ≠ j →
        poly_eq ((shape_make_oris s).ori.get i) ((shape_make_oris s).ori.get j) = false) ∧
      ((shape_make_oris s).ori.length = 1 ∨ (shape_make_oris s).ori.length = 2 ∨
        (shape_make_oris s).ori.length = 4 ∨ (shape_make_oris s).ori.length = 8) ∧
      ∀ p ∈ (shape_make_oris s).ori,
        (∃ q ∈ (shape_make_oris s).ori, poly_eq (poly_rot90 p) q = true) ∧
        (∃ q ∈ (shape_make_oris s).ori, poly_eq (poly_flipx p) q = true) := by
  have hall : ∀ g : D4, g ∈ [D4.r0, D4.r1, D4.r2, D4.r3, D4.f0, D4.f1, D4.f2, D4.f3] := by
    decide
  obtain ⟨hnd, hmem⟩ := foldl_ori_push_spec (ori_cand s.base.c)
    (poly_eq_ori_cand s.base.c hs) [D4.r0, D4.r1, D4.r2, D4.r3, D4.f0, D4.f1, D4.f2, D4.f3] []
    (by simp) List.nodup_nil (by decide)
  rw [← shape_make_oris_ori s hs] at hnd hmem
  generalize (shape_make_oris s).ori = ori at hnd hmem ⊢
  have hmem' : ∀ p, p ∈ ori ↔ ∃ g, ori_cand s.base.c g = p := by
    intro p
    rw [hmem p]
    simp only [List.not_mem_nil, false_or, List.mem_map]
    exact ⟨fun ⟨g, _, h⟩ => ⟨g, h⟩, fun ⟨g, h⟩ => ⟨g, hall g, h⟩⟩
  refine ⟨?_, ?_, ?_⟩
  · intro i j hij
    obtain ⟨g, hg⟩ := (hmem' _).mp (List.get_mem ori i.1 i.2)
    obtain ⟨h, hh⟩ := (hmem' _).mp (List.get_mem ori j.1 j.2)
    rw [Bool.eq_false_iff]
    intro heq
    rw [← hg, ← hh, poly_eq_ori_cand s.base.c hs, hg, hh] at heq
    exact hij ((List.Nodup.get_inj_iff hnd).mp heq)
  · have hset : ori.toFinset = Finset.univ.image (ori_cand s.base.c) := by
      ext p
      rw [List.mem_toFinset, Finset.mem_image]
      rw [hmem' p]
      exact ⟨fun ⟨g, h⟩ => ⟨g, Finset.mem_univ g, h⟩, fun ⟨g, _, h⟩ => ⟨g, h⟩⟩
    rw [← List.toFinset_card_of_nodup hnd, hset]
    exact D4.card_image_of_congr _ (fun k x y h => ori_cand_congr s.base.c hs k x y h)
  · intro p hp
    obtain ⟨g, hg⟩ := (hmem' p).mp hp
    subst hg
    constructor
    · refine ⟨ori_cand s.base.c (D4.mul .r1 g),
        (hmem' (ori_cand s.base.c (D4.mul .r1 g))).mpr ⟨D4.mul .r1 g, rfl⟩, ?_⟩
      rw [poly_rot90_ori_cand s.base.c hs g]
      exact (poly_eq_iff _ _).mpr rfl
    · refine ⟨ori_cand s.base.c (D4.mul .f0 g),
        (hmem' (ori_cand s.base.c (D4.mul .f0 g))).mpr ⟨D4.mul .f0 g, rfl⟩, ?_⟩
      rw [poly_flipx_ori_cand s.base.c hs g]
      exact (poly_eq_iff _ _).mpr rfl

/-! ## Word arrays -/

theorem getD_set (l : List Nat) (i j : Nat) (a : Nat) :
    (l.set i a).getD j 0 = if i = j ∧ i < l.length then a else l.getD j 0 := by
  by_cases hj : j < l.length
  · rw [List.getD_eq_getElem _ _ (by simpa using hj), List.getElem_set,
      List.getD_eq_getElem _ _ hj]
    by_cases hij : i = j
    · subst hij; simp only [hj, and_self, if_true]
    · simp only [hij, false_and, if_false]
  · rw [List.getD_eq_default _ _ (by simpa using hj), List.getD_eq_default _ _ (by omega)]
    split_ifs with h
    · omega
    · rfl

theorem foldl_set_length (f : Nat → Nat → Nat) (n : Nat) (occ : List Nat) :
    ((List.range n).foldl (fun o i => o.set i (f (o.getD i 0) i)) occ).length = occ.length := by
  induction n with
  | zero => rfl
  | succ n ih =>
    rw [List.range_succ, List.foldl_append]
    simp only [List.foldl_cons, List.foldl_nil, List.length_set]
    exact ih

/-- A loop that rewrites word `i` from its old value, for `i` below `n`. -/
theorem foldl_set_getD (f : Nat → Nat → Nat) (n : Nat) (occ : List Nat) :
    ∀ j, ((List.range n).foldl (fun o i => o.set i (f (o.getD i 0) i)) occ).getD j 0 =
      if j < n ∧ j < occ.length then f (occ.getD j 0) j else occ.getD j 0 := by
  induction n with
  | zero => intro j; simp only [List.range_zero, List.foldl_nil, Nat.not_lt_zero, false_and, if_false]
  | succ n ih =>
    intro j
    rw [List.range_succ, List.foldl_append]
    simp only [List.foldl_cons, List.foldl_nil]
    rw [getD_set, foldl_set_length, ih n, ih j]
    simp only [Nat.lt_irrefl, false_and, if_false]
    by_cases hjn : n = j
    · subst hjn
      by_cases hl : n < occ.length
      · simp only [hl, and_self, if_true, Nat.lt_succ_self]
      · simp only [hl, and_false, if_false]
    · have h1 : ¬ (n = j ∧ n < occ.length) := fun h => hjn h.1
      rw [if_neg h1]
      by_cases hj : j < n
      · simp only [hj, true_and, Nat.lt_succ_of_lt hj]
      · have : ¬ j < n + 1 := by omega
        simp only [hj, this, false_and, if_false]

theorem mask_apply_length (occ m : Mask) (n : Nat) : (mask_apply occ m n).length = occ.length :=
  foldl_set_length (fun o i => o ||| m.getD i 0) n occ

theorem mask_apply_getD (occ m : Mask) (n j : Nat) :
    (mask_apply occ m n).getD j 0 =
      if j < n ∧ j < occ.length then occ.getD j 0 ||| m.getD j 0 else occ.getD j 0 :=
  foldl_set_getD (fun o i => o ||| m.getD i 0) n occ j

theorem mask_unapply_length (occ m : Mask) (n : Nat) :
    (mask_unapply occ m n).length = occ.length :=
  foldl_set_length (fun o i => o ^^^ m.getD i 0) n occ

theorem mask_unapply_getD (occ m : Mask) (n j : Nat) :
    (mask_unapply occ m n).getD j 0 =
      if j < n ∧ j < occ.length then occ.getD j 0 ^^^ m.getD j 0 else occ.getD j 0 :=
  foldl_set_getD (fun o i => o ^^^ m.getD i 0) n occ j

theorem mask_overlaps_eq_false (occ m : Mask) (n : Nat) :
    mask_overlaps occ m n = false ↔ ∀ i, i < n → occ.getD i 0 &&& m.getD i 0 = 0 := by
  unfold mask_overlaps
  rw [List.any_eq_false]
  constructor
  · intro h i hi
    have := h i (List.mem_range.mpr hi)
    simpa only [ne_eq, decide_not, Bool.not_eq_false', decide_eq_true_eq, Bool.not_eq_true',
      decide_eq_false_iff_not, not_not] using this
  · intro h i hi
    have := h i (List.mem_range.mp hi)
    simp only [ne_eq, this, not_true_eq_false, decide_False, Bool.false_eq_true,
      not_false_eq_true]

theorem list_ext_getD (l l' : List Nat) (hlen : l.length = l'.length)
    (h : ∀ j, l.getD j 0 = l'.getD j 0) : l = l' := by
  apply List.ext_getElem hlen
  intro j h1 h2
  have := h j
  rwa [List.getD_eq_getElem _ _ h1, List.getD_eq_getElem _ _ h2] at this

theorem or_xor_cancel (a b : Nat) (h : a &&& b = 0) : (a ||| b) ^^^ b = a := by
  apply Nat.eq_of_testBit_eq
  intro i
  have hi := congrArg (fun x => x.testBit i) h
  simp only [Nat.testBit_and, Nat.zero_testBit] at hi
  rw [Nat.testBit_xor, Nat.testBit_or]
  cases ha : a.testBit i <;> cases hb : b.testBit i <;> simp_all

theorem and_or_eq_zero (a b c : Nat) : (a ||| b) &&& c = 0 ↔ a &&& c = 0 ∧ b &&& c = 0 := by
  constructor
  · intro h
    constructor <;> apply Nat.eq_of_testBit_eq <;> intro i <;>
      have hi := congrArg (fun x => x.testBit i) h <;>
      simp only [Nat.testBit_and, Nat.testBit_or, Nat.zero_testBit] at hi ⊢ <;>
      cases ha : a.testBit i <;> cases hb : b.testBit i <;> cases hc : c.testBit i <;> simp_all
  · rintro ⟨h1, h2⟩
    apply Nat.eq_of_testBit_eq
    intro i
    have hi1 := congrArg (fun x => x.testBit i) h1
    have hi2 := congrArg (fun x => x.testBit i) h2
    simp only [Nat.testBit_and, Nat.testBit_or, Nat.zero_testBit] at hi1 hi2 ⊢
    cases ha : a.testBit i <;> cases hb : b.testBit i <;> cases hc : c.testBit i <;> simp_all

/-- Undoing a placement with XOR restores the occupancy when the mask did not overlap. -/
theorem mask_unapply_apply (occ m : Mask) (n : Nat) (h : mask_overlaps occ m n = false) :
    mask_unapply (mask_apply occ m n) m n = occ := by
  apply list_ext_getD
  · rw [mask_unapply_length, mask_apply_length]
  · intro j
    rw [mask_unapply_getD, mask_apply_length, mask_apply_getD]
    by_cases hj : j < n ∧ j < occ.length
    · rw [if_pos hj, if_pos hj]
      exact or_xor_cancel _ _ ((mask_overlaps_eq_false occ m n).mp h j hj.1)
    · rw [if_neg hj, if_neg hj]

/-- After a placement a mask is free iff it was free before and is disjoint from the
placed mask. -/
theorem mask_overlaps_apply (occ m m' : Mask) (n : Nat) (hlen : n ≤ occ.length) :
    mask_overlaps (mask_apply occ m n) m' n = false ↔
      mask_overlaps occ m' n = false ∧ mask_overlaps m m' n = false := by
  simp only [mask_overlaps_eq_false]
  constructor
  · intro h
    constructor <;> intro i hi <;> have := h i hi <;>
      rw [mask_apply_getD, if_pos ⟨hi, by omega⟩, and_or_eq_zero] at this
    · exact this.1
    · exact this.2
  · rintro ⟨h1, h2⟩ i hi
    rw [mask_apply_getD, if_pos ⟨hi, by omega⟩, and_or_eq_zero]
    exact ⟨h1 i hi, h2 i hi⟩

/-! ## `choose_next_type` -/

theorem count_compatible_le (occ : Mask) (nwords : Nat) (best_count : Int) (ms : List Mask)
    (cnt : Int) : count_compatible occ nwords best_count ms cnt ≤ cnt + ms.length := by
  induction ms generalizing cnt with
  | nil => simp [count_compatible]
  | cons m ms ih =>
    simp only [count_compatible, List.length_cons, Nat.cast_add, Nat.cast_one]
    split_ifs
    · omega
    · have := ih (cnt + 1); omega
    · have := ih cnt; omega

/-- The loop returns either the best type found so far or a type it has looked at that
is still demanded. -/
theorem choose_next_type_loop_spec (c : Ctx) (k t : Nat) (best best_count : Int) :
    choose_next_type_loop c k t best best_count = best ∨
      ∃ r : Nat, choose_next_type_loop c k t best best_count = (r : Int) ∧
        t ≤ r ∧ r < t + k ∧ 0 < c.need.getD r 0 := by
  induction k generalizing t best best_count with
  | zero => left; rfl
  | succ k ih =>
    simp only [choose_next_type_loop]
    split_ifs with h1 h2 h3 h4
    · rcases ih (t + 1) best best_count with h | ⟨r, hr, h5, h6, h7⟩
      · exact Or.inl h
      · exact Or.inr ⟨r, hr, by omega, by omega, h7⟩
    · exact Or.inr ⟨t, rfl, le_refl t, by omega, by omega⟩
    · exact Or.inr ⟨t, rfl, le_refl t, by omega, by omega⟩
    · rcases ih (t + 1) (t : Int) _ with h | ⟨r, hr, h5, h6, h7⟩
      · exact Or.inr ⟨t, h, le_refl t, by omega, by omega⟩
      · exact Or.inr ⟨r, hr, by omega, by omega, h7⟩
    · rcases ih (t + 1) best best_count with h | ⟨r, hr, h5, h6, h7⟩
      · exact Or.inl h
      · exact Or.inr ⟨r, hr, by omega, by omega, h7⟩

/-- The type chosen is `-1` or a type in range with a positive remaining demand. -/
theorem choose_next_type_spec (c : Ctx) :
    choose_next_type c = -1 ∨
      ∃ r : Nat, choose_next_type c = (r : Int) ∧ r < c.sh_n ∧ 0 < c.need.getD r 0 := by
  rcases choose_next_type_loop_spec c c.sh_n 0 (-1) INT_MAX with h | ⟨r, hr, _, h2, h3⟩
  · exact Or.inl h
  · exact Or.inr ⟨r, hr, by omega, h3⟩

/-- The loop finds a type as soon as one already is the best or one in its range is
demanded and has fewer than `best_count` placements. -/
theorem choose_next_type_loop_nonneg (c : Ctx) (k t : Nat) (best best_count : Int)
    (h : 0 ≤ best ∨ (∃ r, t ≤ r ∧ r < t + k ∧ 0 < c.need.getD r 0) ∧
      ∀ r, ((c.place.getD r []).length : Int) < best_count) :
    0 ≤ choose_next_type_loop c k t best best_count := by
  induction k generalizing t best best_count with
  | zero =>
    rcases h with h | ⟨⟨r, h1, h2, _⟩, _⟩
    · exact h
    · omega
  | succ k ih =>
    simp only [choose_next_type_loop]
    split_ifs with h1 h2 h3 h4
    · apply ih
      rcases h with h | ⟨⟨r, h5, h6, h7⟩, h8⟩
      · exact Or.inl h
      · refine Or.inr ⟨⟨r, ?_, by omega, h7⟩, h8⟩
        rcases Nat.eq_or_lt_of_le h5 with h9 | h9
        · subst h9; omega
        · omega
    · omega
    · omega
    · exact ih _ _ _ (Or.inl (by omega))
    · apply ih
      rcases h with h | ⟨_, h8⟩
      · exact Or.inl h
      · exfalso
        have hle := count_compatible_le c.occ c.nwords best_count
          ((c.place.getD t []).drop (start_index (c.last_idx.getD t 0))) 0
        have hlen := h8 t
        have hdrop : (((c.place.getD t []).drop (start_index (c.last_idx.getD t 0))).length : Int)
            ≤ ((c.place.getD t []).length : Int) := by
          simp only [List.length_drop]; omega
        omega

theorem choose_next_type_nonneg (c : Ctx) (h : ∃ r, r < c.sh_n ∧ 0 < c.need.getD r 0)
    (hlen : ∀ r, ((c.place.getD r []).length : Int) < INT_MAX) : 0 ≤ choose_next_type c := by
  apply choose_next_type_loop_nonneg
  obtain ⟨r, h1, h2⟩ := h
  exact Or.inr ⟨⟨r, Nat.zero_le r, by omega, h2⟩, hlen⟩

/-! ## A failed search leaves the context as it was -/

theorem set_getD_self (l : List Int) (t : Nat) : l.set t (l.getD t 0) = l := by
  induction l generalizing t with
  | nil => rfl
  | cons a l ih =>
    cases t with
    | zero => rfl
    | succ t => simp only [List.getD_cons_succ, List.set_cons_succ, ih]

theorem set_set_getD_restore (l : List Int) (t : Nat) (a : Int) :
    (l.set t a).set t (l.getD t 0) = l := by
  rw [List.set_set, set_getD_self]

theorem need_restore (l : List Int) (t : Nat) :
    (l.set t (l.getD t 0 - 1)).set t ((l.set t (l.getD t 0 - 1)).getD t 0 + 1) = l := by
  rw [List.set_set]
  by_cases h : t < l.length
  · have h' : t < (l.set t (l.getD t 0 - 1)).length := by simpa using h
    rw [List.getD_eq_getElem _ _ h', List.getElem_set_self]
    have : l.getD t 0 - 1 + 1 = l.getD t 0 := by omega
    rw [this, set_getD_self]
  · exact List.set_eq_of_length_le (by omega)

theorem Ctx.eq_of_fields (a b : Ctx) (h1 : a.W = b.W) (h2 : a.H = b.H)
    (h3 : a.nwords = b.nwords) (h4 : a.sh = b.sh) (h5 : a.sh_n = b.sh_n)
    (h6 : a.place = b.place) (h7 : a.need = b.need) (h8 : a.last_idx = b.last_idx)
    (h9 : a.area = b.area) (h10 : a.occ = b.occ) (h11 : a.remaining_area = b.remaining_area)
    (h12 : a.free_cells = b.free_cells) : a = b := by
  cases a; cases b
  simp only at h1 h2 h3 h4 h5 h6 h7 h8 h9 h10 h11 h12
  subst h1 h2 h3 h4 h5 h6 h7 h8 h9 h10 h11 h12
  rfl

theorem SameUpToLast.refl (t : Nat) (c : Ctx) : SameUpToLast t c c := ⟨c.last_idx, rfl, fun _ => rfl⟩

/-- When the placement loop falls through, only `last_idx[t]` can differ from the state
at loop entry, if each failed recursive call has restored its context. -/
theorem dfs_loop_false (call : Ctx → Option (Bool × Ctx))
    (hcall : ∀ c c', call c = some (false, c') → c' = c) (t : Nat) (ms : List Mask) (i : Nat)
    (c c' : Ctx) (h : dfs_loop call t ms i c = some (false, c')) : SameUpToLast t c c' := by
  induction ms generalizing i c with
  | nil =>
    simp only [dfs_loop, Option.some.injEq, Prod.mk.injEq, true_and] at h
    subst h
    exact SameUpToLast.refl t c
  | cons m ms ih =>
    simp only [dfs_loop] at h
    by_cases hov : mask_overlaps c.occ m c.nwords = true
    · rw [if_pos hov] at h
      exact ih (i + 1) c h
    · rw [if_neg hov] at h
      have hov' : mask_overlaps c.occ m c.nwords = false := by simpa using hov
      cases hc : call { c with
          last_idx := c.last_idx.set t (i : Int)
          occ := mask_apply c.occ m c.nwords
          free_cells := c.free_cells - c.area.getD t 0 } with
      | none => rw [hc] at h; simp at h
      | some r =>
        obtain ⟨b, c2⟩ := r
        rw [hc] at h
        cases b with
        | true => simp at h
        | false =>
          have hc2 := hcall _ _ hc
          subst hc2
          simp only at h
          rw [mask_unapply_apply c.occ m c.nwords hov'] at h
          have hfree : c.free_cells - c.area.getD t 0 + c.area.getD t 0 = c.free_cells := by omega
          rw [hfree] at h
          obtain ⟨l, hl, hset⟩ := ih (i + 1) _ h
          refine ⟨l, hl, fun x => ?_⟩
          rw [hset x]
          simp only [List.set_set]

/-- A call of `dfs` that returns `false` returns the context it was given. -/
theorem dfs_false (fuel : Nat) (c c' : Ctx) (h : dfs fuel c = some (false, c')) : c' = c := by
  induction fuel generalizing c c' with
  | zero => simp [dfs] at h
  | succ fuel ih =>
    simp only [dfs] at h
    split_ifs at h with h1 h2 h3 h4
    · simp at h
    · simpa using h.symm
    · simpa using h.symm
    · simpa using h.symm
    · cases hl : dfs_loop (dfs fuel) (choose_next_type c).toNat
          (List.drop (start_index (c.last_idx.getD (choose_next_type c).toNat 0))
            (c.place.getD (choose_next_type c).toNat []))
          (start_index (c.last_idx.getD (choose_next_type c).toNat 0))
          { c with
            need := c.need.set (choose_next_type c).toNat
              (c.need.getD (choose_next_type c).toNat 0 - 1)
            remaining_area := c.remaining_area - c.area.getD (choose_next_type c).toNat 0 } with
      | none => rw [hl] at h; simp at h
      | some r =>
        obtain ⟨b, c2⟩ := r
        rw [hl] at h
        cases b with
        | true => simp at h
        | false =>
          obtain ⟨l, hl2, hset⟩ := dfs_loop_false (dfs fuel) (fun a b hab => ih a b hab) _ _ _ _ _ hl
          subst hl2
          simp only [Option.some.injEq, Prod.mk.injEq, true_and] at h
          subst h
          apply Ctx.eq_of_fields <;> simp only []
          · exact need_restore c.need _
          · rw [hset]; exact set_getD_self c.last_idx _
          · omega

/-! ## The search returns within its budget -/

theorem sum_toNat_set_pred (l : List Int) (t : Nat) (h : 0 < l.getD t 0) :
    ((l.set t (l.getD t 0 - 1)).map Int.toNat).sum + 1 = (l.map Int.toNat).sum := by
  induction l generalizing t with
  | nil => simp at h
  | cons a l ih =>
    cases t with
    | zero =>
      simp only [List.getD_cons_zero] at h
      simp only [List.getD_cons_zero, List.set_cons_zero, List.map_cons, List.sum_cons]
      omega
    | succ t =>
      simp only [List.getD_cons_succ] at h
      simp only [List.getD_cons_succ, List.set_cons_succ, List.map_cons, List.sum_cons]
      have := ih t h
      omega

theorem dfs_loop_total (call : Ctx → Option (Bool × Ctx))
    (hcall : ∀ c c', call c = some (false, c') → c' = c) (need : List Int)
    (htotal : ∀ c : Ctx, c.need = need → ∃ r, call c = some r) (t : Nat) (ms : List Mask)
    (i : Nat) (c : Ctx) (hc : c.need = need) : ∃ r, dfs_loop call t ms i c = some r := by
  induction ms generalizing i c with
  | nil => exact ⟨_, rfl⟩
  | cons m ms ih =>
    simp only [dfs_loop]
    split_ifs with hov
    · exact ih (i + 1) c hc
    · obtain ⟨r, hr⟩ := htotal { c with
          last_idx := c.last_idx.set t (i : Int)
          occ := mask_apply c.occ m c.nwords
          free_cells := c.free_cells - c.area.getD t 0 } hc
      obtain ⟨b, c2⟩ := r
      rw [hr]
      cases b with
      | true => exact ⟨_, rfl⟩
      | false =>
        have := hcall _ _ hr
        subst this
        exact ih (i + 1) _ hc

/-- `dfs` returns a result whenever its budget exceeds the number of pieces still to be
placed: every recursive call is made with one piece fewer. -/
theorem dfs_total (fuel : Nat) (c : Ctx) (h : total_need c < fuel) : ∃ r, dfs fuel c = some r := by
  induction fuel generalizing c with
  | zero => omega
  | succ fuel ih =>
    simp only [dfs]
    split_ifs with h1 h2 h3 h4
    · exact ⟨_, rfl⟩
    · exact ⟨_, rfl⟩
    · exact ⟨_, rfl⟩
    · exact ⟨_, rfl⟩
    · have hpos : 0 < c.need.getD (choose_next_type c).toNat 0 := by
        rcases choose_next_type_spec c with h5 | ⟨r, hr, _, h6⟩
        · omega
        · rw [hr]; simpa using h6
      have hdec := sum_toNat_set_pred c.need _ hpos
      obtain ⟨r, hr⟩ := dfs_loop_total (dfs fuel) (fun a b hab => dfs_false fuel a b hab)
        (c.need.set (choose_next_type c).toNat (c.need.getD (choose_next_type c).toNat 0 - 1))
        (fun c' hc' => ih c' (by unfold total_need at h ⊢; rw [hc']; omega))
        (choose_next_type c).toNat
        (List.drop (start_index (c.last_idx.getD (choose_next_type c).toNat 0))
            (c.place.getD (choose_next_type c).toNat []))
        (start_index (c.last_idx.getD (choose_next_type c).toNat 0))
        { c with
            need := c.need.set (choose_next_type c).toNat
              (c.need.getD (choose_next_type c).toNat 0 - 1)
            remaining_area := c.remaining_area - c.area.getD (choose_next_type c).toNat 0 } rfl
      rw [hr]
      obtain ⟨b, c2⟩ := r
      cases b <;> exact ⟨_, rfl⟩

/-! ## A successful search is a run of legal placements -/

theorem getD_set_int (l : List Int) (i j : Nat) (a : Int) :
    (l.set i a).getD j 0 = if i = j ∧ i < l.length then a else l.getD j 0 := by
  by_cases hj : j < l.length
  · rw [List.getD_eq_getElem _ _ (by simpa using hj), List.getElem_set,
      List.getD_eq_getElem _ _ hj]
    by_cases hij : i = j
    · subst hij; simp only [hj, and_self, if_true]
    · simp only [hij, false_and, if_false]
  · rw [List.getD_eq_default _ _ (by simpa using hj), List.getD_eq_default _ _ (by omega)]
    split_ifs with h
    · omega
    · rfl

/-- When the placement loop returns `true`, the recursive call returned `true` for some
mask of the list that was free in the state at loop entry. -/
theorem dfs_loop_true (call : Ctx → Option (Bool × Ctx))
    (hcall : ∀ c c', call c = some (false, c') → c' = c) (t : Nat) (ms : List Mask) (i : Nat)
    (c c' : Ctx) (h : dfs_loop call t ms i c = some (true, c')) :
    ∃ (j : Nat) (m : Mask) (cl : Ctx), ms.get? j = some m ∧ SameUpToLast t c cl ∧
      mask_overlaps cl.occ m cl.nwords = false ∧
      call { cl with
        last_idx := cl.last_idx.set t ((i + j : Nat) : Int)
        occ := mask_apply cl.occ m cl.nwords
        free_cells := cl.free_cells - cl.area.getD t 0 } = some (true, c') := by
  induction ms generalizing i c with
  | nil => simp [dfs_loop] at h
  | cons m ms ih =>
    simp only [dfs_loop] at h
    by_cases hov : mask_overlaps c.occ m c.nwords = true
    · rw [if_pos hov] at h
      obtain ⟨j, m', cl, h1, h2, h3, h4⟩ := ih (i + 1) c h
      refine ⟨j + 1, m', cl, by simpa using h1, h2, h3, ?_⟩
      have : i + (j + 1) = i + 1 + j := by omega
      rw [this]; exact h4
    · rw [if_neg hov] at h
      have hov' : mask_overlaps c.occ m c.nwords = false := by simpa using hov
      cases hc : call { c with
          last_idx := c.last_idx.set t (i : Int)
          occ := mask_apply c.occ m c.nwords
          free_cells := c.free_cells - c.area.getD t 0 } with
      | none => rw [hc] at h; simp at h
      | some r =>
        obtain ⟨b, c2⟩ := r
        rw [hc] at h
        cases b with
        | true =>
          simp only [Option.some.injEq, Prod.mk.injEq, true_and] at h
          subst h
          exact ⟨0, m, c, rfl, SameUpToLast.refl t c, hov', by simpa using hc⟩
        | false =>
          have hc2 := hcall _ _ hc
          subst hc2
          simp only at h
          rw [mask_unapply_apply c.occ m c.nwords hov'] at h
          have hfree : c.free_cells - c.area.getD t 0 + c.area.getD t 0 = c.free_cells := by omega
          rw [hfree] at h
          obtain ⟨j, m', cl, h1, ⟨l, hl, hset⟩, h3, h4⟩ := ih (i + 1) _ h
          refine ⟨j + 1, m', cl, by simpa using h1, ⟨l, hl, fun x => ?_⟩, h3, ?_⟩
          · rw [hset x]; simp only [List.set_set]
          · have : i + (j + 1) = i + 1 + j := by omega
            rw [this]; exact h4

theorem start_index_le (last : Int) (i : Nat) (h : start_index last ≤ i) : last < (i : Int) := by
  unfold start_index at h
  simp only at h
  split_ifs at h <;> omega

/-- Soundness of the search: when `dfs` returns `true`, the context it leaves is reached
from the given one by a run of legal placements, and nothing remains to be placed. -/
theorem dfs_true_run (fuel : Nat) (c c' : Ctx) (h : dfs fuel c = some (true, c')) :
    ∃ picks, Run c picks c' ∧ c'.remaining_area = 0 := by
  induction fuel generalizing c c' with
  | zero => simp [dfs] at h
  | succ fuel ih =>
    simp only [dfs] at h
    split_ifs at h with h1 h2 h3 h4
    · simp only [Option.some.injEq, Prod.mk.injEq, true_and] at h
      subst h
      exact ⟨[], Run.nil c, h1⟩
    · simp at h
    · simp at h
    · simp at h
    · rcases choose_next_type_spec c with h5 | ⟨r, hr, hr1, hr2⟩
      · omega
      · have hrn : (choose_next_type c).toNat = r := by rw [hr]; simp
        rw [hrn] at h h4
        cases hl : dfs_loop (dfs fuel) r
            (List.drop (start_index (c.last_idx.getD r 0)) (c.place.getD r []))
            (start_index (c.last_idx.getD r 0))
            { c with
              need := c.need.set r (c.need.getD r 0 - 1)
              remaining_area := c.remaining_area - c.area.getD r 0 } with
        | none => rw [hl] at h; simp at h
        | some res =>
          obtain ⟨b, c2⟩ := res
          rw [hl] at h
          cases b with
          | false => simp at h
          | true =>
            simp only [Option.some.injEq, Prod.mk.injEq, true_and] at h
            subst h
            obtain ⟨j, m, cl, hj, ⟨l, hcl, hset⟩, hfree, hcall⟩ :=
              dfs_loop_true (dfs fuel) (fun a b hab => dfs_false fuel a b hab) _ _ _ _ _ hl
            subst hcl
            simp only at hfree hcall
            rw [List.get?_eq_getElem?, List.getElem?_drop, ← List.get?_eq_getElem?] at hj
            have hjlt : start_index (c.last_idx.getD r 0) + j < (c.place.getD r []).length := by
              by_contra hge
              rw [List.get?_eq_none.mpr (by omega)] at hj
              cases hj
            have hm : m = c.mask (r, start_index (c.last_idx.getD r 0) + j) := by
              unfold Ctx.mask
              simp only
              rw [List.getD_eq_getElem _ _ hjlt]
              rw [List.get?_eq_get hjlt] at hj
              simpa using hj.symm
            simp only at hset
            have hcall' : dfs fuel (place_piece c (r, start_index (c.last_idx.getD r 0) + j)) =
                some (true, c2) := by
              rw [← hcall]
              congr 1
              unfold place_piece
              rw [hset, hm]
            obtain ⟨picks, hrun, hrem⟩ := ih _ _ hcall'
            refine ⟨(r, start_index (c.last_idx.getD r 0) + j) :: picks,
              Run.cons _ _ _ _ ⟨hr2, hr1, hjlt, ?_, ?_⟩ hrun, hrem⟩
            · exact start_index_le (c.last_idx.getD r 0) _ (Nat.le_add_right _ _)
            · rw [← hm]; exact hfree

/-! ## What a run of placements does to the context -/

theorem Run.static {c c' : Ctx} {picks : List (Nat × Nat)} (h : Run c picks c') :
    c'.W = c.W ∧ c'.H = c.H ∧ c'.nwords = c.nwords ∧ c'.sh_n = c.sh_n ∧ c'.place = c.place ∧
      c'.area = c.area ∧ c'.last_idx.length = c.last_idx.length ∧
      c'.occ.length = c.occ.length := by
  induction h with
  | nil c => simp
  | cons c a picks c' _ _ ih =>
    obtain ⟨h1, h2, h3, h4, h5, h6, h7, h8⟩ := ih
    refine ⟨h1, h2, h3, h4, h5, h6, ?_, ?_⟩
    · rw [h7]; simp [place_piece]
    · rw [h8]; simp [place_piece, mask_apply_length]

/-- The picks of a run are legal in the first context, those of one type have increasing
indices, and their masks are pairwise disjoint. -/
theorem Run.picks_spec {c c' : Ctx} {picks : List (Nat × Nat)} (h : Run c picks c')
    (hlast : c.sh_n ≤ c.last_idx.length) (hocc : c.nwords ≤ c.occ.length) :
    (∀ a ∈ picks, a.1 < c.sh_n ∧ a.2 < (c.place.getD a.1 []).length ∧
        c.last_idx.getD a.1 0 < (a.2 : Int) ∧
        mask_overlaps c.occ (c.mask a) c.nwords = false) ∧
      picks.Pairwise (fun a b => (a.1 = b.1 → a.2 < b.2) ∧
        mask_overlaps (c.mask a) (c.mask b) c.nwords = false) := by
  induction h with
  | nil c => simp
  | cons c a picks c' hcan _ ih =>
    obtain ⟨hneed, hlt, hidx, hlastlt, hfree⟩ := hcan
    have hlast' : (place_piece c a).sh_n ≤ (place_piece c a).last_idx.length := by
      simpa [place_piece] using hlast
    have hocc' : (place_piece c a).nwords ≤ (place_piece c a).occ.length := by
      simpa [place_piece, mask_apply_length] using hocc
    obtain ⟨ih1, ih2⟩ := ih hlast' hocc'
    have hstep : ∀ b ∈ picks, (b.1 < c.sh_n ∧ b.2 < (c.place.getD b.1 []).length ∧
        c.last_idx.getD b.1 0 < (b.2 : Int) ∧
        mask_overlaps c.occ (c.mask b) c.nwords = false) ∧
        ((a.1 = b.1 → a.2 < b.2) ∧ mask_overlaps (c.mask a) (c.mask b) c.nwords = false) := by
      intro b hb
      obtain ⟨g1, g2, g3, g4⟩ := ih1 b hb
      have g3' : (c.last_idx.set a.1 (a.2 : Int)).getD b.1 0 < (b.2 : Int) := g3
      have g4' : mask_overlaps (mask_apply c.occ (c.mask a) c.nwords) (c.mask b) c.nwords =
          false := g4
      rw [getD_set_int] at g3'
      rw [mask_overlaps_apply _ _ _ _ hocc] at g4'
      refine ⟨⟨g1, g2, ?_, g4'.1⟩, ?_, g4'.2⟩
      · by_cases hab : a.1 = b.1
        · rw [if_pos ⟨hab, by omega⟩] at g3'
          rw [← hab]; omega
        · rw [if_neg (fun h => hab h.1)] at g3'
          exact g3'
      · intro hab
        rw [if_pos ⟨hab, by omega⟩] at g3'
        exact_mod_cast g3'
    constructor
    · intro b hb
      rcases List.mem_cons.mp hb with rfl | hb
      · exact ⟨hlt, hidx, hlastlt, hfree⟩
      · exact (hstep b hb).1
    · rw [List.pairwise_cons]
      exact ⟨fun b hb => (hstep b hb).2, ih2⟩

theorem filter_fst_length_cons (a : Nat × Nat) (picks : List (Nat × Nat)) (t : Nat) :
    (((a :: picks).filter (fun b => b.1 = t)).length : Int) =
      (if a.1 = t then 1 else 0) + ((picks.filter (fun b => b.1 = t)).length : Int) := by
  by_cases h : a.1 = t
  · simp [List.filter_cons, h]; omega
  · simp [List.filter_cons, h]

/-- Each pick of a run lowers the demand of its type by one, and no demand becomes
negative. -/
theorem Run.need_spec {c c' : Ctx} {picks : List (Nat × Nat)} (h : Run c picks c') :
    (∀ t, c'.need.getD t 0 =
        c.need.getD t 0 - ((picks.filter (fun a => a.1 = t)).length : Int)) ∧
      ((∀ t, 0 ≤ c.need.getD t 0) → ∀ t, 0 ≤ c'.need.getD t 0) := by
  induction h with
  | nil c => simp
  | cons c a picks c' hcan _ ih =>
    obtain ⟨hneed, _⟩ := hcan
    obtain ⟨ih1, ih2⟩ := ih
    have hlen : a.1 < c.need.length := by
      by_contra hge
      rw [List.getD_eq_default _ _ (by omega)] at hneed
      omega
    have hget : ∀ t, (place_piece c a).need.getD t 0 =
        if a.1 = t then c.need.getD a.1 0 - 1 else c.need.getD t 0 := by
      intro t
      show (c.need.set a.1 (c.need.getD a.1 0 - 1)).getD t 0 = _
      rw [getD_set_int]
      by_cases hat : a.1 = t
      · rw [if_pos ⟨hat, hlen⟩, if_pos hat]
      · rw [if_neg (fun h => hat h.1), if_neg hat]
    constructor
    · intro t
      rw [ih1 t, hget t, filter_fst_length_cons]
      by_cases hat : a.1 = t
      · subst hat; simp only [if_true]; omega
      · simp only [hat, if_false]; omega
    · intro hnn t
      apply ih2
      intro t'
      rw [hget t']
      by_cases hat : a.1 = t'
      · simp only [hat, if_true]; subst hat; omega
      · simp only [hat, if_false]; exact hnn t'

theorem Run.remaining_spec {c c' : Ctx} {picks : List (Nat × Nat)} (h : Run c picks c') :
    c'.remaining_area =
      c.remaining_area - (picks.map (fun a => c.area.getD a.1 0)).sum := by
  induction h with
  | nil c => simp
  | cons c a picks c' _ _ ih =>
    rw [ih]
    simp only [place_piece, List.map_cons, List.sum_cons]
    omega

/-! ## Completeness of the search -/

theorem mask_overlaps_comm (a b : Mask) (n : Nat) : mask_overlaps a b n = mask_overlaps b a n := by
  unfold mask_overlaps
  congr 1
  funext i
  rw [Nat.land_comm]

theorem le_start_index (last : Int) (i : Nat) (h : last < (i : Int)) : start_index last ≤ i := by
  unfold start_index
  simp only
  split_ifs <;> omega

/-- The placement loop returns `true` when the recursive call succeeds for a free mask at
an index `istar` it has not passed yet, each earlier call returning some result. -/
theorem dfs_loop_complete (call : Ctx → Option (Bool × Ctx))
    (hcall : ∀ c c', call c = some (false, c') → c' = c) (need : List Int)
    (htotal : ∀ c : Ctx, c.need = need → ∃ r, call c = some r) (t : Nat) (pl : List Mask)
    (istar : Nat) (hi : istar < pl.length) (c1 : Ctx) (hneed : c1.need = need)
    (hfree : mask_overlaps c1.occ (pl.getD istar []) c1.nwords = false)
    (hsucc : ∃ c', call { c1 with
        last_idx := c1.last_idx.set t (istar : Int)
        occ := mask_apply c1.occ (pl.getD istar []) c1.nwords
        free_cells := c1.free_cells - c1.area.getD t 0 } = some (true, c')) :
    ∀ (k i : Nat) (cl : Ctx), i + k = istar → SameUpToLast t c1 cl →
      ∃ c', dfs_loop call t (pl.drop i) i cl = some (true, c') := by
  intro k
  induction k with
  | zero =>
    intro i cl hik ⟨l, hl, hset⟩
    have hii : i = istar := by omega
    subst hii
    subst hl
    rw [List.drop_eq_getElem_cons hi]
    simp only [dfs_loop]
    have hm : pl[i] = pl.getD i [] := (List.getD_eq_getElem _ _ hi).symm
    rw [hm, if_neg (by rw [hfree]; simp), hset]
    obtain ⟨c', hc'⟩ := hsucc
    rw [hc']
    exact ⟨c', rfl⟩
  | succ k ih =>
    intro i cl hik ⟨l, hl, hset⟩
    have hilt : i < pl.length := by omega
    subst hl
    rw [List.drop_eq_getElem_cons hilt]
    simp only [dfs_loop]
    split_ifs with hov
    · exact ih (i + 1) _ (by omega) ⟨l, rfl, hset⟩
    · have hov' : mask_overlaps c1.occ pl[i] c1.nwords = false := by simpa using hov
      obtain ⟨r, hr⟩ := htotal { c1 with
        last_idx := l.set t (i : Int)
        occ := mask_apply c1.occ pl[i] c1.nwords
        free_cells := c1.free_cells - c1.area.getD t 0 } hneed
      obtain ⟨b, c2⟩ := r
      rw [hr]
      cases b with
      | true => exact ⟨c2, rfl⟩
      | false =>
        have := hcall _ _ hr
        subst this
        simp only
        rw [mask_unapply_apply c1.occ pl[i] c1.nwords hov']
        have hfc : c1.free_cells - c1.area.getD t 0 + c1.area.getD t 0 = c1.free_cells := by omega
        rw [hfc]
        exact ih (i + 1) _ (by omega)
          ⟨l.set t (i : Int), rfl, fun x => by rw [List.set_set, hset]⟩

theorem sum_map_pos_exists (sel : List (Nat × Nat)) (f : Nat × Nat → Int)
    (h : (sel.map f).sum ≠ 0) : ∃ a, a ∈ sel := by
  cases sel with
  | nil => simp at h
  | cons a l => exact ⟨a, by simp⟩

theorem filter_length_pos_of_mem (sel : List (Nat × Nat)) (a : Nat × Nat) (h : a ∈ sel) :
    0 < (sel.filter (fun b => b.1 = a.1)).length := by
  apply List.length_pos_of_mem (a := a)
  simp [List.mem_filter, h]

theorem exists_mem_of_filter_length_pos (sel : List (Nat × Nat)) (t : Nat)
    (h : 0 < (sel.filter (fun b => b.1 = t)).length) : ∃ i, (t, i) ∈ sel := by
  obtain ⟨a, ha⟩ := List.exists_mem_of_length_pos h
  simp only [List.mem_filter, decide_eq_true_eq] at ha
  obtain ⟨h1, h2⟩ := ha
  exact ⟨a.2, by rw [← h2]; exact h1⟩

theorem sum_map_filter_ne (sel : List (Nat × Nat)) (a : Nat × Nat) (hnd : sel.Nodup)
    (hmem : a ∈ sel) (f : Nat × Nat → Int) :
    (sel.map f).sum = f a + ((sel.filter (fun b => decide (b ≠ a))).map f).sum := by
  induction sel with
  | nil => simp at hmem
  | cons x l ih =>
    rw [List.nodup_cons] at hnd
    by_cases hx : x = a
    · subst hx
      have hfil : l.filter (fun b => decide (b ≠ x)) = l := by
        rw [List.filter_eq_self]
        intro b hb
        simp only [ne_eq, decide_not, Bool.not_eq_true', decide_eq_false_iff_not]
        intro hbx; subst hbx; exact hnd.1 hb
      simp only [List.map_cons, List.sum_cons, List.filter_cons, ne_eq, not_true_eq_false,
        decide_False, Bool.false_eq_true, if_false]
      rw [hfil]
    · have hmem' : a ∈ l := by
        rcases List.mem_cons.mp hmem with h | h
        · exact absurd h.symm hx
        · exact h
      have := ih hnd.2 hmem'
      have hd : decide (x ≠ a) = true := by simpa using hx
      rw [List.filter_cons, if_pos hd]
      simp only [List.map_cons, List.sum_cons]
      omega

theorem filter_length_eq_sum (l : List (Nat × Nat)) (t : Nat) :
    (((l.filter (fun a => decide (a.1 = t))).length : Nat) : Int) =
      (l.map (fun a => if a.1 = t then (1 : Int) else 0)).sum := by
  induction l with
  | nil => simp
  | cons x l ih =>
    by_cases hx : x.1 = t
    · simp only [List.filter_cons, hx, decide_True, if_true, List.length_cons, List.map_cons,
        List.sum_cons, Nat.cast_add, Nat.cast_one]
      omega
    · simp only [List.filter_cons, hx, decide_False, Bool.false_eq_true, if_false,
        List.map_cons, List.sum_cons]
      omega

/-- Dropping the pick that is placed turns a completion of the context into a completion
of the context after the placement. -/
theorem Completion.after_place {c : Ctx} {sel : List (Nat × Nat)} (h : Completion c sel)
    (r istar : Nat) (hmem : (r, istar) ∈ sel) (hmin : ∀ i, (r, i) ∈ sel → istar ≤ i) :
    Completion (Day12.place_piece c (r, istar))
      (sel.filter (fun b => decide (b ≠ (r, istar)))) := by
  obtain ⟨hnd, hvalid, hdisj, hcount, hrem, hfits, hlast, hocc, hsmall⟩ := h
  have hmem_erase : ∀ b, b ∈ sel.filter (fun b => decide (b ≠ (r, istar))) ↔
      b ≠ (r, istar) ∧ b ∈ sel := by
    intro b
    simp only [List.mem_filter, ne_eq, decide_not, Bool.not_eq_true', decide_eq_false_iff_not]
    tauto
  obtain ⟨hr, hidx, hlastlt, hfree⟩ := hvalid _ hmem
  simp only at hr hidx hlastlt
  have hneedpos : 0 < c.need.getD r 0 := by
    have := hcount r hr
    have hp := filter_length_pos_of_mem sel (r, istar) hmem
    simp only at hp
    omega
  have hrlen : r < c.need.length := by
    by_contra hge
    rw [List.getD_eq_default _ _ (by omega)] at hneedpos
    omega
  refine ⟨hnd.filter _, ?_, ?_, ?_, ?_, ?_, ?_, ?_, hsmall⟩
  · intro b hb
    obtain ⟨hne, hb⟩ := (hmem_erase b).mp hb
    obtain ⟨g1, g2, g3, g4⟩ := hvalid b hb
    refine ⟨g1, g2, ?_, ?_⟩
    · show (c.last_idx.set r (istar : Int)).getD b.1 0 < (b.2 : Int)
      rw [getD_set_int]
      by_cases hrb : r = b.1
      · rw [if_pos ⟨hrb, by omega⟩]
        have hb' : (r, b.2) ∈ sel := by rw [hrb]; exact hb
        have := hmin b.2 hb'
        have hne' : b.2 ≠ istar := by
          intro heq
          apply hne
          rw [← heq, hrb]
        omega
      · rw [if_neg (fun h => hrb h.1)]
        exact g3
    · show mask_overlaps (mask_apply c.occ (c.mask (r, istar)) c.nwords) (c.mask b) c.nwords =
        false
      rw [mask_overlaps_apply _ _ _ _ hocc]
      exact ⟨g4, hdisj _ hmem _ hb (Ne.symm hne)⟩
  · intro a ha b hb hab
    exact hdisj a ((hmem_erase a).mp ha).2 b ((hmem_erase b).mp hb).2 hab
  · intro t ht
    have hc := hcount t ht
    have hs := sum_map_filter_ne sel (r, istar) hnd hmem
      (fun a => if a.1 = t then (1 : Int) else 0)
    rw [filter_length_eq_sum] at hc ⊢
    show _ = (c.need.set r (c.need.getD r 0 - 1)).getD t 0
    rw [getD_set_int]
    simp only at hs
    by_cases hrt : r = t
    · subst hrt
      rw [if_pos ⟨rfl, hrlen⟩]
      rw [if_pos rfl] at hs
      omega
    · rw [if_neg (fun h => hrt h.1)]
      rw [if_neg hrt] at hs
      omega
  · show c.remaining_area - c.area.getD r 0 =
      ((sel.filter (fun b => decide (b ≠ (r, istar)))).map (fun a => c.area.getD a.1 0)).sum
    have hs := sum_map_filter_ne sel (r, istar) hnd hmem (fun a => c.area.getD a.1 0)
    simp only at hs
    omega
  · show c.remaining_area - c.area.getD r 0 ≤ c.free_cells - c.area.getD r 0
    omega
  · show (c.last_idx.set r (istar : Int)).length = c.sh_n
    rw [List.length_set]; exact hlast
  · show c.nwords ≤ (mask_apply c.occ (c.mask (r, istar)) c.nwords).length
    rw [mask_apply_length]; exact hocc

/-- Completeness of the search: from a context that has a completion, `dfs` returns
`true` when its budget exceeds the number of pieces still to be placed. -/
theorem dfs_complete (fuel : Nat) (c : Ctx) (sel : List (Nat × Nat)) (hfuel : total_need c < fuel)
    (h : Completion c sel) : ∃ c', dfs fuel c = some (true, c') := by
  induction fuel generalizing c sel with
  | zero => omega
  | succ fuel ih =>
    simp only [dfs]
    split_ifs with h1 h2 h3 h4
    · exact ⟨c, rfl⟩
    · exact absurd h.fits (by omega)
    · exfalso
      obtain ⟨a, ha⟩ := sum_map_pos_exists sel (fun a => c.area.getD a.1 0)
        (by rw [← h.remaining]; exact h1)
      have hp := filter_length_pos_of_mem sel a ha
      have hc := h.count a.1 (h.valid a ha).1
      have := choose_next_type_nonneg c ⟨a.1, (h.valid a ha).1, by omega⟩ h.place_small
      omega
    · exfalso
      rcases choose_next_type_spec c with h5 | ⟨r, hr, hr1, hr2⟩
      · omega
      · have hrn : (choose_next_type c).toNat = r := by rw [hr]; simp
        rw [hrn] at h4
        have hc := h.count r hr1
        obtain ⟨i, hi⟩ := exists_mem_of_filter_length_pos sel r (by omega)
        have := (h.valid _ hi).2.1
        simp only at this
        omega
    · rcases choose_next_type_spec c with h5 | ⟨r, hr, hr1, hr2⟩
      · omega
      · have hrn : (choose_next_type c).toNat = r := by rw [hr]; simp
        rw [hrn]
        have hc := h.count r hr1
        have hex : ∃ i, (r, i) ∈ sel := exists_mem_of_filter_length_pos sel r (by omega)
        classical
        have hmem := Nat.find_spec hex
        have hmin : ∀ i, (r, i) ∈ sel → Nat.find hex ≤ i := fun i hi => Nat.find_min' hex hi
        generalize Nat.find hex = istar at hmem hmin
        obtain ⟨_, hidx, hlastlt, hfree⟩ := h.valid _ hmem
        simp only at hidx hlastlt
        have hcomp := h.after_place r istar hmem hmin
        have hdec := sum_toNat_set_pred c.need r hr2
        have hfuel' : total_need (place_piece c (r, istar)) < fuel := by
          unfold total_need at hfuel ⊢
          show ((c.need.set r (c.need.getD r 0 - 1)).map Int.toNat).sum < fuel
          omega
        obtain ⟨c', hc'⟩ := ih _ _ hfuel' hcomp
        obtain ⟨c'', hloop⟩ := dfs_loop_complete (dfs fuel)
          (fun a b hab => dfs_false fuel a b hab)
          (c.need.set r (c.need.getD r 0 - 1))
          (fun c0 hc0 => dfs_total fuel c0 (by
            unfold total_need at hfuel ⊢
            rw [hc0]; omega))
          r (c.place.getD r []) istar hidx
          { c with
            need := c.need.set r (c.need.getD r 0 - 1)
            remaining_area := c.remaining_area - c.area.getD r 0 } rfl hfree ⟨c', hc'⟩
          (istar - start_index (c.last_idx.getD r 0)) (start_index (c.last_idx.getD r 0)) _
          (by have := le_start_index _ _ hlastlt; omega) (SameUpToLast.refl r _)
        rw [hloop]
        exact ⟨c'', rfl⟩

/-! ## Orientations of a committed shape -/

theorem norm_cells_length (l : List Cell) : (norm_cells l).c.length = l.length := by
  cases l with
  | nil => rfl
  | cons c0 rest =>
    obtain ⟨dx, dy, h⟩ := norm_cells_perm (c0 :: rest) (by simp)
    rw [h.length_eq, List.length_map]

theorem norm_cells_nodup (l : List Cell) (hl : l ≠ []) (hnd : l.Nodup) : (norm_cells l).c.Nodup := by
  obtain ⟨dx, dy, h⟩ := norm_cells_perm l hl
  rw [h.nodup_iff]
  apply List.Nodup.map _ hnd
  intro a b hab
  cases a; cases b
  simp only [Cell.mk.injEq] at hab ⊢
  omega

/-- The cells of a normalised polyomino lie inside its bounding box. -/
theorem norm_cells_bbox (l : List Cell) (hl : l ≠ []) :
    ∀ c ∈ (norm_cells l).c,
      0 ≤ c.x ∧ c.x < (norm_cells l).w ∧ 0 ≤ c.y ∧ c.y < (norm_cells l).h := by
  obtain ⟨c0, rest, rfl⟩ := List.exists_cons_of_ne_nil hl
  unfold norm_cells
  rw [poly_norm_cons]
  simp only
  intro c hc
  have hc' := (List.perm_insertionSort cell_le _).subset hc
  obtain ⟨c', hc'mem, rfl⟩ := List.mem_map.mp hc'
  have hminx := (isMinOf_foldl Cell.x c0 rest).1 c' hc'mem
  have hminy := (isMinOf_foldl Cell.y c0 rest).1 c' hc'mem
  have hmaxx := (isMaxOf_foldl Cell.x c0 rest).1 c' hc'mem
  have hmaxy := (isMaxOf_foldl Cell.y c0 rest).1 c' hc'mem
  simp only
  refine ⟨by omega, by omega, by omega, by omega⟩

theorem D4.act_injective (g : D4) : Function.Injective g.act := by
  intro a b hab
  have := congrArg g.inv.act hab
  rwa [← D4.act_mul, ← D4.act_mul, D4.inv_mul] at this

theorem ori_cand_nodup (b : List Cell) (hb : b ≠ []) (hnd : b.Nodup) (g : D4) :
    (ori_cand b g).c.Nodup :=
  norm_cells_nodup _ (by simpa using hb) (hnd.map g.act_injective)

theorem ori_cand_length (b : List Cell) (g : D4) : (ori_cand b g).c.length = b.length := by
  unfold ori_cand
  rw [norm_cells_length, List.length_map]

theorem ori_cand_bbox (b : List Cell) (hb : b ≠ []) (g : D4) :
    ∀ c ∈ (ori_cand b g).c,
      0 ≤ c.x ∧ c.x < (ori_cand b g).w ∧ 0 ≤ c.y ∧ c.y < (ori_cand b g).h :=
  norm_cells_bbox _ (by simpa using hb)

/-- The orientation list of the record committed for an empty polyomino. -/
theorem commit_shape_record_nil (id : Int) (cur : Poly) (h : cur.c = []) :
    (commit_shape_record id cur).ori = [cur] ∧ (commit_shape_record id cur).area = 0 := by
  obtain ⟨c, w, h'⟩ := cur
  simp only at h
  subst h
  constructor
  · simp [commit_shape_record, shape_make_oris, poly_norm, poly_rot90, poly_flipx, ori_push,
      poly_eq, Poly.n, MAX_ORI]
  · simp [commit_shape_record, shape_make_oris, poly_norm, Poly.n]

/-- Every orientation of the record committed for a polyomino with cells is a candidate
of the parsed cell list. -/
theorem commit_shape_record_ori (id : Int) (cur : Poly) (h : cur.c ≠ []) :
    (commit_shape_record id cur).ori ≠ [] ∧
      (∀ p ∈ (commit_shape_record id cur).ori, ∃ g, p = ori_cand cur.c g) ∧
      (commit_shape_record id cur).area = cur.c.length := by
  have hb : (poly_norm cur).c ≠ [] := by
    rw [poly_norm_eq_norm_cells cur h]; exact norm_cells_ne_nil _ h
  have hori : (commit_shape_record id cur).ori =
      (([D4.r0, D4.r1, D4.r2, D4.r3, D4.f0, D4.f1, D4.f2, D4.f3]).map
        (ori_cand (poly_norm cur).c)).foldl ori_push [] :=
    shape_make_oris_ori ⟨id, poly_norm cur, [], (poly_norm cur).n⟩ hb
  obtain ⟨_, hmem⟩ := foldl_ori_push_spec (ori_cand (poly_norm cur).c)
    (poly_eq_ori_cand (poly_norm cur).c hb)
    [D4.r0, D4.r1, D4.r2, D4.r3, D4.f0, D4.f1, D4.f2, D4.f3] []
    (by simp) List.nodup_nil (by decide)
  rw [← hori] at hmem
  have hcand : ∀ g, ori_cand (poly_norm cur).c g = ori_cand cur.c g := by
    intro g
    rw [poly_norm_eq_norm_cells cur h]
    exact norm_cells_act g cur.c h
  refine ⟨?_, ?_, ?_⟩
  · intro hnil
    have := (hmem (ori_cand (poly_norm cur).c D4.r0)).mpr (Or.inr (by simp))
    rw [hnil] at this
    simp at this
  · intro p hp
    rcases (hmem p).mp hp with h1 | h1
    · simp at h1
    · obtain ⟨g, _, rfl⟩ := List.mem_map.mp h1
      exact ⟨g, hcand g⟩
  · show ((poly_norm cur).n : Int) = _
    rw [poly_norm_eq_norm_cells cur h]
    unfold Poly.n
    rw [norm_cells_length]

/-- The orientations of a committed shape: there is at least one, and each has pairwise
distinct cells inside its bounding box, as many as the area of the shape. -/
theorem Shape.Committed.ori_spec {s : Shape} (hs : s.Committed) :
    s.ori ≠ [] ∧ 0 ≤ s.area ∧
      ∀ p ∈ s.ori, p.c.Nodup ∧ (p.c.length : Int) = s.area ∧
        ∀ c ∈ p.c, 0 ≤ c.x ∧ c.x < p.w ∧ 0 ≤ c.y ∧ c.y < p.h := by
  obtain ⟨id, cur, hnd, rfl⟩ := hs
  by_cases h : cur.c = []
  · obtain ⟨h1, h2⟩ := commit_shape_record_nil id cur h
    rw [h1, h2]
    refine ⟨by simp, le_refl 0, ?_⟩
    intro p hp
    have : p = cur := by simpa using hp
    subst this
    rw [h]
    simp
  · obtain ⟨h1, h2, h3⟩ := commit_shape_record_ori id cur h
    refine ⟨h1, by rw [h3]; exact Int.natCast_nonneg _, ?_⟩
    intro p hp
    obtain ⟨g, rfl⟩ := h2 p hp
    refine ⟨ori_cand_nodup cur.c h hnd g, ?_, ori_cand_bbox cur.c h g⟩
    rw [h3, ori_cand_length]

/-! ## Bits of a placement mask -/

theorem bitset_set_length (b : Mask) (idx : Nat) : (bitset_set b idx).length = b.length := by
  unfold bitset_set
  rw [List.length_set]

/-- Setting bit `idx` sets exactly that bit. -/
theorem mask_bit_bitset_set (b : Mask) (idx k : Nat) (h : idx < 64 * b.length) :
    mask_bit (bitset_set b idx) k = (mask_bit b k || decide (k = idx)) := by
  unfold mask_bit bitset_set
  have h6 : idx >>> 6 = idx / 64 := by rw [Nat.shiftRight_eq_div_pow]
  have h63 : idx &&& 63 = idx % 64 := by
    have := Nat.and_pow_two_sub_one_eq_mod idx 6
    simpa using this
  rw [h6, h63, getD_set, Nat.one_shiftLeft]
  have hlt : idx / 64 < b.length := by omega
  by_cases hw : idx / 64 = k / 64
  · rw [if_pos ⟨hw, hlt⟩, Nat.testBit_or, Nat.testBit_two_pow, hw]
    congr 1
    by_cases hb : idx % 64 = k % 64
    · have : k = idx := by omega
      simp [hb, this]
    · have : ¬ k = idx := by intro hk; subst hk; exact hb rfl
      simp [hb, this]
  · rw [if_neg (fun hh => hw hh.1)]
    have : ¬ k = idx := by intro hk; subst hk; exact hw rfl
    simp [this]

theorem mask_bit_bitset_zero (n k : Nat) : mask_bit (bitset_zero n) k = false := by
  unfold mask_bit bitset_zero
  by_cases h : k / 64 < n
  · rw [List.getD_eq_getElem _ _ (by simpa using h)]
    simp
  · rw [List.getD_eq_default _ _ (by simpa using h)]
    simp

theorem foldl_bitset_set_length (W x0 y0 : Int) (l : List Cell) (tmp : Mask) :
    (l.foldl (fun tmp c => bitset_set tmp ((y0 + c.y) * W + (x0 + c.x)).toNat) tmp).length =
      tmp.length := by
  induction l generalizing tmp with
  | nil => rfl
  | cons c l ih => simp only [List.foldl_cons]; rw [ih, bitset_set_length]

theorem foldl_bitset_set_bit (W x0 y0 : Int) (l : List Cell) (tmp : Mask) (k : Nat)
    (h : ∀ c ∈ l, cell_idx W x0 y0 c < 64 * tmp.length) :
    mask_bit (l.foldl (fun tmp c => bitset_set tmp ((y0 + c.y) * W + (x0 + c.x)).toNat) tmp) k
        = true ↔
      mask_bit tmp k = true ∨ ∃ c ∈ l, cell_idx W x0 y0 c = k := by
  induction l generalizing tmp with
  | nil => simp
  | cons c l ih =>
    simp only [List.foldl_cons]
    rw [ih]
    · have hc : ((y0 + c.y) * W + (x0 + c.x)).toNat < 64 * tmp.length := h c (by simp)
      rw [mask_bit_bitset_set _ _ _ hc]
      simp only [Bool.or_eq_true, decide_eq_true_eq, List.mem_cons, exists_eq_or_imp]
      unfold cell_idx
      constructor
      · rintro ((h1 | h1) | h1)
        · exact Or.inl h1
        · exact Or.inr (Or.inl h1.symm)
        · exact Or.inr (Or.inr h1)
      · rintro (h1 | h1 | h1)
        · exact Or.inl (Or.inl h1)
        · exact Or.inl (Or.inr h1.symm)
        · exact Or.inr h1
    · intro c' hc'
      rw [bitset_set_length]
      exact h c' (by simp [hc'])

/-- The bits of a placement mask are the bit indices of its cells. -/
theorem mask_bit_placement_mask (p : Poly) (W x0 y0 : Int) (n k : Nat)
    (h : ∀ c ∈ p.c, cell_idx W x0 y0 c < 64 * n) :
    mask_bit (placement_mask p W x0 y0 n) k = true ↔ ∃ c ∈ p.c, cell_idx W x0 y0 c = k := by
  unfold placement_mask
  rw [foldl_bitset_set_bit W x0 y0 p.c (bitset_zero n) k
    (by simpa [bitset_zero] using h)]
  rw [mask_bit_bitset_zero]
  simp

theorem placement_mask_length (p : Poly) (W x0 y0 : Int) (n : Nat) :
    (placement_mask p W x0 y0 n).length = n := by
  unfold placement_mask
  rw [foldl_bitset_set_length]
  simp [bitset_zero]

theorem mask_bits_placement_mask (p : Poly) (W x0 y0 : Int) (n : Nat)
    (h : ∀ c ∈ p.c, cell_idx W x0 y0 c < 64 * n) :
    mask_bits (placement_mask p W x0 y0 n) n = (p.c.map (cell_idx W x0 y0)).toFinset := by
  ext k
  unfold mask_bits
  rw [Finset.mem_filter, mask_bit_placement_mask p W x0 y0 n k h, List.mem_toFinset,
    List.mem_map, Finset.mem_range]
  constructor
  · exact fun hh => hh.2
  · rintro ⟨c, hc, rfl⟩
    exact ⟨h c hc, c, hc, rfl⟩

/-- Masks that do not overlap have disjoint bit sets. -/
theorem mask_bits_disjoint (a b : Mask) (n : Nat) (h : mask_overlaps a b n = false) :
    Disjoint (mask_bits a n) (mask_bits b n) := by
  rw [Finset.disjoint_left]
  intro k hka hkb
  unfold mask_bits at hka hkb
  rw [Finset.mem_filter, Finset.mem_range] at hka hkb
  have hw := (mask_overlaps_eq_false a b n).mp h (k / 64) (by omega)
  have := congrArg (fun x => x.testBit (k % 64)) hw
  simp only [Nat.testBit_and, Nat.zero_testBit] at this
  unfold mask_bit at hka hkb
  rw [hka.2, hkb.2] at this
  simp at this

/-- A mask with a bit below `64 * n` overlaps itself. -/
theorem mask_overlaps_self (a : Mask) (n k : Nat) (hk : k < 64 * n) (h : mask_bit a k = true) :
    mask_overlaps a a n = true := by
  by_contra hne
  have hf : mask_overlaps a a n = false := by simpa using hne
  have hmem : k ∈ mask_bits a n := by
    unfold mask_bits
    rw [Finset.mem_filter, Finset.mem_range]
    exact ⟨hk, h⟩
  exact (Finset.disjoint_left.mp (mask_bits_disjoint a a n hf)) hmem hmem

/-! ## Bit indices of board cells -/

theorem cell_idx_cast (W H x0 y0 : Int) (c : Cell) (h : InBoard W H x0 y0 c) :
    ((cell_idx W x0 y0 c : Nat) : Int) = (y0 + c.y) * W + (x0 + c.x) := by
  obtain ⟨h1, h2, h3, h4⟩ := h
  unfold cell_idx
  apply Int.toNat_of_nonneg
  have : 0 ≤ (y0 + c.y) * W := mul_nonneg h3 (by omega)
  omega

theorem cell_idx_lt (W H x0 y0 : Int) (c : Cell) (h : InBoard W H x0 y0 c) :
    ((cell_idx W x0 y0 c : Nat) : Int) < W * H := by
  rw [cell_idx_cast W H x0 y0 c h]
  obtain ⟨h1, h2, h3, h4⟩ := h
  have h5 : (y0 + c.y) * W ≤ (H - 1) * W := mul_le_mul_of_nonneg_right (by omega) (by omega)
  have h6 : (H - 1) * W = W * H - W := by ring
  omega

theorem cell_idx_inj (W H x0 y0 : Int) (c c' : Cell) (h : InBoard W H x0 y0 c)
    (h' : InBoard W H x0 y0 c') (he : cell_idx W x0 y0 c = cell_idx W x0 y0 c') : c = c' := by
  have e1 := cell_idx_cast W H x0 y0 c h
  have e2 := cell_idx_cast W H x0 y0 c' h'
  rw [he] at e1
  have e : (y0 + c.y) * W + (x0 + c.x) = (y0 + c'.y) * W + (x0 + c'.x) := by rw [← e1, ← e2]
  obtain ⟨h1, h2, h3, h4⟩ := h
  obtain ⟨h1', h2', h3', h4'⟩ := h'
  have hy : c.y = c'.y := by
    rcases lt_trichotomy c.y c'.y with hlt | heq | hgt
    · exfalso
      have : (y0 + c.y + 1) * W ≤ (y0 + c'.y) * W :=
        mul_le_mul_of_nonneg_right (by omega) (by omega)
      have h7 : (y0 + c.y + 1) * W = (y0 + c.y) * W + W := by ring
      omega
    · exact heq
    · exfalso
      have : (y0 + c'.y + 1) * W ≤ (y0 + c.y) * W :=
        mul_le_mul_of_nonneg_right (by omega) (by omega)
      have h7 : (y0 + c'.y + 1) * W = (y0 + c'.y) * W + W := by ring
      omega
  have hx : c.x = c'.x := by
    rw [hy] at e
    omega
  cases c; cases c'
  simp only at hx hy
  subst hx hy
  rfl

/-- The bit index of a board cell splits into column and row. -/
theorem cell_idx_split (W H x0 y0 : Int) (c : Cell) (h : InBoard W H x0 y0 c) :
    cell_idx W x0 y0 c % W.toNat = (x0 + c.x).toNat ∧
      cell_idx W x0 y0 c / W.toNat = (y0 + c.y).toNat := by
  have e := cell_idx_cast W H x0 y0 c h
  obtain ⟨h1, h2, h3, h4⟩ := h
  have hW : 0 < W := by omega
  have hidx : cell_idx W x0 y0 c = (y0 + c.y).toNat * W.toNat + (x0 + c.x).toNat := by
    have : ((cell_idx W x0 y0 c : Nat) : Int) =
        (((y0 + c.y).toNat * W.toNat + (x0 + c.x).toNat : Nat) : Int) := by
      rw [e]
      push_cast
      rw [Int.toNat_of_nonneg h3, Int.toNat_of_nonneg h1, Int.toNat_of_nonneg (le_of_lt hW)]
    exact_mod_cast this
  have hxlt : (x0 + c.x).toNat < W.toNat := by omega
  rw [hidx]
  constructor
  · rw [Nat.add_comm, Nat.add_mul_mod_self_right, Nat.mod_eq_of_lt hxlt]
  · rw [Nat.add_comm, Nat.add_mul_div_right _ _ (by omega), Nat.div_eq_of_lt hxlt, Nat.zero_add]

/-- The mask words of a board hold all its bits. -/
theorem board_bits_le (W H : Int) (h : 0 ≤ W * H) :
    (W * H).toNat ≤ 64 * (board_words W H).toNat := by
  unfold board_words
  rw [Int.tdiv_eq_ediv (by omega) (by omega)]
  omega

theorem board_words_cap (W H : Int) : W * H ≤ 64 * ((board_words W H).toNat : Int) := by
  by_cases h : 0 ≤ W * H
  · have := board_bits_le W H h
    omega
  · omega

/-- On a board of at most `INT_MAX - 63` cells the masks of `nwords_for_board` words
hold all bits of the board. -/
theorem nwords_for_board_cap (W H : Int) (hfit : W * H ≤ INT_MAX - 63) :
    W * H ≤ 64 * ((nwords_for_board W H).toNat : Int) := by
  by_cases h : 0 ≤ W * H
  · rw [nwords_for_board_eq W H h hfit]
    exact board_words_cap W H
  · omega

/-- The bit of a board cell lies in every mask that has room for the board. -/
theorem cell_idx_lt_cap (W H x0 y0 : Int) (c : Cell) (n : Nat) (hcap : W * H ≤ 64 * (n : Int))
    (h : InBoard W H x0 y0 c) : cell_idx W x0 y0 c < 64 * n := by
  have h1 := cell_idx_lt W H x0 y0 c h
  omega

theorem cell_idx_lt_words (W H x0 y0 : Int) (c : Cell) (h : InBoard W H x0 y0 c) :
    cell_idx W x0 y0 c < 64 * (board_words W H).toNat :=
  cell_idx_lt_cap W H x0 y0 c _ (board_words_cap W H) h

/-! ## The placement list of a shape -/

/-- The members of a placement list are the masks of the orientations that fit, at the
offsets that keep the bounding box on the board. -/
theorem mem_build_placements (s : Shape) (W H : Int) (n : Nat) (m : Mask) :
    m ∈ build_placements_for_shape [] s W H n ↔
      ∃ p ∈ s.ori, ∃ x0 y0 : Nat, (x0 : Int) + p.w ≤ W ∧ (y0 : Int) + p.h ≤ H ∧
        m = placement_mask p W x0 y0 n := by
  unfold build_placements_for_shape placements_of_ori
  rw [List.nil_append, List.mem_flatMap]
  constructor
  · rintro ⟨p, hp, hm⟩
    split_ifs at hm with hfit
    · simp at hm
    · obtain ⟨y0, hy0, hm⟩ := List.mem_flatMap.mp hm
      obtain ⟨x0, hx0, rfl⟩ := List.mem_map.mp hm
      rw [List.mem_range] at hy0 hx0
      exact ⟨p, hp, x0, y0, by omega, by omega, rfl⟩
  · rintro ⟨p, hp, x0, y0, hx0, hy0, rfl⟩
    refine ⟨p, hp, ?_⟩
    have hfit : ¬ (p.w > W ∨ p.h > H) := by omega
    rw [if_neg hfit]
    apply List.mem_flatMap.mpr
    refine ⟨y0, List.mem_range.mpr (by omega), ?_⟩
    apply List.mem_map.mpr
    exact ⟨x0, List.mem_range.mpr (by omega), rfl⟩

theorem inBoard_of_bbox (W H : Int) (p : Poly) (x0 y0 : Nat) (c : Cell)
    (hc : 0 ≤ c.x ∧ c.x < p.w ∧ 0 ≤ c.y ∧ c.y < p.h) (hx : (x0 : Int) + p.w ≤ W)
    (hy : (y0 : Int) + p.h ≤ H) : InBoard W H x0 y0 c := by
  unfold InBoard
  omega

/-! ## Black and white cells -/

theorem black_count_le (l : List Cell) : black_count l ≤ l.length := List.countP_le_length _

theorem poly_bw_counts_foldl (l : List Cell) (b w : Int) :
    l.foldl
      (fun bw c =>
        let parity := (c.x + c.y) % 2
        if parity = 0 then (bw.1 + 1, bw.2) else (bw.1, bw.2 + 1))
      (b, w) = (b + black_count l, w + (l.length - black_count l : Int)) := by
  induction l generalizing b w with
  | nil => simp [black_count]
  | cons c l ih =>
    simp only [List.foldl_cons]
    by_cases hc : (c.x + c.y) % 2 = 0
    · simp only [hc, if_true]
      rw [ih]
      have : black_count (c :: l) = black_count l + 1 := by
        unfold black_count
        rw [List.countP_cons_of_pos]
        simpa using hc
      rw [this]
      simp only [List.length_cons, Nat.cast_add, Nat.cast_one, Prod.mk.injEq]
      constructor <;> omega
    · simp only [hc, if_false]
      rw [ih]
      have : black_count (c :: l) = black_count l := by
        unfold black_count
        rw [List.countP_cons_of_neg]
        simpa using hc
      rw [this]
      simp only [List.length_cons, Nat.cast_add, Nat.cast_one, Prod.mk.injEq, true_and]
      omega

/-- The counts of `poly_bw_counts`: the black cells and the rest. -/
theorem poly_bw_counts_eq (p : Poly) :
    poly_bw_counts p = ((black_count p.c : Int), (p.c.length : Int) - black_count p.c) := by
  unfold poly_bw_counts
  rw [poly_bw_counts_foldl]
  simp

theorem black_count_perm {l l' : List Cell} (h : l.Perm l') : black_count l = black_count l' :=
  h.countP_eq _

theorem black_count_act (g : D4) (l : List Cell) : black_count (l.map g.act) = black_count l := by
  unfold black_count
  rw [List.countP_map]
  congr 1
  funext c
  simp only [Function.comp]
  congr 1
  cases g <;> simp only [D4.act, rot_cell, flip_cell, eq_iff_iff] <;> omega

/-- A translation keeps the black count when `dx + dy` is even and swaps black and white
when it is odd. -/
theorem black_count_shift (l : List Cell) (dx dy : Int) :
    black_count (l.map (fun c => ({ x := c.x + dx, y := c.y + dy } : Cell))) =
      if (dx + dy) % 2 = 0 then black_count l else l.length - black_count l := by
  induction l with
  | nil => simp [black_count]
  | cons c l ih =>
    have hle := black_count_le l
    unfold black_count at ih hle ⊢
    rw [List.map_cons]
    by_cases hc : (c.x + c.y) % 2 = 0 <;> by_cases hd : (dx + dy) % 2 = 0
    · rw [List.countP_cons_of_pos _ _ (by simp only [decide_eq_true_eq]; omega),
        List.countP_cons_of_pos _ _ (by simpa using hc), ih]
      simp only [hd, if_true]
    · rw [List.countP_cons_of_neg _ _ (by simp only [decide_eq_true_eq]; omega),
        List.countP_cons_of_pos _ _ (by simpa using hc), ih]
      simp only [hd, if_false, List.length_cons]
      omega
    · rw [List.countP_cons_of_neg _ _ (by simp only [decide_eq_true_eq]; omega),
        List.countP_cons_of_neg _ _ (by simpa using hc), ih]
      simp only [hd, if_true]
    · rw [List.countP_cons_of_pos _ _ (by simp only [decide_eq_true_eq]; omega),
        List.countP_cons_of_neg _ _ (by simpa using hc), ih]
      simp only [hd, if_false, List.length_cons]
      omega

/-- The black count of a candidate is that of the parsed cells, or black and white are
swapped. -/
theorem black_count_ori_cand (b : List Cell) (hb : b ≠ []) (g : D4) :
    black_count (ori_cand b g).c = black_count b ∨
      black_count (ori_cand b g).c = b.length - black_count b := by
  obtain ⟨dx, dy, h⟩ := norm_cells_perm (b.map g.act) (by simpa using hb)
  unfold ori_cand
  rw [black_count_perm h, black_count_shift, black_count_act, List.length_map]
  split_ifs
  · exact Or.inl rfl
  · exact Or.inr rfl

/-- All orientations of a committed shape have the same number `n` of cells, one of two
complementary black counts `B` and `n - B`, and the imbalance used by the parity prune is
`|2 B - n|`. -/
theorem Shape.Committed.colour_spec {s : Shape} (hs : s.Committed) :
    ∃ B n : Nat, B ≤ n ∧ (n : Int) = s.area ∧ shape_imbalance s = |2 * (B : Int) - n| ∧
      ∀ p ∈ s.ori, p.c.length = n ∧ (black_count p.c = B ∨ black_count p.c = n - B) := by
  obtain ⟨hne, _, hspec⟩ := hs.ori_spec
  have hkey : ∃ B n : Nat, B ≤ n ∧ (n : Int) = s.area ∧
      ∀ p ∈ s.ori, p.c.length = n ∧ (black_count p.c = B ∨ black_count p.c = n - B) := by
    obtain ⟨id, cur, hnd, rfl⟩ := hs
    by_cases h : cur.c = []
    · obtain ⟨h1, h2⟩ := commit_shape_record_nil id cur h
      refine ⟨0, 0, le_refl 0, by rw [h2]; rfl, ?_⟩
      intro p hp
      rw [h1] at hp
      have : p = cur := by simpa using hp
      subst this
      rw [h]
      simp [black_count]
    · obtain ⟨h1, h2, h3⟩ := commit_shape_record_ori id cur h
      refine ⟨black_count cur.c, cur.c.length, black_count_le _, h3.symm, ?_⟩
      intro p hp
      obtain ⟨g, rfl⟩ := h2 p hp
      exact ⟨ori_cand_length cur.c g, black_count_ori_cand cur.c h g⟩
  obtain ⟨B, n, hBn, hn, hall⟩ := hkey
  refine ⟨B, n, hBn, hn, ?_, hall⟩
  obtain ⟨p0, rest, hori⟩ := List.exists_cons_of_ne_nil hne
  obtain ⟨hlen, hB⟩ := hall p0 (by rw [hori]; simp)
  unfold shape_imbalance
  rw [hori]
  simp only [List.getD_cons_zero]
  rw [poly_bw_counts_eq]
  simp only
  rw [hlen]
  rcases hB with hB | hB <;> rw [hB] <;> split_ifs with hneg
  · rw [abs_of_nonpos (by omega)]; omega
  · rw [abs_of_nonneg (by omega)]; omega
  · rw [abs_of_nonneg (by omega)]; omega
  · rw [abs_of_nonpos (by omega)]; omega

/-! ## The bit set of a placement -/

/-- The bits of a placement of an orientation with distinct cells inside its bounding
box: they lie on the board, there are as many as cells, and the black ones are counted by
the black count of the translated cells. -/
theorem placement_bits_spec_cap (p : Poly) (W H : Int) (x0 y0 : Nat) (n : Nat)
    (hcap : W * H ≤ 64 * (n : Int)) (hnd : p.c.Nodup)
    (hbb : ∀ c ∈ p.c, 0 ≤ c.x ∧ c.x < p.w ∧ 0 ≤ c.y ∧ c.y < p.h)
    (hx : (x0 : Int) + p.w ≤ W) (hy : (y0 : Int) + p.h ≤ H) :
    mask_bits (placement_mask p W x0 y0 n) n ⊆ Finset.range (W * H).toNat ∧
      (mask_bits (placement_mask p W x0 y0 n) n).card = p.c.length ∧
      ((mask_bits (placement_mask p W x0 y0 n) n).filter (bit_black W.toNat)).card =
        black_count (p.c.map (fun c => ({ x := c.x + x0, y := c.y + y0 } : Cell))) := by
  have hin : ∀ c ∈ p.c, InBoard W H x0 y0 c :=
    fun c hc => inBoard_of_bbox W H p x0 y0 c (hbb c hc) hx hy
  have hbits := mask_bits_placement_mask p W x0 y0 n
    (fun c hc => cell_idx_lt_cap W H x0 y0 c n hcap (hin c hc))
  have hmapnd : (p.c.map (cell_idx W x0 y0)).Nodup :=
    List.Nodup.map_on (fun a ha b hb hab => cell_idx_inj W H x0 y0 a b (hin a ha) (hin b hb) hab)
      hnd
  rw [hbits]
  refine ⟨?_, ?_, ?_⟩
  · intro k hk
    rw [List.mem_toFinset, List.mem_map] at hk
    obtain ⟨c, hc, rfl⟩ := hk
    rw [Finset.mem_range]
    have := cell_idx_lt W H x0 y0 c (hin c hc)
    omega
  · rw [List.toFinset_card_of_nodup hmapnd, List.length_map]
  · have hfil : (p.c.map (cell_idx W x0 y0)).toFinset.filter (bit_black W.toNat) =
        ((p.c.map (cell_idx W x0 y0)).filter (fun k => decide (bit_black W.toNat k))).toFinset := by
      rw [List.toFinset_filter]
      congr 1
      funext k
      simp
    rw [hfil, List.toFinset_card_of_nodup (hmapnd.filter _), ← List.countP_eq_length_filter,
      List.countP_map]
    unfold black_count
    rw [List.countP_map]
    apply List.countP_congr
    intro c hc
    obtain ⟨h1, h2⟩ := cell_idx_split W H x0 y0 c (hin c hc)
    obtain ⟨g1, g2, g3, g4⟩ := hin c hc
    simp only [Function.comp, decide_eq_true_eq]
    unfold bit_black
    rw [h1, h2]
    omega

theorem placement_bits_spec (p : Poly) (W H : Int) (x0 y0 : Nat) (hnd : p.c.Nodup)
    (hbb : ∀ c ∈ p.c, 0 ≤ c.x ∧ c.x < p.w ∧ 0 ≤ c.y ∧ c.y < p.h)
    (hx : (x0 : Int) + p.w ≤ W) (hy : (y0 : Int) + p.h ≤ H) :
    mask_bits (placement_mask p W x0 y0 (board_words W H).toNat)
        (board_words W H).toNat ⊆ Finset.range (W * H).toNat ∧
      (mask_bits (placement_mask p W x0 y0 (board_words W H).toNat)
        (board_words W H).toNat).card = p.c.length ∧
      ((mask_bits (placement_mask p W x0 y0 (board_words W H).toNat)
        (board_words W H).toNat).filter (bit_black W.toNat)).card =
        black_count (p.c.map (fun c => ({ x := c.x + x0, y := c.y + y0 } : Cell))) :=
  placement_bits_spec_cap p W H x0 y0 _ (board_words_cap W H) hnd hbb hx hy

theorem placement_bits_black (p : Poly) (W H : Int) (x0 y0 : Nat) (hnd : p.c.Nodup)
    (hbb : ∀ c ∈ p.c, 0 ≤ c.x ∧ c.x < p.w ∧ 0 ≤ c.y ∧ c.y < p.h)
    (hx : (x0 : Int) + p.w ≤ W) (hy : (y0 : Int) + p.h ≤ H) :
    ((mask_bits (placement_mask p W x0 y0 (board_words W H).toNat)
        (board_words W H).toNat).filter (bit_black W.toNat)).card = black_count p.c ∨
      ((mask_bits (placement_mask p W x0 y0 (board_words W H).toNat)
        (board_words W H).toNat).filter (bit_black W.toNat)).card =
        p.c.length - black_count p.c := by
  rw [(placement_bits_spec p W H x0 y0 hnd hbb hx hy).2.2, black_count_shift]
  split_ifs
  · exact Or.inl rfl
  · exact Or.inr rfl

/-! ## Pairwise disjoint subsets of the board -/

/-- For pairwise disjoint subsets of `U`, the numbers of their members with a property
add up to at most the number of members of `U` with the property. -/
theorem sum_card_filter_le {α : Type} (sel : List α) (S : α → Finset Nat) (U : Finset Nat)
    (P : Nat → Prop) [DecidablePred P] (hsub : ∀ a ∈ sel, S a ⊆ U)
    (hdisj : sel.Pairwise (fun a b => Disjoint (S a) (S b))) :
    (sel.map (fun a => ((S a).filter P).card)).sum ≤ (U.filter P).card := by
  have key : ∃ T : Finset Nat, T ⊆ U ∧ (∀ k ∈ T, ∃ a ∈ sel, k ∈ S a) ∧
      (sel.map (fun a => ((S a).filter P).card)).sum = (T.filter P).card := by
    induction sel with
    | nil => exact ⟨∅, by simp, by simp, by simp⟩
    | cons a l ih =>
      rw [List.pairwise_cons] at hdisj
      obtain ⟨T, hT, hcov, hsum⟩ := ih (fun b hb => hsub b (by simp [hb])) hdisj.2
      have hd : Disjoint (S a) T := by
        rw [Finset.disjoint_left]
        intro k hka hkT
        obtain ⟨b, hb, hkb⟩ := hcov k hkT
        exact (Finset.disjoint_left.mp (hdisj.1 b hb)) hka hkb
      refine ⟨S a ∪ T, Finset.union_subset (hsub a (by simp)) hT, ?_, ?_⟩
      · intro k hk
        rcases Finset.mem_union.mp hk with h | h
        · exact ⟨a, by simp, h⟩
        · obtain ⟨b, hb, hkb⟩ := hcov k h
          exact ⟨b, by simp [hb], hkb⟩
      · rw [List.map_cons, List.sum_cons, hsum, Finset.filter_union,
          Finset.card_union_of_disjoint]
        exact Finset.disjoint_filter_filter hd
  obtain ⟨T, hT, _, hsum⟩ := key
  rw [hsum]
  exact Finset.card_le_card (Finset.filter_subset_filter P hT)

/-! ## The colours of the board -/

theorem row_black_card (W y : Nat) :
    2 * ((Finset.range W).filter (fun x => (x + y) % 2 = 0)).card =
      W + (if W % 2 = 1 then (if y % 2 = 0 then 1 else 0) else 0) -
        (if W % 2 = 1 then (if y % 2 = 0 then 0 else 1) else 0) := by
  induction W with
  | zero => simp
  | succ W ih =>
    rw [Finset.range_succ, Finset.filter_insert]
    by_cases h : (W + y) % 2 = 0
    · rw [if_pos h, Finset.card_insert_of_not_mem (by simp)]
      split_ifs at ih ⊢ <;> omega
    · rw [if_neg h]
      split_ifs at ih ⊢ <;> omega

/-- A board of width `W` and height `H` has `⌈W H / 2⌉` black cells. -/
theorem board_black_card (W H : Nat) (hW : 0 < W) :
    2 * ((Finset.range (W * H)).filter (bit_black W)).card =
      W * H + (if W % 2 = 1 ∧ H % 2 = 1 then 1 else 0) := by
  induction H with
  | zero => simp
  | succ H ih =>
    have hsplit : (Finset.range (W * (H + 1))).filter (bit_black W) =
        (Finset.range (W * H)).filter (bit_black W) ∪
          ((Finset.range W).filter (fun x => (x + H) % 2 = 0)).image (fun x => W * H + x) := by
      ext k
      simp only [Finset.mem_filter, Finset.mem_range, Finset.mem_union, Finset.mem_image]
      constructor
      · rintro ⟨hk, hb⟩
        by_cases hlt : k < W * H
        · exact Or.inl ⟨hlt, hb⟩
        · right
          refine ⟨k - W * H, ⟨by rw [Nat.mul_succ] at hk; omega, ?_⟩, by omega⟩
          unfold bit_black at hb
          have hk' : k = (k - W * H) + W * H := by omega
          have hlt' : k - W * H < W := by rw [Nat.mul_succ] at hk; omega
          rw [hk', Nat.add_mul_mod_self_left, Nat.add_mul_div_left _ _ hW,
            Nat.mod_eq_of_lt hlt', Nat.div_eq_of_lt hlt', Nat.zero_add] at hb
          exact hb
      · rintro (⟨hk, hb⟩ | ⟨x, ⟨hx, hxb⟩, rfl⟩)
        · exact ⟨by rw [Nat.mul_succ]; omega, hb⟩
        · refine ⟨by rw [Nat.mul_succ]; omega, ?_⟩
          unfold bit_black
          rw [Nat.add_comm (W * H) x, Nat.add_mul_mod_self_left, Nat.add_mul_div_left _ _ hW,
            Nat.mod_eq_of_lt hx, Nat.div_eq_of_lt hx, Nat.zero_add]
          exact hxb
    have hdisj : Disjoint ((Finset.range (W * H)).filter (bit_black W))
        (((Finset.range W).filter (fun x => (x + H) % 2 = 0)).image (fun x => W * H + x)) := by
      rw [Finset.disjoint_left]
      intro k hk hk'
      simp only [Finset.mem_filter, Finset.mem_range, Finset.mem_image] at hk hk'
      obtain ⟨x, _, rfl⟩ := hk'
      omega
    rw [hsplit, Finset.card_union_of_disjoint hdisj,
      Finset.card_image_of_injective _ (fun a b hab => by simpa using hab)]
    have hrow := row_black_card W H
    have hmul : W * (H + 1) = W * H + W := Nat.mul_succ W H
    rw [hmul]
    split_ifs at ih hrow ⊢ <;> omega

/-! ## The shifting loop of the subset-sum bitset -/

theorem dp_shift_pass_length (ws bs : Nat) (k : Nat) (dp : List Nat) :
    (dp_shift_pass ws bs k dp).length = dp.length := by
  induction k generalizing dp with
  | zero => rfl
  | succ k ih => simp only [dp_shift_pass]; rw [ih, List.length_set]

theorem dp_shift_word_set (dp : List Nat) (j k ws bs a : Nat) (h : j < k) :
    dp_shift_word (dp.set k a) j ws bs = dp_shift_word dp j ws bs := by
  unfold dp_shift_word
  have h1 : ∀ i, i ≤ j → (dp.set k a).getD i 0 = dp.getD i 0 := by
    intro i hi
    rw [getD_set, if_neg (by omega)]
  simp only [h1 (j - ws) (by omega), h1 (j - ws - 1) (by omega)]

/-- The in-place loop reads only words it has not yet written: every word below `k` is
or-ed with the shifted word computed from the array at loop entry. -/
theorem dp_shift_pass_getD (ws bs : Nat) (k : Nat) (dp : List Nat) (j : Nat) :
    (dp_shift_pass ws bs k dp).getD j 0 =
      if j < k ∧ j < dp.length then dp.getD j 0 ||| dp_shift_word dp j ws bs
      else dp.getD j 0 := by
  induction k generalizing dp with
  | zero => simp only [dp_shift_pass, Nat.not_lt_zero, false_and, if_false]
  | succ k ih =>
    simp only [dp_shift_pass]
    rw [ih, List.length_set]
    have hset := getD_set dp k j (dp.getD k 0 ||| dp_shift_word dp k ws bs)
    rcases Nat.lt_trichotomy j k with hjk | hjk | hjk
    · have hne : ¬ (k = j ∧ k < dp.length) := by omega
      rw [dp_shift_word_set dp j k ws bs _ hjk, hset, if_neg hne]
      by_cases hjl : j < dp.length
      · rw [if_pos (⟨hjk, hjl⟩ : j < k ∧ j < dp.length),
          if_pos (⟨by omega, hjl⟩ : j < k + 1 ∧ j < dp.length)]
      · rw [if_neg (fun h => hjl h.2 : ¬ (j < k ∧ j < dp.length)),
          if_neg (fun h => hjl h.2 : ¬ (j < k + 1 ∧ j < dp.length))]
    · subst hjk
      rw [if_neg (by omega : ¬ (j < j ∧ j < dp.length)), hset]
      by_cases hjl : j < dp.length
      · rw [if_pos (⟨rfl, hjl⟩ : j = j ∧ j < dp.length),
          if_pos (⟨by omega, hjl⟩ : j < j + 1 ∧ j < dp.length)]
      · rw [if_neg (fun h => hjl h.2 : ¬ (j = j ∧ j < dp.length)),
          if_neg (fun h => hjl h.2 : ¬ (j < j + 1 ∧ j < dp.length))]
    · rw [if_neg (by omega : ¬ (j < k ∧ j < dp.length)), hset,
        if_neg (by omega : ¬ (k = j ∧ k < dp.length)),
        if_neg (by omega : ¬ (j < k + 1 ∧ j < dp.length))]

theorem dp_shift_word_lt (dp : List Nat) (j ws bs : Nat) (hok : WordsOK dp) :
    dp_shift_word dp j ws bs < 2 ^ 64 := by
  unfold dp_shift_word
  have h1 : (dp.getD (j - ws) 0 <<< bs) % 2 ^ 64 < 2 ^ 64 := Nat.mod_lt _ (by norm_num)
  have h2 : dp.getD (j - ws - 1) 0 >>> (64 - bs) < 2 ^ 64 := by
    rw [Nat.shiftRight_eq_div_pow]
    exact lt_of_le_of_lt (Nat.div_le_self _ _) (hok _)
  simp only
  split_ifs
  · exact Nat.or_lt_two_pow h1 h2
  · exact h1
  · norm_num

/-- Bit `b` of the shifted word for word `j`: the bit `d = 64 ws + bs` places lower. -/
theorem dp_shift_word_testBit (dp : List Nat) (j ws bs b : Nat) (hok : WordsOK dp)
    (hbs : bs < 64) (hb : b < 64) :
    (dp_shift_word dp j ws bs).testBit b =
      (decide (64 * ws + bs ≤ 64 * j + b) && mask_bit dp (64 * j + b - (64 * ws + bs))) := by
  unfold dp_shift_word mask_bit
  by_cases hws : ws ≤ j
  · rw [if_pos hws]
    simp only
    by_cases hbb : bs ≤ b
    · have hk : 64 * j + b - (64 * ws + bs) = 64 * (j - ws) + (b - bs) := by omega
      have hdiv : (64 * (j - ws) + (b - bs)) / 64 = j - ws := by omega
      have hmod : (64 * (j - ws) + (b - bs)) % 64 = b - bs := by omega
      have hle : 64 * ws + bs ≤ 64 * j + b := by omega
      rw [hk, hdiv, hmod]
      have hsl : ((dp.getD (j - ws) 0 <<< bs) % 2 ^ 64).testBit b =
          (dp.getD (j - ws) 0).testBit (b - bs) := by
        rw [Nat.testBit_mod_two_pow, Nat.testBit_shiftLeft]
        simp only [hb, decide_True, ge_iff_le, hbb, Bool.true_and]
      have hsr : (dp.getD (j - ws - 1) 0 >>> (64 - bs)).testBit b = false := by
        rw [Nat.testBit_shiftRight]
        apply Nat.testBit_lt_two_pow
        exact lt_of_lt_of_le (hok _) (Nat.pow_le_pow_right (by norm_num) (by omega))
      split_ifs with hc
      · rw [Nat.testBit_or, hsl, hsr]
        simp only [hle, decide_True, Bool.true_and, Bool.or_false]
      · rw [hsl]
        simp only [hle, decide_True, Bool.true_and]
    · have hbs0 : bs ≠ 0 := by omega
      have hsl : ((dp.getD (j - ws) 0 <<< bs) % 2 ^ 64).testBit b = false := by
        rw [Nat.testBit_mod_two_pow, Nat.testBit_shiftLeft]
        have : ¬ b ≥ bs := by omega
        simp only [this, decide_False, Bool.false_and, Bool.and_false]
      by_cases hsrc : 1 ≤ j - ws
      · rw [if_pos ⟨hbs0, hsrc⟩, Nat.testBit_or, hsl, Nat.testBit_shiftRight]
        have hk : 64 * j + b - (64 * ws + bs) = 64 * (j - ws - 1) + (64 - bs + b) := by omega
        have hdiv : (64 * (j - ws - 1) + (64 - bs + b)) / 64 = j - ws - 1 := by omega
        have hmod : (64 * (j - ws - 1) + (64 - bs + b)) % 64 = 64 - bs + b := by omega
        have hle : 64 * ws + bs ≤ 64 * j + b := by omega
        rw [hk, hdiv, hmod]
        simp only [hle, decide_True, Bool.true_and, Bool.false_or]
      · rw [if_neg (fun h => hsrc h.2), hsl]
        have : ¬ 64 * ws + bs ≤ 64 * j + b := by omega
        simp only [this, decide_False, Bool.false_and]
  · rw [if_neg hws]
    have : ¬ 64 * ws + bs ≤ 64 * j + b := by omega
    simp only [this, decide_False, Bool.false_and, Nat.zero_testBit]

theorem dp_shift_pass_ok (ws bs k : Nat) (dp : List Nat) (hok : WordsOK dp) :
    WordsOK (dp_shift_pass ws bs k dp) := by
  intro j
  rw [dp_shift_pass_getD]
  split_ifs
  · exact Nat.or_lt_two_pow (hok j) (dp_shift_word_lt dp j ws bs hok)
  · exact hok j

/-- One pass of the shifting loop: bit `k` is set afterwards iff it was set or bit
`k - d` was set. -/
theorem dp_shift_pass_bit (d n : Nat) (dp : List Nat) (hok : WordsOK dp) (hlen : dp.length = n)
    (k : Nat) (hk : k < 64 * n) :
    mask_bit (dp_shift_pass (d / 64) (d % 64) n dp) k =
      (mask_bit dp k || (decide (d ≤ k) && mask_bit dp (k - d))) := by
  have hd : 64 * (d / 64) + d % 64 = d := by omega
  have hkk : 64 * (k / 64) + k % 64 = k := by omega
  have hw := dp_shift_word_testBit dp (k / 64) (d / 64) (d % 64) (k % 64) hok
    (Nat.mod_lt _ (by norm_num)) (Nat.mod_lt _ (by norm_num))
  rw [hd, hkk] at hw
  unfold mask_bit at hw ⊢
  rw [dp_shift_pass_getD, if_pos ⟨by omega, by omega⟩, Nat.testBit_or, hw]

/-- One repetition of the subset-sum update, on the bits below `nbits`. -/
theorem dp_rep_bit (d n nbits : Nat) (dp : List Nat) (hok : WordsOK dp) (hlen : dp.length = n)
    (hnb : nbits ≤ 64 * n) (k : Nat) (hk : k < nbits) :
    mask_bit (dp_rep d n nbits dp) k =
      (mask_bit dp k || (decide (d ≤ k) && mask_bit dp (k - d))) := by
  unfold dp_rep
  simp only
  split_ifs with hextra
  · rw [← dp_shift_pass_bit d n dp hok hlen k (by omega)]
    unfold mask_bit
    rw [getD_set, dp_shift_pass_length]
    by_cases hw : n - 1 = k / 64
    · rw [if_pos ⟨hw, by omega⟩, Nat.testBit_and, Nat.testBit_shiftRight,
        Nat.testBit_two_pow_sub_one, hw]
      have : ((↑n * 64 : Int) - ↑nbits).toNat + k % 64 < 64 := by omega
      simp only [this, decide_True, Bool.and_true]
    · rw [if_neg (fun h => hw h.1)]
  · exact dp_shift_pass_bit d n dp hok hlen k (by omega)

theorem dp_rep_length (d n nbits : Nat) (dp : List Nat) :
    (dp_rep d n nbits dp).length = dp.length := by
  unfold dp_rep
  simp only
  split_ifs
  · rw [List.length_set, dp_shift_pass_length]
  · rw [dp_shift_pass_length]

theorem dp_rep_ok (d n nbits : Nat) (dp : List Nat) (hok : WordsOK dp) :
    WordsOK (dp_rep d n nbits dp) := by
  unfold dp_rep
  simp only
  split_ifs
  · intro j
    rw [getD_set]
    split_ifs
    · exact lt_of_le_of_lt Nat.and_le_left (dp_shift_pass_ok _ _ _ dp hok _)
    · exact dp_shift_pass_ok _ _ _ dp hok j
  · exact dp_shift_pass_ok _ _ _ dp hok

/-! ## The subset-sum bitset reaches every sum of imbalances -/

theorem shape_imbalance_nonneg (s : Shape) : 0 ≤ shape_imbalance s := by
  unfold shape_imbalance
  simp only
  split_ifs <;> omega

theorem dp_reps_length (d n nbits cnt : Nat) (dp : List Nat) :
    (dp_reps d n nbits cnt dp).length = dp.length := by
  induction cnt generalizing dp with
  | zero => rfl
  | succ cnt ih => simp only [dp_reps]; rw [ih, dp_rep_length]

theorem dp_reps_ok (d n nbits cnt : Nat) (dp : List Nat) (hok : WordsOK dp) :
    WordsOK (dp_reps d n nbits cnt dp) := by
  induction cnt generalizing dp with
  | zero => exact hok
  | succ cnt ih => simp only [dp_reps]; exact ih _ (dp_rep_ok d n nbits dp hok)

/-- After `cnt` repetitions every sum `t + j d` with `j ≤ cnt` below `nbits` is set. -/
theorem dp_reps_reach (d n nbits cnt : Nat) (dp : List Nat) (hok : WordsOK dp)
    (hlen : dp.length = n) (hnb : nbits ≤ 64 * n) (t j : Nat) (hj : j ≤ cnt)
    (ht : mask_bit dp t = true) (hb : t + j * d < nbits) :
    mask_bit (dp_reps d n nbits cnt dp) (t + j * d) = true := by
  induction cnt generalizing dp t j with
  | zero =>
    have : j = 0 := by omega
    subst this
    simpa [dp_reps] using ht
  | succ cnt ih =>
    simp only [dp_reps]
    have hlen' := (dp_rep_length d n nbits dp).trans hlen
    have hok' := dp_rep_ok d n nbits dp hok
    cases j with
    | zero =>
      have h1 : mask_bit (dp_rep d n nbits dp) t = true := by
        rw [dp_rep_bit d n nbits dp hok hlen hnb t (by omega), ht]
        rfl
      have := ih (dp_rep d n nbits dp) hok' hlen' t 0 (Nat.zero_le _) h1 (by omega)
      simpa using this
    | succ j =>
      have hmul : (j + 1) * d = j * d + d := Nat.succ_mul j d
      have h1 : mask_bit (dp_rep d n nbits dp) (t + d) = true := by
        rw [dp_rep_bit d n nbits dp hok hlen hnb (t + d) (by rw [hmul] at hb; omega)]
        have : t + d - d = t := by omega
        rw [this, ht]
        simp
      have := ih (dp_rep d n nbits dp) hok' hlen' (t + d) j (by omega) h1
        (by rw [hmul] at hb; omega)
      have he : t + d + j * d = t + (j + 1) * d := by rw [hmul]; omega
      rw [he] at this
      exact this

theorem parity_dp_length (need : List Int) (n nbits : Nat) (sh : List Shape) (si : Nat)
    (dp : List Nat) : (parity_dp need n nbits sh si dp).length = dp.length := by
  induction sh generalizing si dp with
  | nil => rfl
  | cons s rest ih =>
    simp only [parity_dp]
    split_ifs
    · exact ih _ _
    · exact ih _ _
    · rw [ih, dp_reps_length]

/-- The bitset built by the second loop of `parity_prune_possible` has bit `t + T` set
when it starts with bit `t` set and `T` is a sum in which each shape contributes its
imbalance at most as often as it is demanded. -/
theorem parity_dp_reach (need : List Int) (n nbits : Nat) (kf : Nat → Nat) (sh : List Shape)
    (si : Nat) (dp : List Nat) (hok : WordsOK dp) (hlen : dp.length = n)
    (hnb : nbits ≤ 64 * n)
    (hk : ∀ j, j < sh.length → (kf (si + j) : Int) ≤ max 0 (need.getD (si + j) 0))
    (t : Nat) (ht : mask_bit dp t = true) (hb : t + reach_target kf sh si < nbits) :
    mask_bit (parity_dp need n nbits sh si dp) (t + reach_target kf sh si) = true := by
  induction sh generalizing si dp t with
  | nil => simpa [parity_dp, reach_target] using ht
  | cons s rest ih =>
    have hk0 := hk 0 (by simp)
    simp only [Nat.add_zero] at hk0
    have hkrest : ∀ j, j < rest.length →
        (kf (si + 1 + j) : Int) ≤ max 0 (need.getD (si + 1 + j) 0) := by
      intro j hj
      have := hk (j + 1) (by simpa using hj)
      simpa [Nat.add_assoc, Nat.add_comm 1 j] using this
    simp only [reach_target] at hb ⊢
    simp only [parity_dp]
    have hassoc : t + (kf si * (shape_imbalance s).toNat + reach_target kf rest (si + 1)) =
        t + kf si * (shape_imbalance s).toNat + reach_target kf rest (si + 1) := by omega
    rw [hassoc]
    split_ifs with hcnt hd
    · have hz : kf si = 0 := by
        have : max 0 (need.getD si 0) = 0 := max_eq_left hcnt
        omega
      have ht' : mask_bit dp (t + kf si * (shape_imbalance s).toNat) = true := by
        rw [hz]; simpa using ht
      exact ih (si + 1) dp hok hlen hkrest _ ht' (by omega)
    · have ht' : mask_bit dp (t + kf si * (shape_imbalance s).toNat) = true := by
        rw [hd]; simpa using ht
      exact ih (si + 1) dp hok hlen hkrest _ ht' (by omega)
    · have hle : kf si ≤ (need.getD si 0).toNat := by
        have : max 0 (need.getD si 0) = need.getD si 0 := max_eq_right (by omega)
        omega
      have hreach := dp_reps_reach (shape_imbalance s).toNat n nbits (need.getD si 0).toNat dp
        hok hlen hnb t (kf si) hle ht (by omega)
      exact ih (si + 1) _ (dp_reps_ok _ _ _ _ dp hok)
        ((dp_reps_length _ _ _ _ dp).trans hlen) hkrest _ hreach (by omega)

/-- The first loop of `parity_prune_possible` returns the sum of the imbalances of the
demanded pieces when that sum does not exceed `area_sum` (the clamp is not reached). -/
theorem parity_sumD_eq (need : List Int) (area_sum : Int) (sh : List Shape) (si : Nat)
    (acc : Int)
    (h : acc + idx_sum (fun i s => max 0 (need.getD i 0) * shape_imbalance s) sh si ≤ area_sum) :
    parity_sumD need area_sum sh si acc =
      acc + idx_sum (fun i s => max 0 (need.getD i 0) * shape_imbalance s) sh si := by
  induction sh generalizing si acc with
  | nil => simp [parity_sumD, idx_sum]
  | cons s rest ih =>
    simp only [idx_sum] at h ⊢
    simp only [parity_sumD]
    have hnn : ∀ (l : List Shape) (k : Nat),
        0 ≤ idx_sum (fun i s => max 0 (need.getD i 0) * shape_imbalance s) l k := by
      intro l
      induction l with
      | nil => intro k; simp [idx_sum]
      | cons s' l' ih' =>
        intro k
        simp only [idx_sum]
        have := ih' (k + 1)
        have := mul_nonneg (le_max_left 0 (need.getD k 0)) (shape_imbalance_nonneg s')
        omega
    have hrest := hnn rest (si + 1)
    split_ifs with hcnt hclamp
    · have hz : max 0 (need.getD si 0) = 0 := max_eq_left hcnt
      rw [hz, zero_mul, zero_add] at h ⊢
      exact ih (si + 1) acc h
    · have hz : max 0 (need.getD si 0) = need.getD si 0 := max_eq_right (by omega)
      rw [hz] at h
      rw [mul_comm] at hclamp
      omega
    · have hz : max 0 (need.getD si 0) = need.getD si 0 := max_eq_right (by omega)
      rw [hz] at h ⊢
      rw [ih (si + 1) _ (by rw [mul_comm (shape_imbalance s)]; omega)]
      rw [mul_comm (shape_imbalance s)]
      omega

theorem reach_target_cast (kf : Nat → Nat) (sh : List Shape) (si : Nat) :
    ((reach_target kf sh si : Nat) : Int) =
      idx_sum (fun i s => (kf i : Int) * shape_imbalance s) sh si := by
  induction sh generalizing si with
  | nil => simp [reach_target, idx_sum]
  | cons s rest ih =>
    simp only [reach_target, idx_sum]
    push_cast
    rw [ih, Int.toNat_of_nonneg (shape_imbalance_nonneg s)]

theorem demand_area_from_eq (need_in : List Int) (sh : List Shape) (si : Nat) :
    demand_area_from need_in sh si = idx_sum (fun i s => need_at need_in i * s.area) sh si := by
  induction sh generalizing si with
  | nil => rfl
  | cons s rest ih => simp only [demand_area_from, idx_sum, ih]

/-- A sum over the shape array as a sum over its indices. -/
theorem idx_sum_eq_sum (f : Nat → Shape → Int) (sh : List Shape) (si : Nat) :
    idx_sum f sh si = ∑ j ∈ Finset.range sh.length, f (si + j) (sh.getD j Shape.none) := by
  induction sh generalizing si with
  | nil => simp [idx_sum]
  | cons s rest ih =>
    simp only [idx_sum, List.length_cons]
    rw [Finset.sum_range_succ', ih]
    simp only [List.getD_cons_succ, List.getD_cons_zero, Nat.add_zero]
    rw [add_comm]
    congr 1
    apply Finset.sum_congr rfl
    intro j _
    have : si + 1 + j = si + (j + 1) := by omega
    rw [this]

/-- A sum over picks of a value that depends on the shape only, sorted by shape. -/
theorem sum_picks_eq (sel : List (Nat × Nat)) (g : Nat → Int) (n : Nat)
    (h : ∀ a ∈ sel, a.1 < n) :
    (sel.map (fun a => g a.1)).sum =
      ∑ i ∈ Finset.range n, (((sel.filter (fun a => a.1 = i)).length : Nat) : Int) * g i := by
  induction sel with
  | nil => simp
  | cons a l ih =>
    have ha : a.1 < n := h a (by simp)
    rw [List.map_cons, List.sum_cons, ih (fun b hb => h b (by simp [hb]))]
    have hstep : ∀ i, ((((a :: l).filter (fun b => b.1 = i)).length : Nat) : Int) * g i =
        (if a.1 = i then g i else 0) + (((l.filter (fun b => b.1 = i)).length : Nat) : Int) * g i := by
      intro i
      by_cases hi : a.1 = i
      · simp only [List.filter_cons, hi, decide_True, if_true, List.length_cons, Nat.cast_add,
          Nat.cast_one]
        ring
      · simp only [List.filter_cons, hi, decide_False, Bool.false_eq_true, if_false, zero_add]
    rw [Finset.sum_congr rfl (fun i _ => hstep i), Finset.sum_add_distrib, Finset.sum_ite_eq,
      if_pos (Finset.mem_range.mpr ha)]

/-! ## The picks of a selection -/

theorem placement_list_eq (sh : List Shape) (W H : Int) (i : Nat) (hi : i < sh.length) :
    placement_list sh W H i =
      build_placements_for_shape [] (sh.getD i Shape.none) W H (board_words W H).toNat := by
  unfold placement_list
  rw [List.get?_eq_get hi, List.getD_eq_getElem _ _ hi]
  rfl

theorem getD_mem_of_lt (sh : List Shape) (i : Nat) (hi : i < sh.length) :
    sh.getD i Shape.none ∈ sh := by
  rw [List.getD_eq_getElem _ _ hi]
  exact List.getElem_mem hi

/-- The mask of a pick is the mask of an orientation of its shape placed on the board. -/
theorem pick_mask_eq (sh : List Shape) (W H : Int) (a : Nat × Nat) (ha1 : a.1 < sh.length)
    (ha2 : a.2 < (placement_list sh W H a.1).length) :
    ∃ p ∈ (sh.getD a.1 Shape.none).ori, ∃ x0 y0 : Nat,
      (x0 : Int) + p.w ≤ W ∧ (y0 : Int) + p.h ≤ H ∧
        pick_mask sh W H a = placement_mask p W x0 y0 (board_words W H).toNat := by
  have hmem : pick_mask sh W H a ∈ placement_list sh W H a.1 := by
    unfold pick_mask
    rw [List.getD_eq_getElem _ _ ha2]
    exact List.getElem_mem ha2
  rw [placement_list_eq sh W H a.1 ha1] at hmem
  exact (mem_build_placements _ W H _ _).mp hmem

/-- The bits of a pick of a committed shape: they lie on the board, their number is the
area of the shape, and the imbalance of the shape is the absolute difference of the
numbers of black and white bits. -/
theorem pick_spec (sh : List Shape) (W H : Int) (hsh : ∀ s ∈ sh, s.Committed)
    (a : Nat × Nat) (ha1 : a.1 < sh.length) (ha2 : a.2 < (placement_list sh W H a.1).length) :
    mask_bits (pick_mask sh W H a) (board_words W H).toNat ⊆
        Finset.range (W * H).toNat ∧
      (((mask_bits (pick_mask sh W H a) (board_words W H).toNat).card : Nat) : Int) =
        (sh.getD a.1 Shape.none).area ∧
      shape_imbalance (sh.getD a.1 Shape.none) =
        |2 * ((((mask_bits (pick_mask sh W H a) (board_words W H).toNat).filter
            (bit_black W.toNat)).card : Nat) : Int) -
          (((mask_bits (pick_mask sh W H a) (board_words W H).toNat).card : Nat) : Int)| := by
  obtain ⟨p, hp, x0, y0, hx, hy, hm⟩ := pick_mask_eq sh W H a ha1 ha2
  have hc := hsh _ (getD_mem_of_lt sh a.1 ha1)
  obtain ⟨_, _, hori⟩ := hc.ori_spec
  obtain ⟨hnd, hlen, hbb⟩ := hori p hp
  obtain ⟨B, n, hBn, hn, himb, hall⟩ := hc.colour_spec
  obtain ⟨hpn, hpB⟩ := hall p hp
  obtain ⟨h1, h2, _⟩ := placement_bits_spec p W H x0 y0 hnd hbb hx hy
  have h3 := placement_bits_black p W H x0 y0 hnd hbb hx hy
  rw [hm]
  refine ⟨h1, by rw [h2]; exact hlen, ?_⟩
  rw [himb, h2, hpn]
  have hβ : (mask_bits (placement_mask p W x0 y0 (board_words W H).toNat)
      (board_words W H).toNat |>.filter (bit_black W.toNat)).card = B ∨
      (mask_bits (placement_mask p W x0 y0 (board_words W H).toNat)
      (board_words W H).toNat |>.filter (bit_black W.toNat)).card = n - B := by
    rcases h3 with h3 | h3 <;> rcases hpB with hpB | hpB <;> omega
  rcases hβ with h | h <;> rw [h]
  rw [Nat.cast_sub hBn, show (2 * ((n : Int) - B) - n) = -(2 * (B : Int) - n) by ring, abs_neg]

/-- A mask of a placement of a shape with at least one cell overlaps itself. -/
theorem pick_mask_overlaps_self (sh : List Shape) (W H : Int) (hsh : ∀ s ∈ sh, s.Committed)
    (a : Nat × Nat) (ha1 : a.1 < sh.length) (ha2 : a.2 < (placement_list sh W H a.1).length)
    (harea : 0 < (sh.getD a.1 Shape.none).area) :
    mask_overlaps (pick_mask sh W H a) (pick_mask sh W H a) (board_words W H).toNat =
      true := by
  obtain ⟨_, hcard, _⟩ := pick_spec sh W H hsh a ha1 ha2
  have hpos : 0 < (mask_bits (pick_mask sh W H a) (board_words W H).toNat).card := by
    omega
  obtain ⟨k, hk⟩ := Finset.card_pos.mp hpos
  unfold mask_bits at hk
  rw [Finset.mem_filter, Finset.mem_range] at hk
  exact mask_overlaps_self _ _ k hk.1 hk.2

/-! ## The parity prune accepts every demand that has a selection -/

theorem sums_rel {α : Type} (sel : List α) (β ν d : α → Int) (neg : α → Bool)
    (h : ∀ a ∈ sel, d a - 2 * (if neg a = true then d a else 0) = 2 * β a - ν a) :
    (sel.map d).sum - 2 * ((sel.filter neg).map d).sum =
      2 * (sel.map β).sum - (sel.map ν).sum := by
  induction sel with
  | nil => simp
  | cons a l ih =>
    have ha := h a (by simp)
    have hl := ih (fun b hb => h b (by simp [hb]))
    by_cases hn : neg a = true
    · rw [List.filter_cons, if_pos hn]
      simp only [List.map_cons, List.sum_cons]
      rw [if_pos hn] at ha
      omega
    · rw [List.filter_cons, if_neg hn]
      simp only [List.map_cons, List.sum_cons]
      rw [if_neg hn] at ha
      omega

theorem sum_map_le_sum_map {α : Type} (sel : List α) (f g : α → Int)
    (h : ∀ a ∈ sel, f a ≤ g a) : (sel.map f).sum ≤ (sel.map g).sum := by
  induction sel with
  | nil => simp
  | cons a l ih =>
    have ha := h a (by simp)
    have hl := ih (fun b hb => h b (by simp [hb]))
    simp only [List.map_cons, List.sum_cons]
    omega

theorem sum_map_nonneg {α : Type} (sel : List α) (f : α → Int) (h : ∀ a ∈ sel, 0 ≤ f a) :
    0 ≤ (sel.map f).sum := by
  induction sel with
  | nil => simp
  | cons a l ih =>
    have ha := h a (by simp)
    have hl := ih (fun b hb => h b (by simp [hb]))
    simp only [List.map_cons, List.sum_cons]
    omega

theorem sum_map_sub {α : Type} (sel : List α) (f g : α → Int) :
    (sel.map (fun a => f a - g a)).sum = (sel.map f).sum - (sel.map g).sum := by
  induction sel with
  | nil => simp
  | cons a l ih =>
    simp only [List.map_cons, List.sum_cons, ih]
    omega

theorem sum_filter_map_le {α : Type} (sel : List α) (p : α → Bool) (f : α → Int)
    (h : ∀ a ∈ sel, 0 ≤ f a) : ((sel.filter p).map f).sum ≤ (sel.map f).sum := by
  induction sel with
  | nil => simp
  | cons a l ih =>
    have ha := h a (by simp)
    have hl := ih (fun b hb => h b (by simp [hb]))
    by_cases hp : p a = true
    · rw [List.filter_cons, if_pos hp]
      simp only [List.map_cons, List.sum_cons]
      omega
    · rw [List.filter_cons, if_neg hp]
      simp only [List.map_cons, List.sum_cons]
      omega

theorem sum_map_cast {α : Type} (sel : List α) (f : α → Nat) :
    (((sel.map f).sum : Nat) : Int) = (sel.map (fun a => (f a : Int))).sum := by
  induction sel with
  | nil => simp
  | cons a l ih => simp only [List.map_cons, List.sum_cons, Nat.cast_add, ih]

theorem filter_filter_length_le (sel : List (Nat × Nat)) (neg : Nat × Nat → Bool) (i : Nat) :
    ((sel.filter neg).filter (fun a => decide (a.1 = i))).length ≤
      (sel.filter (fun a => decide (a.1 = i))).length := by
  rw [List.filter_filter]
  rw [← List.countP_eq_length_filter, ← List.countP_eq_length_filter]
  apply List.countP_mono_left
  intro a _ h
  simp only [Bool.and_eq_true] at h
  exact h.1

theorem mask_bit_dp0 (n : Nat) (hn : 0 < n) :
    mask_bit ((List.replicate n 0).set 0 1) 0 = true ∧
      WordsOK ((List.replicate n 0).set 0 1) ∧ ((List.replicate n 0).set 0 1).length = n := by
  refine ⟨?_, ?_, by simp⟩
  · unfold mask_bit
    rw [getD_set]
    simp [hn]
  · intro i
    rw [getD_set]
    split_ifs
    · norm_num
    · by_cases hi : i < n
      · rw [List.getD_eq_getElem _ _ (by simpa using hi)]
        simp
      · rw [List.getD_eq_default _ _ (by simpa using hi)]
        norm_num

theorem and_shift_ne_zero (x b : Nat) (h : x.testBit b = true) : x &&& (1 <<< b) ≠ 0 := by
  intro h0
  have := congrArg (fun y => y.testBit b) h0
  simp [Nat.one_shiftLeft, Nat.testBit_and, Nat.testBit_two_pow, h] at this

/-- The final test of `parity_prune_possible` accepts `t` when bit `t` is set and the
black and white cells used, as derived from `t`, are within the capacities. -/
theorem parity_accepts_of (dp : List Nat) (sumD area_sum Bcap Wcap : Int) (t : Nat)
    (black white : Int) (hbit : mask_bit dp t = true)
    (hsum : area_sum + (sumD - 2 * (t : Int)) = 2 * black) (hw : white = area_sum - black)
    (hb0 : 0 ≤ black) (hw0 : 0 ≤ white) (hb : black ≤ Bcap) (hwc : white ≤ Wcap) :
    parity_accepts dp sumD area_sum Bcap Wcap t = true := by
  unfold parity_accepts
  have h1 : ¬ (dp.getD (t / 64) 0 &&& (1 <<< (t % 64))) = 0 := and_shift_ne_zero _ _ hbit
  rw [if_neg h1]
  simp only
  have h2 : ¬ (area_sum + (sumD - 2 * (t : Int))) % 2 ≠ 0 := by
    rw [hsum]; simp
  rw [if_neg h2]
  have h3 : Int.tdiv (area_sum + (sumD - 2 * (t : Int))) 2 = black := by
    rw [hsum, Int.tdiv_eq_ediv (by omega) (by norm_num)]
    omega
  rw [h3]
  have h4 : ¬ (black < 0 ∨ area_sum - black < 0) := by omega
  rw [if_neg h4]
  simp only [decide_eq_true_eq]
  omega

theorem toNat_mul_pos (W H : Int) (hW : 0 < W) (hH : 0 < H) :
    (W * H).toNat = W.toNat * H.toNat := by
  apply Int.ofNat_inj.mp
  push_cast
  rw [Int.toNat_of_nonneg (le_of_lt (Int.mul_pos hW hH)), Int.toNat_of_nonneg (le_of_lt hW),
    Int.toNat_of_nonneg (le_of_lt hH)]

/-- The sums of a selection: the demanded area is the number of bits the picks cover,
which is at most `W * H`, and the demanded area, and each sum of imbalances weighted by
counts per shape, is a sum over the picks. -/
theorem selection_sums (sh : List Shape) (W H : Int) (need_in : List Int)
    (sel : List (Nat × Nat)) (hsel : IsSelection sh W H need_in sel) (g : Nat → Shape → Int) :
    idx_sum (fun i s => need_at need_in i * g i s) sh 0 =
      (sel.map (fun a => g a.1 (sh.getD a.1 Shape.none))).sum := by
  rw [idx_sum_eq_sum, sum_picks_eq sel (fun i => g i (sh.getD i Shape.none)) sh.length
    (fun a ha => (hsel.in_list a ha).1)]
  apply Finset.sum_congr rfl
  intro i hi
  rw [Nat.zero_add, hsel.count i (Finset.mem_range.mp hi)]

/-- Black and white bits of pairwise disjoint picks fit the black and white cells of the
board. -/
theorem selection_colours (sh : List Shape) (W H : Int) (need_in : List Int)
    (sel : List (Nat × Nat)) (hsh : ∀ s ∈ sh, s.Committed) (hW : 0 < W) (hH : 0 < H)
    (hsel : IsSelection sh W H need_in sel) :
    2 * (sel.map (fun a => ((((mask_bits (pick_mask sh W H a)
        (board_words W H).toNat).filter (bit_black W.toNat)).card : Nat) : Int))).sum
        ≤ W * H + 1 ∧
      2 * (sel.map (fun a => (((mask_bits (pick_mask sh W H a)
          (board_words W H).toNat).card : Nat) : Int) -
        ((((mask_bits (pick_mask sh W H a)
          (board_words W H).toNat).filter (bit_black W.toNat)).card : Nat) : Int))).sum
        ≤ W * H := by
  have hpick : ∀ a ∈ sel, mask_bits (pick_mask sh W H a) (board_words W H).toNat ⊆
      Finset.range (W * H).toNat :=
    fun a ha => (pick_spec sh W H hsh a (hsel.in_list a ha).1 (hsel.in_list a ha).2).1
  have hdisj : sel.Pairwise (fun a b =>
      Disjoint (mask_bits (pick_mask sh W H a) (board_words W H).toNat)
        (mask_bits (pick_mask sh W H b) (board_words W H).toNat)) :=
    hsel.disjoint.imp (fun h => mask_bits_disjoint _ _ _ h)
  have hB := sum_card_filter_le sel
    (fun a => mask_bits (pick_mask sh W H a) (board_words W H).toNat)
    (Finset.range (W * H).toNat) (bit_black W.toNat) hpick hdisj
  have hWt := sum_card_filter_le sel
    (fun a => mask_bits (pick_mask sh W H a) (board_words W H).toNat)
    (Finset.range (W * H).toNat) (fun k => ¬ bit_black W.toNat k) hpick hdisj
  have hboard := board_black_card W.toNat H.toNat (by omega)
  have hcompl := Finset.filter_card_add_filter_neg_card_eq_card
    (s := Finset.range (W * H).toNat) (bit_black W.toNat)
  rw [Finset.card_range] at hcompl
  rw [← toNat_mul_pos W H hW hH] at hboard
  have hN : (((W * H).toNat : Nat) : Int) = W * H :=
    Int.toNat_of_nonneg (le_of_lt (Int.mul_pos hW hH))
  have hB' : (sel.map (fun a => ((((mask_bits (pick_mask sh W H a)
        (board_words W H).toNat).filter (bit_black W.toNat)).card : Nat) : Int))).sum ≤
      (((Finset.range (W * H).toNat).filter (bit_black W.toNat)).card : Int) := by
    rw [← sum_map_cast]
    exact_mod_cast hB
  have hW' : (sel.map (fun a => (((mask_bits (pick_mask sh W H a)
          (board_words W H).toNat).card : Nat) : Int) -
        ((((mask_bits (pick_mask sh W H a)
          (board_words W H).toNat).filter (bit_black W.toNat)).card : Nat) : Int))).sum ≤
      (((Finset.range (W * H).toNat).filter (fun k => ¬ bit_black W.toNat k)).card : Int) := by
    have hconv : ∀ a ∈ sel, (((mask_bits (pick_mask sh W H a)
          (board_words W H).toNat).card : Nat) : Int) -
        ((((mask_bits (pick_mask sh W H a)
          (board_words W H).toNat).filter (bit_black W.toNat)).card : Nat) : Int) =
        ((((mask_bits (pick_mask sh W H a)
          (board_words W H).toNat).filter (fun k => ¬ bit_black W.toNat k)).card : Nat) :
            Int) := by
      intro a _
      have := Finset.filter_card_add_filter_neg_card_eq_card
        (s := mask_bits (pick_mask sh W H a) (board_words W H).toNat) (bit_black W.toNat)
      omega
    rw [List.map_congr_left hconv, ← sum_map_cast]
    exact_mod_cast hWt
  split_ifs at hboard <;> constructor <;> omega

/-- Soundness of the parity prune and of the area test: a demand that has a selection of
pairwise disjoint placements has a demanded area of at most `W * H` and passes
`parity_prune_possible`. -/
theorem parity_prune_of_selection (sh : List Shape) (W H : Int) (need_in : List Int)
    (sel : List (Nat × Nat)) (hsh : ∀ s ∈ sh, s.Committed) (hW : 0 < W) (hH : 0 < H)
    (hsel : IsSelection sh W H need_in sel) :
    demand_area sh need_in ≤ W * H ∧
      parity_prune_possible sh W H need_in (demand_area sh need_in) = true := by
  have hpick := fun a (ha : a ∈ sel) =>
    pick_spec sh W H hsh a (hsel.in_list a ha).1 (hsel.in_list a ha).2
  obtain ⟨hcolB, hcolW⟩ := selection_colours sh W H need_in sel hsh hW hH hsel
  -- the demanded area is the number of bits covered
  have harea : demand_area sh need_in =
      (sel.map (fun a => (((mask_bits (pick_mask sh W H a)
        (board_words W H).toNat).card : Nat) : Int))).sum := by
    unfold demand_area
    rw [demand_area_from_eq, selection_sums sh W H need_in sel hsel (fun _ s => s.area)]
    apply congrArg List.sum
    apply List.map_congr_left
    intro a ha
    exact (hpick a ha).2.1.symm
  -- the sum of the imbalances over the picks
  have hDsum : idx_sum (fun i s => max 0 (need_in.getD i 0) * shape_imbalance s) sh 0 =
      (sel.map (fun a => shape_imbalance (sh.getD a.1 Shape.none))).sum := by
    rw [← selection_sums sh W H need_in sel hsel (fun _ s => shape_imbalance s),
      idx_sum_eq_sum, idx_sum_eq_sum]
    apply Finset.sum_congr rfl
    intro i hi
    have := hsel.count i (Finset.mem_range.mp hi)
    unfold need_at at this ⊢
    rw [Nat.zero_add, max_eq_right (by omega)]
  have hDpick : ∀ a ∈ sel, shape_imbalance (sh.getD a.1 Shape.none) =
      |2 * ((((mask_bits (pick_mask sh W H a) (board_words W H).toNat).filter
            (bit_black W.toNat)).card : Nat) : Int) -
          (((mask_bits (pick_mask sh W H a) (board_words W H).toNat).card : Nat) : Int)| :=
    fun a ha => (hpick a ha).2.2
  have hβle : ∀ a : Nat × Nat, ((((mask_bits (pick_mask sh W H a) (board_words W H).toNat).filter
            (bit_black W.toNat)).card : Nat) : Int) ≤
          (((mask_bits (pick_mask sh W H a) (board_words W H).toNat).card : Nat) : Int) := by
    intro a
    exact_mod_cast Finset.card_filter_le _ _
  have hDle : (sel.map (fun a => shape_imbalance (sh.getD a.1 Shape.none))).sum ≤
      demand_area sh need_in := by
    rw [harea]
    apply sum_map_le_sum_map
    intro a ha
    rw [hDpick a ha, abs_le]
    have := hβle a
    constructor <;> omega
  have hsumD : parity_sumD need_in (demand_area sh need_in) sh 0 0 =
      (sel.map (fun a => shape_imbalance (sh.getD a.1 Shape.none))).sum := by
    rw [parity_sumD_eq _ _ _ _ _ (by rw [hDsum]; omega), hDsum, zero_add]
  -- the picks with more white than black bits
  have hrel := sums_rel sel
    (fun a => ((((mask_bits (pick_mask sh W H a) (board_words W H).toNat).filter
            (bit_black W.toNat)).card : Nat) : Int))
    (fun a => (((mask_bits (pick_mask sh W H a) (board_words W H).toNat).card : Nat) : Int))
    (fun a => shape_imbalance (sh.getD a.1 Shape.none))
    (fun a => decide (2 * ((((mask_bits (pick_mask sh W H a) (board_words W H).toNat).filter
            (bit_black W.toNat)).card : Nat) : Int) <
          (((mask_bits (pick_mask sh W H a) (board_words W H).toNat).card : Nat) : Int)))
    (by
      intro a ha
      simp only [decide_eq_true_eq]
      rw [hDpick a ha]
      split_ifs with hneg
      · rw [abs_of_neg (by omega)]; omega
      · rw [abs_of_nonneg (by omega)]; omega)
  generalize hselN : sel.filter (fun a => decide (2 * ((((mask_bits (pick_mask sh W H a)
      (board_words W H).toNat).filter (bit_black W.toNat)).card : Nat) : Int) <
      (((mask_bits (pick_mask sh W H a) (board_words W H).toNat).card : Nat) : Int))) = selN
    at hrel
  have hselN_sub : ∀ a ∈ selN, a ∈ sel := by
    intro a ha
    rw [← hselN] at ha
    exact (List.mem_filter.mp ha).1
  have htarget : ((reach_target (fun i => (selN.filter (fun a => decide (a.1 = i))).length) sh 0 :
      Nat) : Int) = (selN.map (fun a => shape_imbalance (sh.getD a.1 Shape.none))).sum := by
    rw [reach_target_cast, idx_sum_eq_sum,
      sum_picks_eq selN (fun i => shape_imbalance (sh.getD i Shape.none)) sh.length
        (fun a ha => (hsel.in_list a (hselN_sub a ha)).1)]
    apply Finset.sum_congr rfl
    intro i _
    rw [Nat.zero_add]
  have hkf : ∀ j, j < sh.length →
      (((selN.filter (fun a => decide (a.1 = 0 + j))).length : Nat) : Int) ≤
        max 0 (need_in.getD (0 + j) 0) := by
    intro j hj
    rw [Nat.zero_add]
    have h1 := hsel.count j hj
    have h2 := filter_filter_length_le sel (fun a => decide (2 * ((((mask_bits (pick_mask sh W H a)
      (board_words W H).toNat).filter (bit_black W.toNat)).card : Nat) : Int) <
      (((mask_bits (pick_mask sh W H a) (board_words W H).toNat).card : Nat) : Int))) j
    rw [hselN] at h2
    unfold need_at at h1
    rw [max_eq_right (by omega)]
    omega
  have hNnn : 0 ≤ (selN.map (fun a => shape_imbalance (sh.getD a.1 Shape.none))).sum :=
    sum_map_nonneg _ _ (fun a _ => shape_imbalance_nonneg _)
  have hβnn : 0 ≤ (sel.map (fun a => ((((mask_bits (pick_mask sh W H a)
      (board_words W H).toNat).filter (bit_black W.toNat)).card : Nat) : Int))).sum :=
    sum_map_nonneg _ _ (fun a _ => Int.natCast_nonneg _)
  have hωnn : 0 ≤ (sel.map (fun a => (((mask_bits (pick_mask sh W H a)
          (board_words W H).toNat).card : Nat) : Int) -
        ((((mask_bits (pick_mask sh W H a)
          (board_words W H).toNat).filter (bit_black W.toNat)).card : Nat) : Int))).sum :=
    sum_map_nonneg _ _ (fun a _ => by have := hβle a; omega)
  have hsub := sum_map_sub sel
    (fun a => (((mask_bits (pick_mask sh W H a) (board_words W H).toNat).card : Nat) : Int))
    (fun a => ((((mask_bits (pick_mask sh W H a) (board_words W H).toNat).filter
            (bit_black W.toNat)).card : Nat) : Int))
  have hNle := sum_filter_map_le sel (fun a => decide (2 * ((((mask_bits (pick_mask sh W H a)
      (board_words W H).toNat).filter (bit_black W.toNat)).card : Nat) : Int) <
      (((mask_bits (pick_mask sh W H a) (board_words W H).toNat).card : Nat) : Int)))
    (fun a => shape_imbalance (sh.getD a.1 Shape.none)) (fun a _ => shape_imbalance_nonneg _)
  rw [hselN] at hNle
  simp only at hsub
  rw [hsub] at hcolW hωnn
  -- name the sums
  generalize (sel.map (fun a => (((mask_bits (pick_mask sh W H a)
    (board_words W H).toNat).card : Nat) : Int))).sum = Sν at *
  generalize (sel.map (fun a => ((((mask_bits (pick_mask sh W H a)
    (board_words W H).toNat).filter (bit_black W.toNat)).card : Nat) : Int))).sum = Sβ at *
  generalize (sel.map (fun a => shape_imbalance (sh.getD a.1 Shape.none))).sum = Sd at *
  generalize (selN.map (fun a => shape_imbalance (sh.getD a.1 Shape.none))).sum = SN at *
  generalize hA : demand_area sh need_in = A at *
  subst harea
  refine ⟨by omega, ?_⟩
  unfold parity_prune_possible
  simp only []
  rw [hsumD, List.any_eq_true]
  have hSd0 : 0 ≤ Sd := by omega
  have hnw : 0 < (Int.tdiv (Sd + 1 + 63) 64).toNat := by
    rw [Int.tdiv_eq_ediv (by omega) (by norm_num)]
    omega
  obtain ⟨hdp0, hok0, hlen0⟩ := mask_bit_dp0 (Int.tdiv (Sd + 1 + 63) 64).toNat hnw
  have hreach := parity_dp_reach need_in (Int.tdiv (Sd + 1 + 63) 64).toNat (Sd + 1).toNat
    (fun i => (selN.filter (fun a => decide (a.1 = i))).length) sh 0 _ hok0 hlen0
    (by rw [Int.tdiv_eq_ediv (by omega) (by norm_num)]; omega) hkf 0 hdp0 (by omega)
  rw [Nat.zero_add] at hreach
  refine ⟨reach_target (fun i => (selN.filter (fun a => decide (a.1 = i))).length) sh 0,
    List.mem_range.mpr (by omega), ?_⟩
  apply parity_accepts_of _ _ _ _ _ _ Sβ (A - Sβ) hreach
  · rw [htarget]; omega
  · rfl
  · omega
  · omega
  · rw [Int.tdiv_eq_ediv (by have := Int.mul_pos hW hH; omega) (by norm_num)]
    omega
  · rw [Int.tdiv_eq_ediv (by have := Int.mul_pos hW hH; omega) (by norm_num)]
    omega

/-! ## The context `solve_region_fast` builds -/

/-- The placement lists the second loop returns: empty for a shape that is not demanded,
the list built for it otherwise. -/
theorem solve_place_loop_some (build : List Mask → Shape → Int → Int → Nat → List Mask)
    (need_in : List Int) (W H : Int) (nw : Nat) (sh : List Shape) (si : Nat)
    (place : List (List Mask))
    (h : solve_place_loop build need_in W H nw sh si = some place) :
    place.length = sh.length ∧
      ∀ j, j < sh.length → place.getD j [] =
        if need_at need_in (si + j) ≤ 0 then [] else build [] (sh.getD j Shape.none) W H nw := by
  induction sh generalizing si place with
  | nil =>
    simp only [solve_place_loop, Option.some.injEq] at h
    subst h
    simp
  | cons s rest ih =>
    simp only [solve_place_loop] at h
    by_cases hneed : need_at need_in si ≤ 0
    · rw [if_pos hneed] at h
      cases hrec : solve_place_loop build need_in W H nw rest (si + 1) with
      | none => rw [hrec] at h; simp at h
      | some ps =>
        rw [hrec] at h
        simp only [Option.map_some', Option.some.injEq] at h
        subst h
        obtain ⟨h1, h2⟩ := ih (si + 1) ps hrec
        refine ⟨by simp [h1], ?_⟩
        intro j hj
        cases j with
        | zero => simp [hneed]
        | succ j =>
          have := h2 j (by simpa using hj)
          simpa [Nat.add_assoc, Nat.add_comm 1 j] using this
    · rw [if_neg hneed] at h
      split_ifs at h with hbox hlen
      cases hrec : solve_place_loop build need_in W H nw rest (si + 1) with
      | none => rw [hrec] at h; simp at h
      | some ps =>
        rw [hrec] at h
        simp only [Option.map_some', Option.some.injEq] at h
        subst h
        obtain ⟨h1, h2⟩ := ih (si + 1) ps hrec
        refine ⟨by simp [h1], ?_⟩
        intro j hj
        cases j with
        | zero => simp [hneed]
        | succ j =>
          have := h2 j (by simpa using hj)
          simpa [Nat.add_assoc, Nat.add_comm 1 j] using this

/-- The second loop runs to its end when every demanded shape has a placement. -/
theorem solve_place_loop_complete (need_in : List Int) (W H : Int) (nw : Nat) (sh : List Shape)
    (si : Nat)
    (h : ∀ j, j < sh.length → 0 < need_at need_in (si + j) →
      build_placements_for_shape [] (sh.getD j Shape.none) W H nw ≠ []) :
    ∃ place, solve_place_loop build_placements_for_shape need_in W H nw sh si = some place := by
  induction sh generalizing si with
  | nil => exact ⟨[], rfl⟩
  | cons s rest ih =>
    obtain ⟨ps, hps⟩ := ih (si + 1) (by
      intro j hj hpos
      have := h (j + 1) (by simpa using hj)
        (by simpa [Nat.add_assoc, Nat.add_comm 1 j] using hpos)
      simpa using this)
    simp only [solve_place_loop]
    by_cases hneed : need_at need_in si ≤ 0
    · rw [if_pos hneed, hps]
      exact ⟨_, rfl⟩
    · rw [if_neg hneed]
      have hne := h 0 (by simp) (by simpa using (by omega : 0 < need_at need_in si))
      simp only [List.getD_cons_zero] at hne
      obtain ⟨m, hm⟩ := List.exists_mem_of_ne_nil _ hne
      obtain ⟨p, hp, x0, y0, hx, hy, _⟩ := (mem_build_placements s W H nw m).mp hm
      have hbox : (s.ori.any fun p => decide (p.w ≤ W ∧ p.h ≤ H)) = true := by
        rw [List.any_eq_true]
        refine ⟨p, hp, ?_⟩
        rw [decide_eq_true_eq]
        constructor <;> omega
      have hlen : ¬ (build_placements_for_shape [] s W H nw).length = 0 := by
        rw [List.length_eq_zero]
        exact hne
      simp only [hbox, Bool.not_true, Bool.false_eq_true, if_false, if_neg hlen, hps]
      exact ⟨_, rfl⟩

/-- The demand check returns the demanded area when no count is negative and every
demanded shape has a cell. -/
theorem demand_area_checked_complete (need_in : List Int) (sh : List Shape) (i : Nat)
    (acc : Int)
    (h : ∀ j, j < sh.length → 0 ≤ need_at need_in (i + j) ∧
      (0 < need_at need_in (i + j) → 0 < (sh.getD j Shape.none).area)) :
    demand_area_checked need_in sh i acc = some (acc + demand_area_from need_in sh i) := by
  induction sh generalizing i acc with
  | nil => simp [demand_area_checked, demand_area_from]
  | cons s rest ih =>
    have h0 := h 0 (by simp)
    simp only [Nat.add_zero, List.getD_cons_zero] at h0
    have hrest : ∀ j, j < rest.length → 0 ≤ need_at need_in (i + 1 + j) ∧
        (0 < need_at need_in (i + 1 + j) → 0 < (rest.getD j Shape.none).area) := by
      intro j hj
      have := h (j + 1) (by simpa using hj)
      simpa [Nat.add_assoc, Nat.add_comm 1 j] using this
    simp only [demand_area_checked, demand_area_from]
    rw [if_neg (by omega)]
    by_cases hpos : need_at need_in i > 0
    · rw [if_pos hpos, if_neg (by have := h0.2 hpos; omega), ih (i + 1) _ hrest]
      congr 1
      ring
    · rw [if_neg hpos, ih (i + 1) _ hrest]
      have : need_at need_in i = 0 := by omega
      rw [this]
      congr 1
      ring

/-- Without overflow the first loop of `solve_region_fast` returns the demanded area when
no count is negative and every demanded shape has a cell. -/
theorem solve_area_loop_complete (need_in : List Int) (sh : List Shape)
    (hfit : demand_area sh need_in ≤ INT_MAX)
    (h : ∀ j, j < sh.length → 0 ≤ need_at need_in j ∧
      (0 < need_at need_in j → 0 < (sh.getD j Shape.none).area)) :
    solve_area_loop need_in sh 0 0 = some (demand_area sh need_in) := by
  have := solve_area_loop_exact need_in sh 0 0 (le_refl 0)
    (by unfold demand_area at hfit; omega)
    (fun j hj => by
      have := h j hj
      rw [List.getD_eq_getElem _ _ hj] at this
      rw [Nat.zero_add]
      exact this)
  rw [this, Int.zero_add]
  rfl

theorem initial_need_getD (sh : List Shape) (W H : Int) (need_in : List Int)
    (place : List (List Mask)) (a : Int) (t : Nat) (ht : t < sh.length) :
    (initial_ctx sh W H need_in place a).need.getD t 0 = need_at need_in t := by
  simp [initial_ctx, List.getD_eq_getElem?_getD, ht]

theorem initial_area_getD (sh : List Shape) (W H : Int) (need_in : List Int)
    (place : List (List Mask)) (a : Int) (t : Nat) :
    (initial_ctx sh W H need_in place a).area.getD t 0 = (sh.getD t Shape.none).area := by
  simp only [initial_ctx, List.getD_eq_getElem?_getD, List.getElem?_map]
  cases sh[t]? <;> rfl

theorem initial_last_getD (sh : List Shape) (W H : Int) (need_in : List Int)
    (place : List (List Mask)) (a : Int) (t : Nat) (ht : t < sh.length) :
    (initial_ctx sh W H need_in place a).last_idx.getD t 0 = -1 := by
  simp [initial_ctx, List.getD_eq_getElem?_getD, ht]

theorem mask_overlaps_zero (m : Mask) (n : Nat) : mask_overlaps (bitset_zero n) m n = false := by
  unfold mask_overlaps bitset_zero
  rw [List.any_eq_false]
  intro i hi
  rw [List.mem_range] at hi
  simp [List.getD_eq_getElem?_getD, hi]

/-- In the initial context the mask of a pick of a demanded shape is the mask of the
placement list. -/
theorem initial_mask (sh : List Shape) (W H : Int) (need_in : List Int)
    (place : List (List Mask)) (area_sum : Int)
    (hplace : solve_place_loop build_placements_for_shape need_in W H
      (board_words W H).toNat sh 0 = some place)
    (t : Nat) (ht : t < sh.length) (hneed : 0 < need_at need_in t) :
    (initial_ctx sh W H need_in place area_sum).place.getD t [] = placement_list sh W H t := by
  have h := (solve_place_loop_some _ _ _ _ _ _ _ _ hplace).2 t ht
  rw [Nat.zero_add, if_neg (by omega)] at h
  rw [placement_list_eq sh W H t ht]
  exact h

/-- A placement list of the initial context that is not empty belongs to a demanded
shape. -/
theorem initial_place_nonempty (sh : List Shape) (W H : Int) (need_in : List Int)
    (place : List (List Mask)) (area_sum : Int)
    (hplace : solve_place_loop build_placements_for_shape need_in W H
      (board_words W H).toNat sh 0 = some place)
    (t : Nat) (ht : t < sh.length)
    (hne : 0 < ((initial_ctx sh W H need_in place area_sum).place.getD t []).length) :
    0 < need_at need_in t := by
  have h := (solve_place_loop_some _ _ _ _ _ _ _ _ hplace).2 t ht
  rw [Nat.zero_add] at h
  by_contra hcon
  rw [if_pos (by omega)] at h
  have : (initial_ctx sh W H need_in place area_sum).place.getD t [] = [] := h
  rw [this] at hne
  simp at hne

/-! ## The size of a placement list -/

theorem foldl_ori_push_length (l acc : List Poly) :
    (l.foldl ori_push acc).length ≤ acc.length + l.length := by
  induction l generalizing acc with
  | nil => simp
  | cons p rest ih =>
    rw [List.foldl_cons]
    refine le_trans (ih _) ?_
    have : (ori_push acc p).length ≤ acc.length + 1 := by
      unfold ori_push
      split_ifs <;> simp
    simp only [List.length_cons]
    omega

theorem shape_make_oris_length (s : Shape) : (shape_make_oris s).ori.length ≤ 8 := by
  unfold shape_make_oris
  simp only []
  refine le_trans (foldl_ori_push_length _ _) ?_
  simp

theorem placements_of_ori_length (p : Poly) (W H : Int) (n : Nat) (hw : 1 ≤ p.w)
    (hh : 1 ≤ p.h) (hW : 0 < W) (hH : 0 < H) :
    (placements_of_ori p W H n).length ≤ (W * H).toNat := by
  unfold placements_of_ori
  split_ifs with hfit
  · simp
  · rw [List.length_flatMap]
    have hsum : ∀ (l : List Nat) (k : Nat) (f : Nat → List Mask), (∀ y, (f y).length = k) →
        (l.map (List.length ∘ f)).sum = l.length * k := by
      intro l k f hf
      induction l with
      | nil => simp
      | cons a rest ih =>
        rw [List.map_cons, List.sum_cons, ih, Function.comp_apply, hf, List.length_cons]
        ring
    rw [hsum _ (W - p.w + 1).toNat _ (by intro y; simp), List.length_range]
    have h1 : (H - p.h + 1).toNat ≤ H.toNat := by omega
    have h2 : (W - p.w + 1).toNat ≤ W.toNat := by omega
    rw [toNat_mul_pos W H hW hH, Nat.mul_comm W.toNat]
    exact Nat.mul_le_mul h1 h2

/-- A placement list of a stored shape with a cell has at most eight entries per cell
of the board. -/
theorem build_placements_length (s : Shape) (W H : Int) (n : Nat) (hs : s.Committed)
    (harea : 0 < s.area) (hW : 0 < W) (hH : 0 < H) :
    (build_placements_for_shape [] s W H n).length ≤ 8 * (W * H).toNat := by
  obtain ⟨_, _, hori⟩ := hs.ori_spec
  have hlen : s.ori.length ≤ 8 := by
    obtain ⟨id, cur, _, rfl⟩ := hs
    exact shape_make_oris_length _
  unfold build_placements_for_shape
  rw [List.nil_append, List.length_flatMap]
  have hall : ∀ x ∈ s.ori.map (fun p => (placements_of_ori p W H n).length),
      x ≤ (W * H).toNat := by
    intro x hx
    rw [List.mem_map] at hx
    obtain ⟨p, hp, rfl⟩ := hx
    obtain ⟨_, hpl, hbox⟩ := hori p hp
    have hne : p.c ≠ [] := by
      intro h0
      rw [h0] at hpl
      simp at hpl
      omega
    obtain ⟨c, hc⟩ := List.exists_mem_of_ne_nil _ hne
    have := hbox c hc
    exact placements_of_ori_length p W H n (by omega) (by omega) hW hH
  have := List.sum_le_card_nsmul _ _ hall
  rw [List.length_map, smul_eq_mul] at this
  exact le_trans this (Nat.mul_le_mul_right _ hlen)

/-! ## From a solved search to a selection -/

theorem initial_need_nonneg (sh : List Shape) (W H : Int) (need_in : List Int)
    (place : List (List Mask)) (a : Int)
    (hinv : ∀ j, j < sh.length → 0 ≤ need_at need_in j) (t : Nat) :
    0 ≤ (initial_ctx sh W H need_in place a).need.getD t 0 := by
  by_cases ht : t < sh.length
  · rw [initial_need_getD _ _ _ _ _ _ _ ht]
    exact hinv t ht
  · have : (initial_ctx sh W H need_in place a).need.getD t 0 = 0 := by
      simp only [initial_ctx]
      rw [List.getD_eq_default]
      simp only [List.length_map, List.length_range]
      omega
    omega

/-- Counts that never exceed the demand and use up the demanded area are the demanded
counts. -/
theorem counts_eq_of_area (n : Nat) (need cnt area : Nat → Int)
    (hle : ∀ j, j < n → 0 ≤ cnt j ∧ cnt j ≤ need j)
    (hpos : ∀ j, j < n → 0 < need j → 0 < area j)
    (hsum : ∑ j ∈ Finset.range n, need j * area j = ∑ j ∈ Finset.range n, cnt j * area j) :
    ∀ j, j < n → cnt j = need j := by
  have hz : ∑ j ∈ Finset.range n, (need j - cnt j) * area j = 0 := by
    simp only [sub_mul, Finset.sum_sub_distrib]
    omega
  have hnn : ∀ j ∈ Finset.range n, 0 ≤ (need j - cnt j) * area j := by
    intro j hj
    rw [Finset.mem_range] at hj
    obtain ⟨h1, h2⟩ := hle j hj
    by_cases hp : 0 < need j
    · exact mul_nonneg (by omega) (le_of_lt (hpos j hj hp))
    · have : need j - cnt j = 0 := by omega
      rw [this, zero_mul]
  intro j hj
  have hterm := (Finset.sum_eq_zero_iff_of_nonneg hnn).mp hz j (Finset.mem_range.mpr hj)
  obtain ⟨h1, h2⟩ := hle j hj
  by_cases hp : 0 < need j
  · have ha := hpos j hj hp
    rcases mul_eq_zero.mp hterm with h | h
    · omega
    · omega
  · omega

/-- A solved search from the initial context has placed a selection for the demand. -/
theorem search_true_selection (sh : List Shape) (W H : Int) (need_in : List Int)
    (place : List (List Mask)) (area_sum : Int) (fuel : Nat) (c' : Ctx)
    (ha : area_sum = demand_area sh need_in)
    (hinv : ∀ j (hj : j < sh.length), 0 ≤ need_at need_in (0 + j) ∧
      (0 < need_at need_in (0 + j) → 0 < (sh.get ⟨j, hj⟩).area))
    (hnw : nwords_for_board W H = board_words W H)
    (hplace : solve_place_loop build_placements_for_shape need_in W H
      (board_words W H).toNat sh 0 = some place)
    (hdfs : dfs fuel (initial_ctx sh W H need_in place area_sum) = some (true, c')) :
    ∃ picks, Run (initial_ctx sh W H need_in place area_sum) picks c' ∧
      c'.remaining_area = 0 ∧ IsSelection sh W H need_in picks ∧ picks.Nodup := by
  obtain ⟨picks, hrun, hrem⟩ := dfs_true_run fuel _ c' hdfs
  refine ⟨picks, hrun, hrem, ?_⟩
  have hinv' : ∀ j, j < sh.length → 0 ≤ need_at need_in j ∧
      (0 < need_at need_in j → 0 < (sh.getD j Shape.none).area) := by
    intro j hj
    have := hinv j hj
    rw [Nat.zero_add] at this
    rw [List.getD_eq_getElem _ _ hj]
    exact this
  obtain ⟨hvalid, hpair⟩ := hrun.picks_spec
    (by simp [initial_ctx]) (by simp [initial_ctx, bitset_zero])
  obtain ⟨hneed, hnn⟩ := hrun.need_spec
  have hnn' := hnn (initial_need_nonneg sh W H need_in place area_sum
    (fun j hj => (hinv' j hj).1))
  have hremeq := hrun.remaining_spec
  have hlt : ∀ a ∈ picks, a.1 < sh.length := fun a ha => (hvalid a ha).1
  have hdemanded : ∀ a ∈ picks, 0 < need_at need_in a.1 := fun a ha =>
    initial_place_nonempty sh W H need_in place area_sum hplace a.1 (hlt a ha)
      (by have := (hvalid a ha).2.1; omega)
  have hlist : ∀ a ∈ picks,
      (initial_ctx sh W H need_in place area_sum).place.getD a.1 [] =
        placement_list sh W H a.1 := fun a ha =>
    initial_mask sh W H need_in place area_sum hplace a.1 (hlt a ha) (hdemanded a ha)
  have hmask : ∀ a ∈ picks,
      (initial_ctx sh W H need_in place area_sum).mask a = pick_mask sh W H a := by
    intro a ha
    unfold Ctx.mask pick_mask
    rw [hlist a ha]
  have hcount : ∀ j, j < sh.length →
      (((picks.filter (fun a => a.1 = j)).length : Nat) : Int) = need_at need_in j := by
    apply counts_eq_of_area sh.length (fun j => need_at need_in j)
      (fun j => (((picks.filter (fun a => a.1 = j)).length : Nat) : Int))
      (fun j => (sh.getD j Shape.none).area)
    · intro j hj
      have h1 := hneed j
      have h2 := hnn' j
      rw [initial_need_getD _ _ _ _ _ _ _ hj] at h1
      constructor
      · exact Int.natCast_nonneg _
      · omega
    · intro j hj hp
      exact (hinv' j hj).2 hp
    · have hs := sum_picks_eq picks (fun i => (sh.getD i Shape.none).area) sh.length hlt
      have hd : area_sum =
          ∑ j ∈ Finset.range sh.length, need_at need_in j * (sh.getD j Shape.none).area := by
        rw [ha, demand_area, demand_area_from_eq, idx_sum_eq_sum]
        simp only [Nat.zero_add]
      beta_reduce at hs ⊢
      rw [← hd, ← hs]
      have : (picks.map
          (fun a => (initial_ctx sh W H need_in place area_sum).area.getD a.1 0)).sum =
          (picks.map (fun a => (sh.getD a.1 Shape.none).area)).sum := by
        congr 1
        apply List.map_congr_left
        intro a _
        exact initial_area_getD sh W H need_in place area_sum a.1
      rw [this] at hremeq
      have h0 : (initial_ctx sh W H need_in place area_sum).remaining_area = area_sum := rfl
      omega
  refine ⟨⟨?_, hcount, ?_⟩, ?_⟩
  · intro a ha
    refine ⟨hlt a ha, ?_⟩
    rw [← hlist a ha]
    exact (hvalid a ha).2.1
  · refine hpair.imp_of_mem ?_
    intro a b ha hb hab
    rw [← hmask a ha, ← hmask b hb, ← hnw]
    exact hab.2
  · refine hpair.imp ?_
    intro a b hab heq
    have := hab.1 (by rw [heq])
    rw [heq] at this
    omega

/-- The bits of a pick of a stored shape lie on the board. -/
theorem pick_in_board (sh : List Shape) (W H : Int) (hsh : ∀ s ∈ sh, s.Committed)
    (a : Nat × Nat) (ha1 : a.1 < sh.length) (ha2 : a.2 < (placement_list sh W H a.1).length)
    (k : Nat) (hk : mask_bit (pick_mask sh W H a) k = true) : (k : Int) < W * H := by
  obtain ⟨hsub, _, _⟩ := pick_spec sh W H hsh a ha1 ha2
  obtain ⟨p, _, x0, y0, _, _, hm⟩ := pick_mask_eq sh W H a ha1 ha2
  have hlen : (pick_mask sh W H a).length = (board_words W H).toNat := by
    rw [hm, placement_mask_length]
  have hlt : k < 64 * (board_words W H).toNat := by
    by_contra hcon
    unfold mask_bit at hk
    rw [List.getD_eq_default _ _ (by rw [hlen]; omega)] at hk
    simp at hk
  have hmem : k ∈ mask_bits (pick_mask sh W H a) (board_words W H).toNat := by
    unfold mask_bits
    rw [Finset.mem_filter, Finset.mem_range]
    exact ⟨hlt, hk⟩
  have := Finset.mem_range.mp (hsub hmem)
  omega

/-! ## From a selection to a solved search -/

theorem selection_demanded (sh : List Shape) (W H : Int) (need_in : List Int)
    (sel : List (Nat × Nat)) (hsel : IsSelection sh W H need_in sel) (a : Nat × Nat)
    (ha : a ∈ sel) : 0 < need_at need_in a.1 := by
  have h1 := hsel.count a.1 (hsel.in_list a ha).1
  have h2 := filter_length_pos_of_mem sel a ha
  omega

theorem selection_need_nonneg (sh : List Shape) (W H : Int) (need_in : List Int)
    (sel : List (Nat × Nat)) (hsel : IsSelection sh W H need_in sel) (j : Nat)
    (hj : j < sh.length) : 0 ≤ need_at need_in j := by
  rw [← hsel.count j hj]
  exact Int.natCast_nonneg _

/-- Every demanded shape of a selection has a placement, so the second loop of
`solve_region_fast` runs to its end. -/
theorem selection_place (sh : List Shape) (W H : Int) (need_in : List Int)
    (sel : List (Nat × Nat)) (hsel : IsSelection sh W H need_in sel) :
    ∃ place, solve_place_loop build_placements_for_shape need_in W H
      (board_words W H).toNat sh 0 = some place := by
  apply solve_place_loop_complete
  intro j hj hpos
  rw [Nat.zero_add] at hpos
  have hc := hsel.count j hj
  obtain ⟨i, hi⟩ := exists_mem_of_filter_length_pos sel j (by omega)
  have hlen := (hsel.in_list _ hi).2
  simp only at hlen
  rw [placement_list_eq sh W H j hj] at hlen
  intro hnil
  rw [hnil] at hlen
  simp at hlen

/-- A selection for the demand completes the initial context of the search. -/
theorem selection_completion (sh : List Shape) (W H : Int) (need_in : List Int)
    (sel : List (Nat × Nat)) (place : List (List Mask)) (hsh : ∀ s ∈ sh, s.Committed)
    (hW : 0 < W) (hH : 0 < H) (hsmall : W * H ≤ 4096)
    (hcell : ∀ i, i < sh.length → 0 < need_at need_in i → 0 < (sh.getD i Shape.none).area)
    (hsel : IsSelection sh W H need_in sel)
    (hplace : solve_place_loop build_placements_for_shape need_in W H
      (board_words W H).toNat sh 0 = some place) :
    Completion (initial_ctx sh W H need_in place (demand_area sh need_in)) sel := by
  have hWH : 0 < W * H := mul_pos hW hH
  have hnw : nwords_for_board W H = board_words W H :=
    nwords_for_board_eq W H (le_of_lt hWH) (by unfold INT_MAX; omega)
  have hnw' : (initial_ctx sh W H need_in place (demand_area sh need_in)).nwords =
      (board_words W H).toNat := by
    show (nwords_for_board W H).toNat = _
    rw [hnw]
  have hlt : ∀ a ∈ sel, a.1 < sh.length := fun a ha => (hsel.in_list a ha).1
  have hdem : ∀ a ∈ sel, 0 < need_at need_in a.1 :=
    fun a ha => selection_demanded sh W H need_in sel hsel a ha
  have hlist : ∀ a ∈ sel,
      (initial_ctx sh W H need_in place (demand_area sh need_in)).place.getD a.1 [] =
        placement_list sh W H a.1 := fun a ha =>
    initial_mask sh W H need_in place _ hplace a.1 (hlt a ha) (hdem a ha)
  have hmask : ∀ a ∈ sel,
      (initial_ctx sh W H need_in place (demand_area sh need_in)).mask a =
        pick_mask sh W H a := by
    intro a ha
    unfold Ctx.mask pick_mask
    rw [hlist a ha]
  have hself : ∀ a ∈ sel, mask_overlaps (pick_mask sh W H a) (pick_mask sh W H a)
      (board_words W H).toNat = true := fun a ha =>
    pick_mask_overlaps_self sh W H hsh a (hlt a ha) (hsel.in_list a ha).2
      (hcell a.1 (hlt a ha) (hdem a ha))
  have hsym : Symmetric (fun a b : Nat × Nat =>
      mask_overlaps (pick_mask sh W H a) (pick_mask sh W H b)
        (board_words W H).toNat = false) := by
    intro a b hab
    rw [mask_overlaps_comm]
    exact hab
  refine ⟨?_, ?_, ?_, ?_, ?_, ?_, ?_, ?_, ?_⟩
  · refine hsel.disjoint.imp_of_mem ?_
    intro a b ha hb hab heq
    rw [← heq, hself a ha] at hab
    exact Bool.noConfusion hab
  · intro a ha
    refine ⟨hlt a ha, ?_, ?_, ?_⟩
    · rw [hlist a ha]
      exact (hsel.in_list a ha).2
    · rw [initial_last_getD _ _ _ _ _ _ _ (hlt a ha)]
      omega
    · exact mask_overlaps_zero _ _
  · intro a ha b hb hab
    rw [hmask a ha, hmask b hb, hnw']
    exact hsel.disjoint.forall hsym ha hb hab
  · intro t ht
    rw [initial_need_getD _ _ _ _ _ _ _ ht]
    exact hsel.count t ht
  · show demand_area sh need_in = _
    unfold demand_area
    rw [demand_area_from_eq, selection_sums sh W H need_in sel hsel (fun _ s => s.area)]
    congr 1
    apply List.map_congr_left
    intro a _
    exact (initial_area_getD sh W H need_in place _ a.1).symm
  · show demand_area sh need_in ≤ int_wrap (W * H)
    rw [int_wrap_eq (W * H) (by omega) (by omega)]
    exact (parity_prune_of_selection sh W H need_in sel hsh hW hH hsel).1
  · simp [initial_ctx]
  · simp [initial_ctx, bitset_zero]
  · intro r
    obtain ⟨hlen, hget⟩ := solve_place_loop_some _ _ _ _ _ _ _ _ hplace
    show (((place.getD r []).length : Nat) : Int) < INT_MAX
    by_cases hr : r < sh.length
    · rw [hget r hr, Nat.zero_add]
      split_ifs with hneed
      · simp [INT_MAX]
      · have hb := build_placements_length (sh.getD r Shape.none) W H
          (board_words W H).toNat (hsh _ (getD_mem_of_lt sh r hr))
          (hcell r hr (by omega)) hW hH
        have h0 : 0 < W * H := mul_pos hW hH
        unfold INT_MAX
        omega
    · rw [List.getD_eq_default _ _ (by omega)]
      simp [INT_MAX]

/-! ## The state a run ends in -/

theorem Run.eq_foldl {c c' : Ctx} {picks : List (Nat × Nat)} (h : Run c picks c') :
    c' = picks.foldl place_piece c := by
  induction h with
  | nil c => rfl
  | cons c a picks c' _ _ ih => rw [List.foldl_cons]; exact ih

/-- After a run `last_idx[t]` is a placement index for every type that was picked. -/
theorem Run.last_nonneg {c c' : Ctx} {picks : List (Nat × Nat)} (h : Run c picks c') (t : Nat)
    (ht : t < c.last_idx.length)
    (hp : (∃ a ∈ picks, a.1 = t) ∨ 0 ≤ c.last_idx.getD t 0) : 0 ≤ c'.last_idx.getD t 0 := by
  induction h with
  | nil c =>
    rcases hp with ⟨a, ha, _⟩ | hp
    · simp at ha
    · exact hp
  | cons c a picks c' _ _ ih =>
    apply ih
    · simp only [place_piece, List.length_set]
      exact ht
    · by_cases hat : a.1 = t
      · right
        simp only [place_piece]
        rw [getD_set_int, if_pos ⟨hat, by rw [hat]; exact ht⟩]
        exact Int.natCast_nonneg _
      · rcases hp with ⟨b, hb, hbt⟩ | hp
        · rcases List.mem_cons.mp hb with rfl | hb
          · exact absurd hbt hat
          · exact Or.inl ⟨b, hb, hbt⟩
        · right
          simp only [place_piece]
          rw [getD_set_int, if_neg (fun hh => hat hh.1)]
          exact hp

/-- After a run `last_idx[t]` is untouched for every type that was not picked. -/
theorem Run.last_keep {c c' : Ctx} {picks : List (Nat × Nat)} (h : Run c picks c') (t : Nat)
    (hp : ∀ a ∈ picks, a.1 ≠ t) : c'.last_idx.getD t 0 = c.last_idx.getD t 0 := by
  induction h with
  | nil c => rfl
  | cons c a picks c' _ _ ih =>
    rw [ih (fun b hb => hp b (List.mem_cons_of_mem _ hb))]
    simp only [place_piece]
    rw [getD_set_int, if_neg (fun hh => hp a (List.mem_cons_self _ _) hh.1)]

theorem mask_bit_mask_apply (occ m : Mask) (n k : Nat) (hk : k / 64 < n)
    (hlen : n ≤ occ.length) :
    mask_bit (mask_apply occ m n) k = (mask_bit occ k || mask_bit m k) := by
  unfold mask_bit
  rw [mask_apply_getD, if_pos ⟨hk, by omega⟩, Nat.testBit_or]

/-- After a run the occupancy holds the bits it held before and those of the placed
masks. -/
theorem Run.occ_bit {c c' : Ctx} {picks : List (Nat × Nat)} (h : Run c picks c')
    (hlen : c.nwords ≤ c.occ.length) (k : Nat) (hk : k / 64 < c.nwords) :
    mask_bit c'.occ k = true ↔
      mask_bit c.occ k = true ∨ ∃ a ∈ picks, mask_bit (c.mask a) k = true := by
  induction h with
  | nil c => simp
  | cons c a picks c' _ _ ih =>
    have hlen' : (place_piece c a).nwords ≤ (place_piece c a).occ.length := by
      simp only [place_piece, mask_apply_length]
      exact hlen
    rw [ih hlen' hk]
    have hocc : mask_bit (place_piece c a).occ k = (mask_bit c.occ k || mask_bit (c.mask a) k) :=
      mask_bit_mask_apply c.occ (c.mask a) c.nwords k hk hlen
    have hmask : ∀ b, (place_piece c a).mask b = c.mask b := fun _ => rfl
    simp only [hocc, hmask, Bool.or_eq_true, List.mem_cons, exists_eq_or_imp]
    tauto

/-! ## The search with and without the prune -/

theorem dfs_call_total (c : Ctx) : ∃ r, dfs_call c = some r :=
  dfs_total (dfs_budget c) c (by unfold dfs_budget total_need; omega)

/-- A region the reference search accepts has a selection of distinct picks. -/
theorem solve_region_noprune_selection (sh : List Shape) (W H : Int) (need_in : List Int)
    (h : solve_region_noprune sh W H need_in = some true) :
    ∃ sel, IsSelection sh W H need_in sel ∧ sel.Nodup := by
  unfold solve_region_noprune at h
  split_ifs at h with hn
  · simp at h
  cases harea : demand_area_checked need_in sh 0 0 with
  | none => rw [harea] at h; simp at h
  | some a =>
    rw [harea] at h
    simp only [] at h
    obtain ⟨ha, hinv⟩ := demand_area_checked_some need_in sh 0 0 a harea
    by_cases h0 : a = 0
    · have hpos := (demand_area_from_nonneg need_in sh 0 hinv).2
      refine ⟨[], ⟨?_, ?_, List.Pairwise.nil⟩, List.nodup_nil⟩
      · intro x hx
        simp at hx
      · intro i hi
        have h1 := (hinv i hi).1
        rw [Nat.zero_add] at h1
        have h2 : ¬ 0 < need_at need_in i := by
          intro hp
          have := hpos ⟨i, hi, by rw [Nat.zero_add]; exact hp⟩
          omega
        simp only [List.filter_nil, List.length_nil, Nat.cast_zero]
        omega
    · rw [if_neg h0] at h
      split_ifs at h with hgt
      · simp at h
      cases hplace : solve_place_loop build_placements_for_shape need_in W H
          (board_words W H).toNat sh 0 with
      | none => rw [hplace] at h; simp at h
      | some place =>
        rw [hplace] at h
        simp only [] at h
        cases hd : dfs_call (initial_ctx sh W H need_in place a) with
        | none => rw [hd] at h; simp at h
        | some r =>
          rw [hd] at h
          obtain ⟨b, c'⟩ := r
          simp only [Option.map_some', Option.some.injEq] at h
          subst h
          have hWH : 0 < W * H ∧ W * H ≤ 4096 := by
            unfold board_words at hn
            have hnn := (demand_area_from_nonneg need_in sh 0 hinv).1
            have hpos : 0 < W * H := by omega
            rw [Int.tdiv_eq_ediv (by omega) (by omega)] at hn
            omega
          obtain ⟨picks, _, _, hsel, hnd⟩ :=
            search_true_selection sh W H need_in place a _ c'
              (by rw [ha, Int.zero_add]; rfl) hinv
              (nwords_for_board_eq W H (le_of_lt hWH.1) (by unfold INT_MAX; omega)) hplace hd
          exact ⟨picks, hsel, hnd⟩

/-- Without overflow (a board of at most `INT_MAX - 63` cells and a demanded area of at
most `INT_MAX`) a region `solve_region_fast` accepts is accepted by the reference search. -/
theorem solve_region_fast_true_noprune (sh : List Shape) (W H : Int) (need_in : List Int)
    (hW : 0 < W) (hH : 0 < H) (hboard : W * H ≤ INT_MAX - 63)
    (hfit : demand_area sh need_in ≤ INT_MAX)
    (h : solve_region_fast sh W H need_in = some true) :
    solve_region_noprune sh W H need_in = some true := by
  have hWH : 0 < W * H := mul_pos hW hH
  have hnw : nwords_for_board W H = board_words W H :=
    nwords_for_board_eq W H (le_of_lt hWH) hboard
  have hwrap : int_wrap (W * H) = W * H :=
    int_wrap_eq (W * H) (by omega) (by unfold INT_MAX at hboard; omega)
  unfold solve_region_fast solve_region_with at h
  unfold solve_region_noprune
  rw [hnw, hwrap] at h
  split_ifs at h ⊢ with hn
  · simp at h
  cases harea : solve_area_loop need_in sh 0 0 with
  | none => rw [harea] at h; simp at h
  | some a =>
    rw [harea] at h
    obtain ⟨ha, hinv⟩ := solve_area_loop_some need_in sh a hfit harea
    have hchk : demand_area_checked need_in sh 0 0 = some a := by
      rw [demand_area_checked_complete need_in sh 0 0 (fun j hj => by
        have := hinv j hj
        rw [List.getD_eq_getElem _ _ hj]
        exact this), ha, Int.zero_add]
      rfl
    rw [hchk]
    simp only [] at h ⊢
    by_cases h0 : a = 0
    · rw [if_pos h0]
    · rw [if_neg h0] at h ⊢
      by_cases hgt : a > W * H
      · rw [if_pos hgt] at h
        simp at h
      · rw [if_neg hgt] at h ⊢
        split_ifs at h with hp
        · simp at h
        · exact h

/-! ## Completeness, soundness and the parity prune -/

/-- C1 (counterexample): a shape whose grid has no `#` is stored with area 0 and one
orientation; on the 1 x 1 board its placement list holds one (empty) mask, so one copy
can be picked, yet `solve_region_fast` rejects the region at its guard on `area <= 0`. -/
theorem solve_region_fast_empty_shape_rejected :
    placement_list [commit_shape_record 0 glyph_empty] 1 1 0 = [[0]] ∧
      IsSelection [commit_shape_record 0 glyph_empty] 1 1 [1] [(0, 0)] ∧
      solve_region_fast [commit_shape_record 0 glyph_empty] 1 1 [1] = some false :=
  ⟨by decide, ⟨by decide, by decide, by decide⟩, by decide⟩

/-- C1 (amended): completeness of the search.  For every shape set stored by the reader,
every board with positive `W` and `H` and `W * H ≤ 4096`, and every demand in which each
shape with a positive count has at least one cell: if `counts[i]` placements of each
shape `i` can be picked from its placement list with pairwise non-overlapping masks, then
`solve_region_fast` returns `true`.  The search restricts each further copy of a shape to
placement indices above `last_idx[t]`, so that restriction loses no solution. -/
theorem solve_region_fast_complete (sh : List Shape) (W H : Int) (need_in : List Int)
    (hsh : ∀ s ∈ sh, s.Committed) (hW : 0 < W) (hH : 0 < H) (hsmall : W * H ≤ 4096)
    (hcell : ∀ i, i < sh.length → 0 < need_at need_in i → 0 < (sh.getD i Shape.none).area)
    (h : ∃ sel, IsSelection sh W H need_in sel) :
    solve_region_fast sh W H need_in = some true := by
  obtain ⟨sel, hsel⟩ := h
  have h0 : 0 ≤ W * H := le_of_lt (Int.mul_pos hW hH)
  have hn : ¬ nwords_for_board W H > 64 := not_lt.mpr (nwords_for_board_le W H h0 hsmall)
  obtain ⟨hfit, hprune⟩ := parity_prune_of_selection sh W H need_in sel hsh hW hH hsel
  have harea : solve_area_loop need_in sh 0 0 = some (demand_area sh need_in) :=
    solve_area_loop_complete need_in sh (by unfold INT_MAX; omega) (fun j hj =>
      ⟨selection_need_nonneg sh W H need_in sel hsel j hj, hcell j hj⟩)
  have hwrap : int_wrap (W * H) = W * H := int_wrap_eq (W * H) (by omega) (by omega)
  obtain ⟨place, hplace⟩ := selection_place sh W H need_in sel hsel
  obtain ⟨c', hdfs⟩ := dfs_complete (dfs_budget (initial_ctx sh W H need_in place
      (demand_area sh need_in))) _ sel (by unfold dfs_budget total_need; omega)
    (selection_completion sh W H need_in sel place hsh hW hH hsmall hcell hsel hplace)
  unfold solve_region_fast solve_region_with
  rw [if_neg hn, harea]
  simp only []
  by_cases hz : demand_area sh need_in = 0
  · rw [if_pos hz]
  · have hnw : nwords_for_board W H = board_words W H :=
      nwords_for_board_eq W H h0 (by unfold INT_MAX; omega)
    rw [if_neg hz, hwrap, if_neg (by omega), hprune, hnw, hplace]
    simp only [Bool.not_true, Bool.false_eq_true, if_false]
    unfold dfs_call
    rw [hdfs]
    rfl

theorem solve_region_fast_complete_witness :
    solve_region_fast [commit_shape_record 0 glyph_domino] 2 2 [2] = some true :=
  solve_region_fast_complete [commit_shape_record 0 glyph_domino] 2 2 [2]
    (fun s hs => by
      rw [List.mem_singleton] at hs
      subst hs
      exact ⟨0, glyph_domino, by decide, rfl⟩)
    (by decide) (by decide) (by decide) (by decide)
    ⟨[(0, 0), (0, 1)], by decide, by decide, by decide⟩

/-- Without overflow the search is sound.  For every shape set stored by the reader, every
board with positive `W` and `H` and `W * H ≤ INT_MAX - 63` and every demand whose area
`Σ counts[i] * area[i]` is at most `INT_MAX`, if `solve_region_fast` returns `true` then
there is a list of distinct picks, `counts[i]` of them from the placement list of each
shape `i`, whose masks are pairwise non-overlapping and have all their bits inside the
`W x H` board. -/
theorem solve_region_fast_sound (sh : List Shape) (W H : Int) (need_in : List Int)
    (hsh : ∀ s ∈ sh, s.Committed) (hW : 0 < W) (hH : 0 < H) (hboard : W * H ≤ INT_MAX - 63)
    (hfit : demand_area sh need_in ≤ INT_MAX)
    (h : solve_region_fast sh W H need_in = some true) :
    ∃ sel, IsSelection sh W H need_in sel ∧ sel.Nodup ∧
      ∀ a ∈ sel, ∀ k, mask_bit (pick_mask sh W H a) k = true → (k : Int) < W * H := by
  obtain ⟨sel, hsel, hnd⟩ :=
    solve_region_noprune_selection sh W H need_in
      (solve_region_fast_true_noprune sh W H need_in hW hH hboard hfit h)
  refine ⟨sel, hsel, hnd, ?_⟩
  intro a ha k hk
  exact pick_in_board sh W H hsh a (hsel.in_list a ha).1 (hsel.in_list a ha).2 k hk

theorem solve_region_fast_sound_witness :
    ∃ sel, IsSelection [commit_shape_record 0 glyph_l_tromino] 2 2 [1] sel ∧ sel.Nodup ∧
      ∀ a ∈ sel, ∀ k,
        mask_bit (pick_mask [commit_shape_record 0 glyph_l_tromino] 2 2 a) k = true →
          (k : Int) < 2 * 2 :=
  solve_region_fast_sound [commit_shape_record 0 glyph_l_tromino] 2 2 [1]
    (fun s hs => by
      rw [List.mem_singleton] at hs
      subst hs
      exact ⟨0, glyph_l_tromino, by decide, rfl⟩)
    (by decide) (by decide) (by decide) (by decide) (by decide)

/-- C7 (counterexample): a 100 x 100 region whose only count is zero is rejected, because
the board needs 157 mask words and the guard on `nwords` returns `false` first. -/
theorem solve_region_fast_zero_demand_big_board :
    nwords_for_board 100 100 = 157 ∧
      demand_area [commit_shape_record 0 glyph_monomino] [0] = 0 ∧
      solve_region_fast [commit_shape_record 0 glyph_monomino] 100 100 [0] = some false := by
  decide

/-- C7 (amended): for every shape set and every region with positive `W` and `H` and
`W * H ≤ 4096` whose counts are all zero, `solve_region_fast` returns `true`. -/
theorem solve_region_fast_zero_demand (sh : List Shape) (W H : Int) (need_in : List Int)
    (hW : 0 < W) (hH : 0 < H) (hWH : W * H ≤ 4096)
    (hz : ∀ i, i < sh.length → need_at need_in i = 0) :
    solve_region_fast sh W H need_in = some true := by
  have h0 : 0 ≤ W * H := le_of_lt (Int.mul_pos hW hH)
  have hn : ¬ nwords_for_board W H > 64 := not_lt.mpr (nwords_for_board_le W H h0 hWH)
  have hloop : solve_area_loop need_in sh 0 0 = some 0 :=
    solve_area_loop_zero need_in sh 0 0 (fun j hj => by simpa using hz j hj)
  simp [solve_region_fast, solve_region_with, hn, hloop]

theorem solve_region_fast_zero_demand_witness :
    solve_region_fast [commit_shape_record 0 glyph_monomino] 3 3 [0] = some true :=
  solve_region_fast_zero_demand _ 3 3 [0] (by decide) (by decide) (by decide)
    (fun i hi => by
      have : i = 0 := by simpa using hi
      subst this; rfl)

/-- C8, at the failing input: shape 0 is the square `##` / `##` and the region is
`2x2: 1073741824`.  The demanded area `4 * 1073741824 = 2 ^ 32` exceeds `W * H = 4`, but
the `int` sum `area_sum` wraps to 0 and `solve_region_fast` returns `true` at
`if (area_sum == 0)`; the program counts the region and prints 1. -/
theorem solve_region_fast_area_sum_wraps :
    demand_area [commit_shape_record 0 glyph_square] [1073741824] = 4294967296 ∧
      demand_area [commit_shape_record 0 glyph_square] [1073741824] > 2 * 2 ∧
      int_wrap (4 * 1073741824) = 0 ∧
      solve_area_loop [1073741824] [commit_shape_record 0 glyph_square] 0 0 = some 0 ∧
      solve_region_fast [commit_shape_record 0 glyph_square] 2 2 [1073741824] = some true ∧
      main_ok_count [commit_shape_record 0 glyph_square] [(2, 2, [1073741824])] = 1 := by
  decide

/-- As long as the demanded area `Σ counts[i] * area[i]` is at most `INT_MAX`, a region
(positive `W` and `H`) whose demanded area exceeds `W * H` is rejected: `solve_region_fast`
returns `false`, and so does its body for every behaviour of `build_placements_for_shape`
and of `dfs`, so the result is fixed before either is called. -/
theorem solve_region_fast_area_exceeds (sh : List Shape) (W H : Int) (need_in : List Int)
    (hW : 0 < W) (hH : 0 < H) (hfit : demand_area sh need_in ≤ INT_MAX)
    (h : demand_area sh need_in > W * H) :
    solve_region_fast sh W H need_in = some false ∧
      ∀ (build : List Mask → Shape → Int → Int → Nat → List Mask)
        (search : Ctx → Option (Bool × Ctx)),
        solve_region_with build search sh W H need_in = some false := by
  have h0 : 0 < W * H := Int.mul_pos hW hH
  have key : ∀ (build : List Mask → Shape → Int → Int → Nat → List Mask)
      (search : Ctx → Option (Bool × Ctx)),
      solve_region_with build search sh W H need_in = some false := by
    intro build search
    unfold solve_region_with
    split_ifs with hn
    · rfl
    · cases hloop : solve_area_loop need_in sh 0 0 with
      | none => rfl
      | some a =>
        have ha : a = demand_area sh need_in := (solve_area_loop_some need_in sh a hfit hloop).1
        have h1 : ¬ a = 0 := by omega
        have h2 : a > int_wrap (W * H) := by
          rw [int_wrap_eq (W * H) (by omega) (by unfold INT_MAX at hfit; omega)]
          omega
        simp [h1, h2]
  exact ⟨key _ _, key⟩

theorem solve_region_fast_area_exceeds_witness :
    solve_region_fast [commit_shape_record 0 glyph_domino] 2 2 [3] = some false ∧
      ∀ (build : List Mask → Shape → Int → Int → Nat → List Mask)
        (search : Ctx → Option (Bool × Ctx)),
        solve_region_with build search [commit_shape_record 0 glyph_domino] 2 2 [3] =
          some false :=
  solve_region_fast_area_exceeds _ 2 2 [3] (by decide) (by decide) (by decide) (by decide)

/-- C9, at the failing input: shape 0 is the T-tetromino `###` / `.#.` and the region is
`2x2: 1073741824`.  Every orientation of the shape has a bounding box 3 wide or 3 tall, so
none fits the 2 x 2 board, but the `int` sum `area_sum` wraps to 0 and `solve_region_fast`
returns `true` at `if (area_sum == 0)`, before the bounding boxes are looked at; the
program counts the region and prints 1. -/
theorem solve_region_fast_bbox_not_reached :
    0 < need_at [1073741824] 0 ∧
      (∀ p ∈ (commit_shape_record 0 glyph_t_tetromino).ori, p.w > 2 ∨ p.h > 2) ∧
      placement_list [commit_shape_record 0 glyph_t_tetromino] 2 2 0 = [] ∧
      solve_area_loop [1073741824] [commit_shape_record 0 glyph_t_tetromino] 0 0 = some 0 ∧
      solve_region_fast [commit_shape_record 0 glyph_t_tetromino] 2 2 [1073741824] =
        some true ∧
      main_ok_count [commit_shape_record 0 glyph_t_tetromino] [(2, 2, [1073741824])] = 1 := by
  decide

/-- As long as the demanded area `Σ counts[i] * area[i]` is at most `INT_MAX`: when some
shape with positive count has, in every orientation, a bounding box wider than `W` or
taller than `H`, `solve_region_fast` returns `false`, and so does its body for every
behaviour of `dfs`, so the search is not entered. -/
theorem solve_region_fast_bbox_too_big (sh : List Shape) (W H : Int) (need_in : List Int)
    (hfit : demand_area sh need_in ≤ INT_MAX)
    (h : ∃ i, ∃ hi : i < sh.length, 0 < need_at need_in i ∧
        ∀ p ∈ (sh.get ⟨i, hi⟩).ori, p.w > W ∨ p.h > H) :
    solve_region_fast sh W H need_in = some false ∧
      ∀ (search : Ctx → Option (Bool × Ctx)),
        solve_region_with build_placements_for_shape search sh W H need_in = some false := by
  have key : ∀ (search : Ctx → Option (Bool × Ctx)),
      solve_region_with build_placements_for_shape search sh W H need_in = some false := by
    intro search
    unfold solve_region_with
    split_ifs with hn
    · rfl
    · cases hloop : solve_area_loop need_in sh 0 0 with
      | none => rfl
      | some a =>
        have hplace : solve_place_loop build_placements_for_shape need_in W H
            (nwords_for_board W H).toNat sh 0 = none := by
          apply solve_place_loop_bbox
          obtain ⟨i, hi, hpos, hbox⟩ := h
          exact ⟨i, hi, by simpa using hpos, hbox⟩
        simp only [hplace]
        have ha : ¬ a = 0 := by
          obtain ⟨h1, h2⟩ := solve_area_loop_some need_in sh a hfit hloop
          obtain ⟨i, hi, hpos, _⟩ := h
          have := (demand_area_from_nonneg need_in sh 0 h2).2 ⟨i, hi, by simpa using hpos⟩
          unfold demand_area at h1
          omega
        rw [if_neg ha]
        split_ifs <;> rfl
  exact ⟨key _, key⟩

theorem solve_region_fast_bbox_too_big_witness :
    solve_region_fast [commit_shape_record 0 glyph_t_tetromino] 2 2 [1] = some false ∧
      ∀ (search : Ctx → Option (Bool × Ctx)),
        solve_region_with build_placements_for_shape search
          [commit_shape_record 0 glyph_t_tetromino] 2 2 [1] = some false :=
  solve_region_fast_bbox_too_big _ 2 2 [1] (by decide)
    ⟨0, by decide, by decide, by decide⟩

/-- C4 (counterexample): scenario S3, one L-tromino on the 2 x 2 board.  The demanded
area 3 is positive and differs from the board area 4, and the region is accepted. -/
theorem solve_region_fast_s3_accepted :
    demand_area [commit_shape_record 0 glyph_l_tromino] [1] = 3 ∧
      (2 : Int) * 2 = 4 ∧
      solve_region_fast [commit_shape_record 0 glyph_l_tromino] 2 2 [1] = some true := by
  decide

/-- C4 (amended): a region is reported tileable only when the pieces fit the board by
area: if `solve_region_fast` returns `true` on a region with positive `W` and `H` whose
demanded area `Σ counts[i] * area[i]` is at most `INT_MAX` (so that the `int` sum
`area_sum` does not overflow), the demanded area is at least `0` and at most `W * H`. -/
theorem solve_region_fast_true_area_le (sh : List Shape) (W H : Int) (need_in : List Int)
    (hW : 0 < W) (hH : 0 < H) (hfit : demand_area sh need_in ≤ INT_MAX)
    (h : solve_region_fast sh W H need_in = some true) :
    0 ≤ demand_area sh need_in ∧ demand_area sh need_in ≤ W * H := by
  have h0 : 0 < W * H := Int.mul_pos hW hH
  unfold solve_region_fast solve_region_with at h
  split_ifs at h with hn
  · simp at h
  cases hloop : solve_area_loop need_in sh 0 0 with
  | none => simp [hloop] at h
  | some a =>
    rw [hloop] at h
    obtain ⟨ha, h2⟩ := solve_area_loop_some need_in sh a hfit hloop
    have hnn := (demand_area_from_nonneg need_in sh 0 h2).1
    refine ⟨hnn, ?_⟩
    by_contra hgt
    have h2 : a > int_wrap (W * H) := by
      rw [int_wrap_eq (W * H) (by omega) (by unfold INT_MAX at hfit; omega)]
      omega
    have h1 : ¬ a = 0 := by omega
    simp [h1, h2] at h

theorem solve_region_fast_true_area_le_witness :
    0 ≤ demand_area [commit_shape_record 0 glyph_domino] [2] ∧
      demand_area [commit_shape_record 0 glyph_domino] [2] ≤ 2 * 2 :=
  solve_region_fast_true_area_le _ 2 2 [2] (by decide) (by decide) (by decide) (by decide)

/-- C5 (counterexample): scenario S5, four dominoes on the 3 x 3 board, is not
rejected. -/
theorem solve_region_fast_s5_not_rejected :
    solve_region_fast [commit_shape_record 0 glyph_domino] 3 3 [4] ≠ some false := by
  decide

/-- C5 (amended): in scenario S5 the demanded area is 8, the parity prune passes, the
search finds four disjoint dominoes on the 3 x 3 board, `solve_region_fast` returns
`true` and the program prints 1. -/
theorem solve_region_fast_s5_accepted :
    demand_area [commit_shape_record 0 glyph_domino] [4] = 8 ∧
      parity_prune_possible [commit_shape_record 0 glyph_domino] 3 3 [4] 8 = true ∧
      solve_region_fast [commit_shape_record 0 glyph_domino] 3 3 [4] = some true ∧
      main_ok_count [commit_shape_record 0 glyph_domino] [(3, 3, [4])] = 1 := by
  decide

/-! ## The state after a solved search -/

theorem initial_ctx_mask (sh : List Shape) (W H : Int) (need_in : List Int)
    (place : List (List Mask)) (area_sum : Int)
    (hplace : solve_place_loop build_placements_for_shape need_in W H
      (board_words W H).toNat sh 0 = some place)
    (a : Nat × Nat) (ha : a.1 < sh.length) (hneed : 0 < need_at need_in a.1) :
    (initial_ctx sh W H need_in place area_sum).mask a = pick_mask sh W H a := by
  unfold Ctx.mask pick_mask
  rw [initial_mask sh W H need_in place area_sum hplace a.1 ha hneed]

/-- C6 (counterexample): scenario S1, one monomino on the 1 x 1 board.  The search called
from the initial state (`occ = [0]`, `need = [1]`, `last_idx = [-1]`) returns `true` and
leaves `occ = [1]`, `need = [0]` and `last_idx = [0]`: the state of the successful leaf. -/
theorem dfs_success_keeps_leaf_state :
    solve_area_loop [1] [commit_shape_record 0 glyph_monomino] 0 0 = some 1 ∧
      solve_place_loop build_placements_for_shape [1] 1 1 (nwords_for_board 1 1).toNat
        [commit_shape_record 0 glyph_monomino] 0 = some [[[1]]] ∧
      (initial_ctx [commit_shape_record 0 glyph_monomino] 1 1 [1] [[[1]]] 1).occ = [0] ∧
      (initial_ctx [commit_shape_record 0 glyph_monomino] 1 1 [1] [[[1]]] 1).need = [1] ∧
      (initial_ctx [commit_shape_record 0 glyph_monomino] 1 1 [1] [[[1]]] 1).last_idx = [-1] ∧
      (dfs_call (initial_ctx [commit_shape_record 0 glyph_monomino] 1 1 [1] [[[1]]] 1)).map
        (fun r => (r.1, r.2.occ, r.2.need, r.2.last_idx)) = some (true, [1], [0], [0]) := by
  decide

/-- C6 (amended): on a board with positive `W` and `H` and `W * H ≤ INT_MAX - 63` and for
a demand whose area `Σ counts[i] * area[i]` is at most `INT_MAX` (so that neither the word
count nor `area_sum` overflows), after a solved search (`dfs` called from the initial state
of `solve_region_fast` returns `true`) the search state is the initial state with the
pieces of a selection placed, not the initial state itself: `remaining_area` is 0,
`need[t]` is 0 for every shape, `last_idx[t]` is a placement index for every demanded
shape and `-1` for the others, and `occ` holds exactly the bits of the placed masks. -/
theorem dfs_solved_state (sh : List Shape) (W H : Int) (need_in : List Int)
    (place : List (List Mask)) (area_sum : Int) (c' : Ctx)
    (hW : 0 < W) (hH : 0 < H) (hboard : W * H ≤ INT_MAX - 63)
    (hfit : demand_area sh need_in ≤ INT_MAX)
    (harea : solve_area_loop need_in sh 0 0 = some area_sum)
    (hplace : solve_place_loop build_placements_for_shape need_in W H
      (nwords_for_board W H).toNat sh 0 = some place)
    (hdfs : dfs_call (initial_ctx sh W H need_in place area_sum) = some (true, c')) :
    ∃ picks, IsSelection sh W H need_in picks ∧
      c' = picks.foldl place_piece (initial_ctx sh W H need_in place area_sum) ∧
      c'.remaining_area = 0 ∧
      (∀ t, t < sh.length → c'.need.getD t 0 = 0) ∧
      (∀ t, t < sh.length → 0 < need_at need_in t → 0 ≤ c'.last_idx.getD t 0) ∧
      (∀ t, t < sh.length → need_at need_in t = 0 → c'.last_idx.getD t 0 = -1) ∧
      ∀ k, k < 64 * (nwords_for_board W H).toNat →
        (mask_bit c'.occ k = true ↔ ∃ a ∈ picks, mask_bit (pick_mask sh W H a) k = true) := by
  have hnw : nwords_for_board W H = board_words W H :=
    nwords_for_board_eq W H (le_of_lt (mul_pos hW hH)) hboard
  rw [hnw] at hplace
  obtain ⟨ha, hinv⟩ := solve_area_loop_some need_in sh area_sum hfit harea
  obtain ⟨picks, hrun, hrem, hsel, _⟩ :=
    search_true_selection sh W H need_in place area_sum _ c' ha hinv hnw hplace hdfs
  refine ⟨picks, hsel, hrun.eq_foldl, hrem, ?_, ?_, ?_, ?_⟩
  · intro t ht
    rw [hrun.need_spec.1 t, initial_need_getD _ _ _ _ _ _ _ ht, hsel.count t ht]
    omega
  · intro t ht hpos
    have hc := hsel.count t ht
    obtain ⟨i, hi⟩ := exists_mem_of_filter_length_pos picks t (by omega)
    exact hrun.last_nonneg t (by simpa [initial_ctx] using ht) (Or.inl ⟨(t, i), hi, rfl⟩)
  · intro t ht hz
    rw [hrun.last_keep t, initial_last_getD _ _ _ _ _ _ _ ht]
    intro a ha hat
    have := selection_demanded sh W H need_in picks hsel a ha
    rw [hat] at this
    omega
  · intro k hk
    have hbit := hrun.occ_bit (by simp [initial_ctx, bitset_zero]) k
      (by show k / 64 < (nwords_for_board W H).toNat; omega)
    rw [hbit]
    have hz : mask_bit (initial_ctx sh W H need_in place area_sum).occ k = false :=
      mask_bit_bitset_zero _ k
    rw [hz]
    simp only [Bool.false_eq_true, false_or]
    constructor
    · rintro ⟨a, ha, hb⟩
      refine ⟨a, ha, ?_⟩
      rw [← initial_ctx_mask sh W H need_in place area_sum hplace a (hsel.in_list a ha).1
        (selection_demanded sh W H need_in picks hsel a ha)]
      exact hb
    · rintro ⟨a, ha, hb⟩
      refine ⟨a, ha, ?_⟩
      rw [initial_ctx_mask sh W H need_in place area_sum hplace a (hsel.in_list a ha).1
        (selection_demanded sh W H need_in picks hsel a ha)]
      exact hb

theorem dfs_solved_state_witness :
    ∃ picks, IsSelection [commit_shape_record 0 glyph_monomino] 1 1 [1] picks ∧
      place_piece (initial_ctx [commit_shape_record 0 glyph_monomino] 1 1 [1] [[[1]]] 1) (0, 0) =
        picks.foldl place_piece (initial_ctx [commit_shape_record 0 glyph_monomino] 1 1 [1]
            [[[1]]] 1) ∧
      (place_piece (initial_ctx [commit_shape_record 0 glyph_monomino] 1 1 [1] [[[1]]] 1) (0,
          0)).remaining_area = 0 ∧
      (∀ t, t < [commit_shape_record 0 glyph_monomino].length →
        (place_piece (initial_ctx [commit_shape_record 0 glyph_monomino] 1 1 [1] [[[1]]] 1) (0,
            0)).need.getD t 0 = 0) ∧
      (∀ t, t < [commit_shape_record 0 glyph_monomino].length → 0 < need_at [1] t →
        0 ≤ (place_piece (initial_ctx [commit_shape_record 0 glyph_monomino] 1 1 [1] [[[1]]] 1)
            (0, 0)).last_idx.getD t 0) ∧
      (∀ t, t < [commit_shape_record 0 glyph_monomino].length → need_at [1] t = 0 →
        (place_piece (initial_ctx [commit_shape_record 0 glyph_monomino] 1 1 [1] [[[1]]] 1) (0,
            0)).last_idx.getD t 0 = -1) ∧
      ∀ k, k < 64 * (nwords_for_board 1 1).toNat →
        (mask_bit (place_piece (initial_ctx [commit_shape_record 0 glyph_monomino] 1 1 [1]
            [[[1]]] 1) (0, 0)).occ k = true ↔
          ∃ a ∈ picks, mask_bit (pick_mask [commit_shape_record 0 glyph_monomino] 1 1 a) k =
              true) :=
  dfs_solved_state [commit_shape_record 0 glyph_monomino] 1 1 [1] [[[1]]] 1
    (place_piece (initial_ctx [commit_shape_record 0 glyph_monomino] 1 1 [1] [[[1]]] 1) (0, 0))
    (by decide) (by decide) (by decide) (by decide) (by decide) (by decide) (by decide)

/-! ## An instance of the orientation theorem -/

theorem shape_make_oris_orbit_witness :
    (∀ i j : Fin (shape_make_oris ⟨0, glyph_l_tromino, [], 3⟩).ori.length, i ≠ j →
        poly_eq ((shape_make_oris ⟨0, glyph_l_tromino, [], 3⟩).ori.get i)
          ((shape_make_oris ⟨0, glyph_l_tromino, [], 3⟩).ori.get j) = false) ∧
      ((shape_make_oris ⟨0, glyph_l_tromino, [], 3⟩).ori.length = 1 ∨
        (shape_make_oris ⟨0, glyph_l_tromino, [], 3⟩).ori.length = 2 ∨
        (shape_make_oris ⟨0, glyph_l_tromino, [], 3⟩).ori.length = 4 ∨
        (shape_make_oris ⟨0, glyph_l_tromino, [], 3⟩).ori.length = 8) ∧
      ∀ p ∈ (shape_make_oris ⟨0, glyph_l_tromino, [], 3⟩).ori,
        (∃ q ∈ (shape_make_oris ⟨0, glyph_l_tromino, [], 3⟩).ori,
          poly_eq (poly_rot90 p) q = true) ∧
        (∃ q ∈ (shape_make_oris ⟨0, glyph_l_tromino, [], 3⟩).ori,
          poly_eq (poly_flipx p) q = true) :=
  shape_make_oris_orbit ⟨0, glyph_l_tromino, [], 3⟩ (by decide)

/-! ## The placement list -/

theorem build_placements_append (out : List Mask) (s : Shape) (W H : Int) (n : Nat) :
    build_placements_for_shape out s W H n = out ++ build_placements_for_shape [] s W H n := by
  simp [build_placements_for_shape]

theorem mask_bit_of_length_le (m : Mask) (k : Nat) (h : 64 * m.length ≤ k) :
    mask_bit m k = false := by
  unfold mask_bit
  rw [List.getD_eq_default _ _ (by omega)]
  simp

/-- A placement of a normalised polyomino of distinct cells that fits the board, in a mask
with room for the board, has one bit per cell, all of them below `W * H`. -/
theorem placement_mask_popcount (p : Poly) (W H : Int) (x0 y0 : Nat) (n : Nat)
    (hcap : W * H ≤ 64 * (n : Int)) (hnd : p.c.Nodup)
    (hbb : ∀ c ∈ p.c, 0 ≤ c.x ∧ c.x < p.w ∧ 0 ≤ c.y ∧ c.y < p.h)
    (hx : (x0 : Int) + p.w ≤ W) (hy : (y0 : Int) + p.h ≤ H) :
    popcount (placement_mask p W x0 y0 n) = p.c.length ∧
      ∀ k : Nat, W * H ≤ (k : Int) → mask_bit (placement_mask p W x0 y0 n) k = false := by
  obtain ⟨hsub, hcard, _⟩ := placement_bits_spec_cap p W H x0 y0 n hcap hnd hbb hx hy
  constructor
  · unfold popcount
    rw [placement_mask_length]
    exact hcard
  · intro k hk
    by_contra hne
    have hbit : mask_bit (placement_mask p W x0 y0 n) k = true := by
      simpa using hne
    have hlt : k < 64 * n := by
      by_contra hcon
      rw [mask_bit_of_length_le _ _ (by rw [placement_mask_length]; omega)] at hbit
      exact Bool.noConfusion hbit
    have hmem : k ∈ mask_bits (placement_mask p W x0 y0 n) n := by
      unfold mask_bits
      rw [Finset.mem_filter, Finset.mem_range]
      exact ⟨hlt, hbit⟩
    have := Finset.mem_range.mp (hsub hmem)
    omega

/-- C11: for every shape whose orientations are normalised polyominoes of distinct cells,
each with as many cells as the shape's area, for every board and for every mask length
`nwords` with room for the board, `W * H ≤ 64 * nwords` (the length `nwords_for_board`
gives for every board of at most `INT_MAX - 63` cells, so for every board with
`W * H ≤ 4096`), each mask appended by `build_placements_for_shape` has popcount equal to
the shape's area and has no bit set at any index `≥ W * H`. -/
theorem build_placements_mask_spec (out : List Mask) (s : Shape) (W H : Int) (nwords : Nat)
    (hcap : W * H ≤ 64 * (nwords : Int))
    (hs : ∀ p ∈ s.ori, p.c.Nodup ∧ (p.c.length : Int) = s.area ∧
      ∀ c ∈ p.c, 0 ≤ c.x ∧ c.x < p.w ∧ 0 ≤ c.y ∧ c.y < p.h) :
    ∃ app, build_placements_for_shape out s W H nwords = out ++ app ∧
      ∀ m ∈ app, (popcount m : Int) = s.area ∧
        ∀ k : Nat, W * H ≤ (k : Int) → mask_bit m k = false := by
  refine ⟨build_placements_for_shape [] s W H nwords,
    build_placements_append out s W H _, ?_⟩
  intro m hm
  obtain ⟨p, hp, x0, y0, hx, hy, rfl⟩ := (mem_build_placements s W H _ m).mp hm
  obtain ⟨hnd, hlen, hbb⟩ := hs p hp
  obtain ⟨h1, h2⟩ := placement_mask_popcount p W H x0 y0 nwords hcap hnd hbb hx hy
  exact ⟨by rw [h1]; exact hlen, h2⟩

/-! ## Order and size of the placement list -/

/-- Entry `j` of block `i` of a concatenation of blocks. -/
theorem flatMap_get_block {α β : Type} (f : α → List β) (l : List α) (i j : Nat) (a : α)
    (hi : l.get? i = some a) (hj : j < (f a).length) :
    (l.flatMap f).get? (((l.take i).map (fun x => (f x).length)).sum + j) = (f a).get? j := by
  induction l generalizing i with
  | nil => simp at hi
  | cons x rest ih =>
    cases i with
    | zero =>
      simp only [List.get?_cons_zero, Option.some.injEq] at hi
      subst hi
      simp only [List.take_zero, List.map_nil, List.sum_nil, Nat.zero_add, List.flatMap_cons]
      rw [List.get?_eq_getElem?, List.get?_eq_getElem?, List.getElem?_append_left hj]
    | succ i =>
      simp only [List.get?_cons_succ] at hi
      have := ih i hi
      simp only [List.take_succ_cons, List.map_cons, List.sum_cons, List.flatMap_cons]
      rw [List.get?_eq_getElem?, List.getElem?_append_right (by omega)]
      rw [List.get?_eq_getElem?] at this
      rw [← this]
      congr 1
      omega

theorem sum_map_const_length {α : Type} (l : List α) (k : Nat) :
    (l.map (fun _ => k)).sum = l.length * k := by
  induction l with
  | nil => simp
  | cons a rest ih =>
    rw [List.map_cons, List.sum_cons, ih, List.length_cons]
    ring

theorem placements_of_ori_eq (p : Poly) (W H : Int) (n : Nat) (hfit : p.w ≤ W ∧ p.h ≤ H) :
    placements_of_ori p W H n =
      (List.range (H - p.h + 1).toNat).flatMap (fun (y0 : Nat) =>
        (List.range (W - p.w + 1).toNat).map (fun (x0 : Nat) =>
          placement_mask p W (x0 : Int) (y0 : Int) n)) := by
  unfold placements_of_ori
  rw [if_neg (by omega)]

theorem placements_of_ori_count (p : Poly) (W H : Int) (n : Nat) :
    (placements_of_ori p W H n).length = ori_placement_count p W H := by
  unfold ori_placement_count
  by_cases hfit : p.w ≤ W ∧ p.h ≤ H
  · rw [if_pos hfit, placements_of_ori_eq p W H n hfit, List.length_flatMap]
    have : (List.map (fun (y0 : Nat) => (List.map (fun (x0 : Nat) =>
        placement_mask p W (x0 : Int) (y0 : Int) n) (List.range (W - p.w + 1).toNat)).length)
        (List.range (H - p.h + 1).toNat)) =
        (List.range (H - p.h + 1).toNat).map (fun _ => (W - p.w + 1).toNat) := by
      apply List.map_congr_left
      intro y _
      simp
    simp only [Function.comp_def]
    rw [this, sum_map_const_length, List.length_range]
    have h1 : 0 ≤ W - p.w + 1 := by omega
    have h2 : 0 ≤ H - p.h + 1 := by omega
    obtain ⟨a, ha⟩ := Int.eq_ofNat_of_zero_le h1
    obtain ⟨b, hb⟩ := Int.eq_ofNat_of_zero_le h2
    rw [ha, hb, ← Int.natCast_mul]
    simp only [Int.toNat_ofNat]
    exact Nat.mul_comm b a
  · rw [if_neg hfit]
    unfold placements_of_ori
    rw [if_pos (by omega)]
    rfl

/-- Placement `(x0, y0)` of an orientation stands at index `y0 * (W - p.w + 1) + x0` of
the block of that orientation. -/
theorem placements_of_ori_get (p : Poly) (W H : Int) (n : Nat) (x0 y0 : Nat)
    (hx : (x0 : Int) + p.w ≤ W) (hy : (y0 : Int) + p.h ≤ H) :
    (placements_of_ori p W H n).get? (y0 * (W - p.w + 1).toNat + x0) =
      some (placement_mask p W x0 y0 n) := by
  rw [placements_of_ori_eq p W H n ⟨by omega, by omega⟩]
  have hy0 : (List.range (H - p.h + 1).toNat).get? y0 = some y0 := by
    rw [List.get?_eq_getElem?, List.getElem?_range (by omega)]
  have hx0 : x0 < (W - p.w + 1).toNat := by omega
  have hblock := flatMap_get_block (fun (y0 : Nat) =>
      (List.range (W - p.w + 1).toNat).map (fun (x0 : Nat) =>
        placement_mask p W (x0 : Int) (y0 : Int) n))
    (List.range (H - p.h + 1).toNat) y0 x0 y0 hy0 (by simpa using hx0)
  have hsum : ((List.range (H - p.h + 1).toNat).take y0).map
      (fun (y : Nat) => ((List.range (W - p.w + 1).toNat).map (fun (x0 : Nat) =>
        placement_mask p W (x0 : Int) (y : Int) n)).length) =
      ((List.range (H - p.h + 1).toNat).take y0).map (fun _ => (W - p.w + 1).toNat) := by
    apply List.map_congr_left
    intro y _
    simp
  rw [hsum, sum_map_const_length, List.length_take, List.length_range,
    Nat.min_eq_left (by omega)] at hblock
  rw [hblock, List.get?_eq_getElem?, List.getElem?_map, List.getElem?_range hx0]
  rfl

theorem flatMap_placements_filter (l : List Poly) (W H : Int) (n : Nat) :
    l.flatMap (fun p => placements_of_ori p W H n) =
      (l.filter (fun p => decide (p.w ≤ W ∧ p.h ≤ H))).flatMap (fun p =>
        (List.range (H - p.h + 1).toNat).flatMap (fun (y0 : Nat) =>
          (List.range (W - p.w + 1).toNat).map (fun (x0 : Nat) =>
            placement_mask p W (x0 : Int) (y0 : Int) n))) := by
  induction l with
  | nil => rfl
  | cons p rest ih =>
    rw [List.flatMap_cons, ih]
    by_cases hfit : p.w ≤ W ∧ p.h ≤ H
    · rw [List.filter_cons_of_pos (by simpa using hfit), List.flatMap_cons,
        placements_of_ori_eq p W H n hfit]
    · rw [List.filter_cons_of_neg (by simpa using hfit)]
      unfold placements_of_ori
      rw [if_pos (by omega), List.nil_append]

/-- The bits of a placement of a normalised polyomino that fits the board. -/
theorem placement_mask_bits (p : Poly) (W H : Int) (x0 y0 : Nat) (n : Nat)
    (hcap : W * H ≤ 64 * (n : Int))
    (hbb : ∀ c ∈ p.c, 0 ≤ c.x ∧ c.x < p.w ∧ 0 ≤ c.y ∧ c.y < p.h)
    (hx : (x0 : Int) + p.w ≤ W) (hy : (y0 : Int) + p.h ≤ H) (k : Nat) :
    mask_bit (placement_mask p W x0 y0 n) k = true ↔
      ∃ c ∈ p.c, (k : Int) = ((y0 : Int) + c.y) * W + ((x0 : Int) + c.x) := by
  have hin : ∀ c ∈ p.c, InBoard W H x0 y0 c :=
    fun c hc => inBoard_of_bbox W H p x0 y0 c (hbb c hc) hx hy
  rw [mask_bit_placement_mask p W x0 y0 _ k
    (fun c hc => cell_idx_lt_cap W H x0 y0 c n hcap (hin c hc))]
  constructor
  · rintro ⟨c, hc, rfl⟩
    exact ⟨c, hc, cell_idx_cast W H x0 y0 c (hin c hc)⟩
  · rintro ⟨c, hc, hk⟩
    refine ⟨c, hc, ?_⟩
    have := cell_idx_cast W H x0 y0 c (hin c hc)
    omega

/-- C12: for every mask length `nwords` with room for the board, `W * H ≤ 64 * nwords`
(the length `nwords_for_board` gives for every board of at most `INT_MAX - 63` cells),
`build_placements_for_shape` appends exactly this list, in this order: for each
orientation in list order whose bounding box fits the board, for `y0 = 0..H-p.h`
ascending, for `x0 = 0..W-p.w` ascending, the placement mask of `p` at `(x0, y0)`.  Its
length is the sum over the fitting orientations of `(W-p.w+1) * (H-p.h+1)`, the placement
`(x0, y0)` of orientation `oi` stands at the index this order gives it, and, the
orientations being normalised, the set bits of that mask are exactly the indices
`(y0+y)*W + (x0+x)` of the cells `(x, y)` of `p`. -/
theorem build_placements_list_spec (out : List Mask) (s : Shape) (W H : Int) (nwords : Nat)
    (hcap : W * H ≤ 64 * (nwords : Int))
    (hnorm : ∀ p ∈ s.ori, ∀ c ∈ p.c, 0 ≤ c.x ∧ c.x < p.w ∧ 0 ≤ c.y ∧ c.y < p.h) :
    build_placements_for_shape out s W H nwords =
        out ++ (s.ori.filter (fun p => decide (p.w ≤ W ∧ p.h ≤ H))).flatMap (fun p =>
          (List.range (H - p.h + 1).toNat).flatMap (fun (y0 : Nat) =>
            (List.range (W - p.w + 1).toNat).map (fun (x0 : Nat) =>
              placement_mask p W (x0 : Int) (y0 : Int) nwords))) ∧
      (build_placements_for_shape out s W H nwords).length =
        out.length + (s.ori.map (fun p => ori_placement_count p W H)).sum ∧
      ∀ (oi : Nat) (p : Poly) (x0 y0 : Nat), s.ori.get? oi = some p →
        (x0 : Int) + p.w ≤ W → (y0 : Int) + p.h ≤ H →
        (build_placements_for_shape out s W H nwords).get?
            (out.length + ((s.ori.take oi).map (fun q => ori_placement_count q W H)).sum +
              y0 * (W - p.w + 1).toNat + x0) =
            some (placement_mask p W x0 y0 nwords) ∧
          ∀ k : Nat, mask_bit (placement_mask p W x0 y0 nwords) k = true ↔
            ∃ c ∈ p.c, (k : Int) = ((y0 : Int) + c.y) * W + ((x0 : Int) + c.x) := by
  have hcount : (fun p => (placements_of_ori p W H nwords).length) =
      fun p => ori_placement_count p W H := by
    funext p
    exact placements_of_ori_count p W H _
  refine ⟨?_, ?_, ?_⟩
  · unfold build_placements_for_shape
    rw [flatMap_placements_filter]
  · unfold build_placements_for_shape
    rw [List.length_append, List.length_flatMap]
    simp only [Function.comp_def]
    rw [hcount]
  · intro oi p x0 y0 hoi hx hy
    refine ⟨?_, placement_mask_bits p W H x0 y0 nwords hcap (hnorm p (List.get?_mem hoi))
      hx hy⟩
    have hidx : y0 * (W - p.w + 1).toNat + x0 <
        (placements_of_ori p W H nwords).length := by
      by_contra hcon
      have := placements_of_ori_get p W H nwords x0 y0 hx hy
      rw [List.get?_eq_none.mpr (by omega)] at this
      exact Option.noConfusion this
    have hblock := flatMap_get_block
      (fun p => placements_of_ori p W H nwords) s.ori oi
      (y0 * (W - p.w + 1).toNat + x0) p hoi hidx
    rw [hcount, placements_of_ori_get p W H _ x0 y0 hx hy] at hblock
    unfold build_placements_for_shape
    rw [List.get?_eq_getElem?, List.getElem?_append_right (by omega)]
    rw [List.get?_eq_getElem?] at hblock
    rw [← hblock]
    congr 1
    omega

/-! ## `poly_norm` -/

/-- C13: for every polyomino with at least one cell, the cells after `poly_norm` are the
input cells translated by `(-min x, -min y)` and sorted ascending by `y` and then by `x`;
their minimum `x` and minimum `y` are both 0, and `w = max x + 1`, `h = max y + 1`. -/
theorem poly_norm_spec (p : Poly) (hp : p.c ≠ []) :
    ∃ mx my : Int, IsMinOf Cell.x p.c mx ∧ IsMinOf Cell.y p.c my ∧
      (poly_norm p).c.Perm (p.c.map (fun c => ({ x := c.x - mx, y := c.y - my } : Cell))) ∧
      (poly_norm p).c.Sorted (fun a b => a.y < b.y ∨ (a.y = b.y ∧ a.x ≤ b.x)) ∧
      IsMinOf Cell.x (poly_norm p).c 0 ∧ IsMinOf Cell.y (poly_norm p).c 0 ∧
      IsMaxOf Cell.x (poly_norm p).c ((poly_norm p).w - 1) ∧
      IsMaxOf Cell.y (poly_norm p).c ((poly_norm p).h - 1) := by
  obtain ⟨c, w, h⟩ := p
  cases c with
  | nil => exact absurd rfl hp
  | cons c0 rest =>
    rw [poly_norm_cons]
    have hminx := isMinOf_foldl Cell.x c0 rest
    have hminy := isMinOf_foldl Cell.y c0 rest
    have hmaxx := isMaxOf_foldl Cell.x c0 rest
    have hmaxy := isMaxOf_foldl Cell.y c0 rest
    have hperm := List.perm_insertionSort cell_le ((c0 :: rest).map (fun c =>
      ({ x := c.x - rest.foldl (fun m c => if c.x < m then c.x else m) c0.x,
         y := c.y - rest.foldl (fun m c => if c.y < m then c.y else m) c0.y } : Cell)))
    refine ⟨_, _, hminx, hminy, hperm, ?_, ?_, ?_, ?_, ?_⟩
    · haveI := cell_le_total
      haveI := cell_le_trans
      have hs := List.sorted_insertionSort cell_le ((c0 :: rest).map (fun c =>
        ({ x := c.x - rest.foldl (fun m c => if c.x < m then c.x else m) c0.x,
           y := c.y - rest.foldl (fun m c => if c.y < m then c.y else m) c0.y } : Cell)))
      exact hs.imp (fun {a b} hab => (cell_le_iff a b).mp hab)
    · have := hminx.min_perm_map _ hperm
        (d := -rest.foldl (fun m c => if c.x < m then c.x else m) c0.x)
        (fun c => by show c.x - _ = c.x + -_; ring)
      simpa using this
    · have := hminy.min_perm_map _ hperm
        (d := -rest.foldl (fun m c => if c.y < m then c.y else m) c0.y)
        (fun c => by show c.y - _ = c.y + -_; ring)
      simpa using this
    · have := hmaxx.max_perm_map _ hperm
        (d := -rest.foldl (fun m c => if c.x < m then c.x else m) c0.x)
        (fun c => by show c.x - _ = c.x + -_; ring)
      simpa [sub_eq_add_neg] using this
    · have := hmaxy.max_perm_map _ hperm
        (d := -rest.foldl (fun m c => if c.y < m then c.y else m) c0.y)
        (fun c => by show c.y - _ = c.y + -_; ring)
      simpa [sub_eq_add_neg] using this

/-- C14: `poly_norm` is idempotent: for every polyomino `p`, applying `poly_norm` to
`poly_norm p` changes neither the cell list nor `w` nor `h`. -/
theorem poly_norm_idempotent (p : Poly) : poly_norm (poly_norm p) = poly_norm p := by
  by_cases hp : p.c = []
  · have h1 : poly_norm p = p := by
      unfold poly_norm
      rw [hp]
    rw [h1, h1]
  · rw [poly_norm_eq_norm_cells p hp,
      poly_norm_eq_norm_cells _ (norm_cells_ne_nil p.c hp)]
    exact norm_cells_idem p.c hp

/-! ## The orientations of a committed shape -/

theorem commit_shape_record_base (id : Int) (cur : Poly) :
    (commit_shape_record id cur).base = poly_norm cur ∧
      (commit_shape_record id cur).area = ((poly_norm cur).n : Int) := by
  simp [commit_shape_record, shape_make_oris]

theorem poly_norm_length (p : Poly) : (poly_norm p).c.length = p.c.length := by
  by_cases hp : p.c = []
  · have h1 : poly_norm p = p := by
      unfold poly_norm
      rw [hp]
    rw [h1]
  · rw [poly_norm_eq_norm_cells p hp, norm_cells_length]

theorem nodup_of_poly_norm (p : Poly) (h : (poly_norm p).c.Nodup) : p.c.Nodup := by
  by_cases hp : p.c = []
  · rw [hp]
    exact List.nodup_nil
  · rw [poly_norm_eq_norm_cells p hp] at h
    obtain ⟨dx, dy, hperm⟩ := norm_cells_perm p.c hp
    exact (hperm.nodup_iff.mp h).of_map _

/-- C15: for every shape committed by `commit_shape`, every member of its orientation
list has the same number of cells as the base polyomino, which equals the shape's area
field, and those cells are pairwise distinct when the base cells are. -/
theorem commit_shape_orientations (id : Int) (cur : Poly) :
    (((commit_shape_record id cur).base.n : Nat) : Int) = (commit_shape_record id cur).area ∧
      ∀ p ∈ (commit_shape_record id cur).ori,
        p.n = (commit_shape_record id cur).base.n ∧
          ((commit_shape_record id cur).base.c.Nodup → p.c.Nodup) := by
  obtain ⟨hbase, harea⟩ := commit_shape_record_base id cur
  refine ⟨by rw [hbase, harea], ?_⟩
  intro p hp
  rw [hbase]
  by_cases hc : cur.c = []
  · rw [(commit_shape_record_nil id cur hc).1, List.mem_singleton] at hp
    subst hp
    have h1 : poly_norm p = p := by
      unfold poly_norm
      rw [hc]
    rw [h1]
    exact ⟨rfl, fun h => h⟩
  · obtain ⟨_, hcand, _⟩ := commit_shape_record_ori id cur hc
    obtain ⟨g, rfl⟩ := hcand p hp
    constructor
    · unfold Poly.n
      rw [ori_cand_length, poly_norm_length]
    · intro hnd
      exact ori_cand_nodup cur.c hc (nodup_of_poly_norm cur hnd) g

/-! ## The logged search and the area balance -/

theorem dfs_loop_log_proj (call' : Ctx → Option (Bool × Ctx × List (DfsPoint × Ctx)))
    (call : Ctx → Option (Bool × Ctx))
    (h : ∀ c, (call' c).map (fun r => (r.1, r.2.1)) = call c) (t : Nat) (ms : List Mask)
    (i : Nat) (c : Ctx) :
    (dfs_loop_log call' t ms i c).map (fun r => (r.1, r.2.1)) = dfs_loop call t ms i c := by
  induction ms generalizing i c with
  | nil => rfl
  | cons m ms ih =>
    simp only [dfs_loop_log, dfs_loop]
    split_ifs with hov
    · rw [Option.map_map, ← ih]
      rfl
    · rw [← h]
      cases hc : call' { c with
          last_idx := c.last_idx.set t (i : Int)
          occ := mask_apply c.occ m c.nwords
          free_cells := c.free_cells - c.area.getD t 0 } with
      | none => rfl
      | some r =>
        obtain ⟨b, c2, log⟩ := r
        cases b with
        | true => rfl
        | false =>
          simp only [Option.map_some', Option.map_map]
          rw [← ih]
          rfl

/-- The logged search returns what `dfs` returns. -/
theorem dfs_log_proj (fuel : Nat) (c : Ctx) :
    (dfs_log fuel c).map (fun r => (r.1, r.2.1)) = dfs fuel c := by
  induction fuel generalizing c with
  | zero => rfl
  | succ fuel ih =>
    simp only [dfs_log, dfs]
    split_ifs
    · rfl
    · rfl
    · rfl
    · rfl
    · rw [← dfs_loop_log_proj (dfs_log fuel) (dfs fuel) ih]
      cases hl : dfs_loop_log (dfs_log fuel) (choose_next_type c).toNat
          (List.drop (start_index (c.last_idx.getD (choose_next_type c).toNat 0))
            (c.place.getD (choose_next_type c).toNat []))
          (start_index (c.last_idx.getD (choose_next_type c).toNat 0))
          { c with
            need := c.need.set (choose_next_type c).toNat
              (c.need.getD (choose_next_type c).toNat 0 - 1)
            remaining_area := c.remaining_area - c.area.getD (choose_next_type c).toNat 0 } with
      | none => rfl
      | some r =>
        obtain ⟨b, c2, log⟩ := r
        cases b <;> rfl

theorem popcount_mask_apply (occ m : Mask) (n : Nat) (hocc : occ.length = n)
    (hm : m.length = n) (h : mask_overlaps occ m n = false) :
    popcount (mask_apply occ m n) = popcount occ + popcount m := by
  unfold popcount
  rw [mask_apply_length, hocc, hm]
  have hunion : mask_bits (mask_apply occ m n) n = mask_bits occ n ∪ mask_bits m n := by
    ext k
    unfold mask_bits
    simp only [Finset.mem_union, Finset.mem_filter, Finset.mem_range]
    constructor
    · rintro ⟨hk, hb⟩
      rw [mask_bit_mask_apply occ m n k (by omega) (by omega), Bool.or_eq_true] at hb
      rcases hb with hb | hb
      · exact Or.inl ⟨hk, hb⟩
      · exact Or.inr ⟨hk, hb⟩
    · rintro (⟨hk, hb⟩ | ⟨hk, hb⟩)
      · exact ⟨hk, by rw [mask_bit_mask_apply occ m n k (by omega) (by omega), hb]; rfl⟩
      · exact ⟨hk, by
          rw [mask_bit_mask_apply occ m n k (by omega) (by omega), hb, Bool.or_true]⟩
  rw [hunion, Finset.card_union_of_disjoint (mask_bits_disjoint occ m n h)]

theorem logBalanced_nil (a : Int) : LogBalanced a [] := by
  intro x hx
  simp at hx

theorem logBalanced_cons_loop (a : Int) (t : Nat) (c : Ctx) (log : List (DfsPoint × Ctx))
    (hc : AreaBalance (a - c.area.getD t 0) c) (h : LogBalanced a log) :
    LogBalanced a ((DfsPoint.loop t, c) :: log) := by
  intro x hx
  rcases List.mem_cons.mp hx with rfl | hx
  · exact hc
  · exact h x hx

theorem logBalanced_cons_entry (a : Int) (c : Ctx) (log : List (DfsPoint × Ctx))
    (hc : AreaBalance a c) (h : LogBalanced a log) :
    LogBalanced a ((DfsPoint.entry, c) :: log) := by
  intro x hx
  rcases List.mem_cons.mp hx with rfl | hx
  · exact hc
  · exact h x hx

theorem logBalanced_ret (a : Int) (c : Ctx) (hc : AreaBalance a c) :
    LogBalanced a [(DfsPoint.ret, c)] := by
  intro x hx
  rw [List.mem_singleton] at hx
  subst hx
  exact hc

theorem logBalanced_append (a : Int) (l1 l2 : List (DfsPoint × Ctx)) (h1 : LogBalanced a l1)
    (h2 : LogBalanced a l2) : LogBalanced a (l1 ++ l2) := by
  intro x hx
  rcases List.mem_append.mp hx with hx | hx
  · exact h1 x hx
  · exact h2 x hx

/-- The states logged by the placement loop balance, if those logged by the recursive
call do and a failed call restores its context. -/
theorem dfs_loop_log_balanced (a : Int)
    (call' : Ctx → Option (Bool × Ctx × List (DfsPoint × Ctx)))
    (hcall : ∀ c r, SearchWF c → AreaBalance a c → call' c = some r →
      (r.1 = false → r.2.1 = c) ∧ AreaBalance a r.2.1 ∧ LogBalanced a r.2.2)
    (t : Nat) (ms : List Mask) (i : Nat) (c : Ctx) (hms : ∀ m ∈ ms, m ∈ c.place.getD t [])
    (hwf : SearchWF c) (hbal : AreaBalance (a - c.area.getD t 0) c)
    (r : Bool × Ctx × List (DfsPoint × Ctx)) (hr : dfs_loop_log call' t ms i c = some r) :
    LogBalanced a r.2.2 ∧ (r.1 = true → AreaBalance a r.2.1) := by
  induction ms generalizing i c r with
  | nil =>
    simp only [dfs_loop_log, Option.some.injEq] at hr
    subst hr
    exact ⟨logBalanced_cons_loop a t c [] hbal (logBalanced_nil a), fun h => by simp at h⟩
  | cons m ms ih =>
    have hms' : ∀ m' ∈ ms, m' ∈ c.place.getD t [] :=
      fun m' hm' => hms m' (List.mem_cons_of_mem _ hm')
    simp only [dfs_loop_log] at hr
    split_ifs at hr with hov
    · cases hl : dfs_loop_log call' t ms (i + 1) c with
      | none => rw [hl] at hr; simp at hr
      | some r' =>
        rw [hl] at hr
        simp only [Option.map_some', Option.some.injEq] at hr
        subst hr
        obtain ⟨h1, h2⟩ := ih (i + 1) c hms' hwf hbal r' hl
        exact ⟨logBalanced_cons_loop a t c _ hbal h1, h2⟩
    · have hnov : mask_overlaps c.occ m c.nwords = false := by simpa using hov
      obtain ⟨hmlen, hmpop⟩ := hwf.2 t m (hms m (List.mem_cons_self _ _))
      have hwf1 : SearchWF { c with
          last_idx := c.last_idx.set t (i : Int)
          occ := mask_apply c.occ m c.nwords
          free_cells := c.free_cells - c.area.getD t 0 } :=
        ⟨by simp only [mask_apply_length]; exact hwf.1, hwf.2⟩
      have hbal1 : AreaBalance a { c with
          last_idx := c.last_idx.set t (i : Int)
          occ := mask_apply c.occ m c.nwords
          free_cells := c.free_cells - c.area.getD t 0 } := by
        unfold AreaBalance at hbal ⊢
        simp only []
        rw [popcount_mask_apply c.occ m c.nwords hwf.1 hmlen hnov]
        push_cast
        omega
      cases hc : call' { c with
          last_idx := c.last_idx.set t (i : Int)
          occ := mask_apply c.occ m c.nwords
          free_cells := c.free_cells - c.area.getD t 0 } with
      | none => rw [hc] at hr; simp at hr
      | some rc =>
        rw [hc] at hr
        obtain ⟨hrestore, hbalc, hlogc⟩ := hcall _ rc hwf1 hbal1 hc
        obtain ⟨b, c2, log⟩ := rc
        cases b with
        | true =>
          simp only [Option.some.injEq] at hr
          subst hr
          exact ⟨logBalanced_cons_loop a t c _ hbal hlogc, fun _ => hbalc⟩
        | false =>
          simp only [] at hr
          have hc2 := hrestore rfl
          simp only [] at hc2
          subst hc2
          simp only [mask_unapply_apply c.occ m c.nwords hnov] at hr
          cases hl : dfs_loop_log call' t ms (i + 1)
              { c with
                last_idx := c.last_idx.set t (i : Int)
                occ := c.occ
                free_cells := c.free_cells - c.area.getD t 0 + c.area.getD t 0 } with
          | none => rw [hl] at hr; simp at hr
          | some r' =>
            rw [hl] at hr
            simp only [Option.map_some', Option.some.injEq] at hr
            subst hr
            have key := fun k1 k2 k3 => ih (i + 1) _ k1 k2 k3 r' hl
            obtain ⟨h1, h2⟩ := key hms' ⟨hwf.1, hwf.2⟩ hbal
            exact ⟨logBalanced_cons_loop a t c _ hbal (logBalanced_append a _ _ hlogc h1), h2⟩

/-- Every state the logged search passes balances, and so does the state it returns. -/
theorem dfs_log_balanced (a : Int) (fuel : Nat) (c : Ctx)
    (r : Bool × Ctx × List (DfsPoint × Ctx)) (hwf : SearchWF c) (hbal : AreaBalance a c)
    (hr : dfs_log fuel c = some r) :
    (r.1 = false → r.2.1 = c) ∧ AreaBalance a r.2.1 ∧ LogBalanced a r.2.2 := by
  have hrestore : r.1 = false → r.2.1 = c := by
    intro hf
    have hp := dfs_log_proj fuel c
    rw [hr] at hp
    simp only [Option.map_some', hf] at hp
    exact dfs_false fuel c r.2.1 hp.symm
  induction fuel generalizing c r with
  | zero => simp [dfs_log] at hr
  | succ fuel ih =>
    have hearly : ∀ b, r = (b, c, [(DfsPoint.entry, c), (DfsPoint.ret, c)]) →
        (r.1 = false → r.2.1 = c) ∧ AreaBalance a r.2.1 ∧ LogBalanced a r.2.2 := by
      intro b hb
      subst hb
      exact ⟨fun _ => rfl, hbal,
        logBalanced_cons_entry a c _ hbal (logBalanced_ret a c hbal)⟩
    simp only [dfs_log] at hr
    split_ifs at hr with h1 h2 h3 h4
    · exact hearly true (Option.some.inj hr).symm
    · exact hearly false (Option.some.inj hr).symm
    · exact hearly false (Option.some.inj hr).symm
    · exact hearly false (Option.some.inj hr).symm
    · cases hl : dfs_loop_log (dfs_log fuel) (choose_next_type c).toNat
          (List.drop (start_index (c.last_idx.getD (choose_next_type c).toNat 0))
            (c.place.getD (choose_next_type c).toNat []))
          (start_index (c.last_idx.getD (choose_next_type c).toNat 0))
          { c with
            need := c.need.set (choose_next_type c).toNat
              (c.need.getD (choose_next_type c).toNat 0 - 1)
            remaining_area := c.remaining_area - c.area.getD (choose_next_type c).toNat 0 } with
      | none => rw [hl] at hr; simp at hr
      | some rl =>
        rw [hl] at hr
        have hbal1 : AreaBalance (a - c.area.getD (choose_next_type c).toNat 0)
            { c with
              need := c.need.set (choose_next_type c).toNat
                (c.need.getD (choose_next_type c).toNat 0 - 1)
              remaining_area :=
                c.remaining_area - c.area.getD (choose_next_type c).toNat 0 } := by
          unfold AreaBalance at hbal ⊢
          simp only []
          omega
        have key := fun k1 k2 k3 k4 => dfs_loop_log_balanced a (dfs_log fuel) k1
          (choose_next_type c).toNat _ _ _ k2 k3 k4 rl hl
        obtain ⟨hlog, htrue⟩ := key
          (fun c0 r0 hw hb h0 => ih c0 r0 hw hb h0 (fun hf => by
            have hp := dfs_log_proj fuel c0
            rw [h0] at hp
            simp only [Option.map_some', hf] at hp
            exact dfs_false fuel c0 r0.2.1 hp.symm))
          (fun m hm => List.mem_of_mem_drop hm) ⟨hwf.1, hwf.2⟩ hbal1
        obtain ⟨b, c2, log⟩ := rl
        cases b with
        | true =>
          simp only [Option.some.injEq] at hr
          subst hr
          have hb2 := htrue rfl
          exact ⟨hrestore, hb2, logBalanced_cons_entry a c _ hbal
            (logBalanced_append a _ _ hlog (logBalanced_ret a c2 hb2))⟩
        | false =>
          simp only [Option.some.injEq] at hr
          subst hr
          have hc3 := hrestore rfl
          simp only [] at hc3
          have hb3 : AreaBalance a { c2 with
              remaining_area := c2.remaining_area + c2.area.getD (choose_next_type c).toNat 0
              need := c2.need.set (choose_next_type c).toNat
                (c2.need.getD (choose_next_type c).toNat 0 + 1)
              last_idx := c2.last_idx.set (choose_next_type c).toNat
                (c.last_idx.getD (choose_next_type c).toNat 0) } := by
            rw [hc3]
            exact hbal
          exact ⟨hrestore, hb3, logBalanced_cons_entry a c _ hbal
            (logBalanced_append a _ _ hlog (logBalanced_ret a _ hb3))⟩

/-! ## The area balance of the search started by `solve_region_fast` -/

theorem popcount_bitset_zero (n : Nat) : popcount (bitset_zero n) = 0 := by
  unfold popcount mask_bits
  rw [Finset.card_eq_zero, Finset.filter_eq_empty_iff]
  intro k _
  rw [mask_bit_bitset_zero]
  exact Bool.noConfusion

/-- The context `solve_region_fast` hands to `dfs` is well formed. -/
theorem initial_ctx_wf (sh : List Shape) (W H : Int) (need_in : List Int)
    (place : List (List Mask)) (area_sum : Int) (hsh : ∀ s ∈ sh, s.Committed)
    (hcap : W * H ≤ 64 * ((nwords_for_board W H).toNat : Int))
    (hplace : solve_place_loop build_placements_for_shape need_in W H
      (nwords_for_board W H).toNat sh 0 = some place) :
    SearchWF (initial_ctx sh W H need_in place area_sum) := by
  obtain ⟨hlen, hget⟩ := solve_place_loop_some _ _ _ _ _ _ _ _ hplace
  refine ⟨by simp [initial_ctx, bitset_zero], ?_⟩
  intro t m hm
  have hm' : m ∈ place.getD t [] := hm
  by_cases ht : t < sh.length
  · rw [hget t ht, Nat.zero_add] at hm'
    split_ifs at hm' with hneed
    · simp at hm'
    · obtain ⟨p, hp, x0, y0, hx, hy, rfl⟩ := (mem_build_placements _ W H _ m).mp hm'
      obtain ⟨_, _, hori⟩ := (hsh _ (getD_mem_of_lt sh t ht)).ori_spec
      obtain ⟨hnd, hcells, hbb⟩ := hori p hp
      refine ⟨placement_mask_length _ _ _ _ _, ?_⟩
      rw [initial_area_getD, (placement_mask_popcount p W H x0 y0 _ hcap hnd hbb hx hy).1]
      exact hcells
  · rw [List.getD_eq_default _ _ (by omega)] at hm'
    simp at hm'

/-- C16 (counterexample): scenario S1, one monomino on the 1 x 1 board, `area_sum = 1`.
The search passes five observed states; at the head of the placement loop
`remaining_area` is already lowered and `occ` is still empty, so
`popcount(occ) + remaining_area` is 0 there, not 1. -/
theorem dfs_loop_head_unbalanced :
    solve_place_loop build_placements_for_shape [1] 1 1 (nwords_for_board 1 1).toNat
        [commit_shape_record 0 glyph_monomino] 0 = some [[[1]]] ∧
      (dfs_log (dfs_budget (initial_ctx [commit_shape_record 0 glyph_monomino] 1 1 [1]
          [[[1]]] 1))
        (initial_ctx [commit_shape_record 0 glyph_monomino] 1 1 [1] [[[1]]] 1)).map
        (fun r => r.2.2.map
          (fun x => (x.1, (popcount x.2.occ : Int) + x.2.remaining_area))) =
        some [(DfsPoint.entry, 1), (DfsPoint.loop 0, 0), (DfsPoint.entry, 1),
          (DfsPoint.ret, 1), (DfsPoint.ret, 1)] := by
  decide

/-- C16 (amended): during the search started by `solve_region_fast` on a shape set stored
by the reader, the masks of `nwords_for_board` words having room for the board
(`W * H ≤ 64 * nwords`, which holds for every board of at most `INT_MAX - 63` cells),
`popcount(occ) + remaining_area = area_sum` holds at every entry to `dfs` and at every
return from it; at the head of the placement loop for type `t`, where `remaining_area` is
lowered and the mask is not applied, the sum is `area_sum - area[t]`.  The logged search
runs to its end and returns what `dfs` returns. -/
theorem dfs_area_balance (sh : List Shape) (W H : Int) (need_in : List Int)
    (place : List (List Mask)) (area_sum : Int) (hsh : ∀ s ∈ sh, s.Committed)
    (hcap : W * H ≤ 64 * ((nwords_for_board W H).toNat : Int))
    (hplace : solve_place_loop build_placements_for_shape need_in W H
      (nwords_for_board W H).toNat sh 0 = some place) :
    ∃ b c' log,
      dfs_log (dfs_budget (initial_ctx sh W H need_in place area_sum))
        (initial_ctx sh W H need_in place area_sum) = some (b, c', log) ∧
      dfs_call (initial_ctx sh W H need_in place area_sum) = some (b, c') ∧
      (∀ x ∈ log, x.1 = DfsPoint.entry ∨ x.1 = DfsPoint.ret →
        (popcount x.2.occ : Int) + x.2.remaining_area = area_sum) ∧
      ∀ x ∈ log, ∀ t, x.1 = DfsPoint.loop t →
        (popcount x.2.occ : Int) + x.2.remaining_area = area_sum - x.2.area.getD t 0 := by
  obtain ⟨r', hr'⟩ := dfs_call_total (initial_ctx sh W H need_in place area_sum)
  have hp := dfs_log_proj (dfs_budget (initial_ctx sh W H need_in place area_sum))
    (initial_ctx sh W H need_in place area_sum)
  unfold dfs_call at hr'
  rw [hr'] at hp
  cases hl : dfs_log (dfs_budget (initial_ctx sh W H need_in place area_sum))
      (initial_ctx sh W H need_in place area_sum) with
  | none => rw [hl] at hp; simp at hp
  | some r =>
    rw [hl] at hp
    simp only [Option.map_some', Option.some.injEq] at hp
    have hbal0 : AreaBalance area_sum (initial_ctx sh W H need_in place area_sum) := by
      unfold AreaBalance
      show ((popcount (bitset_zero (nwords_for_board W H).toNat) : Nat) : Int) + area_sum = _
      rw [popcount_bitset_zero]
      simp
    obtain ⟨_, _, hlog⟩ := dfs_log_balanced area_sum _ _ r
      (initial_ctx_wf sh W H need_in place area_sum hsh hcap hplace) hbal0 hl
    obtain ⟨b, c', log⟩ := r
    refine ⟨b, c', log, rfl, ?_, ?_, ?_⟩
    · unfold dfs_call
      rw [hr', ← hp]
    · intro x hx hpt
      have := hlog x hx
      rcases hpt with hpt | hpt <;> rw [hpt] at this <;> exact this
    · intro x hx t hpt
      have := hlog x hx
      rw [hpt] at this
      exact this

theorem dfs_area_balance_witness :
    ∃ b c' log,
      dfs_log (dfs_budget (initial_ctx [commit_shape_record 0 glyph_domino] 2 2 [2]
          [[[3], [12], [5], [10]]] 4))
        (initial_ctx [commit_shape_record 0 glyph_domino] 2 2 [2]
          [[[3], [12], [5], [10]]] 4) = some (b, c', log) ∧
      dfs_call (initial_ctx [commit_shape_record 0 glyph_domino] 2 2 [2]
        [[[3], [12], [5], [10]]] 4) = some (b, c') ∧
      (∀ x ∈ log, x.1 = DfsPoint.entry ∨ x.1 = DfsPoint.ret →
        (popcount x.2.occ : Int) + x.2.remaining_area = 4) ∧
      ∀ x ∈ log, ∀ t, x.1 = DfsPoint.loop t →
        (popcount x.2.occ : Int) + x.2.remaining_area = 4 - x.2.area.getD t 0 :=
  dfs_area_balance [commit_shape_record 0 glyph_domino] 2 2 [2] [[[3], [12], [5], [10]]] 4
    (fun s hs => by
      rw [List.mem_singleton] at hs
      subst hs
      exact ⟨0, glyph_domino, by decide, rfl⟩)
    (by decide) (by decide)

/-! ## Instances on concrete shapes -/

theorem build_placements_mask_spec_witness :
    ∃ app, build_placements_for_shape [] (commit_shape_record 0 glyph_domino) 2 2
        (nwords_for_board 2 2).toNat = [] ++ app ∧
      ∀ m ∈ app, (popcount m : Int) = (commit_shape_record 0 glyph_domino).area ∧
        ∀ k : Nat, (2 : Int) * 2 ≤ (k : Int) → mask_bit m k = false :=
  build_placements_mask_spec [] (commit_shape_record 0 glyph_domino) 2 2
    (nwords_for_board 2 2).toNat (by decide) (by decide)

theorem build_placements_list_spec_witness :
    build_placements_for_shape [] (commit_shape_record 0 glyph_domino) 2 2
        (nwords_for_board 2 2).toNat =
        [] ++ ((commit_shape_record 0 glyph_domino).ori.filter
          (fun p => decide (p.w ≤ 2 ∧ p.h ≤ 2))).flatMap (fun p =>
            (List.range (2 - p.h + 1).toNat).flatMap (fun (y0 : Nat) =>
              (List.range (2 - p.w + 1).toNat).map (fun (x0 : Nat) =>
                placement_mask p 2 (x0 : Int) (y0 : Int) (nwords_for_board 2 2).toNat))) ∧
      (build_placements_for_shape [] (commit_shape_record 0 glyph_domino) 2 2
        (nwords_for_board 2 2).toNat).length =
        ([] : List Mask).length +
          ((commit_shape_record 0 glyph_domino).ori.map
            (fun p => ori_placement_count p 2 2)).sum ∧
      ∀ (oi : Nat) (p : Poly) (x0 y0 : Nat),
        (commit_shape_record 0 glyph_domino).ori.get? oi = some p →
        (x0 : Int) + p.w ≤ 2 → (y0 : Int) + p.h ≤ 2 →
        (build_placements_for_shape [] (commit_shape_record 0 glyph_domino) 2 2
            (nwords_for_board 2 2).toNat).get?
            (([] : List Mask).length +
              (((commit_shape_record 0 glyph_domino).ori.take oi).map
                (fun q => ori_placement_count q 2 2)).sum +
              y0 * (2 - p.w + 1).toNat + x0) =
            some (placement_mask p 2 x0 y0 (nwords_for_board 2 2).toNat) ∧
          ∀ k : Nat, mask_bit (placement_mask p 2 x0 y0 (nwords_for_board 2 2).toNat) k = true ↔
            ∃ c ∈ p.c, (k : Int) = ((y0 : Int) + c.y) * 2 + ((x0 : Int) + c.x) :=
  build_placements_list_spec [] (commit_shape_record 0 glyph_domino) 2 2
    (nwords_for_board 2 2).toNat (by decide) (by decide)

theorem poly_norm_spec_witness :
    ∃ mx my : Int,
      IsMinOf Cell.x [(⟨3, 5⟩ : Cell), ⟨2, 5⟩, ⟨2, 6⟩] mx ∧
      IsMinOf Cell.y [(⟨3, 5⟩ : Cell), ⟨2, 5⟩, ⟨2, 6⟩] my ∧
      (poly_norm ⟨[⟨3, 5⟩, ⟨2, 5⟩, ⟨2, 6⟩], 0, 0⟩).c.Perm
        ([(⟨3, 5⟩ : Cell), ⟨2, 5⟩, ⟨2, 6⟩].map
          (fun c => ({ x := c.x - mx, y := c.y - my } : Cell))) ∧
      (poly_norm ⟨[⟨3, 5⟩, ⟨2, 5⟩, ⟨2, 6⟩], 0, 0⟩).c.Sorted
        (fun a b => a.y < b.y ∨ (a.y = b.y ∧ a.x ≤ b.x)) ∧
      IsMinOf Cell.x (poly_norm ⟨[⟨3, 5⟩, ⟨2, 5⟩, ⟨2, 6⟩], 0, 0⟩).c 0 ∧
      IsMinOf Cell.y (poly_norm ⟨[⟨3, 5⟩, ⟨2, 5⟩, ⟨2, 6⟩], 0, 0⟩).c 0 ∧
      IsMaxOf Cell.x (poly_norm ⟨[⟨3, 5⟩, ⟨2, 5⟩, ⟨2, 6⟩], 0, 0⟩).c
        ((poly_norm ⟨[⟨3, 5⟩, ⟨2, 5⟩, ⟨2, 6⟩], 0, 0⟩).w - 1) ∧
      IsMaxOf Cell.y (poly_norm ⟨[⟨3, 5⟩, ⟨2, 5⟩, ⟨2, 6⟩], 0, 0⟩).c
        ((poly_norm ⟨[⟨3, 5⟩, ⟨2, 5⟩, ⟨2, 6⟩], 0, 0⟩).h - 1) :=
  poly_norm_spec ⟨[⟨3, 5⟩, ⟨2, 5⟩, ⟨2, 6⟩], 0, 0⟩ (by decide)

/-! ## The reader and shapes without cells -/

/-- A line without a number at its start: after white space it ends or goes on with a
character that is neither a sign nor a digit. -/
theorem scan_int_none (s : List Char)
    (h : ∀ ch ∈ s, Aoc.isspace ch = false → ch = '.') : Aoc.scan_int s = none := by
  unfold Aoc.scan_int
  rcases hs : s.dropWhile Aoc.isspace with _ | ⟨c, t⟩
  · simp
  · have hne : s.dropWhile Aoc.isspace ≠ [] := by rw [hs]; exact List.cons_ne_nil _ _
    have h1 := List.head_dropWhile_not Aoc.isspace s hne
    have h2 : c ∈ s := by
      have : c ∈ s.dropWhile Aoc.isspace := by rw [hs]; exact List.mem_cons_self _ _
      exact (List.dropWhile_sublist _).subset this
    have h3 : (s.dropWhile Aoc.isspace).head hne = c := by
      simp only [hs, List.head_cons]
    rw [h3] at h1
    have hc : c = '.' := h c h2 h1
    subst hc
    simp only [List.head?_cons]
    rw [if_neg (show ¬ (some '.' = some '-' ∨ some '.' = some '+') by
      decide)]
    have hd : Char.isDigit '.' = false := by decide
    simp only [List.takeWhile_cons, hd]
    simp

theorem row_scan_int_none (row : List Char)
    (h : ∀ ch ∈ row, ch = '.' ∨ ch = ' ' ∨ ch = '\t') : Aoc.scan_int row = none := by
  apply scan_int_none
  intro ch hch hsp
  rcases h ch hch with h1 | h1 | h1
  · exact h1
  · subst h1
    exact absurd hsp (by decide)
  · subst h1
    exact absurd hsp (by decide)

theorem glyph_row_dots (y : Int) (row : List Char) (x : Int)
    (h : ∀ ch ∈ row, ch = '.' ∨ ch = ' ' ∨ ch = '\t') :
    ∃ x1, glyph_row y row x [] = some (x1, []) := by
  induction row generalizing x with
  | nil => exact ⟨x, rfl⟩
  | cons ch rest ih =>
    have ih2 := fun x0 => ih x0 (fun c hc => h c (List.mem_cons_of_mem _ hc))
    rcases h ch (List.mem_cons_self _ _) with h1 | h1 | h1
    · subst h1
      obtain ⟨x1, hx1⟩ := ih2 (x + 1)
      refine ⟨x1, ?_⟩
      rw [glyph_row, if_neg (by decide), if_pos rfl]
      exact hx1
    · subst h1
      obtain ⟨x1, hx1⟩ := ih2 x
      refine ⟨x1, ?_⟩
      rw [glyph_row, if_neg (by decide), if_neg (by decide), if_pos (Or.inl rfl)]
      exact hx1
    · subst h1
      obtain ⟨x1, hx1⟩ := ih2 x
      refine ⟨x1, ?_⟩
      rw [glyph_row, if_neg (by decide), if_neg (by decide), if_pos (Or.inr rfl)]
      exact hx1

/-- A header line is neither blank nor a region line. -/
theorem header_not_region (s : List Char) (id : Int) (h : parse_shape_header s = some id) :
    Aoc.is_blank_line s = false ∧ is_region_line s = false ∧ 0 ≤ id := by
  unfold parse_shape_header at h
  rcases hs : Aoc.scan_int s with _ | ⟨v, r⟩
  · rw [hs] at h
    exact absurd h (by simp)
  · rw [hs] at h
    simp only [] at h
    rcases hr : r.head? with _ | c
    · rw [hr] at h
      exact absurd h (by simp)
    · rw [hr] at h
      simp only [] at h
      split_ifs at h with hc
      obtain ⟨hc1, hc2⟩ := hc
      subst hc1
      simp only [Option.some.injEq] at h
      subst h
      refine ⟨?_, ?_, hc2⟩
      · by_contra hb
        simp only [Bool.not_eq_false] at hb
        have h0 : Aoc.scan_int s = none := by
          apply scan_int_none
          intro ch hch hsp
          unfold Aoc.is_blank_line at hb
          rw [List.all_eq_true] at hb
          rw [hb ch hch] at hsp
          exact absurd hsp (by decide)
        rw [h0] at hs
        exact absurd hs (by simp)
      · unfold is_region_line scan_dims
        rw [hs]
        simp only [hr]
        rw [if_pos (by decide)]
        simp

theorem read_loop_empty_rows (id : Int) (rows : List (List Char)) (r : Reader)
    (hr : EmptyShapeState id r)
    (hrows : ∀ row ∈ rows, ∀ ch ∈ row, ch = '.' ∨ ch = ' ' ∨ ch = '\t') :
    ∃ r1, read_loop rows r = some r1 ∧ EmptyShapeState id r1 := by
  induction rows generalizing r with
  | nil => exact ⟨r, rfl, hr⟩
  | cons row rest ih =>
    have hrow := hrows row (List.mem_cons_self _ _)
    have hrest : ∀ row ∈ rest, ∀ ch ∈ row, ch = '.' ∨ ch = ' ' ∨ ch = '\t' :=
      fun x hx => hrows x (List.mem_cons_of_mem _ hx)
    by_cases hb : Aoc.is_blank_line row = true
    · obtain ⟨r1, h1, h2⟩ := ih r hr hrest
      refine ⟨r1, ?_, h2⟩
      rw [read_loop, if_pos hb]
      exact h1
    · have hs := row_scan_int_none row hrow
      have hreg : is_region_line row = false := by
        unfold is_region_line scan_dims
        rw [hs]
        simp
      have hhdr : parse_shape_header row = none := by
        unfold parse_shape_header
        rw [hs]
      obtain ⟨h1, h2, h3, h4, h5, h6, h7⟩ := hr
      obtain ⟨x1, hx1⟩ := glyph_row_dots r.cur.h row 0 hrow
      have hstep : EmptyShapeState id
          { r with cur := ⟨[], if x1 > r.cur.w then x1 else r.cur.w, r.cur.h + 1⟩ } :=
        ⟨h1, h2, h3, h4, h5, rfl, h7⟩
      obtain ⟨r1, h8, h9⟩ := ih _ hstep hrest
      refine ⟨r1, ?_, h9⟩
      rw [read_loop, if_neg hb, hreg, hhdr]
      simp only [Bool.false_eq_true, if_false]
      rw [if_neg (by rw [h7]; decide), h6, hx1]
      exact h8

theorem commit_empty_shape (id : Int) (r : Reader) (hr : EmptyShapeState id r)
    (h0 : 0 ≤ id) (hid : id < MAX_SHAPES) :
    ∃ sh present, commit_pending r = some (sh, present, id) ∧
      sh.getD id.toNat Shape.none = commit_shape_record id r.cur ∧
      (commit_shape_record id r.cur).area = 0 := by
  obtain ⟨h1, h2, h3, h4, h5, h6, h7⟩ := hr
  have hlt : id.toNat < MAX_SHAPES := by
    have := Int.toNat_of_nonneg h0
    omega
  refine ⟨Reader.init.sh.set id.toNat (commit_shape_record id r.cur),
    Reader.init.present.set id.toNat true, ?_, ?_, ?_⟩
  · unfold commit_pending commit_shape
    rw [h7, h1, h2, h3, h5]
    rw [if_pos rfl, if_neg (by omega)]
    have hp : Reader.init.present.getD id.toNat false = false := by
      unfold Reader.init
      simp only [List.getD_eq_getElem?_getD, List.getElem?_replicate]
      split_ifs
      rfl
    rw [hp]
    simp only [Bool.false_eq_true, if_false]
    rw [if_pos (by omega)]
  · simp only [List.getD_eq_getElem?_getD]
    rw [List.getElem?_set_self (by simpa [Reader.init] using hlt)]
    rfl
  · rw [(commit_shape_record_base id r.cur).2]
    have : poly_norm r.cur = r.cur := by
      unfold poly_norm
      rw [h6]
    rw [this]
    unfold Poly.n
    rw [h6]
    rfl

/-- C23, as the code behaves: a shape without cells is committed.  The input of the two
lines `0:` and `.`, and the input of the single line `0:`, are read without error:
shape 0 is stored with area 0 and `sh_n` is 1. -/
theorem read_shapes_and_regions_commits_empty :
    (read_shapes_and_regions [['0', ':'], ['.']]).map
        (fun r => (r.2.1, r.1.getD 0 Shape.none, r.2.2)) =
        some (1, commit_shape_record 0 ⟨[], 1, 1⟩, []) ∧
      (read_shapes_and_regions [['0', ':']]).map
        (fun r => (r.2.1, r.1.getD 0 Shape.none, r.2.2)) =
        some (1, commit_shape_record 0 ⟨[], 0, 0⟩, []) ∧
      (commit_shape_record 0 ⟨[], 1, 1⟩).area = 0 ∧
      (commit_shape_record 0 ⟨[], 0, 0⟩).area = 0 := by
  decide

/-- C23, amended: the reader accepts a shape without cells.  For every input in which a
shape header with an id below `MAX_SHAPES` is followed only by glyph rows made of `.`,
spaces and tabs (or by no glyph row at all), `read_shapes_and_regions` returns without
error, has stored the shape at its id with area 0, and sets `sh_n` to the id plus one. -/
theorem read_shapes_and_regions_empty_shape (hdr : List Char) (rows : List (List Char))
    (id : Int) (hh : parse_shape_header hdr = some id) (hid : id < MAX_SHAPES)
    (hrows : ∀ row ∈ rows, ∀ ch ∈ row, ch = '.' ∨ ch = ' ' ∨ ch = '\t') :
    ∃ sh w h, read_shapes_and_regions (hdr :: rows) = some (sh, id + 1, []) ∧
      sh.getD id.toNat Shape.none = commit_shape_record id ⟨[], w, h⟩ ∧
      (sh.getD id.toNat Shape.none).area = 0 := by
  obtain ⟨hb, hreg, h0⟩ := header_not_region hdr id hh
  have hinit : EmptyShapeState id
      ⟨Reader.init.sh, Reader.init.present, -1, -1 + 1, [], id, ⟨[], 0, 0⟩, true⟩ :=
    ⟨rfl, rfl, rfl, rfl, rfl, rfl, rfl⟩
  obtain ⟨r1, h1, h2⟩ := read_loop_empty_rows id rows _ hinit hrows
  obtain ⟨sh, present, h3, h4, h5⟩ := commit_empty_shape id r1 h2 h0 hid
  have hc : r1.cur = ⟨[], r1.cur.w, r1.cur.h⟩ := by
    have := h2.2.2.2.2.2.1
    cases hcur : r1.cur with
    | mk c w h =>
      rw [hcur] at this
      simp only at this
      rw [this]
  refine ⟨sh, r1.cur.w, r1.cur.h, ?_, ?_, ?_⟩
  · unfold read_shapes_and_regions
    rw [read_loop, hb, hreg, hh]
    simp only [Bool.false_eq_true, if_false]
    have hp0 : commit_pending Reader.init =
        some (Reader.init.sh, Reader.init.present, -1) := rfl
    rw [hp0]
    simp only []
    have hr0 : Reader.init.regions = [] := rfl
    rw [hr0, h1]
    simp only [h3, h2.2.2.2.1]
  · rw [h4, ← hc]
  · rw [h4]
    exact h5

theorem read_shapes_and_regions_empty_shape_witness :
    ∃ sh w h, read_shapes_and_regions (['7', ':'] :: [['.', '.'], [' ', '.']]) =
        some (sh, 7 + 1, []) ∧
      sh.getD (7 : Int).toNat Shape.none = commit_shape_record 7 ⟨[], w, h⟩ ∧
      (sh.getD (7 : Int).toNat Shape.none).area = 0 :=
  read_shapes_and_regions_empty_shape ['7', ':'] [['.', '.'], [' ', '.']] 7 (by decide)
    (by decide) (by decide)

/-! ## Regions beyond the mask capacity -/

theorem nwords_for_board_big (W H : Int) (h : W * H > 4096) (hfit : W * H ≤ INT_MAX - 63) :
    nwords_for_board W H > 64 := by
  rw [nwords_for_board_eq W H (by omega) hfit]
  unfold board_words
  rw [Int.tdiv_eq_ediv (by omega) (by omega)]
  omega

/-- Beyond `INT_MAX` the `int` product `W * H` overflows.  For the region
`641x6700417: 0` (`641 * 6700417 = 2 ^ 32 + 1`) the word count is computed from `bits = 1`,
the guard on `nwords` passes, and the region, which demands no piece, is counted as
tileable: the program prints 1. -/
theorem nwords_for_board_overflow :
    (641 : Int) * 6700417 = 4294967297 ∧ int_wrap (641 * 6700417) = 1 ∧
      nwords_for_board 641 6700417 = 1 ∧
      solve_region_fast [commit_shape_record 0 glyph_monomino] 641 6700417 [0] = some true ∧
      main [['0', ':'], ['#'],
        ['6', '4', '1', 'x', '6', '7', '0', '0', '4', '1', '7', ':', ' ', '0']] =
          some ⟨EXIT_SUCCESS, some 1⟩ := by
  decide

theorem solve_region_with_big_board (build : List Mask → Shape → Int → Int → Nat → List Mask)
    (search : Ctx → Option (Bool × Ctx)) (sh : List Shape) (W H : Int) (need_in : List Int)
    (h : nwords_for_board W H > 64) :
    solve_region_with build search sh W H need_in = some false := by
  unfold solve_region_with
  rw [if_pos h]

/-- C24, as the code behaves: a region beyond the mask capacity is no error.  On the
input with the monomino as shape 0 and the regions `100x100: 1` and `1x1: 1` the program
prints 1 and exits with success: the first region is counted as not tileable and the
loop goes on to the second. -/
theorem main_big_board_continues :
    main [['0', ':'], ['#'], ['1', '0', '0', 'x', '1', '0', '0', ':', ' ', '1'],
        ['1', 'x', '1', ':', ' ', '1']] = some ⟨EXIT_SUCCESS, some 1⟩ ∧
      parse_region ['1', '0', '0', 'x', '1', '0', '0', ':', ' ', '1'] MAX_SHAPES =
        some (100, 100, [1]) ∧
      nwords_for_board 100 100 = 157 ∧ EXIT_SUCCESS = 0 := by
  decide

/-- C24, amended: a region whose board needs more mask words than the limit
(`W * H > 4096`, that is more than 64 words, and `W * H ≤ INT_MAX - 63`, so that the `int`
word count does not overflow) is not an error: `solve_region_fast` returns `false` for it
and `main` goes on to the next region with its count unchanged. -/
theorem main_loop_big_board (sh : List Shape) (line : List Char) (rest : List (List Char))
    (ok_count W H : Int) (counts : List Int)
    (hp : parse_region line MAX_SHAPES = some (W, H, counts)) (hbig : W * H > 4096)
    (hfit : W * H ≤ INT_MAX - 63) :
    nwords_for_board W H > 64 ∧ solve_region_fast sh W H counts = some false ∧
      main_loop sh (line :: rest) ok_count = main_loop sh rest ok_count := by
  have h1 := nwords_for_board_big W H hbig hfit
  have h2 : solve_region_fast sh W H counts = some false :=
    solve_region_with_big_board _ _ sh W H counts h1
  refine ⟨h1, h2, ?_⟩
  rw [main_loop, hp]
  simp only [h2, Bool.false_eq_true, if_false]

theorem main_loop_big_board_witness :
    nwords_for_board 100 100 > 64 ∧
      solve_region_fast [commit_shape_record 0 glyph_monomino] 100 100 [1] = some false ∧
      main_loop [commit_shape_record 0 glyph_monomino]
          (['1', '0', '0', 'x', '1', '0', '0', ':', ' ', '1'] :: [['1', 'x', '1', ':', ' ', '1']])
          0 =
        main_loop [commit_shape_record 0 glyph_monomino] [['1', 'x', '1', ':', ' ', '1']] 0 :=
  main_loop_big_board [commit_shape_record 0 glyph_monomino]
    ['1', '0', '0', 'x', '1', '0', '0', ':', ' ', '1'] [['1', 'x', '1', ':', ' ', '1']] 0 100 100
    [1] (by decide) (by decide) (by decide)

/-! ## Scenarios S2 and S4 -/

/-- C25, as the code behaves: the general statement fails for a shape without cells.  The
shape read from the header line `0:` alone has nine (empty) placements on the 2 x 2 board,
so two copies can be picked without overlap, yet `solve_region_fast` returns `false` at
its guard on `area <= 0` and the program prints 0. -/
theorem solve_region_fast_single_empty_rejected :
    (placement_list [commit_shape_record 0 ⟨[], 0, 0⟩] 2 2 0).length = 9 ∧
      IsSelection [commit_shape_record 0 ⟨[], 0, 0⟩] 2 2 [2] [(0, 0), (0, 1)] ∧
      solve_region_fast [commit_shape_record 0 ⟨[], 0, 0⟩] 2 2 [2] = some false ∧
      main [['0', ':'], ['2', 'x', '2', ':', ' ', '2']] = some ⟨EXIT_SUCCESS, some 0⟩ :=
  ⟨by decide, ⟨by decide, by decide, by decide⟩, by decide, by decide⟩

/-- C25, amended: scenario S2 and single-shape demands.  With the domino `##` as the only
shape and the region `2x2: 2`, `solve_region_fast` returns `true` and the program prints
1.  More generally, for one shape stored by the reader with at least one cell and a
board with positive `W` and `H` and `W * H ≤ 4096`, a demand of `k` copies succeeds
whenever `k` placements with pairwise non-overlapping masks can be picked from the
placement list of the shape. -/
theorem solve_region_fast_single_shape (s : Shape) (W H k : Int)
    (hs : s.Committed) (harea : 0 < s.area) (hW : 0 < W) (hH : 0 < H)
    (hsmall : W * H ≤ 4096) (h : ∃ sel, IsSelection [s] W H [k] sel) :
    (solve_region_fast [commit_shape_record 0 glyph_domino] 2 2 [2] = some true ∧
        main [['0', ':'], ['#', '#'], ['2', 'x', '2', ':', ' ', '2']] =
          some ⟨EXIT_SUCCESS, some 1⟩) ∧
      solve_region_fast [s] W H [k] = some true := by
  refine ⟨⟨by decide, by decide⟩, ?_⟩
  obtain ⟨sel, hsel⟩ := h
  have hsh : ∀ t ∈ [s], t.Committed := by
    intro t ht
    rw [List.mem_singleton] at ht
    rw [ht]
    exact hs
  have hcell : ∀ i, i < [s].length → 0 < need_at [k] i → 0 < ([s].getD i Shape.none).area := by
    intro i hi _
    have hi0 : i = 0 := by
      simp only [List.length_singleton] at hi
      omega
    subst hi0
    exact harea
  have h0 : 0 ≤ W * H := le_of_lt (Int.mul_pos hW hH)
  have hn : ¬ nwords_for_board W H > 64 := not_lt.mpr (nwords_for_board_le W H h0 hsmall)
  obtain ⟨hfit, hprune⟩ := parity_prune_of_selection [s] W H [k] sel hsh hW hH hsel
  have hloop : solve_area_loop [k] [s] 0 0 = some (demand_area [s] [k]) :=
    solve_area_loop_complete [k] [s] (by unfold INT_MAX; omega) (fun j hj =>
      ⟨selection_need_nonneg [s] W H [k] sel hsel j hj, hcell j hj⟩)
  have hwrap : int_wrap (W * H) = W * H := int_wrap_eq (W * H) (by omega) (by omega)
  have hnw : nwords_for_board W H = board_words W H :=
    nwords_for_board_eq W H h0 (by unfold INT_MAX; omega)
  obtain ⟨place, hplace⟩ := selection_place [s] W H [k] sel hsel
  obtain ⟨c1, hdfs⟩ := dfs_complete (dfs_budget (initial_ctx [s] W H [k] place
      (demand_area [s] [k]))) _ sel (by unfold dfs_budget total_need; omega)
    (selection_completion [s] W H [k] sel place hsh hW hH hsmall hcell hsel hplace)
  unfold solve_region_fast solve_region_with
  rw [if_neg hn, hloop]
  simp only []
  by_cases hz : demand_area [s] [k] = 0
  · rw [if_pos hz]
  · rw [if_neg hz, hwrap, if_neg (by omega), hprune, hnw, hplace]
    simp only [Bool.not_true, Bool.false_eq_true, if_false]
    unfold dfs_call
    rw [hdfs]
    rfl

theorem solve_region_fast_single_shape_witness :
    (solve_region_fast [commit_shape_record 0 glyph_domino] 2 2 [2] = some true ∧
        main [['0', ':'], ['#', '#'], ['2', 'x', '2', ':', ' ', '2']] =
          some ⟨EXIT_SUCCESS, some 1⟩) ∧
      solve_region_fast [commit_shape_record 0 glyph_l_tromino] 3 2 [2] = some true :=
  solve_region_fast_single_shape (commit_shape_record 0 glyph_l_tromino) 3 2 2
    ⟨0, glyph_l_tromino, by decide, rfl⟩ (by decide) (by decide) (by decide) (by decide)
    ⟨[(0, 0), (0, 5)], by decide, by decide, by decide⟩

/-- C26: scenario S4.  With the monomino `#` as shape 0, the domino `##` as shape 1 and
the region `2x2` with the counts `2 1`, `solve_region_fast` returns `true` and the program
prints 1. -/
theorem solve_region_fast_s4 :
    solve_region_fast [commit_shape_record 0 glyph_monomino, commit_shape_record 1 glyph_domino]
        2 2 [2, 1] = some true ∧
      read_shapes_and_regions [['0', ':'], ['#'], ['1', ':'], ['#', '#'],
          ['2', 'x', '2', ':', ' ', '2', ' ', '1']] =
        some (([commit_shape_record 0 glyph_monomino, commit_shape_record 1 glyph_domino] ++
          List.replicate 126 Shape.none), 2, [['2', 'x', '2', ':', ' ', '2', ' ', '1']]) ∧
      parse_region ['2', 'x', '2', ':', ' ', '2', ' ', '1'] MAX_SHAPES = some (2, 2, [2, 1]) ∧
      main [['0', ':'], ['#'], ['1', ':'], ['#', '#'], ['2', 'x', '2', ':', ' ', '2', ' ', '1']] =
        some ⟨EXIT_SUCCESS, some 1⟩ := by
  decide

/-! ## The type chosen by `choose_next_type` -/

/-- The counting loop stops at `best_count`: it returns the number of compatible masks,
cut off at `best_count`. -/
theorem count_compatible_eq (occ : Mask) (nwords : Nat) (best_count : Int) (ms : List Mask)
    (cnt : Int) (h : cnt < best_count) :
    count_compatible occ nwords best_count ms cnt =
      min (cnt + (ms.countP (fun m => !mask_overlaps occ m nwords) : Nat)) best_count := by
  induction ms generalizing cnt with
  | nil =>
    simp only [count_compatible, List.countP_nil, Nat.cast_zero, add_zero]
    exact (min_eq_left (le_of_lt h)).symm
  | cons m ms ih =>
    by_cases hm : mask_overlaps occ m nwords = true
    · have e : count_compatible occ nwords best_count (m :: ms) cnt =
          count_compatible occ nwords best_count ms cnt := by
        simp [count_compatible, hm]
      rw [e, ih cnt h, List.countP_cons_of_neg]
      simp [hm]
    · simp only [Bool.not_eq_true] at hm
      have hc : (List.countP (fun m => !mask_overlaps occ m nwords) (m :: ms) : Nat) =
          List.countP (fun m => !mask_overlaps occ m nwords) ms + 1 :=
        List.countP_cons_of_pos _ _ (by simp [hm])
      rw [hc]
      by_cases h1 : cnt + 1 ≥ best_count
      · have e : count_compatible occ nwords best_count (m :: ms) cnt = cnt + 1 := by
          simp [count_compatible, hm, h1]
        rw [e]
        push_cast
        omega
      · have e : count_compatible occ nwords best_count (m :: ms) cnt =
            count_compatible occ nwords best_count ms (cnt + 1) := by
          simp only [count_compatible, hm, Bool.not_false, if_true]
          rw [if_neg h1]
        rw [e, ih (cnt + 1) (by omega)]
        push_cast
        omega

theorem count_compatible_ctx (c : Ctx) (t : Nat) (best_count : Int) (h : 0 < best_count) :
    count_compatible c.occ c.nwords best_count
        ((c.place.getD t []).drop (start_index (c.last_idx.getD t 0))) 0 =
      min (compatible_count c t : Int) best_count := by
  rw [count_compatible_eq _ _ _ _ 0 h, zero_add]
  rfl

theorem compatible_count_le (c : Ctx) (t : Nat) :
    compatible_count c t ≤ (c.place.getD t []).length := by
  unfold compatible_count
  refine le_trans (List.countP_le_length _) ?_
  rw [List.length_drop]
  omega

theorem choose_next_type_loop_post (c : Ctx) (k t : Nat) (best best_count : Int)
    (hlen : ∀ r, ((c.place.getD r []).length : Int) < INT_MAX)
    (hk : t + k = c.sh_n) (hb : 2 ≤ best_count) (hinv : ChooseInv c t best best_count) :
    ChoosePost c (choose_next_type_loop c k t best best_count) := by
  induction k generalizing t best best_count with
  | zero =>
    have ht : t = c.sh_n := by omega
    subst ht
    obtain ⟨h2, h | ⟨b, h3, h4, h5, h6, h7, h8⟩⟩ := hinv
    · exact Or.inl ⟨h.1, h.2.2⟩
    · exact Or.inr ⟨b, h3, h4, h5, h7, Or.inr h8⟩
  | succ k ih =>
    obtain ⟨h2, hbest⟩ := hinv
    rw [choose_next_type_loop]
    by_cases hneed : c.need.getD t 0 ≤ 0
    · rw [if_pos hneed]
      apply ih (t + 1) best best_count (by omega) hb
      refine ⟨?_, ?_⟩
      · intro u hu hn
        rcases Nat.lt_succ_iff_lt_or_eq.mp hu with h | h
        · exact h2 u h hn
        · subst h
          omega
      · rcases hbest with ⟨h3, h4, h5⟩ | ⟨b, h3, h4, h5, h6, h7, h8⟩
        · refine Or.inl ⟨h3, h4, ?_⟩
          intro u hu
          rcases Nat.lt_succ_iff_lt_or_eq.mp hu with h | h
          · exact h5 u h
          · subst h
            exact hneed
        · refine Or.inr ⟨b, h3, by omega, h5, h6, h7, ?_⟩
          intro u hu1 hu2 hn
          rcases Nat.lt_succ_iff_lt_or_eq.mp hu2 with h | h
          · exact h8 u hu1 h hn
          · subst h
            omega
    · rw [if_neg hneed]
      simp only []
      rw [count_compatible_ctx c t best_count (by omega)]
      have hN := compatible_count_le c t
      have hN2 := hlen t
      have hmax : INT_MAX = 2147483647 := rfl
      by_cases hc0 : min (compatible_count c t : Int) best_count = 0
      · rw [if_pos hc0]
        have hz : compatible_count c t = 0 := by omega
        refine Or.inr ⟨t, rfl, by omega, by omega, ?_, Or.inl (by omega)⟩
        intro u hu hn
        have := h2 u hu hn
        omega
      · rw [if_neg hc0]
        by_cases hlt : min (compatible_count c t : Int) best_count < best_count
        · rw [if_pos hlt]
          have hmin : min (compatible_count c t : Int) best_count = compatible_count c t := by
            omega
          rw [hmin]
          rw [hmin] at hlt
          have hprev : ∀ u, u < t → 0 < c.need.getD u 0 →
              compatible_count c t < compatible_count c u := by
            intro u hu hn
            rcases hbest with ⟨h3, h4, h5⟩ | ⟨b, h3, h4, h5, h6, h7, h8⟩
            · have := h5 u hu
              omega
            · rcases Nat.lt_trichotomy u b with h | h | h
              · have := h7 u h hn
                omega
              · subst h
                omega
              · have := h8 u h hu hn
                omega
          by_cases h1 : (compatible_count c t : Int) ≤ 1
          · rw [if_pos h1]
            exact Or.inr ⟨t, rfl, by omega, by omega, hprev, Or.inl (by omega)⟩
          · rw [if_neg h1]
            apply ih (t + 1) (t : Int) (compatible_count c t : Int) (by omega) (by omega)
            refine ⟨?_, Or.inr ⟨t, rfl, by omega, by omega, rfl, hprev, ?_⟩⟩
            · intro u hu hn
              rcases Nat.lt_succ_iff_lt_or_eq.mp hu with h | h
              · exact h2 u h hn
              · subst h
                omega
            · intro u hu1 hu2 _
              omega
        · rw [if_neg hlt]
          have hge : best_count ≤ (compatible_count c t : Int) := by omega
          apply ih (t + 1) best best_count (by omega) hb
          refine ⟨?_, ?_⟩
          · intro u hu hn
            rcases Nat.lt_succ_iff_lt_or_eq.mp hu with h | h
            · exact h2 u h hn
            · subst h
              omega
          · rcases hbest with ⟨h3, h4, h5⟩ | ⟨b, h3, h4, h5, h6, h7, h8⟩
            · omega
            · refine Or.inr ⟨b, h3, by omega, h5, h6, h7, ?_⟩
              intro u hu1 hu2 hn
              rcases Nat.lt_succ_iff_lt_or_eq.mp hu2 with h | h
              · exact h8 u hu1 h hn
              · subst h
                omega

theorem choose_next_type_post (c : Ctx)
    (hlen : ∀ r, ((c.place.getD r []).length : Int) < INT_MAX) :
    ChoosePost c (choose_next_type c) := by
  unfold choose_next_type
  apply choose_next_type_loop_post c c.sh_n 0 (-1) INT_MAX hlen (by omega) (by decide)
  refine ⟨?_, Or.inl ⟨rfl, rfl, ?_⟩⟩
  · intro u hu
    omega
  · intro u hu
    omega

/-- C30, as the code behaves: the type returned need not have the fewest compatible
placements.  The search for two straight trominoes (shape 0) and one L-tromino (shape 1)
on the 3 x 3 board enters `dfs` in the state with one straight tromino on the middle row.
There shape 0 has one compatible placement left and shape 1 has none; the loop stops at
shape 0, the first type with at most one, and returns it. -/
theorem choose_next_type_not_minimal :
    solve_place_loop build_placements_for_shape [2, 1] 3 3 1
        [commit_shape_record 0 glyph_i_tromino, commit_shape_record 1 glyph_l_tromino] 0 =
        some s30_place ∧
      (dfs_log (dfs_budget s30_start) s30_start).map
        (fun r => decide ((DfsPoint.entry, s30_state) ∈ r.2.2)) = some true ∧
      choose_next_type s30_state = 0 ∧
      s30_state.need.getD 0 0 = 1 ∧ s30_state.need.getD 1 0 = 1 ∧
      compatible_count s30_state 0 = 1 ∧ compatible_count s30_state 1 = 0 := by
  decide

/-- C30, amended: for every search state in which some type is demanded (placement lists
being shorter than `INT_MAX`), `choose_next_type` returns a demanded type `r` whose number
of compatible placements (at indices above `last_idx[r]`, not overlapping `occ`) is smaller
than that of every demanded type before `r` and, unless it is at most 1, not larger than
that of any demanded type after `r`. -/
theorem choose_next_type_first_small_or_min (c : Ctx)
    (hlen : ∀ r, ((c.place.getD r []).length : Int) < INT_MAX)
    (h : ∃ t, t < c.sh_n ∧ 0 < c.need.getD t 0) :
    ∃ r : Nat, choose_next_type c = (r : Int) ∧ r < c.sh_n ∧ 0 < c.need.getD r 0 ∧
      (∀ u, u < r → 0 < c.need.getD u 0 → compatible_count c r < compatible_count c u) ∧
      (compatible_count c r ≤ 1 ∨
        ∀ u, r < u → u < c.sh_n → 0 < c.need.getD u 0 →
          compatible_count c r ≤ compatible_count c u) := by
  rcases choose_next_type_post c hlen with ⟨_, h1⟩ | h1
  · obtain ⟨t, ht, hn⟩ := h
    have := h1 t ht
    omega
  · exact h1

theorem choose_next_type_first_small_or_min_witness :
    ∃ r : Nat, choose_next_type s30_state = (r : Int) ∧ r < s30_state.sh_n ∧
      0 < s30_state.need.getD r 0 ∧
      (∀ u, u < r → 0 < s30_state.need.getD u 0 →
        compatible_count s30_state r < compatible_count s30_state u) ∧
      (compatible_count s30_state r ≤ 1 ∨
        ∀ u, r < u → u < s30_state.sh_n → 0 < s30_state.need.getD u 0 →
          compatible_count s30_state r ≤ compatible_count s30_state u) :=
  choose_next_type_first_small_or_min s30_state
    (by
      intro r
      have h : ∀ l ∈ s30_state.place, ((l.length : Nat) : Int) < INT_MAX := by decide
      by_cases hr : r < s30_state.place.length
      · rw [List.getD_eq_getElem _ _ hr]
        exact h _ (List.getElem_mem _)
      · rw [List.getD_eq_default _ _ (not_lt.mp hr)]
        decide)
    ⟨1, by decide, by decide⟩

/-! ## Undoing a placement, and failed calls of `dfs` -/

/-- C34: for all masks `occ` and `m` of `nwords` words that do not overlap, `mask_apply`
followed by `mask_unapply` restores `occ` exactly, and `mask_apply` raises the number of
set bits of `occ` by exactly the number of set bits of `m`. -/
theorem mask_apply_unapply_popcount (occ m : Mask) (nwords : Nat) (hocc : occ.length = nwords)
    (hm : m.length = nwords) (h : mask_overlaps occ m nwords = false) :
    mask_unapply (mask_apply occ m nwords) m nwords = occ ∧
      popcount (mask_apply occ m nwords) = popcount occ + popcount m :=
  ⟨mask_unapply_apply occ m nwords h, popcount_mask_apply occ m nwords hocc hm h⟩

theorem mask_apply_unapply_popcount_witness :
    mask_unapply (mask_apply [5, 0] [2, 1] 2) [2, 1] 2 = [5, 0] ∧
      popcount (mask_apply [5, 0] [2, 1] 2) = popcount [5, 0] + popcount [2, 1] :=
  mask_apply_unapply_popcount [5, 0] [2, 1] 2 (by decide) (by decide) (by decide)

/-- C36: a failed call of `dfs` is atomic.  A call of `dfs` with a recursion budget above the
number of pieces still needed returns, and whenever it returns `false` the search state is
the one it was given: `occ`, every `need[t]`, every `last_idx[t]`, `remaining_area`,
`free_cells` and all other fields are unchanged. -/
theorem dfs_false_restores (fuel : Nat) (c : Ctx) (hfuel : total_need c < fuel) :
    ∃ b c', dfs fuel c = some (b, c') ∧
      (b = false → c' = c ∧ c'.occ = c.occ ∧ c'.need = c.need ∧ c'.last_idx = c.last_idx ∧
        c'.remaining_area = c.remaining_area ∧ c'.free_cells = c.free_cells) := by
  obtain ⟨⟨b, c'⟩, hr⟩ := dfs_total fuel c hfuel
  refine ⟨b, c', hr, ?_⟩
  intro hb
  subst hb
  have := dfs_false fuel c c' hr
  subst this
  exact ⟨rfl, rfl, rfl, rfl, rfl, rfl⟩

theorem dfs_false_restores_witness :
    (∃ b c', dfs 4 s30_start = some (b, c') ∧
      (b = false → c' = s30_start ∧ c'.occ = s30_start.occ ∧ c'.need = s30_start.need ∧
        c'.last_idx = s30_start.last_idx ∧ c'.remaining_area = s30_start.remaining_area ∧
        c'.free_cells = s30_start.free_cells)) ∧
      dfs 4 s30_start = some (false, s30_start) :=
  ⟨dfs_false_restores 4 s30_start (by decide), by decide⟩

/-! ## Colour counts across the orientations of a shape -/

/-- C32: for every shape as the reader stores it and every member `p` of its orientation
list, the black and white counts `poly_bw_counts` returns for `p` are those of orientation
0, `(b0, w0)`, or those swapped, `(w0, b0)`; hence `|b - w|` is the same for all
orientations of the shape. -/
theorem poly_bw_counts_orientations (s : Shape) (hs : s.Committed) (p : Poly)
    (hp : p ∈ s.ori) :
    (poly_bw_counts p = poly_bw_counts (s.ori.getD 0 ⟨[], 0, 0⟩) ∨
        poly_bw_counts p = ((poly_bw_counts (s.ori.getD 0 ⟨[], 0, 0⟩)).2,
          (poly_bw_counts (s.ori.getD 0 ⟨[], 0, 0⟩)).1)) ∧
      |(poly_bw_counts p).1 - (poly_bw_counts p).2| =
        |(poly_bw_counts (s.ori.getD 0 ⟨[], 0, 0⟩)).1 -
          (poly_bw_counts (s.ori.getD 0 ⟨[], 0, 0⟩)).2| := by
  obtain ⟨B, n, hB, _, _, hall⟩ := hs.colour_spec
  have h0 : s.ori.getD 0 ⟨[], 0, 0⟩ ∈ s.ori := by
    cases hori : s.ori with
    | nil => rw [hori] at hp; exact absurd hp (List.not_mem_nil _)
    | cons q rest => simp
  obtain ⟨hl, hb⟩ := hall p hp
  obtain ⟨hl0, hb0⟩ := hall _ h0
  rw [poly_bw_counts_eq p, poly_bw_counts_eq (s.ori.getD 0 ⟨[], 0, 0⟩), hl, hl0]
  simp only [Prod.mk.injEq]
  rcases hb with hb | hb <;> rcases hb0 with hb0 | hb0 <;> rw [hb, hb0]
  · exact ⟨Or.inl ⟨rfl, rfl⟩, rfl⟩
  · refine ⟨Or.inr ⟨by omega, by omega⟩, ?_⟩
    rw [abs_sub_comm]
    congr 1
    omega
  · refine ⟨Or.inr ⟨by omega, by omega⟩, ?_⟩
    rw [abs_sub_comm]
    congr 1
    omega
  · exact ⟨Or.inl ⟨rfl, rfl⟩, rfl⟩

theorem poly_bw_counts_orientations_witness :
    (poly_bw_counts ((commit_shape_record 0 glyph_l_tromino).ori.getD 2 ⟨[], 0, 0⟩) =
          poly_bw_counts ((commit_shape_record 0 glyph_l_tromino).ori.getD 0 ⟨[], 0, 0⟩) ∨
        poly_bw_counts ((commit_shape_record 0 glyph_l_tromino).ori.getD 2 ⟨[], 0, 0⟩) =
          ((poly_bw_counts ((commit_shape_record 0 glyph_l_tromino).ori.getD 0 ⟨[], 0, 0⟩)).2,
            (poly_bw_counts ((commit_shape_record 0 glyph_l_tromino).ori.getD 0 ⟨[], 0, 0⟩)).1)) ∧
      |(poly_bw_counts ((commit_shape_record 0 glyph_l_tromino).ori.getD 2 ⟨[], 0, 0⟩)).1 -
          (poly_bw_counts ((commit_shape_record 0 glyph_l_tromino).ori.getD 2 ⟨[], 0, 0⟩)).2| =
        |(poly_bw_counts ((commit_shape_record 0 glyph_l_tromino).ori.getD 0 ⟨[], 0, 0⟩)).1 -
          (poly_bw_counts ((commit_shape_record 0 glyph_l_tromino).ori.getD 0 ⟨[], 0, 0⟩)).2| :=
  poly_bw_counts_orientations (commit_shape_record 0 glyph_l_tromino)
    ⟨0, glyph_l_tromino, by decide, rfl⟩ _ (by decide)

/-! ## Termination of `dfs` -/

theorem dfs_loop_calls_proj (call' : Ctx → Option (Bool × Ctx × List (Ctx × Ctx)))
    (call : Ctx → Option (Bool × Ctx))
    (h : ∀ c, (call' c).map (fun r => (r.1, r.2.1)) = call c) (caller : Ctx) (t : Nat)
    (ms : List Mask) (i : Nat) (c : Ctx) :
    (dfs_loop_calls call' caller t ms i c).map (fun r => (r.1, r.2.1)) =
      dfs_loop call t ms i c := by
  induction ms generalizing i c with
  | nil => rfl
  | cons m ms ih =>
    simp only [dfs_loop_calls, dfs_loop]
    split_ifs with hov
    · exact ih (i + 1) c
    · rw [← h]
      cases hc : call' { c with
          last_idx := c.last_idx.set t (i : Int)
          occ := mask_apply c.occ m c.nwords
          free_cells := c.free_cells - c.area.getD t 0 } with
      | none => rfl
      | some r =>
        obtain ⟨b, c2, log⟩ := r
        cases b with
        | true => rfl
        | false =>
          simp only [Option.map_some', Option.map_map]
          rw [← ih]
          rfl

/-- The search with its call list returns what `dfs` returns. -/
theorem dfs_calls_proj (fuel : Nat) (c : Ctx) :
    (dfs_calls fuel c).map (fun r => (r.1, r.2.1)) = dfs fuel c := by
  induction fuel generalizing c with
  | zero => rfl
  | succ fuel ih =>
    simp only [dfs_calls, dfs]
    split_ifs
    · rfl
    · rfl
    · rfl
    · rfl
    · rw [← dfs_loop_calls_proj (dfs_calls fuel) (dfs fuel) ih c]
      cases hl : dfs_loop_calls (dfs_calls fuel) c (choose_next_type c).toNat
          (List.drop (start_index (c.last_idx.getD (choose_next_type c).toNat 0))
            (c.place.getD (choose_next_type c).toNat []))
          (start_index (c.last_idx.getD (choose_next_type c).toNat 0))
          { c with
            need := c.need.set (choose_next_type c).toNat
              (c.need.getD (choose_next_type c).toNat 0 - 1)
            remaining_area := c.remaining_area - c.area.getD (choose_next_type c).toNat 0 } with
      | none => rfl
      | some r =>
        obtain ⟨b, c2, log⟩ := r
        cases b <;> rfl

theorem sum_set_pred (l : List Int) (t : Nat) (h : 0 < l.getD t 0) :
    (l.set t (l.getD t 0 - 1)).sum + 1 = l.sum := by
  induction l generalizing t with
  | nil => simp at h
  | cons a l ih =>
    cases t with
    | zero =>
      simp only [List.getD_cons_zero, List.set_cons_zero, List.sum_cons]
      omega
    | succ t =>
      simp only [List.getD_cons_succ] at h
      simp only [List.getD_cons_succ, List.set_cons_succ, List.sum_cons]
      have := ih t h
      omega

theorem callsDescend_append (l1 l2 : List (Ctx × Ctx)) (h1 : CallsDescend l1)
    (h2 : CallsDescend l2) : CallsDescend (l1 ++ l2) := by
  intro x hx
  rcases List.mem_append.mp hx with hx | hx
  · exact h1 x hx
  · exact h2 x hx

theorem callsDescend_cons (p q : Ctx) (l : List (Ctx × Ctx))
    (h : q.need.sum + 1 = p.need.sum ∧ total_need q + 1 = total_need p) (hl : CallsDescend l) :
    CallsDescend ((p, q) :: l) := by
  intro x hx
  rcases List.mem_cons.mp hx with rfl | hx
  · exact h
  · exact hl x hx

/-- The calls listed by the placement loop descend, if those listed by the recursive call
do and a failed call restores its context. -/
theorem dfs_loop_calls_descend (call' : Ctx → Option (Bool × Ctx × List (Ctx × Ctx)))
    (hcall : ∀ c r, call' c = some r → (r.1 = false → r.2.1 = c) ∧ CallsDescend r.2.2)
    (caller : Ctx) (t : Nat) (ms : List Mask) (i : Nat) (c : Ctx)
    (hc : c.need.sum + 1 = caller.need.sum ∧ total_need c + 1 = total_need caller)
    (r : Bool × Ctx × List (Ctx × Ctx))
    (hr : dfs_loop_calls call' caller t ms i c = some r) : CallsDescend r.2.2 := by
  induction ms generalizing i c r with
  | nil =>
    simp only [dfs_loop_calls, Option.some.injEq] at hr
    subst hr
    intro x hx
    simp at hx
  | cons m ms ih =>
    simp only [dfs_loop_calls] at hr
    by_cases hov : mask_overlaps c.occ m c.nwords = true
    · rw [if_pos hov] at hr
      exact ih (i + 1) c hc r hr
    · rw [if_neg hov] at hr
      cases hcc : call' { c with
          last_idx := c.last_idx.set t (i : Int)
          occ := mask_apply c.occ m c.nwords
          free_cells := c.free_cells - c.area.getD t 0 } with
      | none =>
        rw [hcc] at hr
        simp at hr
      | some r1 =>
        obtain ⟨b, c2, log⟩ := r1
        obtain ⟨hres, hlog⟩ := hcall _ _ hcc
        rw [hcc] at hr
        cases b with
        | true =>
          simp only [Option.some.injEq] at hr
          subst hr
          exact callsDescend_cons _ _ _ hc hlog
        | false =>
          simp only [Option.map_eq_some'] at hr
          obtain ⟨r2, hr2, hr3⟩ := hr
          have hc2 : c2 = { c with
              last_idx := c.last_idx.set t (i : Int)
              occ := mask_apply c.occ m c.nwords
              free_cells := c.free_cells - c.area.getD t 0 } := hres rfl
          have key := ih (i + 1) _ (by rw [hc2]; exact hc) r2 hr2
          rw [← hr3]
          exact callsDescend_cons _ _ _ hc (callsDescend_append _ _ hlog key)

theorem dfs_calls_descend (fuel : Nat) (c : Ctx) (r : Bool × Ctx × List (Ctx × Ctx))
    (h : dfs_calls fuel c = some r) : (r.1 = false → r.2.1 = c) ∧ CallsDescend r.2.2 := by
  constructor
  · intro hb
    have hp := dfs_calls_proj fuel c
    rw [h] at hp
    obtain ⟨b, c', log⟩ := r
    simp only at hb
    subst hb
    exact dfs_false fuel c c' hp.symm
  · induction fuel generalizing c r with
    | zero => simp [dfs_calls] at h
    | succ fuel ih =>
      have hnil : CallsDescend [] := by
        intro x hx
        simp at hx
      simp only [dfs_calls] at h
      split_ifs at h with h1 h2 h3 h4
      · simp only [Option.some.injEq] at h
        subst h
        exact hnil
      · simp only [Option.some.injEq] at h
        subst h
        exact hnil
      · simp only [Option.some.injEq] at h
        subst h
        exact hnil
      · simp only [Option.some.injEq] at h
        subst h
        exact hnil
      · have hpos : 0 < c.need.getD (choose_next_type c).toNat 0 := by
          rcases choose_next_type_spec c with h5 | ⟨r, hr, _, h6⟩
          · omega
          · rw [hr]
            simpa using h6
        have hcall : ∀ c0 r0, dfs_calls fuel c0 = some r0 →
            (r0.1 = false → r0.2.1 = c0) ∧ CallsDescend r0.2.2 := by
          intro c0 r0 h0
          refine ⟨?_, ih c0 r0 h0⟩
          intro hb
          have hp := dfs_calls_proj fuel c0
          rw [h0] at hp
          obtain ⟨b, c', log⟩ := r0
          simp only at hb
          subst hb
          exact dfs_false fuel c0 c' hp.symm
        cases hl : dfs_loop_calls (dfs_calls fuel) c (choose_next_type c).toNat
            (List.drop (start_index (c.last_idx.getD (choose_next_type c).toNat 0))
              (c.place.getD (choose_next_type c).toNat []))
            (start_index (c.last_idx.getD (choose_next_type c).toNat 0))
            { c with
              need := c.need.set (choose_next_type c).toNat
                (c.need.getD (choose_next_type c).toNat 0 - 1)
              remaining_area := c.remaining_area - c.area.getD (choose_next_type c).toNat 0 } with
        | none =>
          rw [hl] at h
          simp at h
        | some r1 =>
          have key : CallsDescend r1.2.2 := by
            apply dfs_loop_calls_descend (dfs_calls fuel) hcall c _ _ _ _ _ r1 hl
            exact ⟨sum_set_pred c.need _ hpos, sum_toNat_set_pred c.need _ hpos⟩
          rw [hl] at h
          obtain ⟨b, c2, log⟩ := r1
          cases b with
          | true =>
            simp only [Option.some.injEq] at h
            subst h
            exact key
          | false =>
            simp only [Option.some.injEq] at h
            subst h
            exact key

theorem dfs_loop_mono (call call' : Ctx → Option (Bool × Ctx))
    (h : ∀ c r, call c = some r → call' c = some r) (t : Nat) (ms : List Mask) (i : Nat)
    (c : Ctx) (r : Bool × Ctx) (hr : dfs_loop call t ms i c = some r) :
    dfs_loop call' t ms i c = some r := by
  induction ms generalizing i c with
  | nil => exact hr
  | cons m ms ih =>
    simp only [dfs_loop] at hr ⊢
    split_ifs at hr ⊢ with hov
    · exact ih (i + 1) c hr
    · cases hc : call { c with
          last_idx := c.last_idx.set t (i : Int)
          occ := mask_apply c.occ m c.nwords
          free_cells := c.free_cells - c.area.getD t 0 } with
      | none =>
        rw [hc] at hr
        simp at hr
      | some r1 =>
        rw [hc] at hr
        rw [h _ _ hc]
        obtain ⟨b, c2⟩ := r1
        cases b with
        | true => exact hr
        | false => exact ih (i + 1) _ hr

/-- A result of `dfs` does not depend on the recursion budget. -/
theorem dfs_mono (fuel fuel' : Nat) (hle : fuel ≤ fuel') (c : Ctx) (r : Bool × Ctx)
    (h : dfs fuel c = some r) : dfs fuel' c = some r := by
  induction fuel generalizing fuel' c r with
  | zero => simp [dfs] at h
  | succ fuel ih =>
    cases fuel' with
    | zero => omega
    | succ fuel' =>
      simp only [dfs] at h ⊢
      split_ifs at h ⊢ with h1 h2 h3 h4
      · exact h
      · exact h
      · exact h
      · exact h
      · cases hl : dfs_loop (dfs fuel) (choose_next_type c).toNat
            (List.drop (start_index (c.last_idx.getD (choose_next_type c).toNat 0))
              (c.place.getD (choose_next_type c).toNat []))
            (start_index (c.last_idx.getD (choose_next_type c).toNat 0))
            { c with
              need := c.need.set (choose_next_type c).toNat
                (c.need.getD (choose_next_type c).toNat 0 - 1)
              remaining_area := c.remaining_area - c.area.getD (choose_next_type c).toNat 0 } with
        | none =>
          rw [hl] at h
          simp at h
        | some r1 =>
          rw [hl] at h
          rw [dfs_loop_mono (dfs fuel) (dfs fuel')
            (fun c0 r0 h0 => ih fuel' (by omega) c0 r0 h0) _ _ _ _ r1 hl]
          exact h

/-- C33: `dfs` terminates.  For every search state, and so for every state built by
`solve_region_fast`, the search returns within a recursion depth of one more than the
number of pieces still needed (the budget `solve_region_fast` gives it), a larger budget
changes nothing, and every recursive call made during the run, at any depth, is made with
the sum of `need` smaller by one than in its caller. -/
theorem dfs_terminates (c : Ctx) :
    ∃ b c' calls, dfs_calls (total_need c + 1) c = some (b, c', calls) ∧
      dfs_call c = some (b, c') ∧
      (∀ fuel, total_need c < fuel → dfs fuel c = some (b, c')) ∧
      ∀ pq ∈ calls, pq.2.need.sum + 1 = pq.1.need.sum ∧
        total_need pq.2 + 1 = total_need pq.1 := by
  obtain ⟨⟨b, c'⟩, hr⟩ := dfs_total (total_need c + 1) c (by omega)
  have hp := dfs_calls_proj (total_need c + 1) c
  rw [hr] at hp
  cases hcalls : dfs_calls (total_need c + 1) c with
  | none =>
    rw [hcalls] at hp
    simp at hp
  | some r =>
    obtain ⟨b1, c1, calls⟩ := r
    rw [hcalls] at hp
    simp only [Option.map_some', Option.some.injEq, Prod.mk.injEq] at hp
    obtain ⟨hb, hc⟩ := hp
    subst hb hc
    refine ⟨b1, c1, calls, rfl, hr, ?_, (dfs_calls_descend _ c _ hcalls).2⟩
    intro fuel hfuel
    exact dfs_mono (total_need c + 1) fuel (by omega) c _ hr

/-! ## The subset-sum bitset of the parity prune is exact -/

/-- C2, at the failing input: shape 0 is the square `##` / `##` and the region is
`2x2: 1073741825`.  The `int` sum `area_sum = 4 * 1073741825` wraps to 4, which is positive
and not above `W * H = 4`; the parity prune passes, `dfs` places one square, finds
`remaining_area == 0` and returns `true` with `need[0] = 1073741824` pieces still demanded.
So `solve_region_fast` returns `true` and the program prints 1, although the square has a
single placement on the board and no selection of 1073741825 pairwise non-overlapping
placements exists. -/
theorem solve_region_fast_overflow_unsound :
    int_wrap (4 * 1073741825) = 4 ∧
      solve_area_loop [1073741825] [commit_shape_record 0 glyph_square] 0 0 = some 4 ∧
      solve_place_loop build_placements_for_shape [1073741825] 2 2 (nwords_for_board 2 2).toNat
        [commit_shape_record 0 glyph_square] 0 = some [[[15]]] ∧
      (dfs_call (initial_ctx [commit_shape_record 0 glyph_square] 2 2 [1073741825]
        [[[15]]] 4)).map (fun r => (r.1, r.2.need, r.2.remaining_area)) =
          some (true, [1073741824], 0) ∧
      solve_region_fast [commit_shape_record 0 glyph_square] 2 2 [1073741825] = some true ∧
      main [['0', ':'], ['#', '#'], ['#', '#'],
        ['2', 'x', '2', ':', ' ', '1', '0', '7', '3', '7', '4', '1', '8', '2', '5']] =
          some ⟨EXIT_SUCCESS, some 1⟩ ∧
      placement_list [commit_shape_record 0 glyph_square] 2 2 0 = [[15]] ∧
      ¬ ∃ sel, IsSelection [commit_shape_record 0 glyph_square] 2 2 [1073741825] sel := by
  refine ⟨by decide, by decide, by decide, by decide, by decide, by decide, by decide, ?_⟩
  rintro ⟨sel, hsel⟩
  have hc := hsel.count 0 (by decide)
  have hneed : need_at [1073741825] 0 = 1073741825 := by decide
  rw [hneed] at hc
  have hsub : (sel.filter (fun a => decide (a.1 = 0))).Sublist sel := List.filter_sublist sel
  have hpair := hsel.disjoint.sublist hsub
  have hmem : ∀ a ∈ sel.filter (fun a => a.1 = 0), a = (0, 0) := by
    intro a ha
    have hin := hsel.in_list a (List.mem_of_mem_filter ha)
    obtain ⟨a1, a2⟩ := a
    have h1 : a1 = 0 := by
      have := hin.1
      simp only [List.length_singleton] at this
      omega
    subst h1
    have hl : (placement_list [commit_shape_record 0 glyph_square] 2 2 0).length = 1 := by
      decide
    have h2 := hin.2
    simp only [hl] at h2
    have h3 : a2 = 0 := by omega
    rw [h3]
  match hf : sel.filter (fun a => a.1 = 0) with
  | [] =>
    rw [hf] at hc
    simp at hc
  | [_] =>
    rw [hf] at hc
    simp at hc
  | a :: b :: rest =>
    rw [hf] at hpair hmem
    have ha := hmem a (by simp)
    have hb := hmem b (by simp)
    have hab := (List.pairwise_cons.mp hpair).1 b (by simp)
    rw [ha, hb] at hab
    revert hab
    decide

end Day12

namespace Day08

/-! ## Roots -/

theorem RootOf.is_root {parent : List Nat} {x r : Nat} (h : RootOf parent x r) :
    parent.getD r 0 = r := by
  induction h with
  | root r hr => exact hr
  | step x r _ _ ih => exact ih

theorem RootOf.det {parent : List Nat} {x r r' : Nat} (h : RootOf parent x r)
    (h' : RootOf parent x r') : r = r' := by
  induction h with
  | root r hr =>
    cases h' with
    | root _ _ => rfl
    | step _ _ hne _ => exact absurd hr hne
  | step x r hne _ ih =>
    cases h' with
    | root _ hr => exact absurd hr hne
    | step _ _ _ hrest => exact ih hrest

theorem RootOf.lt {n : Nat} {rk : Nat → Nat} {parent : List Nat} (hf : Ranked n rk parent)
    {x r : Nat} (h : RootOf parent x r) (hx : x < n) : r < n := by
  induction h with
  | root r _ => exact hx
  | step x r _ _ ih => exact ih (hf.2 x hx).1

theorem RootOf.rank_le {n : Nat} {rk : Nat → Nat} {parent : List Nat}
    (hf : Ranked n rk parent) {x r : Nat} (h : RootOf parent x r) (hx : x < n) :
    rk x ≤ rk r ∧ (x ≠ r → rk x < rk r) := by
  induction h with
  | root r _ => exact ⟨le_refl _, fun h => absurd rfl h⟩
  | step x r hne _ ih =>
    obtain ⟨hlt, hrk⟩ := hf.2 x hx
    have := (ih hlt).1
    have := hrk hne
    exact ⟨by omega, fun _ => by omega⟩

/-- What the first loop of `uf_find` returns is the root. -/
theorem uf_find_root_sound (parent : List Nat) (fuel x r : Nat)
    (h : uf_find_root parent fuel x = some r) : RootOf parent x r := by
  induction fuel generalizing x with
  | zero => simp [uf_find_root] at h
  | succ fuel ih =>
    simp only [uf_find_root] at h
    split_ifs at h with hne
    · exact RootOf.step x r hne (ih _ h)
    · simp only [ne_eq, not_not] at hne
      simp only [Option.some.injEq] at h
      subst h
      exact RootOf.root x hne

/-- The number of entries of rank at least the rank of `x`: it bounds the length of the
walk from `x` to its root. -/
theorem above_card_lt (n : Nat) (rk : Nat → Nat) (x y : Nat) (hx : x < n)
    (h : rk x < rk y) :
    ((Finset.range n).filter (fun i => rk y ≤ rk i)).card <
      ((Finset.range n).filter (fun i => rk x ≤ rk i)).card := by
  apply Finset.card_lt_card
  rw [Finset.ssubset_iff_of_subset]
  · refine ⟨x, ?_, ?_⟩
    · rw [Finset.mem_filter, Finset.mem_range]
      exact ⟨hx, le_refl _⟩
    · rw [Finset.mem_filter]
      intro hc
      omega
  · intro i hi
    rw [Finset.mem_filter] at hi ⊢
    exact ⟨hi.1, by omega⟩

theorem above_card_le (n : Nat) (rk : Nat → Nat) (x : Nat) :
    ((Finset.range n).filter (fun i => rk x ≤ rk i)).card ≤ n := by
  have := Finset.card_filter_le (Finset.range n) (fun i => rk x ≤ rk i)
  rwa [Finset.card_range] at this

/-- In a forest the first loop of `uf_find` ends within its rounds. -/
theorem uf_find_root_total (n : Nat) (rk : Nat → Nat) (parent : List Nat)
    (hf : Ranked n rk parent) (fuel x : Nat) (hx : x < n)
    (hfuel : ((Finset.range n).filter (fun i => rk x ≤ rk i)).card ≤ fuel) :
    ∃ r, uf_find_root parent fuel x = some r := by
  induction fuel generalizing x with
  | zero =>
    have hmem : x ∈ (Finset.range n).filter (fun i => rk x ≤ rk i) := by
      rw [Finset.mem_filter, Finset.mem_range]
      exact ⟨hx, le_refl _⟩
    have := Finset.card_pos.mpr ⟨x, hmem⟩
    omega
  | succ fuel ih =>
    simp only [uf_find_root]
    split_ifs with hne
    · obtain ⟨hlt, hrk⟩ := hf.2 x hx
      apply ih _ hlt
      have := above_card_lt n rk x _ hx (hrk hne)
      omega
    · exact ⟨x, rfl⟩

/-- In a forest every element has a root, the one `uf_root` computes. -/
theorem rootOf_uf_root (n : Nat) (u : UF) (hf : Forest n u.parent) (x : Nat) (hx : x < n) :
    RootOf u.parent x (uf_root u x) ∧
      uf_find_root u.parent (u.parent.length + 1) x = some (uf_root u x) := by
  obtain ⟨rk, hrk⟩ := hf
  obtain ⟨r, hr⟩ := uf_find_root_total n rk u.parent hrk (u.parent.length + 1) x hx
    (by have := above_card_le n rk x; have := hrk.1; omega)
  have : uf_root u x = r := by
    unfold uf_root
    rw [hr]
    rfl
  rw [this]
  exact ⟨uf_find_root_sound _ _ _ _ hr, hr⟩

theorem uf_root_eq_of_rootOf (n : Nat) (u : UF) (hf : Forest n u.parent) (x r : Nat)
    (hx : x < n) (h : RootOf u.parent x r) : uf_root u x = r :=
  (rootOf_uf_root n u hf x hx).1.det h

theorem uf_root_lt (n : Nat) (u : UF) (hf : Forest n u.parent) (x : Nat) (hx : x < n) :
    uf_root u x < n := by
  obtain ⟨rk, hrk⟩ := hf
  exact (rootOf_uf_root n u ⟨rk, hrk⟩ x hx).1.lt hrk hx

theorem uf_root_is_root (n : Nat) (u : UF) (hf : Forest n u.parent) (x : Nat) (hx : x < n) :
    u.parent.getD (uf_root u x) 0 = uf_root u x :=
  (rootOf_uf_root n u hf x hx).1.is_root

theorem uf_root_of_root (n : Nat) (u : UF) (hf : Forest n u.parent) (r : Nat) (hr : r < n)
    (h : u.parent.getD r 0 = r) : uf_root u r = r :=
  uf_root_eq_of_rootOf n u hf r r hr (RootOf.root r h)

theorem uf_root_idem (n : Nat) (u : UF) (hf : Forest n u.parent) (x : Nat) (hx : x < n) :
    uf_root u (uf_root u x) = uf_root u x :=
  uf_root_of_root n u hf _ (uf_root_lt n u hf x hx) (uf_root_is_root n u hf x hx)

/-! ## `uf_find` and `uf_union_roots` on a forest -/

theorem getD_set_eq (l : List Nat) (i j a : Nat) :
    (l.set i a).getD j 0 = if i = j ∧ i < l.length then a else l.getD j 0 := by
  by_cases hj : j < l.length
  · rw [List.getD_eq_getElem _ _ (by simpa using hj), List.getElem_set,
      List.getD_eq_getElem _ _ hj]
    by_cases hij : i = j
    · subst hij; simp only [hj, and_self, if_true]
    · simp only [hij, false_and, if_false]
  · rw [List.getD_eq_default _ _ (by simpa using hj), List.getD_eq_default _ _ (by omega)]
    split_ifs with h
    · omega
    · rfl

theorem getD_set_size (l : List Int) (i j : Nat) (a : Int) :
    (l.set i a).getD j 0 = if i = j ∧ i < l.length then a else l.getD j 0 := by
  by_cases hj : j < l.length
  · rw [List.getD_eq_getElem _ _ (by simpa using hj), List.getElem_set,
      List.getD_eq_getElem _ _ hj]
    by_cases hij : i = j
    · subst hij; simp only [hj, and_self, if_true]
    · simp only [hij, false_and, if_false]
  · rw [List.getD_eq_default _ _ (by simpa using hj), List.getD_eq_default _ _ (by omega)]
    split_ifs with h
    · omega
    · rfl

/-- Pointing an element at its root keeps every root and the rank. -/
theorem compress_step (n : Nat) (rk : Nat → Nat) (parent : List Nat) (x r : Nat)
    (hf : Ranked n rk parent) (hx : x < n) (hne : parent.getD x 0 ≠ x)
    (hroot : RootOf parent x r) :
    Ranked n rk (parent.set x r) ∧
      ∀ y s, RootOf parent y s → RootOf (parent.set x r) y s := by
  have hrx : r ≠ x := by
    intro h
    rw [h] at hroot
    exact hne hroot.is_root
  have hrr : (parent.set x r).getD r 0 = r := by
    rw [getD_set_eq, if_neg (fun h => hrx h.1.symm)]
    exact hroot.is_root
  constructor
  · refine ⟨by rw [List.length_set]; exact hf.1, ?_⟩
    intro i hi
    rw [getD_set_eq]
    by_cases hix : x = i
    · subst hix
      rw [if_pos ⟨rfl, by rw [hf.1]; exact hx⟩]
      exact ⟨hroot.lt hf hx, fun _ => (hroot.rank_le hf hx).2 (fun h => hrx h.symm)⟩
    · rw [if_neg (fun h => hix h.1)]
      exact hf.2 i hi
  · intro y s hys
    induction hys with
    | root s hs =>
      have hsx : x ≠ s := by
        intro h
        rw [h] at hne
        exact hne hs
      exact RootOf.root s (by rw [getD_set_eq, if_neg (fun h => hsx h.1)]; exact hs)
    | step y s hyne hrest ih =>
      by_cases hyx : x = y
      · subst hyx
        have hs : s = r := (RootOf.step x s hyne hrest).det hroot
        subst hs
        refine RootOf.step x s ?_ ?_
        · rw [getD_set_eq, if_pos ⟨rfl, by rw [hf.1]; exact hx⟩]
          exact hrx
        · rw [getD_set_eq, if_pos ⟨rfl, by rw [hf.1]; exact hx⟩]
          exact RootOf.root s hrr
      · refine RootOf.step y s ?_ ?_
        · rw [getD_set_eq, if_neg (fun h => hyx h.1)]
          exact hyne
        · rw [getD_set_eq, if_neg (fun h => hyx h.1)]
          exact ih

/-- The second loop of `uf_find` ends within its rounds and keeps every root. -/
theorem uf_compress_spec (n : Nat) (rk : Nat → Nat) (fuel : Nat) (parent : List Nat)
    (x r : Nat) (hf : Ranked n rk parent) (hx : x < n) (hroot : RootOf parent x r)
    (hfuel : ((Finset.range n).filter (fun i => rk x ≤ rk i)).card ≤ fuel) :
    ∃ parent', uf_compress r fuel parent x = some parent' ∧ Ranked n rk parent' ∧
      ∀ y s, RootOf parent y s → RootOf parent' y s := by
  induction fuel generalizing parent x with
  | zero =>
    have hmem : x ∈ (Finset.range n).filter (fun i => rk x ≤ rk i) := by
      rw [Finset.mem_filter, Finset.mem_range]
      exact ⟨hx, le_refl _⟩
    have := Finset.card_pos.mpr ⟨x, hmem⟩
    omega
  | succ fuel ih =>
    simp only [uf_compress]
    split_ifs with hne
    · obtain ⟨hlt, hrk⟩ := hf.2 x hx
      obtain ⟨hf1, hkeep⟩ := compress_step n rk parent x r hf hx hne hroot
      have hrest : RootOf parent (parent.getD x 0) r := by
        cases hroot with
        | root _ h => exact absurd h hne
        | step _ _ _ h => exact h
      obtain ⟨parent', h1, h2, h3⟩ := ih (parent.set x r) (parent.getD x 0) hf1 hlt
        (hkeep _ _ hrest) (by
          have := above_card_lt n rk x _ hx (hrk hne)
          omega)
      exact ⟨parent', h1, h2, fun y s hys => h3 y s (hkeep y s hys)⟩
    · exact ⟨parent, rfl, hf, fun _ _ h => h⟩

/-- On a forest `uf_find` returns the root, keeps the forest, the sizes, the root of
every element and the set of roots. -/
theorem uf_find_spec (n : Nat) (u : UF) (hf : Forest n u.parent) (x : Nat) (hx : x < n) :
    ∃ u', uf_find u x = some (uf_root u x, u') ∧ Forest n u'.parent ∧ u'.size = u.size ∧
      (∀ y, y < n → uf_root u' y = uf_root u y) ∧
      ∀ i, i < n → (u'.parent.getD i 0 = i ↔ u.parent.getD i 0 = i) := by
  obtain ⟨hroot, hfind⟩ := rootOf_uf_root n u hf x hx
  obtain ⟨rk, hrk⟩ := hf
  obtain ⟨parent', hc, hrk', hkeep⟩ := uf_compress_spec n rk (u.parent.length + 1) u.parent x
    (uf_root u x) hrk hx hroot (by have := above_card_le n rk x; have := hrk.1; omega)
  have hsame : ∀ y, y < n → uf_root { u with parent := parent' } y = uf_root u y := by
    intro y hy
    exact uf_root_eq_of_rootOf n _ ⟨rk, hrk'⟩ y _ hy
      (hkeep y _ (rootOf_uf_root n u ⟨rk, hrk⟩ y hy).1)
  refine ⟨{ u with parent := parent' }, ?_, ⟨rk, hrk'⟩, rfl, hsame, ?_⟩
  · unfold uf_find
    rw [hfind]
    simp only []
    rw [hc]
  · intro i hi
    constructor
    · intro h
      have h1 := uf_root_of_root n { u with parent := parent' } ⟨rk, hrk'⟩ i hi h
      rw [hsame i hi] at h1
      have h2 := uf_root_is_root n u ⟨rk, hrk⟩ i hi
      rw [h1] at h2
      exact h2
    · intro h
      exact (hkeep i i (RootOf.root i h)).is_root

/-- Linking the root `l` below the root `w` sends the elements of `l` to `w`. -/
theorem link_step (n : Nat) (rk : Nat → Nat) (parent : List Nat) (w l : Nat)
    (hf : Ranked n rk parent) (hw : w < n) (hl : l < n) (hne : w ≠ l)
    (hwr : parent.getD w 0 = w) (hlr : parent.getD l 0 = l) :
    Ranked n (fun i => if i = w then rk w + rk l + 1 else rk i) (parent.set l w) ∧
      ∀ y s, RootOf parent y s → RootOf (parent.set l w) y (if s = l then w else s) := by
  constructor
  · refine ⟨by rw [List.length_set]; exact hf.1, ?_⟩
    intro i hi
    rw [getD_set_eq]
    by_cases hil : l = i
    · rw [← hil, if_pos ⟨rfl, by rw [hf.1]; exact hl⟩]
      refine ⟨hw, fun _ => ?_⟩
      show (if l = w then rk w + rk l + 1 else rk l) <
        (if w = w then rk w + rk l + 1 else rk w)
      rw [if_neg (fun h => hne h.symm), if_pos rfl]
      omega
    · rw [if_neg (fun h => hil h.1)]
      obtain ⟨hlt, hrk⟩ := hf.2 i hi
      refine ⟨hlt, fun hpi => ?_⟩
      have hiw : i ≠ w := by
        intro h
        rw [h] at hpi
        exact hpi hwr
      have := hrk hpi
      show (if i = w then rk w + rk l + 1 else rk i) <
        (if parent.getD i 0 = w then rk w + rk l + 1 else rk (parent.getD i 0))
      rw [if_neg hiw]
      split_ifs with hpw
      · rw [hpw] at this
        omega
      · omega
  · intro y s hys
    induction hys with
    | root s hs =>
      by_cases hsl : s = l
      · subst hsl
        rw [if_pos rfl]
        refine RootOf.step s w ?_ ?_
        · rw [getD_set_eq, if_pos ⟨rfl, by rw [hf.1]; exact hl⟩]
          exact hne
        · rw [getD_set_eq, if_pos ⟨rfl, by rw [hf.1]; exact hl⟩]
          exact RootOf.root w (by
            rw [getD_set_eq, if_neg (fun h => hne h.1.symm)]
            exact hwr)
      · rw [if_neg hsl]
        exact RootOf.root s (by
          rw [getD_set_eq, if_neg (fun h => hsl h.1.symm)]
          exact hs)
    | step y s hyne hrest ih =>
      have hyl : l ≠ y := by
        intro h
        rw [← h] at hyne
        exact hyne hlr
      refine RootOf.step y _ ?_ ?_
      · rw [getD_set_eq, if_neg (fun h => hyl h.1)]
        exact hyne
      · rw [getD_set_eq, if_neg (fun h => hyl h.1)]
        exact ih

/-- On two distinct roots `uf_union_roots` links the one of the smaller class below the
other and adds the sizes. -/
theorem uf_union_roots_spec (n : Nat) (u : UF) (rx ry : Nat) (hf : Forest n u.parent)
    (hrx : rx < n) (hry : ry < n) (hne : rx ≠ ry) (hx : u.parent.getD rx 0 = rx)
    (hy : u.parent.getD ry 0 = ry) :
    ∃ w l, ((w = rx ∧ l = ry) ∨ (w = ry ∧ l = rx)) ∧ w ≠ l ∧
      uf_union_roots u rx ry =
        { parent := u.parent.set l w
          size := u.size.set w (u.size.getD w 0 + u.size.getD l 0) } ∧
      Forest n (uf_union_roots u rx ry).parent ∧
      ∀ y, y < n → uf_root (uf_union_roots u rx ry) y =
        if uf_root u y = l then w else uf_root u y := by
  obtain ⟨rk, hrk⟩ := hf
  have key : ∀ w l, w < n → l < n → w ≠ l → u.parent.getD w 0 = w → u.parent.getD l 0 = l →
      uf_union_roots u rx ry =
        { parent := u.parent.set l w
          size := u.size.set w (u.size.getD w 0 + u.size.getD l 0) } →
      Forest n (uf_union_roots u rx ry).parent ∧
      ∀ y, y < n → uf_root (uf_union_roots u rx ry) y =
        if uf_root u y = l then w else uf_root u y := by
    intro w l hw hl hwl hwr hlr heq
    obtain ⟨h1, h2⟩ := link_step n rk u.parent w l hrk hw hl hwl hwr hlr
    rw [heq]
    refine ⟨⟨_, h1⟩, ?_⟩
    intro y hy'
    exact uf_root_eq_of_rootOf n _ ⟨_, h1⟩ y _ hy'
      (h2 y _ (rootOf_uf_root n u ⟨rk, hrk⟩ y hy').1)
  by_cases hsw : u.size.getD rx 0 < u.size.getD ry 0
  · have heq : uf_union_roots u rx ry =
        { parent := u.parent.set rx ry
          size := u.size.set ry (u.size.getD ry 0 + u.size.getD rx 0) } := by
      unfold uf_union_roots
      rw [if_neg hne]
      simp only [hsw, decide_True, if_true]
    exact ⟨ry, rx, Or.inr ⟨rfl, rfl⟩, fun h => hne h.symm, heq,
      key ry rx hry hrx (fun h => hne h.symm) hy hx heq⟩
  · have heq : uf_union_roots u rx ry =
        { parent := u.parent.set ry rx
          size := u.size.set rx (u.size.getD rx 0 + u.size.getD ry 0) } := by
      unfold uf_union_roots
      rw [if_neg hne]
      simp only [hsw, decide_False, if_false]
    exact ⟨rx, ry, Or.inl ⟨rfl, rfl⟩, hne, heq, key rx ry hrx hry hne hx hy heq⟩

/-! ## Connectivity -/

theorem conn_mono (E F : List Edge) (h : ∀ e ∈ E, e ∈ F) (i j : Nat) (hc : Conn E i j) :
    Conn F i j := by
  induction hc with
  | rel x y hxy =>
    obtain ⟨e, he, h1, h2⟩ := hxy
    exact Relation.EqvGen.rel x y ⟨e, h e he, h1, h2⟩
  | refl x => exact Relation.EqvGen.refl x
  | symm x y _ ih => exact Relation.EqvGen.symm x y ih
  | trans x y z _ _ ih1 ih2 => exact Relation.EqvGen.trans x y z ih1 ih2

theorem conn_edge (E : List Edge) (e : Edge) (he : e ∈ E) : Conn E e.a e.b :=
  Relation.EqvGen.rel _ _ ⟨e, he, rfl, rfl⟩

/-- Connectivity is contained in every equivalence that contains the edges. -/
theorem conn_le (E : List Edge) (R : Nat → Nat → Prop) (hrefl : ∀ x, R x x)
    (hsymm : ∀ x y, R x y → R y x) (htrans : ∀ x y z, R x y → R y z → R x z)
    (hE : ∀ e ∈ E, R e.a e.b) (i j : Nat) (hc : Conn E i j) : R i j := by
  induction hc with
  | rel x y hxy =>
    obtain ⟨e, he, rfl, rfl⟩ := hxy
    exact hE e he
  | refl x => exact hrefl x
  | symm x y _ ih => exact hsymm x y ih
  | trans x y z _ _ ih1 ih2 => exact htrans x y z ih1 ih2

theorem conn_nil (i j : Nat) : Conn [] i j ↔ i = j := by
  constructor
  · intro h
    exact conn_le [] (fun x y => x = y) (fun _ => rfl) (fun _ _ h => h.symm)
      (fun _ _ _ h1 h2 => h1.trans h2) (fun e he => by simp at he) i j h
  · rintro rfl
    exact Relation.EqvGen.refl i

/-- An edge between connected points adds nothing. -/
theorem conn_snoc_of_conn (E : List Edge) (e : Edge) (h : Conn E e.a e.b) (i j : Nat) :
    Conn (E ++ [e]) i j ↔ Conn E i j := by
  constructor
  · intro hc
    refine conn_le (E ++ [e]) (Conn E) (fun x => Relation.EqvGen.refl x)
      (fun x y => Relation.EqvGen.symm x y) (fun x y z => Relation.EqvGen.trans x y z) ?_ i j hc
    intro e' he'
    rcases List.mem_append.mp he' with he' | he'
    · exact conn_edge E e' he'
    · rw [List.mem_singleton] at he'
      rw [he']
      exact h
  · exact conn_mono E (E ++ [e]) (fun e' he' => List.mem_append_left _ he') i j

/-! ## The invariant of the union loops -/

theorem uf_init_getD (n i : Nat) (hi : i < n) : (uf_init n).parent.getD i 0 = i := by
  unfold uf_init
  simp only []
  rw [List.getD_eq_getElem _ _ (by simpa using hi), List.getElem_range]

theorem forest_init (n : Nat) : Forest n (uf_init n).parent :=
  ⟨fun _ => 0, by simp [uf_init], fun i hi => by
    rw [uf_init_getD n i hi]
    exact ⟨hi, fun h => absurd rfl h⟩⟩

theorem uf_root_init (n i : Nat) (hi : i < n) : uf_root (uf_init n) i = i :=
  uf_root_of_root n _ (forest_init n) i hi (uf_init_getD n i hi)

theorem tracks_init (n : Nat) : Tracks n [] (uf_init n) := by
  refine ⟨fun e he => by simp at he, forest_init n, by simp [uf_init], ?_, ?_⟩
  · intro i j hi hj
    rw [uf_root_init n i hi, uf_root_init n j hj, conn_nil]
  · intro r hr _
    have hsz : (uf_init n).size.getD r 0 = 1 := by
      unfold uf_init
      simp only []
      rw [List.getD_eq_getElem _ _ (by simpa using hr)]
      simp
    rw [hsz]
    unfold class_count
    have : (Finset.range n).filter (fun i => uf_root (uf_init n) i = r) = {r} := by
      ext i
      rw [Finset.mem_filter, Finset.mem_range, Finset.mem_singleton]
      constructor
      · rintro ⟨hi, h⟩
        rw [uf_root_init n i hi] at h
        exact h
      · rintro rfl
        exact ⟨hr, uf_root_init n i hr⟩
    rw [this]
    simp

theorem class_count_congr (u u' : UF) (n r : Nat)
    (h : ∀ y, y < n → uf_root u' y = uf_root u y) : class_count u' n r = class_count u n r := by
  unfold class_count
  congr 1
  apply Finset.filter_congr
  intro i hi
  rw [h i (Finset.mem_range.mp hi)]

theorem root_count_congr (u u' : UF) (n : Nat)
    (h : ∀ i, i < n → (u'.parent.getD i 0 = i ↔ u.parent.getD i 0 = i)) :
    root_count u' n = root_count u n := by
  unfold root_count
  congr 1
  apply Finset.filter_congr
  intro i hi
  exact h i (Finset.mem_range.mp hi)

/-- A call of `uf_find` keeps the invariant and returns the root. -/
theorem tracks_find (n : Nat) (E : List Edge) (u u1 : UF) (x r : Nat) (ht : Tracks n E u)
    (hx : x < n) (h : uf_find u x = some (r, u1)) :
    Tracks n E u1 ∧ r = uf_root u x ∧ (∀ y, y < n → uf_root u1 y = uf_root u y) ∧
      root_count u1 n = root_count u n := by
  obtain ⟨u', hfind, hf', hsz, hroot, hroots⟩ := uf_find_spec n u ht.forest x hx
  rw [hfind] at h
  simp only [Option.some.injEq, Prod.mk.injEq] at h
  obtain ⟨hr, hu⟩ := h
  subst hu
  refine ⟨⟨ht.valid, hf', by rw [hsz]; exact ht.size_len, ?_, ?_⟩, hr.symm, hroot,
    root_count_congr u u' n hroots⟩
  · intro i j hi hj
    rw [hroot i hi, hroot j hj]
    exact ht.conn i j hi hj
  · intro s hs hsr
    rw [hsz, class_count_congr u u' n s hroot]
    exact ht.sizes s hs ((hroots s hs).mp hsr)

/-- An edge inside one class keeps the invariant. -/
theorem tracks_same (n : Nat) (E : List Edge) (u : UF) (e : Edge) (ht : Tracks n E u)
    (ha : e.a < n) (hb : e.b < n) (h : uf_root u e.a = uf_root u e.b) :
    Tracks n (E ++ [e]) u := by
  have hc : Conn E e.a e.b := (ht.conn e.a e.b ha hb).mp h
  refine ⟨?_, ht.forest, ht.size_len, ?_, ht.sizes⟩
  · intro e' he'
    rcases List.mem_append.mp he' with he' | he'
    · exact ht.valid e' he'
    · rw [List.mem_singleton] at he'
      rw [he']
      exact ⟨ha, hb⟩
  · intro i j hi hj
    rw [conn_snoc_of_conn E e hc]
    exact ht.conn i j hi hj

/-- An edge between two classes, followed by the union of their roots, keeps the
invariant and removes one root. -/
theorem tracks_union (n : Nat) (E : List Edge) (u : UF) (e : Edge) (ht : Tracks n E u)
    (ha : e.a < n) (hb : e.b < n) (h : uf_root u e.a ≠ uf_root u e.b) :
    Tracks n (E ++ [e]) (uf_union_roots u (uf_root u e.a) (uf_root u e.b)) ∧
      root_count (uf_union_roots u (uf_root u e.a) (uf_root u e.b)) n + 1 = root_count u n := by
  have hra := uf_root_lt n u ht.forest e.a ha
  have hrb := uf_root_lt n u ht.forest e.b hb
  have hrar := uf_root_is_root n u ht.forest e.a ha
  have hrbr := uf_root_is_root n u ht.forest e.b hb
  obtain ⟨w, l, hwl, hne, heq, hf', hroot⟩ :=
    uf_union_roots_spec n u _ _ ht.forest hra hrb h hrar hrbr
  have hw : w < n := by rcases hwl with ⟨h1, _⟩ | ⟨h1, _⟩ <;> rw [h1] <;> assumption
  have hl : l < n := by rcases hwl with ⟨_, h1⟩ | ⟨_, h1⟩ <;> rw [h1] <;> assumption
  have hwr : u.parent.getD w 0 = w := by
    rcases hwl with ⟨h1, _⟩ | ⟨h1, _⟩ <;> rw [h1] <;> assumption
  have hlr : u.parent.getD l 0 = l := by
    rcases hwl with ⟨_, h1⟩ | ⟨_, h1⟩ <;> rw [h1] <;> assumption
  have hends : ∀ x, x = e.a ∨ x = e.b → uf_root u x = w ∨ uf_root u x = l := by
    intro x hx
    rcases hx with rfl | rfl <;> rcases hwl with ⟨h1, h2⟩ | ⟨h1, h2⟩ <;> simp [h1, h2]
  have hplen : u.parent.length = n := by
    obtain ⟨rk, hrk⟩ := ht.forest
    exact hrk.1
  have hvalid : ∀ e' ∈ E ++ [e], e'.a < n ∧ e'.b < n := by
    intro e' he'
    rcases List.mem_append.mp he' with he' | he'
    · exact ht.valid e' he'
    · rw [List.mem_singleton] at he'
      rw [he']
      exact ⟨ha, hb⟩
  have hE : ∀ i j, Conn E i j → Conn (E ++ [e]) i j :=
    conn_mono E (E ++ [e]) (fun e' he' => List.mem_append_left _ he')
  have hedge : Conn (E ++ [e]) e.a e.b := conn_edge (E ++ [e]) e (by simp)
  -- every element of the two classes is connected to `e.a`
  have hjoin : ∀ i, i < n → (uf_root u i = w ∨ uf_root u i = l) → Conn (E ++ [e]) i e.a := by
    intro i hi hi'
    have h1 := hends e.a (Or.inl rfl)
    have h2 := hends e.b (Or.inr rfl)
    have hab : uf_root u i = uf_root u e.a ∨ uf_root u i = uf_root u e.b := by
      rcases hi' with hi' | hi' <;> rcases h1 with h1 | h1 <;> rcases h2 with h2 | h2 <;>
        first
        | exact Or.inl (hi'.trans h1.symm)
        | exact Or.inr (hi'.trans h2.symm)
        | exact absurd (h1.trans h2.symm) h
    rcases hab with hab | hab
    · exact hE _ _ ((ht.conn i e.a hi ha).mp hab)
    · exact Relation.EqvGen.trans _ _ _ (hE _ _ ((ht.conn i e.b hi hb).mp hab))
        (Relation.EqvGen.symm _ _ hedge)
  constructor
  · refine ⟨hvalid, hf', ?_, ?_, ?_⟩
    · rw [heq]
      simp only [List.length_set]
      exact ht.size_len
    · intro i j hi hj
      rw [hroot i hi, hroot j hj]
      constructor
      · intro hij
        by_cases hi' : uf_root u i = w ∨ uf_root u i = l
        · by_cases hj' : uf_root u j = w ∨ uf_root u j = l
          · exact Relation.EqvGen.trans _ _ _ (hjoin i hi hi')
              (Relation.EqvGen.symm _ _ (hjoin j hj hj'))
          · exfalso
            rw [if_neg (fun hh => hj' (Or.inr hh))] at hij
            apply hj'
            left
            rw [← hij]
            split_ifs with hil
            · rfl
            · rcases hi' with hi' | hi'
              · exact hi'
              · exact absurd hi' hil
        · rw [if_neg (fun hh => hi' (Or.inr hh))] at hij
          have : uf_root u i = uf_root u j := by
            split_ifs at hij with hjl
            · exact absurd hij (fun hh => hi' (Or.inl hh))
            · exact hij
          exact hE _ _ ((ht.conn i j hi hj).mp this)
      · intro hc
        have key := conn_le (E ++ [e])
          (fun x y => x = y ∨ (x < n ∧ y < n ∧
            (if uf_root u x = l then w else uf_root u x) =
              (if uf_root u y = l then w else uf_root u y)))
          (fun x => Or.inl rfl)
          (fun x y hxy => by
            rcases hxy with hxy | ⟨h1, h2, h3⟩
            · exact Or.inl hxy.symm
            · exact Or.inr ⟨h2, h1, h3.symm⟩)
          (fun x y z hxy hyz => by
            rcases hxy with hxy | ⟨h1, h2, h3⟩
            · rw [hxy]; exact hyz
            · rcases hyz with hyz | ⟨h4, h5, h6⟩
              · rw [← hyz]; exact Or.inr ⟨h1, h2, h3⟩
              · exact Or.inr ⟨h1, h5, h3.trans h6⟩)
          (fun e' he' => by
            right
            refine ⟨(hvalid e' he').1, (hvalid e' he').2, ?_⟩
            rcases List.mem_append.mp he' with he' | he'
            · have := (ht.conn e'.a e'.b (ht.valid e' he').1 (ht.valid e' he').2).mpr
                (conn_edge E e' he')
              rw [this]
            · rw [List.mem_singleton] at he'
              rw [he']
              have h1 := hends e.a (Or.inl rfl)
              have h2 := hends e.b (Or.inr rfl)
              rcases h1 with h1 | h1 <;> rcases h2 with h2 | h2 <;> simp [h1, h2, hne])
          i j hc
        rcases key with key | ⟨_, _, key⟩
        · rw [key]
        · exact key
    · intro r hr hrr
      have hrr' : (u.parent.set l w).getD r 0 = r := by
        rw [heq] at hrr
        exact hrr
      rw [getD_set_eq] at hrr'
      have hrl : r ≠ l := by
        intro hh
        rw [hh, if_pos ⟨rfl, by rw [hplen]; exact hl⟩] at hrr'
        exact hne hrr'
      rw [if_neg (fun hh => hrl hh.1.symm)] at hrr'
      have hsize : (uf_union_roots u (uf_root u e.a) (uf_root u e.b)).size.getD r 0 =
          if w = r then u.size.getD w 0 + u.size.getD l 0 else u.size.getD r 0 := by
        rw [heq]
        simp only []
        rw [getD_set_size]
        by_cases hwr' : w = r
        · rw [if_pos ⟨hwr', by rw [ht.size_len]; exact hw⟩, if_pos hwr']
        · rw [if_neg (fun hh => hwr' hh.1), if_neg hwr']
      rw [hsize]
      unfold class_count
      by_cases hwr' : w = r
      · subst hwr'
        rw [if_pos rfl, ht.sizes w hw hwr, ht.sizes l hl hlr]
        unfold class_count
        have hset : (Finset.range n).filter
            (fun i => uf_root (uf_union_roots u (uf_root u e.a) (uf_root u e.b)) i = w) =
            (Finset.range n).filter (fun i => uf_root u i = w) ∪
              (Finset.range n).filter (fun i => uf_root u i = l) := by
          ext i
          simp only [Finset.mem_filter, Finset.mem_range, Finset.mem_union]
          constructor
          · rintro ⟨hi, hri⟩
            rw [hroot i hi] at hri
            split_ifs at hri with hil
            · exact Or.inr ⟨hi, hil⟩
            · exact Or.inl ⟨hi, hri⟩
          · rintro (⟨hi, hri⟩ | ⟨hi, hri⟩)
            · refine ⟨hi, ?_⟩
              rw [hroot i hi, hri, if_neg hne]
            · refine ⟨hi, ?_⟩
              rw [hroot i hi, if_pos hri]
        have hdisj : Disjoint ((Finset.range n).filter (fun i => uf_root u i = w))
            ((Finset.range n).filter (fun i => uf_root u i = l)) := by
          rw [Finset.disjoint_left]
          intro i h1 h2
          rw [Finset.mem_filter] at h1 h2
          exact hne (h1.2.symm.trans h2.2)
        rw [hset, Finset.card_union_of_disjoint hdisj]
        push_cast
        rfl
      · rw [if_neg hwr', ht.sizes r hr hrr']
        unfold class_count
        congr 2
        apply Finset.filter_congr
        intro i hi
        rw [hroot i (Finset.mem_range.mp hi)]
        constructor
        · intro hri
          rw [if_neg (fun hh => hrl (hri.symm.trans hh)), hri]
        · intro hri
          split_ifs at hri with hil
          · exact absurd hri hwr'
          · exact hri
  · unfold root_count
    have hset : (Finset.range n).filter
        (fun i => (uf_union_roots u (uf_root u e.a) (uf_root u e.b)).parent.getD i 0 = i) =
        ((Finset.range n).filter (fun i => u.parent.getD i 0 = i)).erase l := by
      ext i
      rw [heq]
      simp only [Finset.mem_filter, Finset.mem_range, Finset.mem_erase]
      rw [getD_set_eq]
      constructor
      · rintro ⟨hi, hpi⟩
        by_cases hil : l = i
        · rw [if_pos ⟨hil, by rw [hplen]; exact hl⟩] at hpi
          exact absurd (hpi.trans hil.symm) hne
        · rw [if_neg (fun hh => hil hh.1)] at hpi
          exact ⟨fun hh => hil hh.symm, hi, hpi⟩
      · rintro ⟨hil, hi, hpi⟩
        refine ⟨hi, ?_⟩
        rw [if_neg (fun hh => hil hh.1.symm)]
        exact hpi
    rw [hset, Finset.card_erase_of_mem (by
      rw [Finset.mem_filter, Finset.mem_range]
      exact ⟨hl, hlr⟩)]
    have hpos : 0 < ((Finset.range n).filter (fun i => u.parent.getD i 0 = i)).card :=
      Finset.card_pos.mpr ⟨l, by
        rw [Finset.mem_filter, Finset.mem_range]
        exact ⟨hl, hlr⟩⟩
    omega

/-! ## One root means one component -/

theorem allConnected_mono (n : Nat) (E F : List Edge) (h : ∀ e ∈ E, e ∈ F)
    (hc : AllConnected n E) : AllConnected n F :=
  fun i j hi hj => conn_mono E F h i j (hc i j hi hj)

theorem root_count_one_iff (n : Nat) (E : List Edge) (u : UF) (ht : Tracks n E u)
    (hn : 0 < n) : root_count u n = 1 ↔ AllConnected n E := by
  unfold root_count
  constructor
  · intro h
    obtain ⟨r, hr⟩ := Finset.card_eq_one.mp h
    have hall : ∀ i, i < n → uf_root u i = r := by
      intro i hi
      have : uf_root u i ∈ (Finset.range n).filter (fun i => u.parent.getD i 0 = i) := by
        rw [Finset.mem_filter, Finset.mem_range]
        exact ⟨uf_root_lt n u ht.forest i hi, uf_root_is_root n u ht.forest i hi⟩
      rw [hr, Finset.mem_singleton] at this
      exact this
    intro i j hi hj
    exact (ht.conn i j hi hj).mp ((hall i hi).trans (hall j hj).symm)
  · intro hall
    have : (Finset.range n).filter (fun i => u.parent.getD i 0 = i) = {uf_root u 0} := by
      ext i
      rw [Finset.mem_filter, Finset.mem_range, Finset.mem_singleton]
      constructor
      · rintro ⟨hi, hr⟩
        have h1 := uf_root_of_root n u ht.forest i hi hr
        have h2 := (ht.conn i 0 hi hn).mpr (hall i 0 hi hn)
        rw [← h1]
        exact h2
      · rintro rfl
        exact ⟨uf_root_lt n u ht.forest 0 hn, uf_root_is_root n u ht.forest 0 hn⟩
    rw [this]
    simp

/-! ## The loop of `solve_part2` -/

/-- The two calls of `uf_find` at the head of a round of either loop. -/
theorem find_pair (n : Nat) (E : List Edge) (u : UF) (e : Edge) (ht : Tracks n E u)
    (ha : e.a < n) (hb : e.b < n) :
    ∃ u1 u2, uf_find u e.a = some (uf_root u e.a, u1) ∧
      uf_find u1 e.b = some (uf_root u e.b, u2) ∧ Tracks n E u2 ∧
      (∀ y, y < n → uf_root u2 y = uf_root u y) ∧ root_count u2 n = root_count u n := by
  obtain ⟨u1, hf1, _⟩ := uf_find_spec n u ht.forest e.a ha
  obtain ⟨ht1, _, hr1, hc1⟩ := tracks_find n E u u1 e.a _ ht ha hf1
  obtain ⟨u2, hf2, _⟩ := uf_find_spec n u1 ht1.forest e.b hb
  obtain ⟨ht2, _, hr2, hc2⟩ := tracks_find n E u1 u2 e.b _ ht1 hb hf2
  refine ⟨u1, u2, hf1, ?_, ht2, ?_, ?_⟩
  · rw [hf2, hr1 e.b hb]
  · intro y hy
    rw [hr2 y hy, hr1 y hy]
  · rw [hc2, hc1]

/-- One round of the loop of `solve_part2`. -/
theorem part2_round (n : Nat) (E : List Edge) (s : Part2State) (e : Edge)
    (ht : Tracks n E s.uf) (hcomp : s.components = (root_count s.uf n : Int))
    (ha : e.a < n) (hb : e.b < n) :
    ∃ s1, Tracks n (E ++ [e]) s1.uf ∧ s1.components = (root_count s1.uf n : Int) ∧
      ((s1.components = s.components ∧ s1.last_a = s.last_a ∧ s1.last_b = s.last_b ∧
          ∀ es, part2_loop (e :: es) s = part2_loop es s1) ∨
        (s1.components = s.components - 1 ∧ s1.last_a = (e.a : Int) ∧
          s1.last_b = (e.b : Int) ∧
          ∀ es, part2_loop (e :: es) s =
            if s1.components = 1 then some s1 else part2_loop es s1)) := by
  obtain ⟨u1, u2, hf1, hf2, ht2, hr2, hc2⟩ := find_pair n E s.uf e ht ha hb
  by_cases hsame : uf_root s.uf e.a = uf_root s.uf e.b
  · refine ⟨{ s with uf := u2 }, ?_, ?_, Or.inl ⟨rfl, rfl, rfl, ?_⟩⟩
    · exact tracks_same n E u2 e ht2 ha hb (by rw [hr2 e.a ha, hr2 e.b hb]; exact hsame)
    · show s.components = _
      rw [hcomp]
      exact congrArg _ hc2.symm
    · intro es
      simp only [part2_loop, hf1, hf2, if_pos hsame]
  · have hne2 : uf_root u2 e.a ≠ uf_root u2 e.b := by
      rw [hr2 e.a ha, hr2 e.b hb]
      exact hsame
    obtain ⟨ht3, hc3⟩ := tracks_union n E u2 e ht2 ha hb hne2
    rw [hr2 e.a ha, hr2 e.b hb] at ht3 hc3
    refine ⟨⟨uf_union_roots u2 (uf_root s.uf e.a) (uf_root s.uf e.b), s.components - 1,
      (e.a : Int), (e.b : Int)⟩, ht3, ?_, Or.inr ⟨rfl, rfl, rfl, ?_⟩⟩
    · show s.components - 1 =
        (root_count (uf_union_roots u2 (uf_root s.uf e.a) (uf_root s.uf e.b)) n : Int)
      rw [hcomp]
      omega
    · intro es
      simp only [part2_loop, hf1, hf2, if_neg hsame]

/-- The loop of `solve_part2` stops at the first edge that connects all points. -/
theorem part2_loop_spec (n : Nat) (hn : 0 < n) (pre : List Edge) (e : Edge)
    (rest E : List Edge) (s : Part2State) (ht : Tracks n E s.uf)
    (hcomp : s.components = (root_count s.uf n : Int))
    (hvalid : ∀ e' ∈ pre ++ [e], e'.a < n ∧ e'.b < n)
    (hnot : ¬ AllConnected n (E ++ pre)) (hall : AllConnected n (E ++ pre ++ [e])) :
    ∃ s', part2_loop (pre ++ e :: rest) s = some s' ∧ s'.components = 1 ∧
      s'.last_a = (e.a : Int) ∧ s'.last_b = (e.b : Int) ∧ Tracks n (E ++ pre ++ [e]) s'.uf := by
  induction pre generalizing E s with
  | nil =>
    have hv := hvalid e (by simp)
    obtain ⟨s1, ht1, hc1, hcase⟩ := part2_round n E s e ht hcomp hv.1 hv.2
    rw [List.append_nil] at hnot hall ⊢
    have hone : s1.components = 1 := by
      rw [hc1]
      exact_mod_cast (root_count_one_iff n (E ++ [e]) s1.uf ht1 hn).mpr hall
    rcases hcase with ⟨h1, _, _, _⟩ | ⟨_, h2, h3, h4⟩
    · exfalso
      apply hnot
      apply (root_count_one_iff n E s.uf ht hn).mp
      have : (root_count s.uf n : Int) = 1 := by rw [← hcomp, ← h1]; exact hone
      exact_mod_cast this
    · refine ⟨s1, ?_, hone, h2, h3, ht1⟩
      rw [List.nil_append, h4 rest, if_pos hone]
  | cons p pre ih =>
    have hv := hvalid p (by simp)
    obtain ⟨s1, ht1, hc1, hcase⟩ := part2_round n E s p ht hcomp hv.1 hv.2
    have hnot1 : ¬ AllConnected n (E ++ [p] ++ pre) := by
      rw [List.append_assoc]
      exact hnot
    have hall1 : AllConnected n (E ++ [p] ++ pre ++ [e]) := by
      have : E ++ [p] ++ pre ++ [e] = E ++ (p :: pre) ++ [e] := by simp
      rw [this]
      exact hall
    have hnone : ¬ s1.components = 1 := by
      intro hone
      apply hnot
      apply allConnected_mono n (E ++ [p]) _ (fun e' he' => by
        rcases List.mem_append.mp he' with h | h
        · exact List.mem_append_left _ h
        · rw [List.mem_singleton] at h
          rw [h]
          exact List.mem_append_right _ (List.mem_cons_self _ _))
      apply (root_count_one_iff n (E ++ [p]) s1.uf ht1 hn).mp
      rw [hc1] at hone
      exact_mod_cast hone
    obtain ⟨s', h1, h2, h3, h4, h5⟩ := ih (E ++ [p]) s1 ht1 hc1
      (fun e' he' => hvalid e' (by
        rcases List.mem_append.mp he' with h | h
        · exact List.mem_append_left _ (List.mem_cons_of_mem _ h)
        · exact List.mem_append_right _ h))
      hnot1 hall1
    refine ⟨s', ?_, h2, h3, h4, ?_⟩
    · rw [List.cons_append]
      rcases hcase with ⟨_, _, _, hstep⟩ | ⟨_, _, _, hstep⟩
      · rw [hstep, h1]
      · rw [hstep, if_neg hnone, h1]
    · have : E ++ (p :: pre) ++ [e] = E ++ [p] ++ pre ++ [e] := by simp
      rw [this]
      exact h5

/-! ## `solve_part2` -/

theorem to_u64_mul (a b : Int) : (to_u64 a * to_u64 b) % 2 ^ 64 = to_u64 (a * b) := by
  unfold to_u64
  have ha : 0 ≤ a % 2 ^ 64 := Int.emod_nonneg _ (by norm_num)
  have hb : 0 ≤ b % 2 ^ 64 := Int.emod_nonneg _ (by norm_num)
  have hab : 0 ≤ a * b % 2 ^ 64 := Int.emod_nonneg _ (by norm_num)
  apply Int.ofNat_inj.mp
  have h1 := Int.toNat_of_nonneg ha
  have h2 := Int.toNat_of_nonneg hb
  have h3 := Int.toNat_of_nonneg hab
  have h4 := Int.mul_emod a b (2 ^ 64)
  push_cast at h1 h2 h3 h4 ⊢
  rw [h1, h2, h3]
  exact h4.symm

theorem root_count_init (n : Nat) : root_count (uf_init n) n = n := by
  unfold root_count
  rw [Finset.filter_true_of_mem, Finset.card_range]
  intro i hi
  exact uf_init_getD n i (Finset.mem_range.mp hi)

theorem not_allConnected_nil (n : Nat) (hn : 2 ≤ n) : ¬ AllConnected n [] := by
  intro h
  have := (conn_nil 0 1).mp (h 0 1 (by omega) (by omega))
  omega

/-- An edge list that connects all points has a first edge at which it does. -/
theorem first_connecting_edge (n : Nat) (hn : 2 ≤ n) (edges : List Edge)
    (hall : AllConnected n edges) :
    ∃ pre e rest, edges = pre ++ e :: rest ∧ ¬ AllConnected n pre ∧
      AllConnected n (pre ++ [e]) := by
  induction edges using List.reverseRecOn with
  | nil => exact absurd hall (not_allConnected_nil n hn)
  | append_singleton init last ih =>
    by_cases hinit : AllConnected n init
    · obtain ⟨pre, e, rest, h1, h2, h3⟩ := ih hinit
      exact ⟨pre, e, rest ++ [last], by rw [h1]; simp, h2, h3⟩
    · exact ⟨init, last, [], rfl, hinit, hall⟩

/-- The result of `solve_part2` when the edge `e` is the first to connect all points. -/
theorem solve_part2_at (n : Nat) (hn : 2 ≤ n) (pre : List Edge) (e : Edge)
    (rest : List Edge) (pts : List Pt) (hvalid : ∀ e' ∈ pre ++ [e], e'.a < n ∧ e'.b < n)
    (hnot : ¬ AllConnected n pre) (hall : AllConnected n (pre ++ [e])) :
    solve_part2 (pre ++ e :: rest) n pts =
      some (to_u64 ((pts.getD e.a ⟨0, 0, 0⟩).x * (pts.getD e.b ⟨0, 0, 0⟩).x)) := by
  obtain ⟨s', h1, h2, h3, h4, _⟩ := part2_loop_spec n (by omega) pre e rest [] (part2_init n)
    (tracks_init n) (by
      show ((n : Nat) : Int) = (root_count (uf_init n) n : Int)
      rw [root_count_init])
    hvalid (by simpa using hnot) (by simpa using hall)
  unfold solve_part2
  rw [if_neg (by omega), h1]
  simp only []
  rw [if_neg (by rw [h2, h3, h4]; omega), h3, h4]
  simp only [Int.toNat_ofNat]
  rw [to_u64_mul]

/-- C17: Day 08 Part 2.  For every `n ≥ 2` and every edge list over `0 .. n-1` whose
edges connect all `n` points, there is a first edge `e = (a, b)` in list order such that
the edges up to and including it connect all points; `solve_part2` returns
`x[a] * x[b]` modulo `2 ^ 64`, and it returns the same whatever follows that edge in the
list: no later edge is examined. -/
theorem solve_part2_last_edge (n : Nat) (edges : List Edge) (pts : List Pt) (hn : 2 ≤ n)
    (hvalid : ∀ e ∈ edges, e.a < n ∧ e.b < n) (hall : AllConnected n edges) :
    ∃ pre e rest, edges = pre ++ e :: rest ∧ ¬ AllConnected n pre ∧
      AllConnected n (pre ++ [e]) ∧
      solve_part2 edges n pts =
        some (to_u64 ((pts.getD e.a ⟨0, 0, 0⟩).x * (pts.getD e.b ⟨0, 0, 0⟩).x)) ∧
      ∀ rest', solve_part2 (pre ++ e :: rest') n pts =
        some (to_u64 ((pts.getD e.a ⟨0, 0, 0⟩).x * (pts.getD e.b ⟨0, 0, 0⟩).x)) := by
  obtain ⟨pre, e, rest, h1, h2, h3⟩ := first_connecting_edge n hn edges hall
  have hv : ∀ e' ∈ pre ++ [e], e'.a < n ∧ e'.b < n := by
    intro e' he'
    apply hvalid
    rw [h1]
    rcases List.mem_append.mp he' with h | h
    · exact List.mem_append_left _ h
    · rw [List.mem_singleton] at h
      rw [h]
      exact List.mem_append_right _ (List.mem_cons_self _ _)
  refine ⟨pre, e, rest, h1, h2, h3, ?_, ?_⟩
  · rw [h1]
    exact solve_part2_at n hn pre e rest pts hv h2 h3
  · intro rest'
    exact solve_part2_at n hn pre e rest' pts hv h2 h3

/-! ## The union loop of `solve_part1` -/

theorem part1_loop_spec (n : Nat) (es E : List Edge) (u : UF) (ht : Tracks n E u)
    (hvalid : ∀ e ∈ es, e.a < n ∧ e.b < n) :
    ∃ u', part1_loop es u = some u' ∧ Tracks n (E ++ es) u' := by
  induction es generalizing E u with
  | nil => exact ⟨u, rfl, by rw [List.append_nil]; exact ht⟩
  | cons e es ih =>
    have hv := hvalid e (List.mem_cons_self _ _)
    obtain ⟨u1, u2, hf1, hf2, ht2, hr2, _⟩ := find_pair n E u e ht hv.1 hv.2
    have hassoc : E ++ e :: es = E ++ [e] ++ es := by simp
    by_cases hsame : uf_root u e.a = uf_root u e.b
    · have ht3 := tracks_same n E u2 e ht2 hv.1 hv.2
        (by rw [hr2 e.a hv.1, hr2 e.b hv.2]; exact hsame)
      obtain ⟨u', h1, h2⟩ := ih (E ++ [e]) u2 ht3
        (fun e' he' => hvalid e' (List.mem_cons_of_mem _ he'))
      refine ⟨u', ?_, by rw [hassoc]; exact h2⟩
      simp only [part1_loop, hf1, hf2, ne_eq, hsame, not_true_eq_false, if_false]
      exact h1
    · have hne2 : uf_root u2 e.a ≠ uf_root u2 e.b := by
        rw [hr2 e.a hv.1, hr2 e.b hv.2]
        exact hsame
      obtain ⟨ht3, _⟩ := tracks_union n E u2 e ht2 hv.1 hv.2 hne2
      rw [hr2 e.a hv.1, hr2 e.b hv.2] at ht3
      obtain ⟨u', h1, h2⟩ := ih (E ++ [e]) _ ht3
        (fun e' he' => hvalid e' (List.mem_cons_of_mem _ he'))
      refine ⟨u', ?_, by rw [hassoc]; exact h2⟩
      simp only [part1_loop, hf1, hf2, ne_eq, hsame, not_false_eq_true, if_true]
      exact h1

/-! ## The three largest sizes -/

theorem top3Inv_init : Top3Inv (0, 0, 0) [] :=
  ⟨le_refl _, le_refl _, [], by simp, fun x hx => by simp at hx⟩

theorem top3Inv_step (t : Nat × Nat × Nat) (seen : List Nat) (s : Nat) (h : Top3Inv t seen) :
    Top3Inv (top3_step t s) (seen ++ [s]) := by
  obtain ⟨a, b, c⟩ := t
  obtain ⟨h1, h2, rest, hperm, hrest⟩ := h
  simp only [] at h1 h2 hperm hrest
  have hperm' : (seen ++ [s] ++ [0, 0, 0]).Perm (s :: a :: b :: c :: rest) := by
    have h0 : seen ++ [s] ++ [0, 0, 0] = seen ++ s :: [0, 0, 0] := by simp
    rw [h0]
    exact List.perm_middle.trans (hperm.cons s)
  unfold top3_step
  simp only []
  split_ifs with g1 g2 g3
  · refine ⟨by simp only []; omega, h1, c :: rest, hperm', ?_⟩
    intro x hx
    rcases List.mem_cons.mp hx with rfl | hx
    · exact h2
    · exact le_trans (hrest x hx) h2
  · refine ⟨by simp only []; omega, by simp only []; omega, c :: rest, hperm'.trans (List.Perm.swap a s _), ?_⟩
    intro x hx
    rcases List.mem_cons.mp hx with rfl | hx
    · exact h2
    · exact le_trans (hrest x hx) h2
  · refine ⟨h1, by simp only []; omega, c :: rest,
      hperm'.trans ((List.Perm.swap a s _).trans ((List.Perm.swap b s _).cons a)), ?_⟩
    intro x hx
    rcases List.mem_cons.mp hx with rfl | hx
    · simp only []; omega
    · exact le_trans (hrest x hx) (by simp only []; omega)
  · refine ⟨h1, h2, s :: rest,
      hperm'.trans ((List.Perm.swap a s _).trans (((List.Perm.swap b s _).trans
        ((List.Perm.swap c s _).cons b)).cons a)), ?_⟩
    intro x hx
    rcases List.mem_cons.mp hx with rfl | hx
    · simp only []; omega
    · exact hrest x hx

theorem top3Inv_foldl (l seen : List Nat) (t : Nat × Nat × Nat) (h : Top3Inv t seen) :
    Top3Inv (l.foldl top3_step t) (seen ++ l) := by
  induction l generalizing seen t with
  | nil => rw [List.append_nil]; exact h
  | cons s l ih =>
    rw [List.foldl_cons]
    have := ih (seen ++ [s]) _ (top3Inv_step t seen s h)
    rwa [List.append_assoc] at this

/-- The triple selected from at least three values is the head of their descending
sort. -/
theorem top3_sorted (l : List Nat) (t : Nat × Nat × Nat) (h : Top3Inv t l)
    (hlen : 3 ≤ l.length) :
    (l.insertionSort (fun a b => b ≤ a)).take 3 = [t.1, t.2.1, t.2.2] := by
  obtain ⟨a, b, c⟩ := t
  obtain ⟨h1, h2, rest, hperm, hrest⟩ := h
  simp only [] at h1 h2 hperm hrest ⊢
  have hs1 : (a :: b :: c :: rest.insertionSort (fun a b => b ≤ a)).Sorted
      (fun a b => b ≤ a) := by
    have hsr := List.sorted_insertionSort (fun a b : Nat => b ≤ a) rest
    have hmem : ∀ x ∈ rest.insertionSort (fun a b => b ≤ a), x ≤ c :=
      fun x hx => hrest x ((List.perm_insertionSort _ rest).subset hx)
    refine List.sorted_cons.mpr ⟨?_, List.sorted_cons.mpr ⟨?_, List.sorted_cons.mpr ⟨?_, hsr⟩⟩⟩
    · intro x hx
      rcases List.mem_cons.mp hx with rfl | hx
      · exact h1
      · rcases List.mem_cons.mp hx with rfl | hx
        · omega
        · have := hmem x hx
          omega
    · intro x hx
      rcases List.mem_cons.mp hx with rfl | hx
      · exact h2
      · have := hmem x hx
        omega
    · exact hmem
  have hs2 : (l.insertionSort (fun a b => b ≤ a) ++ [0, 0, 0]).Sorted (fun a b => b ≤ a) := by
    have hsl := List.sorted_insertionSort (fun a b : Nat => b ≤ a) l
    unfold List.Sorted at hsl ⊢
    rw [List.pairwise_append]
    refine ⟨hsl, by simp, ?_⟩
    intro x _ y hy
    simp only [List.mem_cons, List.mem_singleton, List.not_mem_nil, or_false, or_self] at hy
    omega
  have hp : (l.insertionSort (fun a b => b ≤ a) ++ [0, 0, 0]).Perm
      (a :: b :: c :: rest.insertionSort (fun a b => b ≤ a)) := by
    refine ((List.perm_insertionSort _ l).append_right _).trans (hperm.trans ?_)
    exact (((List.perm_insertionSort _ rest).symm.cons c).cons b).cons a
  have heq := List.eq_of_perm_of_sorted hp hs2 hs1
  have hlen' : 3 ≤ (l.insertionSort (fun a b => b ≤ a)).length := by
    rw [List.length_insertionSort]
    exact hlen
  have := congrArg (List.take 3) heq
  rw [List.take_append_of_le_length hlen'] at this
  rw [this]
  rfl

/-! ## `solve_part1` -/

theorem foldl_filter_map {α : Type} (p : Nat → Prop) [DecidablePred p] (f : Nat → Nat)
    (step : α → Nat → α) (l : List Nat) (t0 : α) :
    l.foldl (fun t i => if p i then step t (f i) else t) t0 =
      ((l.filter (fun i => decide (p i))).map f).foldl step t0 := by
  induction l generalizing t0 with
  | nil => rfl
  | cons i l ih =>
    rw [List.foldl_cons, ih]
    by_cases hp : p i
    · rw [if_pos hp, List.filter_cons_of_pos (by simpa using hp), List.map_cons,
        List.foldl_cons]
    · rw [if_neg hp, List.filter_cons_of_neg (by simpa using hp)]

theorem top3_eq (u : UF) (n : Nat) :
    top3 u n =
      ((root_list u n).map (fun i => to_u64 (u.size.getD i 0))).foldl top3_step (0, 0, 0) := by
  unfold top3 root_list
  exact foldl_filter_map (fun i => u.parent.getD i 0 = i)
    (fun i => to_u64 (u.size.getD i 0)) top3_step (List.range n) (0, 0, 0)

theorem class_count_le (u : UF) (n r : Nat) : class_count u n r ≤ n := by
  unfold class_count
  have := Finset.card_filter_le (Finset.range n) (fun i => uf_root u i = r)
  rwa [Finset.card_range] at this

theorem to_u64_natCast (k : Nat) (h : k < 2 ^ 64) : to_u64 (k : Int) = k := by
  unfold to_u64
  have : ((k : Int) % 2 ^ 64) = (k : Int) := Int.emod_eq_of_lt (by omega) (by exact_mod_cast h)
  rw [this]
  simp

theorem mem_root_list (u : UF) (n i : Nat) :
    i ∈ root_list u n ↔ i < n ∧ u.parent.getD i 0 = i := by
  unfold root_list
  simp [List.mem_filter]

/-- The sizes the selection loop reads are the class counts of the roots. -/
theorem root_sizes_eq (n : Nat) (E : List Edge) (u : UF) (ht : Tracks n E u)
    (hn : n < 2 ^ 64) :
    (root_list u n).map (fun i => to_u64 (u.size.getD i 0)) =
      (root_list u n).map (fun i => class_count u n i) := by
  apply List.map_congr_left
  intro i hi
  obtain ⟨hi1, hi2⟩ := (mem_root_list u n i).mp hi
  rw [ht.sizes i hi1 hi2]
  exact to_u64_natCast _ (lt_of_le_of_lt (class_count_le u n i) hn)

/-- The size of the component of `r` is the class count of its root. -/
theorem isClassSize_iff (n : Nat) (E : List Edge) (u : UF) (ht : Tracks n E u) (r k : Nat)
    (hr : r < n) : IsClassSize n E r k ↔ k = class_count u n (uf_root u r) := by
  have hset : ∀ members : Finset Nat, (∀ i, i ∈ members ↔ i < n ∧ Conn E r i) →
      members = (Finset.range n).filter (fun i => uf_root u i = uf_root u r) := by
    intro members hm
    ext i
    rw [hm i, Finset.mem_filter, Finset.mem_range]
    constructor
    · rintro ⟨hi, hc⟩
      exact ⟨hi, ((ht.conn r i hr hi).mpr hc).symm⟩
    · rintro ⟨hi, hc⟩
      exact ⟨hi, (ht.conn r i hr hi).mp hc.symm⟩
  constructor
  · rintro ⟨members, hm, hcard⟩
    rw [← hcard, hset members hm]
    rfl
  · intro hk
    refine ⟨(Finset.range n).filter (fun i => uf_root u i = uf_root u r), ?_, hk.symm⟩
    intro i
    rw [Finset.mem_filter, Finset.mem_range]
    constructor
    · rintro ⟨hi, hc⟩
      exact ⟨hi, (ht.conn r i hr hi).mp hc.symm⟩
    · rintro ⟨hi, hc⟩
      exact ⟨hi, ((ht.conn r i hr hi).mpr hc).symm⟩

theorem forall₂_sizes (n : Nat) (E : List Edge) (u : UF) (ht : Tracks n E u)
    (reps sizes : List Nat) (hlt : ∀ r ∈ reps, r < n)
    (h : List.Forall₂ (IsClassSize n E) reps sizes) :
    sizes = reps.map (fun r => class_count u n (uf_root u r)) := by
  induction h with
  | nil => rfl
  | cons hrk _ ih =>
    rw [List.map_cons, ← ih (fun r hr => hlt r (List.mem_cons_of_mem _ hr))]
    congr 1
    exact (isClassSize_iff n E u ht _ _ (hlt _ (List.mem_cons_self _ _))).mp hrk

/-- The roots of a system of representatives of the components are the roots. -/
theorem reps_roots_perm (n : Nat) (E : List Edge) (u : UF) (ht : Tracks n E u)
    (reps : List Nat) (hlt : ∀ r ∈ reps, r < n)
    (hcover : ∀ i, i < n → ∃ r ∈ reps, Conn E r i)
    (hsep : reps.Pairwise (fun r s => ¬ Conn E r s)) :
    (reps.map (uf_root u)).Perm (root_list u n) := by
  have hnd1 : (reps.map (uf_root u)).Nodup := by
    rw [List.nodup_map_iff_inj_on (hsep.imp_of_mem ?_)]
    · intro x hx y hy hxy
      by_contra hne
      have hc := (ht.conn x y (hlt x hx) (hlt y hy)).mp hxy
      have hp : reps.Pairwise (fun r s => ¬ Conn E r s ∧ ¬ Conn E s r) :=
        hsep.imp_of_mem (fun {a b} _ _ hab => ⟨hab, fun hba => hab (Relation.EqvGen.symm _ _ hba)⟩)
      have hs : Symmetric (fun r s => ¬ Conn E r s ∧ ¬ Conn E s r) := fun a b hab => ⟨hab.2, hab.1⟩
      exact (hp.forall hs hx hy hne).1 hc
    · intro a b ha hb hab heq
      rw [heq] at hab
      exact hab (Relation.EqvGen.refl b)
  have hnd2 : (root_list u n).Nodup := (List.nodup_range n).filter _
  rw [List.perm_ext_iff_of_nodup hnd1 hnd2]
  intro x
  rw [List.mem_map, mem_root_list]
  constructor
  · rintro ⟨r, hr, rfl⟩
    exact ⟨uf_root_lt n u ht.forest r (hlt r hr), uf_root_is_root n u ht.forest r (hlt r hr)⟩
  · rintro ⟨hx, hxr⟩
    obtain ⟨r, hr, hc⟩ := hcover x hx
    refine ⟨r, hr, ?_⟩
    rw [(ht.conn r x (hlt r hr) hx).mpr hc]
    exact uf_root_of_root n u ht.forest x hx hxr

theorem insertionSort_desc_perm (l l' : List Nat) (h : l.Perm l') :
    l.insertionSort (fun a b => b ≤ a) = l'.insertionSort (fun a b => b ≤ a) :=
  List.eq_of_perm_of_sorted
    (((List.perm_insertionSort _ l).trans h).trans (List.perm_insertionSort _ l').symm)
    (List.sorted_insertionSort _ l) (List.sorted_insertionSort _ l')

theorem mul3_no_wrap (a b c n : Nat) (ha : a ≤ n) (hb : b ≤ n) (hc : c ≤ n)
    (hn : n ≤ MAX_PT) : ((a * b) % 2 ^ 64 * c) % 2 ^ 64 = a * (b * (c * 1)) := by
  unfold MAX_PT at hn
  have h1 : a * b ≤ 4096 * 4096 := Nat.mul_le_mul (by omega) (by omega)
  have h2 : a * b * c ≤ 4096 * 4096 * 4096 := Nat.mul_le_mul h1 (by omega)
  have h3 : a * b % 2 ^ 64 = a * b := Nat.mod_eq_of_lt (by omega)
  rw [h3, Nat.mod_eq_of_lt (by omega)]
  ring

/-- C18: Day 08 Part 1.  `solve_part1` considers exactly the first `min(K, ecount)`
edges: for every `n` up to `MAX_PT`, every edge list whose first `min(K, ecount)` edges
join points `0 .. n-1`, and every `K`, when the graph these edges form on the `n` points
has at least three connected components (`reps` holds one point of each, `sizes` their
sizes), `solve_part1` returns the product of the three largest component sizes, counted
with multiplicity. -/
theorem solve_part1_spec (edges : List Edge) (n K : Nat) (reps sizes : List Nat)
    (hn : n ≤ MAX_PT)
    (hvalid : ∀ e ∈ edges.take (min K edges.length), e.a < n ∧ e.b < n)
    (hlt : ∀ r ∈ reps, r < n)
    (hcover : ∀ i, i < n → ∃ r ∈ reps, Conn (edges.take (min K edges.length)) r i)
    (hsep : reps.Pairwise (fun r s => ¬ Conn (edges.take (min K edges.length)) r s))
    (hsizes : List.Forall₂ (IsClassSize n (edges.take (min K edges.length))) reps sizes)
    (h3 : 3 ≤ reps.length) :
    solve_part1 edges n K =
      some (((sizes.insertionSort (fun a b => b ≤ a)).take 3).prod) := by
  have hlimit : (if edges.length > K then K else edges.length) = min K edges.length := by
    split_ifs with h
    · exact (Nat.min_eq_left (by omega)).symm
    · exact (Nat.min_eq_right (by omega)).symm
  obtain ⟨u, hloop, ht⟩ := part1_loop_spec n (edges.take (min K edges.length)) []
    (uf_init n) (tracks_init n) hvalid
  rw [List.nil_append] at ht
  have hn64 : n < 2 ^ 64 := by
    unfold MAX_PT at hn
    omega
  have hperm := reps_roots_perm n _ u ht reps hlt hcover hsep
  have hsz := forall₂_sizes n _ u ht reps sizes hlt hsizes
  have hszperm : ((root_list u n).map (fun i => class_count u n i)).Perm sizes := by
    rw [hsz]
    have := (hperm.map (fun i => class_count u n i)).symm
    rwa [List.map_map] at this
  have hlen : 3 ≤ ((root_list u n).map (fun i => class_count u n i)).length := by
    rw [List.length_map, ← hperm.length_eq, List.length_map]
    exact h3
  have hinv := top3Inv_foldl ((root_list u n).map (fun i => class_count u n i)) []
    (0, 0, 0) top3Inv_init
  rw [List.nil_append] at hinv
  have htake := top3_sorted _ _ hinv hlen
  rw [insertionSort_desc_perm _ _ hszperm] at htake
  have htop : top3 u n =
      ((root_list u n).map (fun i => class_count u n i)).foldl top3_step (0, 0, 0) := by
    rw [top3_eq, root_sizes_eq n _ u ht hn64]
  have hbound : ∀ x ∈ (sizes.insertionSort (fun a b => b ≤ a)).take 3, x ≤ n := by
    intro x hx
    have hx1 := (List.perm_insertionSort _ sizes).subset (List.mem_of_mem_take hx)
    rw [hsz, List.mem_map] at hx1
    obtain ⟨r, _, rfl⟩ := hx1
    exact class_count_le u n _
  unfold solve_part1
  simp only []
  rw [hlimit, hloop]
  simp only []
  rw [htop, htake]
  rw [htake] at hbound
  simp only [List.prod_cons, List.prod_nil]
  rw [mul3_no_wrap _ _ _ n (hbound _ (by simp)) (hbound _ (by simp)) (hbound _ (by simp)) hn]

/-! ## The size invariant -/

/-- Every reachable state of the arrays represents the connectivity of some edge list. -/
theorem reachable_tracks (n : Nat) (u : UF) (h : Reachable n u) : ∃ E, Tracks n E u := by
  induction h with
  | init => exact ⟨[], tracks_init n⟩
  | find u u1 x r _ hx hf ih =>
    obtain ⟨E, ht⟩ := ih
    exact ⟨E, (tracks_find n E u u1 x r ht hx hf).1⟩
  | union u rx ry _ hrx hry hne hx hy ih =>
    obtain ⟨E, ht⟩ := ih
    have h1 := uf_root_of_root n u ht.forest rx hrx hx
    have h2 := uf_root_of_root n u ht.forest ry hry hy
    have := (tracks_union n E u ⟨0, rx, ry⟩ ht hrx hry (by
      show uf_root u rx ≠ uf_root u ry
      rw [h1, h2]
      exact hne)).1
    simp only [h1, h2] at this
    exact ⟨_, this⟩

/-- The states of the loop of `solve_part2` are reachable, and `components` counts the
roots. -/
theorem part2_loop_inv (n : Nat) (es E : List Edge) (s s' : Part2State)
    (ht : Tracks n E s.uf) (hreach : Reachable n s.uf)
    (hcomp : s.components = (root_count s.uf n : Int))
    (hvalid : ∀ e ∈ es, e.a < n ∧ e.b < n) (h : part2_loop es s = some s') :
    (∃ E', Tracks n E' s'.uf) ∧ Reachable n s'.uf ∧
      s'.components = (root_count s'.uf n : Int) := by
  induction es generalizing E s with
  | nil =>
    simp only [part2_loop, Option.some.injEq] at h
    subst h
    exact ⟨⟨E, ht⟩, hreach, hcomp⟩
  | cons e es ih =>
    have hv := hvalid e (List.mem_cons_self _ _)
    obtain ⟨u1, u2, hf1, hf2, ht2, hr2, hc2⟩ := find_pair n E s.uf e ht hv.1 hv.2
    have hreach2 : Reachable n u2 :=
      Reachable.find u1 u2 e.b _ (Reachable.find s.uf u1 e.a _ hreach hv.1 hf1) hv.2 hf2
    by_cases hsame : uf_root s.uf e.a = uf_root s.uf e.b
    · simp only [part2_loop, hf1, hf2, if_pos hsame] at h
      exact ih (E ++ [e]) { s with uf := u2 }
        (tracks_same n E u2 e ht2 hv.1 hv.2 (by rw [hr2 e.a hv.1, hr2 e.b hv.2]; exact hsame))
        hreach2 (by
          show s.components = (root_count u2 n : Int)
          rw [hcomp, hc2])
        (fun e' he' => hvalid e' (List.mem_cons_of_mem _ he')) h
    · have hne2 : uf_root u2 e.a ≠ uf_root u2 e.b := by
        rw [hr2 e.a hv.1, hr2 e.b hv.2]
        exact hsame
      obtain ⟨ht3, hc3⟩ := tracks_union n E u2 e ht2 hv.1 hv.2 hne2
      have hreach3 : Reachable n (uf_union_roots u2 (uf_root u2 e.a) (uf_root u2 e.b)) :=
        Reachable.union u2 _ _ hreach2 (uf_root_lt n u2 ht2.forest e.a hv.1)
          (uf_root_lt n u2 ht2.forest e.b hv.2) hne2
          (uf_root_is_root n u2 ht2.forest e.a hv.1) (uf_root_is_root n u2 ht2.forest e.b hv.2)
      rw [hr2 e.a hv.1, hr2 e.b hv.2] at ht3 hc3 hreach3
      have hcomp3 : s.components - 1 =
          (root_count (uf_union_roots u2 (uf_root s.uf e.a) (uf_root s.uf e.b)) n : Int) := by
        rw [hcomp]
        omega
      simp only [part2_loop, hf1, hf2, if_neg hsame] at h
      split_ifs at h with hone
      · simp only [Option.some.injEq] at h
        subst h
        exact ⟨⟨_, ht3⟩, hreach3, hcomp3⟩
      · exact ih (E ++ [e]) _ ht3 hreach3 hcomp3
          (fun e' he' => hvalid e' (List.mem_cons_of_mem _ he')) h

/-- With one root left, that root has all `n` elements. -/
theorem single_root (n : Nat) (E : List Edge) (u : UF) (ht : Tracks n E u)
    (h : root_count u n = 1) :
    ∃ r, r < n ∧ (∀ i, i < n → (u.parent.getD i 0 = i ↔ i = r)) ∧ u.size.getD r 0 = (n : Int) := by
  unfold root_count at h
  obtain ⟨r, hr⟩ := Finset.card_eq_one.mp h
  have hmem : ∀ i, (i < n ∧ u.parent.getD i 0 = i) ↔ i = r := by
    intro i
    have := Finset.ext_iff.mp hr i
    rw [Finset.mem_filter, Finset.mem_range, Finset.mem_singleton] at this
    exact this
  obtain ⟨hrn, hrr⟩ := (hmem r).mpr rfl
  refine ⟨r, hrn, fun i hi => ⟨fun hp => (hmem i).mp ⟨hi, hp⟩, fun hir => by rw [hir]; exact hrr⟩,
    ?_⟩
  rw [ht.sizes r hrn hrr]
  unfold class_count
  rw [Finset.filter_true_of_mem, Finset.card_range]
  intro i hi
  rw [Finset.mem_range] at hi
  exact (hmem _).mp ⟨uf_root_lt n u ht.forest i hi, uf_root_is_root n u ht.forest i hi⟩

/-- C20: the union-find size invariant.  In every state of the arrays reached from
`uf_init(n)` by calls of `uf_find` and of `uf_union_roots` on distinct roots, `uf_find`
returns the root of every element and, for every root `r`, `size_[r]` is the number of
elements whose root is `r`.  Consequently, when the loop of `solve_part2` ends with
`components = 1`, its state is such a state and there is exactly one `i` with
`parent_[i] = i`, and `size_[i] = n`. -/
theorem uf_size_invariant (n : Nat) :
    (∀ u, Reachable n u →
      (∀ x, x < n → ∃ u1, uf_find u x = some (uf_root u x, u1)) ∧
      ∀ r, r < n → u.parent.getD r 0 = r → u.size.getD r 0 = (class_count u n r : Int)) ∧
    ∀ (edges : List Edge) (s : Part2State), (∀ e ∈ edges, e.a < n ∧ e.b < n) →
      part2_loop edges (part2_init n) = some s → s.components = 1 →
      Reachable n s.uf ∧
        ∃ r, r < n ∧ (∀ i, i < n → (s.uf.parent.getD i 0 = i ↔ i = r)) ∧
          s.uf.size.getD r 0 = (n : Int) := by
  constructor
  · intro u hu
    obtain ⟨E, ht⟩ := reachable_tracks n u hu
    refine ⟨fun x hx => ?_, ht.sizes⟩
    obtain ⟨u1, h1, _⟩ := uf_find_spec n u ht.forest x hx
    exact ⟨u1, h1⟩
  · intro edges s hvalid hloop hone
    obtain ⟨⟨E, ht⟩, hreach, hcomp⟩ := part2_loop_inv n edges [] (part2_init n) s
      (tracks_init n) Reachable.init (by
        show ((n : Nat) : Int) = (root_count (uf_init n) n : Int)
        rw [root_count_init]) hvalid hloop
    refine ⟨hreach, single_root n E s.uf ht ?_⟩
    rw [hcomp] at hone
    exact_mod_cast hone

/-! ## Scenario S6 and instances -/

/-- C19 (counterexample): scenario S6.  The six edges of the four points, sorted by
`(d2, a, b)`, are all considered with `K = 1000`, and `solve_part1` does not return 1. -/
theorem solve_part1_s6_not_one :
    sort_edges (build_edges s6_points) =
        [⟨1, 0, 1⟩, ⟨1, 0, 2⟩, ⟨1, 0, 3⟩, ⟨2, 1, 2⟩, ⟨2, 1, 3⟩, ⟨2, 2, 3⟩] ∧
      solve_part1 (sort_edges (build_edges s6_points)) 4 PART1_K ≠ some 1 := by
  decide

/-- C19 (amended): in scenario S6 the first three edges join all four points, so the
loop over the roots finds the single root 0 of size 4, `top1 = 4` and
`top2 = top3 = 0`, and `solve_part1` returns `4 * 0 * 0 = 0`. -/
theorem solve_part1_s6_zero :
    part1_loop (sort_edges (build_edges s6_points)) (uf_init 4) =
        some { parent := [0, 0, 0, 0], size := [4, 1, 1, 1] } ∧
      top3 { parent := [0, 0, 0, 0], size := [4, 1, 1, 1] } 4 = (4, 0, 0) ∧
      solve_part1 (sort_edges (build_edges s6_points)) 4 PART1_K = some 0 := by
  decide

theorem solve_part2_last_edge_witness :
    ∃ pre e rest, [(⟨1, 0, 1⟩ : Edge)] = pre ++ e :: rest ∧ ¬ AllConnected 2 pre ∧
      AllConnected 2 (pre ++ [e]) ∧
      solve_part2 [⟨1, 0, 1⟩] 2 [⟨3, 0, 0⟩, ⟨5, 0, 0⟩] =
        some (to_u64 ((([⟨3, 0, 0⟩, ⟨5, 0, 0⟩] : List Pt).getD e.a ⟨0, 0, 0⟩).x *
          (([⟨3, 0, 0⟩, ⟨5, 0, 0⟩] : List Pt).getD e.b ⟨0, 0, 0⟩).x)) ∧
      ∀ rest', solve_part2 (pre ++ e :: rest') 2 [⟨3, 0, 0⟩, ⟨5, 0, 0⟩] =
        some (to_u64 ((([⟨3, 0, 0⟩, ⟨5, 0, 0⟩] : List Pt).getD e.a ⟨0, 0, 0⟩).x *
          (([⟨3, 0, 0⟩, ⟨5, 0, 0⟩] : List Pt).getD e.b ⟨0, 0, 0⟩).x)) :=
  solve_part2_last_edge 2 [⟨1, 0, 1⟩] [⟨3, 0, 0⟩, ⟨5, 0, 0⟩] (by decide) (by decide)
    (by
      have h01 : Conn [(⟨1, 0, 1⟩ : Edge)] 0 1 :=
        Relation.EqvGen.rel 0 1 ⟨⟨1, 0, 1⟩, by simp, rfl, rfl⟩
      intro i j hi hj
      interval_cases i <;> interval_cases j
      · exact Relation.EqvGen.refl 0
      · exact h01
      · exact Relation.EqvGen.symm 0 1 h01
      · exact Relation.EqvGen.refl 1)

theorem solve_part1_spec_witness :
    solve_part1 [⟨1, 0, 1⟩] 3 0 =
      some ((([1, 1, 1] : List Nat).insertionSort (fun a b => b ≤ a)).take 3).prod :=
  solve_part1_spec [⟨1, 0, 1⟩] 3 0 [0, 1, 2] [1, 1, 1] (by decide) (by decide) (by decide)
    (fun i _ => ⟨i, by interval_cases i <;> simp, Relation.EqvGen.refl i⟩)
    (by
      show List.Pairwise (fun r s => ¬ Conn [] r s) [0, 1, 2]
      simp [conn_nil])
    (by
      show List.Forall₂ (IsClassSize 3 []) [0, 1, 2] [1, 1, 1]
      have key : ∀ r, r < 3 → IsClassSize 3 [] r 1 := fun r hr =>
        ⟨{r}, fun i => by
          rw [Finset.mem_singleton, conn_nil]
          constructor
          · rintro rfl
            exact ⟨hr, rfl⟩
          · rintro ⟨_, h⟩
            exact h.symm, rfl⟩
      exact List.Forall₂.cons (key 0 (by decide)) (List.Forall₂.cons (key 1 (by decide))
        (List.Forall₂.cons (key 2 (by decide)) List.Forall₂.nil)))
    (by decide)

theorem uf_size_invariant_witness :
    Reachable 2 ({ parent := [0, 0], size := [2, 1] } : UF) ∧
      ∃ r, r < 2 ∧
        (∀ i, i < 2 → ((({ parent := [0, 0], size := [2, 1] } : UF).parent.getD i 0 = i) ↔
          i = r)) ∧
        ({ parent := [0, 0], size := [2, 1] } : UF).size.getD r 0 = ((2 : Nat) : Int) :=
  (uf_size_invariant 2).2 [⟨1, 0, 1⟩] ⟨{ parent := [0, 0], size := [2, 1] }, 1, 0, 1⟩
    (by decide) (by decide) (by decide)

/-! ## The comparator `edge_cmp` -/

/-- The sign of `edge_cmp` in terms of the fields. -/
theorem edge_cmp_cases (e f : Edge) :
    (edge_cmp e f = -1 ∧
        (e.d2 < f.d2 ∨ (e.d2 = f.d2 ∧ (e.a < f.a ∨ (e.a = f.a ∧ e.b < f.b))))) ∨
      (edge_cmp e f = 0 ∧ e.d2 = f.d2 ∧ e.a = f.a ∧ e.b = f.b) ∨
      (edge_cmp e f = 1 ∧
        (f.d2 < e.d2 ∨ (f.d2 = e.d2 ∧ (f.a < e.a ∨ (f.a = e.a ∧ f.b < e.b))))) := by
  unfold edge_cmp
  split_ifs <;> simp <;> omega

theorem edge_cmp_neg_iff (e f : Edge) :
    edge_cmp e f < 0 ↔
      (e.d2 < f.d2 ∨ (e.d2 = f.d2 ∧ (e.a < f.a ∨ (e.a = f.a ∧ e.b < f.b)))) := by
  have h := edge_cmp_cases e f
  constructor <;> intro h1 <;> omega

theorem edge_cmp_zero_iff (e f : Edge) :
    edge_cmp e f = 0 ↔ (e.d2 = f.d2 ∧ e.a = f.a ∧ e.b = f.b) := by
  have h := edge_cmp_cases e f
  constructor <;> intro h1 <;> omega

/-- C21: `edge_cmp` is the lexicographic order on `(d2, a, b)`: negative iff the first
triple is lexicographically smaller, zero iff the three fields are equal, positive
otherwise; hence antisymmetric, transitive, and total on edges with distinct `(a, b)`. -/
theorem edge_cmp_lex (e f g : Edge) :
    (edge_cmp e f < 0 ↔
        (e.d2 < f.d2 ∨ (e.d2 = f.d2 ∧ (e.a < f.a ∨ (e.a = f.a ∧ e.b < f.b))))) ∧
      (edge_cmp e f = 0 ↔ (e.d2 = f.d2 ∧ e.a = f.a ∧ e.b = f.b)) ∧
      (0 < edge_cmp e f ↔
        ¬ (e.d2 < f.d2 ∨ (e.d2 = f.d2 ∧ (e.a < f.a ∨ (e.a = f.a ∧ e.b < f.b)))) ∧
          ¬ (e.d2 = f.d2 ∧ e.a = f.a ∧ e.b = f.b)) ∧
      (edge_cmp e f < 0 ↔ 0 < edge_cmp f e) ∧
      (edge_cmp e f ≤ 0 → edge_cmp f e ≤ 0 → e = f) ∧
      (edge_cmp e f ≤ 0 → edge_cmp f g ≤ 0 → edge_cmp e g ≤ 0) ∧
      (edge_cmp e f < 0 → edge_cmp f g < 0 → edge_cmp e g < 0) ∧
      ((e.a, e.b) ≠ (f.a, f.b) → edge_cmp e f < 0 ∨ edge_cmp f e < 0) := by
  have ext : ∀ x y : Edge, x.d2 = y.d2 → x.a = y.a → x.b = y.b → x = y := by
    intro x y h1 h2 h3
    cases x
    cases y
    simp only [Edge.mk.injEq]
    exact ⟨h1, h2, h3⟩
  have hef := edge_cmp_cases e f
  have hfe := edge_cmp_cases f e
  have hfg := edge_cmp_cases f g
  have heg := edge_cmp_cases e g
  have hlt := edge_cmp_neg_iff e f
  have hlt2 := edge_cmp_neg_iff f g
  have hlt3 := edge_cmp_neg_iff e g
  have hz := edge_cmp_zero_iff e f
  have hz2 := edge_cmp_zero_iff f g
  have hz3 := edge_cmp_zero_iff e g
  have hle : ∀ x y : Edge, edge_cmp x y ≤ 0 ↔ (edge_cmp x y < 0 ∨ edge_cmp x y = 0) := by
    intro x y
    omega
  refine ⟨hlt, hz, ?_, ?_, ?_, ?_, ?_, ?_⟩
  · clear hfe hfg heg hlt hlt2 hlt3 hz hz2 hz3
    constructor <;> intro h <;> omega
  · clear hfg heg hlt hlt2 hlt3 hz hz2 hz3
    rcases hef with h1 | h1 | h1 <;> rcases hfe with h2 | h2 | h2 <;>
      constructor <;> intro h <;> omega
  · clear hfg heg hlt hlt2 hlt3 hz hz2 hz3
    intro h1 h2
    rcases hef with h3 | h3 | h3
    · rcases hfe with h4 | h4 | h4 <;> omega
    · exact ext e f h3.2.1 h3.2.2.1 h3.2.2.2
    · omega
  · clear hef hfe hfg heg
    intro h1 h2
    rw [hle, hlt, hz] at h1
    rw [hle, hlt2, hz2] at h2
    rw [hle, hlt3, hz3]
    rcases h1 with h1 | h1 <;> rcases h2 with h2 | h2 <;> omega
  · clear hef hfe hfg heg hz hz2 hz3
    intro h1 h2
    rw [hlt] at h1
    rw [hlt2] at h2
    rw [hlt3]
    omega
  · clear hfg heg hef hfe hlt2 hlt3 hz hz2 hz3
    intro h
    have h2 : ¬ (e.a = f.a ∧ e.b = f.b) := by
      rintro ⟨h3, h4⟩
      exact h (by rw [h3, h4])
    rw [hlt, edge_cmp_neg_iff f e]
    omega

/-! ## The driver on inputs with fewer than two points -/

theorem read_points_blank (pre rest : List (List Char)) (pts : List Pt)
    (hpre : ∀ l ∈ pre, Aoc.is_blank_line l = true) :
    read_points (pre ++ rest) pts = read_points rest pts := by
  induction pre with
  | nil => rfl
  | cons l pre ih =>
    have hl := hpre l (List.mem_cons_self _ _)
    simp only [List.cons_append, read_points, hl, if_true]
    exact ih (fun x hx => hpre x (List.mem_cons_of_mem _ hx))

theorem read_points_blank_only (pre : List (List Char)) (pts : List Pt)
    (hpre : ∀ l ∈ pre, Aoc.is_blank_line l = true) :
    read_points pre pts = some pts := by
  have h := read_points_blank pre [] pts hpre
  rw [List.append_nil] at h
  rw [h]
  rfl

/-- C22, as the code behaves: one valid point line is not fatal.  On the single line
`1,2,3` the driver prints `Part1: 1` and `Part2: 0` and exits with success. -/
theorem main_single_point_succeeds :
    main [['1', ',', '2', ',', '3']] = some ⟨EXIT_SUCCESS, some (1, 0)⟩ ∧
      EXIT_SUCCESS = 0 := by
  decide

/-- C22, amended: an input without points (only blank lines, or no line at all) is fatal,
the driver exits with failure and prints no `Part1:`/`Part2:` line; an input whose only
non-blank line is one valid point line is not fatal, the driver prints `Part1: 1` and
`Part2: 0` and exits with success. -/
theorem main_few_points (pre post : List (List Char))
    (hpre : ∀ l ∈ pre, Aoc.is_blank_line l = true)
    (hpost : ∀ l ∈ post, Aoc.is_blank_line l = true) :
    (main (pre ++ post) = some ⟨EXIT_FAILURE, none⟩ ∧ EXIT_FAILURE ≠ 0) ∧
      ∀ buf p, Aoc.is_blank_line buf = false → scan_point buf = (3, p) →
        main (pre ++ buf :: post) = some ⟨EXIT_SUCCESS, some (1, 0)⟩ := by
  refine ⟨⟨?_, by decide⟩, ?_⟩
  · have h : read_points (pre ++ post) [] = some [] := by
      rw [read_points_blank pre post [] hpre]
      exact read_points_blank_only post [] hpost
    unfold main
    rw [h]
    rfl
  · intro buf p hb hp
    have h : read_points (pre ++ buf :: post) [] = some [p] := by
      rw [read_points_blank pre _ [] hpre]
      simp only [read_points, hb, hp]
      simp only [Bool.false_eq_true, if_false, ne_eq, not_true_eq_false, List.length_nil,
        ge_iff_le, List.nil_append]
      rw [if_neg (by decide)]
      exact read_points_blank_only post [p] hpost
    unfold main
    rw [h]
    simp only [List.length_singleton]
    rw [if_neg (by decide), if_pos (by decide)]

theorem main_few_points_witness :
    (main ([[]] ++ [[' ']]) = some ⟨EXIT_FAILURE, none⟩ ∧ EXIT_FAILURE ≠ 0) ∧
      ∀ buf p, Aoc.is_blank_line buf = false → scan_point buf = (3, p) →
        main ([[]] ++ buf :: [[' ']]) = some ⟨EXIT_SUCCESS, some (1, 0)⟩ :=
  main_few_points [[]] [[' ']] (by decide) (by decide)

/-! ## `solve_part1` with fewer than three components -/

/-- With fewer than three values the third of the three largest stays 0. -/
theorem top3_short (l : List Nat) (h : l.length < 3) :
    (l.foldl top3_step (0, 0, 0)).2.2 = 0 := by
  match l, h with
  | [], _ => rfl
  | [x], _ =>
    simp only [List.foldl_cons, List.foldl_nil, top3_step]
    split_ifs <;> rfl
  | [x, y], _ =>
    simp only [List.foldl_cons, List.foldl_nil, top3_step]
    split_ifs <;> simp only []
  | _ :: _ :: _ :: _, h =>
    simp only [List.length_cons] at h
    omega

/-- Three roots would be three points no two of which are connected. -/
theorem root_list_short (n : Nat) (E : List Edge) (u : UF) (ht : Tracks n E u)
    (hfew : ∀ i j k, i < n → j < n → k < n → Conn E i j ∨ Conn E i k ∨ Conn E j k) :
    (root_list u n).length < 3 := by
  by_contra hlen
  have hnd : (root_list u n).Nodup := (List.nodup_range n).filter _
  match hl : root_list u n, hlen with
  | [], h => simp at h
  | [_], h => simp at h
  | [_, _], h => simp at h
  | a :: b :: c :: rest, _ =>
    rw [hl] at hnd
    have hmem : ∀ x, x ∈ a :: b :: c :: rest → x < n ∧ u.parent.getD x 0 = x := by
      intro x hx
      rw [← hl] at hx
      exact (mem_root_list u n x).mp hx
    obtain ⟨ha, har⟩ := hmem a (by simp)
    obtain ⟨hb, hbr⟩ := hmem b (by simp)
    obtain ⟨hc, hcr⟩ := hmem c (by simp)
    have hab : a ≠ b := by
      intro h
      simp [h] at hnd
    have hac : a ≠ c := by
      intro h
      simp [h] at hnd
    have hbc : b ≠ c := by
      intro h
      simp [h] at hnd
    have ra := uf_root_of_root n u ht.forest a ha har
    have rb := uf_root_of_root n u ht.forest b hb hbr
    have rc := uf_root_of_root n u ht.forest c hc hcr
    rcases hfew a b c ha hb hc with h | h | h
    · have := (ht.conn a b ha hb).mpr h
      rw [ra, rb] at this
      exact hab this
    · have := (ht.conn a c ha hc).mpr h
      rw [ra, rc] at this
      exact hac this
    · have := (ht.conn b c hb hc).mpr h
      rw [rb, rc] at this
      exact hbc this

/-- C37: for every `n`, edge list (joining points below `n`) and `K`, if the first
`min(K, ecount)` edges leave fewer than three connected components among the `n` points,
that is, of any three points two are connected, then `solve_part1` returns 0: the missing
second or third size is taken as 0.  This is so in particular when the edges connect all
points. -/
theorem solve_part1_few_components (edges : List Edge) (n K : Nat)
    (hvalid : ∀ e ∈ edges.take (min K edges.length), e.a < n ∧ e.b < n)
    (hfew : ∀ i j k, i < n → j < n → k < n →
      Conn (edges.take (min K edges.length)) i j ∨ Conn (edges.take (min K edges.length)) i k ∨
        Conn (edges.take (min K edges.length)) j k) :
    solve_part1 edges n K = some 0 := by
  have hlimit : (if edges.length > K then K else edges.length) = min K edges.length := by
    split_ifs with h
    · exact (Nat.min_eq_left (by omega)).symm
    · exact (Nat.min_eq_right (by omega)).symm
  obtain ⟨u, hloop, ht⟩ := part1_loop_spec n (edges.take (min K edges.length)) []
    (uf_init n) (tracks_init n) hvalid
  rw [List.nil_append] at ht
  have hshort := root_list_short n _ u ht hfew
  have h3 : (top3 u n).2.2 = 0 := by
    rw [top3_eq]
    exact top3_short _ (by rw [List.length_map]; exact hshort)
  unfold solve_part1
  simp only [hlimit, hloop, h3, Nat.mul_zero, Nat.zero_mod]

theorem solve_part1_few_components_witness :
    solve_part1 (sort_edges (build_edges s6_points)) 4 PART1_K = some 0 :=
  solve_part1_few_components (sort_edges (build_edges s6_points)) 4 PART1_K (by decide)
    (by
      have h0 : ∀ i, i < 4 →
          Conn ((sort_edges (build_edges s6_points)).take
            (min PART1_K (sort_edges (build_edges s6_points)).length)) 0 i := by
        intro i hi
        rcases Nat.eq_zero_or_pos i with h | h
        · rw [h]
          exact Relation.EqvGen.refl 0
        · exact Relation.EqvGen.rel 0 i ⟨⟨1, 0, i⟩, by interval_cases i <;> decide, rfl, rfl⟩
      intro i j k hi hj _
      exact Or.inl (Relation.EqvGen.trans i 0 j (Relation.EqvGen.symm 0 i (h0 i hi)) (h0 j hj)))

/-! ## `uf_find` and `uf_union_roots` on a forest -/

theorem uf_find_root_of_rootOf (parent : List Nat) (x r : Nat) (h : RootOf parent x r) :
    ∃ fuel, uf_find_root parent fuel x = some r := by
  induction h with
  | root r hr =>
    refine ⟨1, ?_⟩
    simp only [uf_find_root, hr, ne_eq, not_true_eq_false, if_false]
  | step x r hne _ ih =>
    obtain ⟨fuel, hf⟩ := ih
    refine ⟨fuel + 1, ?_⟩
    simp only [uf_find_root]
    rw [if_pos hne]
    exact hf

/-- A parent array in which every walk along parent links reaches a root has a rank that
grows along the links: the number of links to the root, counted down. -/
theorem forest_of_chain (n : Nat) (parent : List Nat) (hlen : parent.length = n)
    (hrange : ∀ i, i < n → parent.getD i 0 < n)
    (hchain : ∀ x, x < n → ∃ r, RootOf parent x r) : Forest n parent := by
  have hex : ∀ x, x < n → ∃ fuel, (uf_find_root parent fuel x).isSome = true := by
    intro x hx
    obtain ⟨r, hr⟩ := hchain x hx
    obtain ⟨fuel, hf⟩ := uf_find_root_of_rootOf parent x r hr
    exact ⟨fuel, by rw [hf]; rfl⟩
  obtain ⟨f, hfdef⟩ : ∃ f : Nat → Nat,
      ∀ x (h : ∃ fuel, (uf_find_root parent fuel x).isSome = true), f x = Nat.find h := by
    classical
    exact ⟨fun x => if h : ∃ fuel, (uf_find_root parent fuel x).isSome = true then Nat.find h
      else 0, fun x h => dif_pos h⟩
  have hstep : ∀ i, i < n → parent.getD i 0 ≠ i → f i = f (parent.getD i 0) + 1 := by
    intro i hi hne
    have h1 := hex i hi
    have h2 := hex _ (hrange i hi)
    have e1 : f i = Nat.find h1 := hfdef i h1
    have e2 : f (parent.getD i 0) = Nat.find h2 := hfdef _ h2
    rw [e1, e2]
    have hs1 := Nat.find_spec h1
    have hs2 := Nat.find_spec h2
    apply le_antisymm
    · apply Nat.find_min' h1
      simp only [uf_find_root]
      rw [if_pos hne]
      exact hs2
    · cases hm : Nat.find h1 with
      | zero =>
        rw [hm] at hs1
        simp [uf_find_root] at hs1
      | succ m =>
        rw [hm] at hs1
        simp only [uf_find_root] at hs1
        rw [if_pos hne] at hs1
        have := Nat.find_min' h2 hs1
        omega
  refine ⟨fun x => (Finset.range n).sup f - f x, hlen, ?_⟩
  intro i hi
  refine ⟨hrange i hi, ?_⟩
  intro hne
  have hle : f i ≤ (Finset.range n).sup f := Finset.le_sup (Finset.mem_range.mpr hi)
  have := hstep i hi hne
  show (Finset.range n).sup f - f i < (Finset.range n).sup f - f (parent.getD i 0)
  omega

theorem OnPath.path_rank_le {n : Nat} {rk : Nat → Nat} {parent : List Nat}
    (hf : Ranked n rk parent) {x y : Nat} (h : OnPath parent x y) (hx : x < n) :
    rk x ≤ rk y ∧ y < n := by
  induction h with
  | here x => exact ⟨le_refl _, hx⟩
  | step x y hne _ ih =>
    obtain ⟨hlt, hrk⟩ := hf.2 x hx
    have := ih hlt
    have := hrk hne
    exact ⟨by omega, (ih hlt).2⟩

/-- Changing the entry of an element below the walk leaves the walk as it is. -/
theorem OnPath.set_below {n : Nat} {rk : Nat → Nat} {parent : List Nat}
    (hf : Ranked n rk parent) {p y : Nat} (h : OnPath parent p y) (hp : p < n) (x r : Nat)
    (hx : rk x < rk p) : OnPath (parent.set x r) p y := by
  induction h with
  | here p => exact OnPath.here p
  | step p y hne _ ih =>
    obtain ⟨hlt, hrk⟩ := hf.2 p hp
    have hxp : x ≠ p := by
      intro h
      rw [h] at hx
      omega
    have e : (parent.set x r).getD p 0 = parent.getD p 0 := by
      rw [getD_set_eq, if_neg (fun h => hxp h.1)]
    refine OnPath.step p y (by rw [e]; exact hne) ?_
    rw [e]
    exact ih hlt (by have := hrk hne; omega)

/-- The second loop of `uf_find` points every element of the walk at the root. -/
theorem uf_compress_path (n : Nat) (rk : Nat → Nat) (fuel : Nat) (parent : List Nat)
    (x r : Nat) (hf : Ranked n rk parent) (hx : x < n) (hroot : RootOf parent x r)
    (hfuel : ((Finset.range n).filter (fun i => rk x ≤ rk i)).card ≤ fuel) :
    ∃ parent', uf_compress r fuel parent x = some parent' ∧
      (∀ y, OnPath parent x y → parent'.getD y 0 = r) ∧
      ∀ y, parent.getD y 0 = r → parent'.getD y 0 = r := by
  induction fuel generalizing parent x with
  | zero =>
    have hmem : x ∈ (Finset.range n).filter (fun i => rk x ≤ rk i) := by
      rw [Finset.mem_filter, Finset.mem_range]
      exact ⟨hx, le_refl _⟩
    have := Finset.card_pos.mpr ⟨x, hmem⟩
    omega
  | succ fuel ih =>
    simp only [uf_compress]
    split_ifs with hne
    · obtain ⟨hlt, hrk⟩ := hf.2 x hx
      obtain ⟨hf1, hkeep⟩ := compress_step n rk parent x r hf hx hne hroot
      have hrest : RootOf parent (parent.getD x 0) r := by
        cases hroot with
        | root _ h => exact absurd h hne
        | step _ _ _ h => exact h
      obtain ⟨parent', h1, h2, h3⟩ := ih (parent.set x r) (parent.getD x 0) hf1 hlt
        (hkeep _ _ hrest) (by
          have := above_card_lt n rk x _ hx (hrk hne)
          omega)
      have hset : ∀ y, parent.getD y 0 = r → (parent.set x r).getD y 0 = r := by
        intro y hy
        rw [getD_set_eq]
        split_ifs
        · rfl
        · exact hy
      have hxr : (parent.set x r).getD x 0 = r := by
        rw [getD_set_eq, if_pos ⟨rfl, by rw [hf.1]; exact hx⟩]
      refine ⟨parent', h1, ?_, fun y hy => h3 y (hset y hy)⟩
      intro y hy
      cases hy with
      | here _ => exact h3 x hxr
      | step _ _ _ hp => exact h2 y (hp.set_below hf hlt x r (hrk hne))
    · simp only [ne_eq, not_not] at hne
      have hxr : x = r := by
        cases hroot with
        | root _ _ => rfl
        | step _ _ h _ => exact absurd hne h
      refine ⟨parent, rfl, ?_, fun _ h => h⟩
      intro y hy
      cases hy with
      | here _ => rw [hne]; exact hxr
      | step _ _ h _ => exact absurd hne h

/-- C35: `uf_find` and `uf_union_roots` on a forest.  Let the parent array of `n` entries
point inside the array and let the walk along parent links from every element reach an
element that is its own parent.  Then for every element `x`, `uf_find(x)` ends and returns
the root of the tree of `x`; it leaves the sizes and the root of every element as they
were, and afterwards every element of the former walk from `x` to the root has the root as
its parent.  `uf_union_roots` on two distinct roots attaches the root with the smaller
`size_` under the other, the second under the first on a tie, and adds the sizes. -/
theorem uf_find_union_spec (n : Nat) (u : UF) (hlen : u.parent.length = n)
    (hrange : ∀ i, i < n → u.parent.getD i 0 < n)
    (hchain : ∀ x, x < n → ∃ r, RootOf u.parent x r) (x : Nat) (hx : x < n) :
    (∃ r u1, uf_find u x = some (r, u1) ∧ RootOf u.parent x r ∧ u1.size = u.size ∧
        (∀ y s, y < n → (RootOf u1.parent y s ↔ RootOf u.parent y s)) ∧
        ∀ y, OnPath u.parent x y → u1.parent.getD y 0 = r) ∧
      ∀ rx ry, rx < n → ry < n → rx ≠ ry → u.parent.getD rx 0 = rx → u.parent.getD ry 0 = ry →
        (u.size.getD rx 0 < u.size.getD ry 0 →
          uf_union_roots u rx ry =
            ⟨u.parent.set rx ry, u.size.set ry (u.size.getD ry 0 + u.size.getD rx 0)⟩ ∧
          (uf_union_roots u rx ry).parent.getD rx 0 = ry ∧
          (uf_union_roots u rx ry).parent.getD ry 0 = ry) ∧
        (¬ u.size.getD rx 0 < u.size.getD ry 0 →
          uf_union_roots u rx ry =
            ⟨u.parent.set ry rx, u.size.set rx (u.size.getD rx 0 + u.size.getD ry 0)⟩ ∧
          (uf_union_roots u rx ry).parent.getD ry 0 = rx ∧
          (uf_union_roots u rx ry).parent.getD rx 0 = rx) := by
  have hforest : Forest n u.parent := forest_of_chain n u.parent hlen hrange hchain
  constructor
  · obtain ⟨hroot, hfind⟩ := rootOf_uf_root n u hforest x hx
    obtain ⟨rk, hrk⟩ := hforest
    have hfuel : ((Finset.range n).filter (fun i => rk x ≤ rk i)).card ≤ u.parent.length + 1 := by
      have := above_card_le n rk x
      omega
    obtain ⟨parent1, hc, hrk1, hkeep⟩ := uf_compress_spec n rk (u.parent.length + 1) u.parent x
      (uf_root u x) hrk hx hroot hfuel
    obtain ⟨parent2, hc2, hpath, _⟩ := uf_compress_path n rk (u.parent.length + 1) u.parent x
      (uf_root u x) hrk hx hroot hfuel
    have he : parent2 = parent1 := by
      rw [hc] at hc2
      exact (Option.some.inj hc2).symm
    subst he
    refine ⟨uf_root u x, { u with parent := parent2 }, ?_, hroot, rfl, ?_, hpath⟩
    · unfold uf_find
      rw [hfind]
      simp only []
      rw [hc]
    · intro y s hy
      constructor
      · intro h
        obtain ⟨s1, hs1⟩ := hchain y hy
        have := (hkeep y s1 hs1).det h
        rw [← this]
        exact hs1
      · exact hkeep y s
  · intro rx ry hrx hry hne hx0 hy0
    constructor
    · intro hlt
      have e : uf_union_roots u rx ry =
          ⟨u.parent.set rx ry, u.size.set ry (u.size.getD ry 0 + u.size.getD rx 0)⟩ := by
        unfold uf_union_roots
        rw [if_neg hne]
        simp only [hlt, if_true]
      refine ⟨e, ?_, ?_⟩
      · rw [e]
        show (u.parent.set rx ry).getD rx 0 = ry
        rw [getD_set_eq, if_pos ⟨rfl, by rw [hlen]; exact hrx⟩]
      · rw [e]
        show (u.parent.set rx ry).getD ry 0 = ry
        rw [getD_set_eq, if_neg (fun h => hne h.1)]
        exact hy0
    · intro hlt
      have e : uf_union_roots u rx ry =
          ⟨u.parent.set ry rx, u.size.set rx (u.size.getD rx 0 + u.size.getD ry 0)⟩ := by
        unfold uf_union_roots
        rw [if_neg hne]
        simp only [hlt, if_false]
      refine ⟨e, ?_, ?_⟩
      · rw [e]
        show (u.parent.set ry rx).getD ry 0 = rx
        rw [getD_set_eq, if_pos ⟨rfl, by rw [hlen]; exact hry⟩]
      · rw [e]
        show (u.parent.set ry rx).getD rx 0 = rx
        rw [getD_set_eq, if_neg (fun h => hne h.1.symm)]
        exact hx0

theorem uf_find_union_spec_witness :
    (∃ r u1, uf_find ⟨[1, 2, 2, 3], [1, 1, 3, 1]⟩ 0 = some (r, u1) ∧
        RootOf [1, 2, 2, 3] 0 r ∧ u1.size = [1, 1, 3, 1] ∧
        (∀ y s, y < 4 → (RootOf u1.parent y s ↔ RootOf [1, 2, 2, 3] y s)) ∧
        ∀ y, OnPath [1, 2, 2, 3] 0 y → u1.parent.getD y 0 = r) ∧
      ∀ rx ry, rx < 4 → ry < 4 → rx ≠ ry → ([1, 2, 2, 3] : List Nat).getD rx 0 = rx →
        ([1, 2, 2, 3] : List Nat).getD ry 0 = ry →
        (([1, 1, 3, 1] : List Int).getD rx 0 < ([1, 1, 3, 1] : List Int).getD ry 0 →
          uf_union_roots ⟨[1, 2, 2, 3], [1, 1, 3, 1]⟩ rx ry =
            ⟨([1, 2, 2, 3] : List Nat).set rx ry,
              ([1, 1, 3, 1] : List Int).set ry
                (([1, 1, 3, 1] : List Int).getD ry 0 + ([1, 1, 3, 1] : List Int).getD rx 0)⟩ ∧
          (uf_union_roots ⟨[1, 2, 2, 3], [1, 1, 3, 1]⟩ rx ry).parent.getD rx 0 = ry ∧
          (uf_union_roots ⟨[1, 2, 2, 3], [1, 1, 3, 1]⟩ rx ry).parent.getD ry 0 = ry) ∧
        (¬ ([1, 1, 3, 1] : List Int).getD rx 0 < ([1, 1, 3, 1] : List Int).getD ry 0 →
          uf_union_roots ⟨[1, 2, 2, 3], [1, 1, 3, 1]⟩ rx ry =
            ⟨([1, 2, 2, 3] : List Nat).set ry rx,
              ([1, 1, 3, 1] : List Int).set rx
                (([1, 1, 3, 1] : List Int).getD rx 0 + ([1, 1, 3, 1] : List Int).getD ry 0)⟩ ∧
          (uf_union_roots ⟨[1, 2, 2, 3], [1, 1, 3, 1]⟩ rx ry).parent.getD ry 0 = rx ∧
          (uf_union_roots ⟨[1, 2, 2, 3], [1, 1, 3, 1]⟩ rx ry).parent.getD rx 0 = rx) :=
  uf_find_union_spec 4 ⟨[1, 2, 2, 3], [1, 1, 3, 1]⟩ rfl (by decide)
    (by
      intro x hx
      have h2 : RootOf [1, 2, 2, 3] 2 2 := RootOf.root 2 rfl
      have h1 : RootOf [1, 2, 2, 3] 1 2 := RootOf.step 1 2 (by decide) h2
      have h0 : RootOf [1, 2, 2, 3] 0 2 := RootOf.step 0 2 (by decide) h1
      have h3 : RootOf [1, 2, 2, 3] 3 3 := RootOf.root 3 rfl
      interval_cases x
      · exact ⟨2, h0⟩
      · exact ⟨2, h1⟩
      · exact ⟨2, h2⟩
      · exact ⟨3, h3⟩)
    0 (by decide)

end Day08

namespace Aoc

/-! ## The macros of `aoc.h` -/

theorem to_bits_lt (v : Int) : to_bits v < 2 ^ 32 := by
  unfold to_bits
  have h1 : 0 ≤ v % 2 ^ 32 := Int.emod_nonneg _ (by norm_num)
  have h2 : v % 2 ^ 32 < 2 ^ 32 := Int.emod_lt_of_pos _ (by norm_num)
  omega

theorem of_to_bits (v : Int) (h : IsInt32 v) : of_bits (to_bits v) = v := by
  unfold IsInt32 INT_MIN INT_MAX at h
  unfold of_bits to_bits
  have h1 : 0 ≤ v % 2 ^ 32 := Int.emod_nonneg _ (by norm_num)
  have h2 : v % 2 ^ 32 < 2 ^ 32 := Int.emod_lt_of_pos _ (by norm_num)
  split_ifs with hlt <;> omega

theorem to_of_bits (n : Nat) (h : n < 2 ^ 32) : to_bits (of_bits n) = n := by
  unfold of_bits to_bits
  split_ifs with hlt <;> omega

theorem to_bits_zero : to_bits 0 = 0 := by decide

theorem to_bits_neg_one : to_bits (-1) = 2 ^ 32 - 1 := by decide

theorem xor_bits_lt (a b : Int) : to_bits a ^^^ to_bits b < 2 ^ 32 :=
  Nat.xor_lt_two_pow (to_bits_lt a) (to_bits_lt b)

/-- The masked difference: all of `a ^ b` when the flag is set, nothing otherwise. -/
theorem bit_and_flag (a b : Int) (f : Bool) :
    to_bits (bit_and (of_bits (to_bits a ^^^ to_bits b)) (-(if f then 1 else 0))) =
      if f then to_bits a ^^^ to_bits b else 0 := by
  unfold bit_and
  rw [to_of_bits _ (xor_bits_lt a b)]
  cases f
  · simp only [Bool.false_eq_true, if_false, neg_zero, to_bits_zero, Nat.and_zero]
    exact to_of_bits 0 (by norm_num)
  · simp only [if_true, to_bits_neg_one]
    rw [Nat.and_pow_two_sub_one_eq_mod, Nat.mod_eq_of_lt (xor_bits_lt a b)]
    exact to_of_bits _ (xor_bits_lt a b)

theorem lt_flag_eq (a b : Int) : lt_flag a b = if decide (a < b) then 1 else 0 := by
  unfold lt_flag
  by_cases h : a < b <;> simp [h]

theorem MIN_eq (a b : Int) (ha : IsInt32 a) (hb : IsInt32 b) :
    MIN a b = if a < b then a else b := by
  unfold MIN
  rw [lt_flag_eq]
  unfold bit_xor
  rw [bit_and_flag]
  by_cases h : a < b
  · simp only [h, decide_True, if_true]
    rw [← Nat.xor_assoc, Nat.xor_comm (to_bits b), Nat.xor_assoc, Nat.xor_self, Nat.xor_zero]
    exact of_to_bits a ha
  · simp only [h, decide_False, Bool.false_eq_true, if_false, Nat.xor_zero]
    exact of_to_bits b hb

theorem MAX_eq (a b : Int) (ha : IsInt32 a) (hb : IsInt32 b) :
    MAX a b = if a < b then b else a := by
  unfold MAX
  rw [lt_flag_eq]
  unfold bit_xor
  rw [bit_and_flag]
  by_cases h : a < b
  · simp only [h, decide_True, if_true]
    rw [← Nat.xor_assoc, Nat.xor_self, Nat.zero_xor]
    exact of_to_bits b hb
  · simp only [h, decide_False, Bool.false_eq_true, if_false, Nat.xor_zero]
    exact of_to_bits a ha

theorem MIN_isInt32 (a b : Int) (ha : IsInt32 a) (hb : IsInt32 b) : IsInt32 (MIN a b) := by
  rw [MIN_eq a b ha hb]
  split_ifs
  · exact ha
  · exact hb

/-- C27: for all 32-bit ints `a` and `b`, `MIN(a, b)` is the smaller and `MAX(a, b)` the
larger of the two, whatever their signs; both are `a` when `a = b`. -/
theorem MIN_MAX_spec (a b : Int) (ha : IsInt32 a) (hb : IsInt32 b) :
    MIN a b = min a b ∧ MAX a b = max a b ∧ (a = b → MIN a b = a ∧ MAX a b = a) := by
  rw [MIN_eq a b ha hb, MAX_eq a b ha hb]
  refine ⟨?_, ?_, ?_⟩
  · split_ifs with h
    · exact (min_eq_left (le_of_lt h)).symm
    · exact (min_eq_right (not_lt.mp h)).symm
  · split_ifs with h
    · exact (max_eq_right (le_of_lt h)).symm
    · exact (max_eq_left (not_lt.mp h)).symm
  · intro hab
    subst hab
    simp

theorem MIN_MAX_spec_witness :
    IsInt32 (-3) ∧ IsInt32 7 ∧
      (MIN (-3) 7 = min (-3) 7 ∧ MAX (-3) 7 = max (-3) 7 ∧
        ((-3 : Int) = 7 → MIN (-3) 7 = -3 ∧ MAX (-3) 7 = -3)) :=
  ⟨by decide, by decide, MIN_MAX_spec (-3) 7 (by decide) (by decide)⟩

/-- C28: for all 32-bit ints `x`, `lo`, `hi` with `lo ≤ hi`, `CLAMP(x, lo, hi)` is `lo`
when `x < lo`, `hi` when `x > hi` and `x` otherwise; the result lies in `[lo, hi]`, and
`CLAMP` is the identity on `[lo, hi]`, both boundaries included. -/
theorem CLAMP_spec (x lo hi : Int) (hx : IsInt32 x) (hlo : IsInt32 lo) (hhi : IsInt32 hi)
    (h : lo ≤ hi) :
    CLAMP x lo hi = (if x < lo then lo else if x > hi then hi else x) ∧
      (lo ≤ CLAMP x lo hi ∧ CLAMP x lo hi ≤ hi) ∧
      (lo ≤ x → x ≤ hi → CLAMP x lo hi = x) := by
  have key : CLAMP x lo hi = (if x < lo then lo else if x > hi then hi else x) := by
    unfold CLAMP
    rw [MAX_eq lo (MIN x hi) hlo (MIN_isInt32 x hi hx hhi), MIN_eq x hi hx hhi]
    split_ifs <;> omega
  refine ⟨key, ?_, ?_⟩
  · rw [key]
    split_ifs <;> omega
  · intro h1 h2
    rw [key]
    split_ifs <;> omega

theorem CLAMP_spec_witness :
    IsInt32 (-10) ∧ IsInt32 (-5) ∧ IsInt32 5 ∧ (-5 : Int) ≤ 5 ∧
      (CLAMP (-10) (-5) 5 = (if (-10 : Int) < -5 then -5 else if (-10 : Int) > 5 then 5 else -10) ∧
        ((-5 : Int) ≤ CLAMP (-10) (-5) 5 ∧ CLAMP (-10) (-5) 5 ≤ 5) ∧
        ((-5 : Int) ≤ -10 → (-10 : Int) ≤ 5 → CLAMP (-10) (-5) 5 = -10)) :=
  ⟨by decide, by decide, by decide, by decide,
    CLAMP_spec (-10) (-5) 5 (by decide) (by decide) (by decide) (by decide)⟩

/-- C29: for two variables of one type, whatever the type, `SWAP(a, b)` leaves `a` with
the old value of `b` and `b` with the old value of `a`, and a second `SWAP` restores both
values. -/
theorem SWAP_spec {α : Type} (a b : α) :
    SWAP (a, b) = (b, a) ∧ SWAP (SWAP (a, b)) = (a, b) :=
  ⟨rfl, rfl⟩

end Aoc

namespace Day01

/-! ## The dial of Day 01 -/

theorem Icc_one_succ (n : Nat) : Finset.Icc 1 (n + 1) = insert (n + 1) (Finset.Icc 1 n) := by
  ext k
  simp only [Finset.mem_Icc, Finset.mem_insert]
  omega

/-- The clicks at which a dial turned right from `s` points at 0. -/
theorem count_right (s : Int) (hs : 0 ≤ s ∧ s < 100) (n : Nat) :
    (((Finset.Icc 1 n).filter (fun k : Nat => (s + (k : Int)) % 100 = 0)).card : Int) =
      if (if s = 0 then 100 else 100 - s) ≤ (n : Int) then
        1 + ((n : Int) - (if s = 0 then 100 else 100 - s)) / 100
      else 0 := by
  induction n with
  | zero =>
    have : Finset.Icc 1 0 = (∅ : Finset Nat) := by
      ext k
      simp
    rw [this]
    simp only [Finset.filter_empty, Finset.card_empty, Nat.cast_zero]
    split_ifs <;> omega
  | succ n ih =>
    rw [Icc_one_succ, Finset.filter_insert]
    by_cases h : (s + ((n + 1 : Nat) : Int)) % 100 = 0
    · rw [if_pos h, Finset.card_insert_of_not_mem (by simp), Nat.cast_add, ih]
      push_cast at h ⊢
      split_ifs <;> omega
    · rw [if_neg h, ih]
      push_cast at h ⊢
      split_ifs <;> omega

/-- The clicks at which a dial turned left from `s` points at 0. -/
theorem count_left (s : Int) (hs : 0 ≤ s ∧ s < 100) (n : Nat) :
    (((Finset.Icc 1 n).filter (fun k : Nat => (s - (k : Int)) % 100 = 0)).card : Int) =
      if (if s = 0 then 100 else s) ≤ (n : Int) then
        1 + ((n : Int) - (if s = 0 then 100 else s)) / 100
      else 0 := by
  induction n with
  | zero =>
    have : Finset.Icc 1 0 = (∅ : Finset Nat) := by
      ext k
      simp
    rw [this]
    simp only [Finset.filter_empty, Finset.card_empty, Nat.cast_zero]
    split_ifs <;> omega
  | succ n ih =>
    rw [Icc_one_succ, Finset.filter_insert]
    by_cases h : (s - ((n + 1 : Nat) : Int)) % 100 = 0
    · rw [if_pos h, Finset.card_insert_of_not_mem (by simp), Nat.cast_add, ih]
      push_cast at h ⊢
      split_ifs <;> omega
    · rw [if_neg h, ih]
      push_cast at h ⊢
      split_ifs <;> omega

theorem mod_int_eq (v : Int) : mod_int v MODULUS = v % 100 := by
  unfold mod_int MODULUS
  simp only []
  rcases le_or_lt 0 v with hv | hv
  · rw [Int.tmod_eq_emod hv (by norm_num)]
    have := Int.emod_nonneg v (show (100 : Int) ≠ 0 by norm_num)
    rw [if_neg (by omega)]
  · have e : Int.tmod v 100 = -((-v) % 100) := by
      have h1 := Int.tmod_def v 100
      have h2 : Int.tdiv v 100 = -((-v) / 100) := by
        rw [← Int.tdiv_eq_ediv (by omega) (by norm_num), Int.neg_tdiv, neg_neg]
      rw [h1, h2]
      omega
    rw [e]
    split_ifs <;> omega

theorem strtoll_ne_nil (p rest : List Char) (d : Int) (hp : strtoll p = some (d, rest)) :
    p ≠ [] := by
  intro h
  rw [h] at hp
  have : strtoll [] = none := by decide
  rw [this] at hp
  exact Option.noConfusion hp

theorem hits_left (pos d : Int) (hpos : 0 ≤ pos ∧ pos < 100) (hd : 0 ≤ d) :
    (if d > 0 then
        if (if Int.tmod (mod_int pos MODULUS) MODULUS = 0 then MODULUS
            else Int.tmod (mod_int pos MODULUS) MODULUS) ≤ d then
          1 + Int.tdiv (d - (if Int.tmod (mod_int pos MODULUS) MODULUS = 0 then MODULUS
            else Int.tmod (mod_int pos MODULUS) MODULUS)) MODULUS
        else 0
      else 0) =
      if (if pos = 0 then 100 else pos) ≤ d then 1 + (d - (if pos = 0 then 100 else pos)) / 100
      else 0 := by
  have hs : mod_int pos MODULUS = pos := by
    rw [mod_int_eq]
    omega
  have hM : MODULUS = 100 := rfl
  rw [hs, hM, Int.tmod_eq_emod hpos.1 (by norm_num)]
  have e : (if pos % 100 = 0 then (100 : Int) else pos % 100) = (if pos = 0 then 100 else pos) := by
    split_ifs <;> omega
  rw [e]
  by_cases hd0 : d > 0
  · rw [if_pos hd0]
    rcases Int.lt_or_le d (if pos = 0 then 100 else pos) with hlt | hge
    · rw [if_neg (by omega), if_neg (by omega)]
    · rw [if_pos hge, if_pos hge, Int.tdiv_eq_ediv (by omega) (by norm_num)]
  · rw [if_neg hd0]
    have hd00 : d = 0 := by omega
    subst hd00
    split_ifs <;> omega

theorem hits_right (pos d : Int) (hpos : 0 ≤ pos ∧ pos < 100) (hd : 0 ≤ d) :
    (if d > 0 then
        if (if Int.tmod (MODULUS - mod_int pos MODULUS) MODULUS = 0 then MODULUS
            else Int.tmod (MODULUS - mod_int pos MODULUS) MODULUS) ≤ d then
          1 + Int.tdiv (d - (if Int.tmod (MODULUS - mod_int pos MODULUS) MODULUS = 0 then MODULUS
            else Int.tmod (MODULUS - mod_int pos MODULUS) MODULUS)) MODULUS
        else 0
      else 0) =
      if (if pos = 0 then 100 else 100 - pos) ≤ d then
        1 + (d - (if pos = 0 then 100 else 100 - pos)) / 100
      else 0 := by
  have hs : mod_int pos MODULUS = pos := by
    rw [mod_int_eq]
    omega
  have hM : MODULUS = 100 := rfl
  rw [hs, hM, Int.tmod_eq_emod (by omega) (by norm_num)]
  have e : (if (100 - pos) % 100 = 0 then (100 : Int) else (100 - pos) % 100) =
      (if pos = 0 then 100 else 100 - pos) := by
    split_ifs <;> omega
  rw [e]
  by_cases hd0 : d > 0
  · rw [if_pos hd0]
    rcases Int.lt_or_le d (if pos = 0 then 100 else 100 - pos) with hlt | hge
    · rw [if_neg (by omega), if_neg (by omega)]
    · rw [if_pos hge, if_pos hge, Int.tdiv_eq_ediv (by omega) (by norm_num)]
  · rw [if_neg hd0]
    have hd00 : d = 0 := by omega
    subst hd00
    split_ifs <;> omega

theorem process_line_left (p rest : List Char) (d : Int) (st : Dial)
    (hp : strtoll p = some (d, rest)) (hd : 0 ≤ d) (hpos : 0 ≤ st.pos ∧ st.pos < 100) :
    process_line ('L' :: p) st =
      some ⟨(st.pos - d) % 100, if (st.pos - d) % 100 = 0 then st.part1 + 1 else st.part1,
        st.part2 + (if (if st.pos = 0 then 100 else st.pos) ≤ d then
          1 + (d - (if st.pos = 0 then 100 else st.pos)) / 100 else 0)⟩ := by
  have hpne := strtoll_ne_nil p rest d hp
  have hpos2 : mod_int (st.pos - Int.tmod d MODULUS) MODULUS = (st.pos - d) % 100 := by
    rw [mod_int_eq, Int.tmod_eq_emod hd (by decide)]
    show (st.pos - d % 100) % 100 = (st.pos - d) % 100
    omega
  unfold process_line
  simp only []
  rw [if_neg (show ¬ (('L' : Char) ≠ 'L' ∧ ('L' : Char) ≠ 'R') by decide), if_neg hpne, hp]
  simp only []
  rw [if_neg (by omega)]
  simp only [show (('L' : Char) = 'R') = False by decide, if_false, if_true, hpos2,
    hits_left st.pos d hpos hd]

theorem process_line_right (p rest : List Char) (d : Int) (st : Dial)
    (hp : strtoll p = some (d, rest)) (hd : 0 ≤ d) (hpos : 0 ≤ st.pos ∧ st.pos < 100) :
    process_line ('R' :: p) st =
      some ⟨(st.pos + d) % 100, if (st.pos + d) % 100 = 0 then st.part1 + 1 else st.part1,
        st.part2 + (if (if st.pos = 0 then 100 else 100 - st.pos) ≤ d then
          1 + (d - (if st.pos = 0 then 100 else 100 - st.pos)) / 100 else 0)⟩ := by
  have hpne := strtoll_ne_nil p rest d hp
  have hpos2 : mod_int (st.pos + Int.tmod d MODULUS) MODULUS = (st.pos + d) % 100 := by
    rw [mod_int_eq, Int.tmod_eq_emod hd (by decide)]
    show (st.pos + d % 100) % 100 = (st.pos + d) % 100
    omega
  unfold process_line
  simp only []
  rw [if_neg (show ¬ (('R' : Char) ≠ 'L' ∧ ('R' : Char) ≠ 'R') by decide), if_neg hpne, hp]
  simp only []
  rw [if_neg (by omega)]
  simp only [show (('R' : Char) = 'L') = False by decide, if_false, if_true, hpos2,
    hits_right st.pos d hpos hd]

/-- C39: the dial of Day 01.  For every start position `pos` in `0..99`, direction `L` or
`R` and distance `d ≥ 0` read from the line, `process_line` adds to `part2` exactly the
number of `k` in `1..d` for which the dial, moved `k` single clicks in that direction from
`pos` on a dial of 100 positions, points at 0; it sets `pos` to `(pos + d) mod 100` for `R`
and to `(pos - d) mod 100` for `L`, always in `0..99`; and it increments `part1` if and
only if the new `pos` is 0. -/
theorem process_line_spec (dir : Char) (p rest : List Char) (d : Int) (st : Dial)
    (hdir : dir = 'L' ∨ dir = 'R') (hp : strtoll p = some (d, rest)) (hd : 0 ≤ d)
    (hpos : 0 ≤ st.pos ∧ st.pos < 100) :
    ∃ st1, process_line (dir :: p) st = some st1 ∧
      st1.part2 = st.part2 +
        (((Finset.Icc 1 d.toNat).filter (fun k : Nat =>
          (if dir = 'R' then st.pos + (k : Int) else st.pos - (k : Int)) % 100 = 0)).card : Int) ∧
      st1.pos = (if dir = 'R' then st.pos + d else st.pos - d) % 100 ∧
      0 ≤ st1.pos ∧ st1.pos < 100 ∧
      st1.part1 = st.part1 + (if st1.pos = 0 then 1 else 0) := by
  have hdn : ((d.toNat : Nat) : Int) = d := Int.toNat_of_nonneg hd
  rcases hdir with hL | hR
  · subst hL
    have hcount := count_left st.pos hpos d.toNat
    rw [hdn] at hcount
    refine ⟨_, process_line_left p rest d st hp hd hpos, ?_, ?_, ?_, ?_, ?_⟩
    · simp only [show (('L' : Char) = 'R') = False by decide, if_false]
      rw [hcount]
    · simp only [show (('L' : Char) = 'R') = False by decide, if_false]
    · show 0 ≤ (st.pos - d) % 100
      omega
    · show (st.pos - d) % 100 < 100
      omega
    · show (if (st.pos - d) % 100 = 0 then st.part1 + 1 else st.part1) =
        st.part1 + (if (st.pos - d) % 100 = 0 then 1 else 0)
      split_ifs <;> omega
  · subst hR
    have hcount := count_right st.pos hpos d.toNat
    rw [hdn] at hcount
    refine ⟨_, process_line_right p rest d st hp hd hpos, ?_, ?_, ?_, ?_, ?_⟩
    · simp only [if_true]
      rw [hcount]
    · simp only [if_true]
    · show 0 ≤ (st.pos + d) % 100
      omega
    · show (st.pos + d) % 100 < 100
      omega
    · show (if (st.pos + d) % 100 = 0 then st.part1 + 1 else st.part1) =
        st.part1 + (if (st.pos + d) % 100 = 0 then 1 else 0)
      split_ifs <;> omega

theorem process_line_spec_witness :
    ∃ st1, process_line ('L' :: ['2', '6', '8']) ⟨50, 0, 0⟩ = some st1 ∧
      st1.part2 = (⟨50, 0, 0⟩ : Dial).part2 +
        (((Finset.Icc 1 (268 : Int).toNat).filter (fun k : Nat =>
          (if 'L' = 'R' then (⟨50, 0, 0⟩ : Dial).pos + (k : Int)
            else (⟨50, 0, 0⟩ : Dial).pos - (k : Int)) % 100 = 0)).card : Int) ∧
      st1.pos = (if 'L' = 'R' then (⟨50, 0, 0⟩ : Dial).pos + 268
        else (⟨50, 0, 0⟩ : Dial).pos - 268) % 100 ∧
      0 ≤ st1.pos ∧ st1.pos < 100 ∧
      st1.part1 = (⟨50, 0, 0⟩ : Dial).part1 + (if st1.pos = 0 then 1 else 0) :=
  process_line_spec 'L' ['2', '6', '8'] [] 268 ⟨50, 0, 0⟩ (Or.inl rfl) (by decide) (by decide)
    (by decide)

end Day01

namespace Day03

/-! ## The greedy choice of `output_joltage` -/

theorem foldl_digits (l : List Char) (acc : Nat) :
    l.foldl (fun a d => a * 10 + (d.toNat - 48)) acc =
      acc * 10 ^ l.length + l.foldl (fun a d => a * 10 + (d.toNat - 48)) 0 := by
  induction l generalizing acc with
  | nil => simp
  | cons c l ih =>
    simp only [List.foldl_cons, List.length_cons]
    rw [ih (acc * 10 + (c.toNat - 48)), ih (0 * 10 + (c.toNat - 48))]
    ring

theorem digits_value_cons (c : Char) (l : List Char) :
    Aoc.digits_value (c :: l) = digit_val c * 10 ^ l.length + Aoc.digits_value l := by
  unfold Aoc.digits_value digit_val
  rw [List.foldl_cons, foldl_digits]
  simp

theorem digits_value_lt (l : List Char) (h : ∀ c ∈ l, IsDigit c) :
    Aoc.digits_value l < 10 ^ l.length := by
  induction l with
  | nil => simp [Aoc.digits_value]
  | cons c l ih =>
    rw [digits_value_cons, List.length_cons, pow_succ]
    have h1 := ih (fun x hx => h x (List.mem_cons_of_mem _ hx))
    have h2 := h c (List.mem_cons_self _ _)
    unfold IsDigit at h2
    unfold digit_val
    have h3 : (c.toNat - 48) * 10 ^ l.length ≤ 9 * 10 ^ l.length :=
      Nat.mul_le_mul_right _ (by omega)
    omega

theorem scan_step_inv (s : List Char) (hdig : ∀ i, i < s.length → IsDigit (s.getD i (Char.ofNat 0)))
    (start j : Nat) (b : Char × Nat) (hj : j < s.length) (hsj : start ≤ j)
    (h : ScanInv s start j b) : ScanInv s start (j + 1) (scan_step s b j) := by
  obtain ⟨h1, h2, h3, h4, h5, h6⟩ := h
  have hd := hdig j hj
  unfold IsDigit at hd
  unfold scan_step
  simp only []
  by_cases hgt : (s.getD j (Char.ofNat 0)).toNat > b.1.toNat
  · rw [if_pos hgt]
    refine ⟨hsj, by simp only []; omega, fun h => by omega, fun _ => ⟨by simp only []; omega, rfl⟩,
      ?_, ?_⟩
    · intro i hi1 hi2
      simp only []
      rcases Nat.lt_succ_iff_lt_or_eq.mp hi2 with hi | hi
      · have := h5 i hi1 hi
        omega
      · rw [hi]
    · intro i hi1 hi2
      simp only [] at hi2 ⊢
      have := h5 i hi1 hi2
      omega
  · rw [if_neg hgt]
    refine ⟨h1, h2, fun h => by omega, ?_, ?_, h6⟩
    · intro _
      rcases Nat.eq_or_lt_of_le hsj with he | hl
      · obtain ⟨h7, h8⟩ := h3 he.symm
        rw [h7, he]
        refine ⟨by omega, ?_⟩
        omega
      · obtain ⟨h7, h8⟩ := h4 hl
        exact ⟨by omega, h8⟩
    · intro i hi1 hi2
      rcases Nat.lt_succ_iff_lt_or_eq.mp hi2 with hi | hi
      · exact h5 i hi1 hi
      · rw [hi]
        omega

theorem scan_fold_inv (s : List Char) (hdig : ∀ i, i < s.length → IsDigit (s.getD i (Char.ofNat 0)))
    (start j m : Nat) (b : Char × Nat) (hjm : j + m ≤ s.length) (hsj : start ≤ j)
    (h : ScanInv s start j b) :
    ScanInv s start (j + m) ((List.range' j m).foldl (scan_step s) b) := by
  induction m generalizing j b with
  | zero => exact h
  | succ m ih =>
    rw [List.range'_succ, List.foldl_cons]
    have := ih (j + 1) (scan_step s b j) (by omega) (by omega)
      (scan_step_inv s hdig start j b (by omega) hsj h)
    have e : j + 1 + m = j + (m + 1) := by omega
    rw [e] at this
    exact this

theorem scan_init (s : List Char) (start : Nat) : ScanInv s start start ('0', start) :=
  ⟨le_refl _, (by decide : 48 ≤ ('0' : Char).toNat),
    fun _ => ⟨rfl, (by decide : ('0' : Char).toNat = 48)⟩, fun h => absurd h (lt_irrefl _),
    fun i h1 h2 => by omega, fun i h1 h2 => by simp only [] at h2; omega⟩

/-- A list that starts a sublist of `l` with `a` finds `a` at some index of `l` and the
rest behind it. -/
theorem sublist_head_index (a : Char) (t l : List Char) (h : (a :: t).Sublist l) :
    ∃ p, p < l.length ∧ l.getD p (Char.ofNat 0) = a ∧ t.Sublist (l.drop (p + 1)) := by
  induction l with
  | nil => simp at h
  | cons x l ih =>
    rcases List.sublist_cons_iff.mp h with h1 | ⟨r, h1, h2⟩
    · obtain ⟨p, hp1, hp2, hp3⟩ := ih h1
      exact ⟨p + 1, by simp only [List.length_cons]; omega, by simpa using hp2, by simpa using hp3⟩
    · obtain ⟨rfl, rfl⟩ := List.cons.inj h1
      exact ⟨0, by simp, by simp, by simpa using h2⟩

theorem getD_isDigit (s : List Char) (hdig : ∀ c ∈ s, IsDigit c) (i : Nat) (hi : i < s.length) :
    IsDigit (s.getD i (Char.ofNat 0)) := by
  rw [List.getD_eq_getElem _ _ hi]
  exact hdig _ (List.getElem_mem _)

theorem digit_val_mono (a c : Char) (ha : 48 ≤ a.toNat) (h : a.toNat < c.toNat) :
    digit_val a + 1 ≤ digit_val c := by
  unfold digit_val
  omega

/-- The picking loop returns the largest value of a sublist of the given length of the
digits from `start` on. -/
theorem pick_loop_spec (s : List Char) (hdig : ∀ c ∈ s, IsDigit c) (r start val : Nat)
    (hstart : start + r ≤ s.length) (hr : r ≤ 12) (hval : val < 10 ^ (12 - r)) :
    ∃ g, g.Sublist (s.drop start) ∧ g.length = r ∧
      pick_loop s s.length r start val = val * 10 ^ r + Aoc.digits_value g ∧
      ∀ t, t.Sublist (s.drop start) → t.length = r →
        Aoc.digits_value t ≤ Aoc.digits_value g := by
  induction r generalizing start val with
  | zero =>
    refine ⟨[], List.nil_sublist _, rfl, ?_, ?_⟩
    · simp [pick_loop, Aoc.digits_value]
    · intro t _ ht
      rw [List.length_eq_zero.mp ht]
  | succ r ih =>
    have hdig1 := getD_isDigit s hdig
    have hinv := scan_fold_inv s hdig1 start start (s.length - (r + 1) + 1 - start)
      ('0', start) (by omega) (le_refl _) (scan_init s start)
    generalize hb : (List.range' start (s.length - (r + 1) + 1 - start)).foldl (scan_step s)
      ('0', start) = b at hinv
    obtain ⟨h1, h2, _, h4, h5, h6⟩ := hinv
    obtain ⟨h7, h8⟩ := h4 (by omega)
    have hb2 : b.2 < s.length := by omega
    have hc := hdig1 b.2 hb2
    unfold IsDigit at hc
    have hpow : 10 ^ (12 - r) = 10 * 10 ^ (12 - (r + 1)) := by
      have : 12 - r = (12 - (r + 1)) + 1 := by omega
      rw [this, pow_succ]
      ring
    have hle : 10 ^ (12 - r) ≤ 10 ^ 12 := Nat.pow_le_pow_right (by norm_num) (by omega)
    have hnew : val * 10 + (b.1.toNat - 48) < 10 ^ (12 - r) := by omega
    have hmod : (val * 10 + (b.1.toNat - 48)) % 2 ^ 64 = val * 10 + (b.1.toNat - 48) :=
      Nat.mod_eq_of_lt (by
        have : (10 : Nat) ^ 12 < 2 ^ 64 := by norm_num
        omega)
    obtain ⟨g, hg1, hg2, hg3, hg4⟩ := ih (b.2 + 1) (val * 10 + (b.1.toNat - 48)) (by omega)
      (by omega) hnew
    have hdrop : s.drop b.2 = s.getD b.2 (Char.ofNat 0) :: s.drop (b.2 + 1) := by
      rw [List.getD_eq_getElem _ _ hb2]
      exact List.drop_eq_getElem_cons hb2
    have hdv : digit_val (s.getD b.2 (Char.ofNat 0)) = b.1.toNat - 48 := by
      unfold digit_val
      rw [h8]
    refine ⟨s.getD b.2 (Char.ofNat 0) :: g, ?_, by simp [hg2], ?_, ?_⟩
    · have hs1 : (s.getD b.2 (Char.ofNat 0) :: g).Sublist (s.drop b.2) := by
        rw [hdrop]
        exact List.Sublist.cons₂ _ hg1
      exact hs1.trans (List.drop_sublist_drop_left s h1)
    · simp only [pick_loop]
      rw [hb, hmod, hg3, digits_value_cons, hg2, hdv, pow_succ]
      ring
    · intro t ht htl
      cases t with
      | nil => simp at htl
      | cons a t1 =>
        have htl1 : t1.length = r := by simpa using htl
        obtain ⟨p, hp1, hp2, hp3⟩ := sublist_head_index a t1 (s.drop start) ht
        rw [List.length_drop] at hp1
        rw [List.drop_drop] at hp3
        have hpa : s.getD (start + p) (Char.ofNat 0) = a := by
          rw [← hp2, List.getD_eq_getElem?_getD, List.getD_eq_getElem?_getD, List.getElem?_drop]
        have hlen3 := hp3.length_le
        rw [List.length_drop, htl1] at hlen3
        have hwin : start + p < s.length - (r + 1) + 1 := by omega
        have hle5 := h5 (start + p) (by omega) (by omega)
        rw [hpa] at hle5
        have hdig_t1 : ∀ c ∈ t1, IsDigit c := by
          intro c hc1
          exact hdig c ((List.drop_sublist _ _).subset (hp3.subset hc1))
        have hlt1 := digits_value_lt t1 hdig_t1
        rw [htl1] at hlt1
        have ha48 : 48 ≤ a.toNat := by
          have := hdig1 (start + p) (by omega)
          rw [hpa] at this
          exact this.1
        rw [digits_value_cons, digits_value_cons, htl1, hg2, hdv]
        rcases Nat.lt_or_ge a.toNat b.1.toNat with hlt | hge
        · have h9 : digit_val a + 1 ≤ b.1.toNat - 48 := by
            unfold digit_val
            omega
          have h10 := Nat.mul_le_mul_right (10 ^ r) h9
          rw [Nat.add_mul, Nat.one_mul] at h10
          omega
        · have heq : a.toNat = b.1.toNat := by omega
          have hpos : b.2 ≤ start + p := by
            by_contra hcon
            have := h6 (start + p) (by omega) (by omega)
            rw [hpa] at this
            omega
          have hsub : t1.Sublist (s.drop (b.2 + 1)) := by
            exact hp3.trans (List.drop_sublist_drop_left s (by omega))
          have h11 := hg4 t1 hsub htl1
          have h12 : digit_val a = b.1.toNat - 48 := by
            unfold digit_val
            rw [heq]
          rw [h12]
          omega

theorem foldl_wrap (l : List Char) (hdig : ∀ c ∈ l, IsDigit c) (acc k : Nat)
    (hacc : acc < 10 ^ k) (hk : k + l.length ≤ 19) :
    l.foldl (fun val ch => (val * 10 + digit_u8 ch) % 2 ^ 64) acc =
      l.foldl (fun a d => a * 10 + (d.toNat - 48)) acc := by
  induction l generalizing acc k with
  | nil => rfl
  | cons c l ih =>
    simp only [List.foldl_cons]
    have hc := hdig c (List.mem_cons_self _ _)
    unfold IsDigit at hc
    have hd : digit_u8 c = c.toNat - 48 := by
      unfold digit_u8
      omega
    have hnew : acc * 10 + (c.toNat - 48) < 10 ^ (k + 1) := by
      rw [pow_succ]
      omega
    have hle : 10 ^ (k + 1) ≤ 10 ^ 19 :=
      Nat.pow_le_pow_right (by norm_num) (by simp only [List.length_cons] at hk; omega)
    have hmod : (acc * 10 + (c.toNat - 48)) % 2 ^ 64 = acc * 10 + (c.toNat - 48) :=
      Nat.mod_eq_of_lt (by
        have : (10 : Nat) ^ 19 < 2 ^ 64 := by norm_num
        omega)
    rw [hd, hmod]
    exact ih (fun x hx => hdig x (List.mem_cons_of_mem _ hx)) _ (k + 1) hnew
      (by simp only [List.length_cons] at hk; omega)

/-- C40: Day 03 part 2.  For every string of decimal digits longer than 12,
`output_joltage` returns the largest number that can be formed by choosing 12 of its digits
and keeping them in their order: the value of some sublist of 12 digits, and no sublist of
12 digits has a larger value.  For a string of at most 12 digits it returns the number
formed by all its digits. -/
theorem output_joltage_spec (s : List Char) (hdig : ∀ c ∈ s, IsDigit c) :
    (12 < s.length →
        ∃ g, g.Sublist s ∧ g.length = 12 ∧ output_joltage s = Aoc.digits_value g ∧
          ∀ t, t.Sublist s → t.length = 12 → Aoc.digits_value t ≤ Aoc.digits_value g) ∧
      (s.length ≤ 12 → output_joltage s = Aoc.digits_value s) := by
  constructor
  · intro hlen
    obtain ⟨g, h1, h2, h3, h4⟩ := pick_loop_spec s hdig 12 0 0 (by omega) (le_refl _)
      (by norm_num)
    rw [List.drop_zero] at h1 h4
    refine ⟨g, h1, h2, ?_, h4⟩
    unfold output_joltage K
    simp only []
    rw [if_neg (by omega), if_neg (by omega), h3]
    omega
  · intro hlen
    unfold output_joltage K
    simp only []
    by_cases h0 : s.length = 0
    · rw [if_pos h0, List.length_eq_zero.mp h0]
      rfl
    · rw [if_neg h0, if_pos hlen]
      exact foldl_wrap s hdig 0 0 (by norm_num) (by omega)

theorem output_joltage_spec_witness :
    (12 < ['2', '3', '4', '2', '3', '4', '2', '3', '4', '2', '3', '4', '2', '7', '8'].length →
        ∃ g, g.Sublist ['2', '3', '4', '2', '3', '4', '2', '3', '4', '2', '3', '4', '2', '7', '8'] ∧
          g.length = 12 ∧
          output_joltage ['2', '3', '4', '2', '3', '4', '2', '3', '4', '2', '3', '4', '2', '7', '8'] =
            Aoc.digits_value g ∧
          ∀ t, t.Sublist ['2', '3', '4', '2', '3', '4', '2', '3', '4', '2', '3', '4', '2', '7', '8'] →
            t.length = 12 → Aoc.digits_value t ≤ Aoc.digits_value g) ∧
      (['2', '3', '4', '2', '3', '4', '2', '3', '4', '2', '3', '4', '2', '7', '8'].length ≤ 12 →
        output_joltage ['2', '3', '4', '2', '3', '4', '2', '3', '4', '2', '3', '4', '2', '7', '8'] =
          Aoc.digits_value
            ['2', '3', '4', '2', '3', '4', '2', '3', '4', '2', '3', '4', '2', '7', '8']) :=
  output_joltage_spec ['2', '3', '4', '2', '3', '4', '2', '3', '4', '2', '3', '4', '2', '7', '8']
    (by decide)

end Day03

namespace Day05

/-! ## The interval merge of Day 05 -/

/-- C38, at the failing input: the ranges `0-18446744073709551615` and `5-10`.  The second
lies inside the first, but `cur.hi + 1U` wraps to 0, the test `next.lo <= cur.hi + 1U` fails
and `merge_ranges` returns both ranges: the result is not pairwise disjoint. -/
theorem merge_ranges_wraps :
    merge_ranges [⟨0, 18446744073709551615⟩, ⟨5, 10⟩] =
        [⟨0, 18446744073709551615⟩, ⟨5, 10⟩] ∧
      (18446744073709551615 + 1) % 2 ^ 64 = 0 ∧ U64_MAX = 18446744073709551615 ∧
      ¬ Merged (merge_ranges [⟨0, 18446744073709551615⟩, ⟨5, 10⟩]) ∧
      InRanges [⟨0, 18446744073709551615⟩] 7 ∧ InRanges [⟨5, 10⟩] 7 := by
  refine ⟨by decide, by decide, by decide, ?_, ⟨_, List.mem_singleton.mpr rfl, by decide⟩,
    ⟨_, List.mem_singleton.mpr rfl, by decide⟩⟩
  have e : merge_ranges [⟨0, 18446744073709551615⟩, ⟨5, 10⟩] =
      [⟨0, 18446744073709551615⟩, ⟨5, 10⟩] := by decide
  rw [e]
  intro h
  have := h.1
  simp at this

theorem cmp_range_cases (a b : Range) :
    (cmp_range a b = -1 ∧ (a.lo < b.lo ∨ (a.lo = b.lo ∧ a.hi < b.hi))) ∨
      (cmp_range a b = 0 ∧ a.lo = b.lo ∧ a.hi = b.hi) ∨
      (cmp_range a b = 1 ∧ (b.lo < a.lo ∨ (b.lo = a.lo ∧ b.hi < a.hi))) := by
  unfold cmp_range
  split_ifs <;> simp <;> omega

theorem range_le_iff (a b : Range) :
    range_le a b ↔ (a.lo < b.lo ∨ (a.lo = b.lo ∧ a.hi ≤ b.hi)) := by
  unfold range_le
  have h := cmp_range_cases a b
  constructor <;> intro h1 <;> omega

theorem range_le_total (a b : Range) : range_le a b ∨ range_le b a := by
  rw [range_le_iff, range_le_iff]
  omega

theorem range_le_trans (a b c : Range) (h1 : range_le a b) (h2 : range_le b c) :
    range_le a c := by
  rw [range_le_iff] at h1 h2 ⊢
  omega

theorem sorted_lo (r : List Range) :
    (r.insertionSort range_le).Pairwise (fun a b => a.lo ≤ b.lo) := by
  haveI : IsTotal Range range_le := ⟨range_le_total⟩
  haveI : IsTrans Range range_le := ⟨range_le_trans⟩
  have h := List.sorted_insertionSort range_le r
  exact h.imp (fun {a b} hab => by
    rw [range_le_iff] at hab
    omega)

theorem inRanges_perm (l l1 : List Range) (h : l.Perm l1) (v : Nat) :
    InRanges l v ↔ InRanges l1 v := by
  unfold InRanges
  constructor
  · rintro ⟨x, hx, hv⟩
    exact ⟨x, h.subset hx, hv⟩
  · rintro ⟨x, hx, hv⟩
    exact ⟨x, h.symm.subset hx, hv⟩

theorem inRanges_append (l1 l2 : List Range) (v : Nat) :
    InRanges (l1 ++ l2) v ↔ InRanges l1 v ∨ InRanges l2 v := by
  unfold InRanges
  constructor
  · rintro ⟨x, hx, hv⟩
    rcases List.mem_append.mp hx with h | h
    · exact Or.inl ⟨x, h, hv⟩
    · exact Or.inr ⟨x, h, hv⟩
  · rintro (⟨x, hx, hv⟩ | ⟨x, hx, hv⟩)
    · exact ⟨x, List.mem_append_left _ hx, hv⟩
    · exact ⟨x, List.mem_append_right _ hx, hv⟩

theorem inRanges_cons (a : Range) (l : List Range) (v : Nat) :
    InRanges (a :: l) v ↔ (a.lo ≤ v ∧ v ≤ a.hi) ∨ InRanges l v := by
  unfold InRanges
  constructor
  · rintro ⟨x, hx, hv⟩
    rcases List.mem_cons.mp hx with rfl | h
    · exact Or.inl hv
    · exact Or.inr ⟨x, h, hv⟩
  · rintro (hv | ⟨x, hx, hv⟩)
    · exact ⟨a, List.mem_cons_self _ _, hv⟩
    · exact ⟨x, List.mem_cons_of_mem _ hx, hv⟩

/-- The merging loop away from the wrap: when no range ends at `2 ^ 64 - 1`, the loop
leaves merged ranges that cover what the written, the current and the unread ranges
cover. -/
theorem merge_loop_spec (rest : List Range) (cur : Range) (out : List Range)
    (hsorted : ∀ x ∈ rest, cur.lo ≤ x.lo) (hrest : rest.Pairwise (fun a b => a.lo ≤ b.lo))
    (hvalid : ∀ x ∈ cur :: rest, x.lo ≤ x.hi ∧ x.hi < U64_MAX) (hout : Merged out)
    (hlast : ∀ x ∈ out, x.hi + 1 < cur.lo) :
    Merged (merge_loop rest cur out) ∧
      (∀ v, InRanges (merge_loop rest cur out) v ↔ InRanges (out ++ cur :: rest) v) ∧
      (merge_loop rest cur out).length ≤ out.length + 1 + rest.length := by
  induction rest generalizing cur out with
  | nil =>
    rw [merge_loop]
    refine ⟨⟨?_, ?_⟩, fun v => Iff.rfl, by simp⟩
    · rw [List.pairwise_append]
      refine ⟨hout.1, List.pairwise_singleton _ _, ?_⟩
      intro a ha b hb
      rw [List.mem_singleton] at hb
      rw [hb]
      exact hlast a ha
    · intro x hx
      rcases List.mem_append.mp hx with h | h
      · exact hout.2 x h
      · rw [List.mem_singleton] at h
        rw [h]
        exact (hvalid cur (List.mem_cons_self _ _)).1
  | cons next rest ih =>
    have hcur := hvalid cur (List.mem_cons_self _ _)
    have hnext := hvalid next (List.mem_cons_of_mem _ (List.mem_cons_self _ _))
    have hcn := hsorted next (List.mem_cons_self _ _)
    have hU : U64_MAX = 2 ^ 64 - 1 := rfl
    have hwrap : (cur.hi + 1) % 2 ^ 64 = cur.hi + 1 := Nat.mod_eq_of_lt (by omega)
    obtain ⟨hnr, hrr⟩ := List.pairwise_cons.mp hrest
    simp only [merge_loop]
    rw [hwrap]
    by_cases hm : next.lo ≤ cur.hi + 1
    · rw [if_pos hm]
      have hlo : (if next.hi > cur.hi then { cur with hi := next.hi } else cur).lo = cur.lo := by
        split_ifs <;> rfl
      have hhi : (if next.hi > cur.hi then { cur with hi := next.hi } else cur).hi =
          max cur.hi next.hi := by
        split_ifs with h
        · exact (max_eq_right (le_of_lt h)).symm
        · exact (max_eq_left (not_lt.mp h)).symm
      obtain ⟨h1, h2, h3⟩ := ih (if next.hi > cur.hi then { cur with hi := next.hi } else cur) out
        (by
          intro x hx
          rw [hlo]
          exact hsorted x (List.mem_cons_of_mem _ hx))
        hrr
        (by
          intro x hx
          rcases List.mem_cons.mp hx with rfl | hx
          · rw [hlo, hhi]
            exact ⟨by omega, by omega⟩
          · exact hvalid x (List.mem_cons_of_mem _ (List.mem_cons_of_mem _ hx)))
        hout
        (by
          intro x hx
          rw [hlo]
          exact hlast x hx)
      refine ⟨h1, ?_, by simp only [List.length_cons]; omega⟩
      intro v
      rw [h2 v, inRanges_append, inRanges_append, inRanges_cons, inRanges_cons, inRanges_cons,
        hlo, hhi]
      constructor
      · rintro (h | h | h)
        · exact Or.inl h
        · by_cases hv : v ≤ cur.hi
          · exact Or.inr (Or.inl ⟨h.1, hv⟩)
          · exact Or.inr (Or.inr (Or.inl ⟨by omega, by omega⟩))
        · exact Or.inr (Or.inr (Or.inr h))
      · rintro (h | h | h | h)
        · exact Or.inl h
        · exact Or.inr (Or.inl ⟨h.1, by omega⟩)
        · exact Or.inr (Or.inl ⟨by omega, by omega⟩)
        · exact Or.inr (Or.inr h)
    · rw [if_neg hm]
      obtain ⟨h1, h2, h3⟩ := ih next (out ++ [cur]) hnr hrr
        (fun x hx => hvalid x (List.mem_cons_of_mem _ hx))
        (by
          refine ⟨?_, ?_⟩
          · rw [List.pairwise_append]
            refine ⟨hout.1, List.pairwise_singleton _ _, ?_⟩
            intro a ha b hb
            rw [List.mem_singleton] at hb
            rw [hb]
            exact hlast a ha
          · intro x hx
            rcases List.mem_append.mp hx with h | h
            · exact hout.2 x h
            · rw [List.mem_singleton] at h
              rw [h]
              exact hcur.1)
        (by
          intro x hx
          rcases List.mem_append.mp hx with h | h
          · have := hlast x h
            omega
          · rw [List.mem_singleton] at h
            rw [h]
            omega)
      refine ⟨h1, ?_, ?_⟩
      swap
      · rw [List.length_append, List.length_singleton] at h3
        rw [List.length_cons]
        omega
      intro v
      rw [h2 v, List.append_assoc, List.singleton_append]

/-- Away from the wrap `merge_ranges` merges: for every non-empty array of ranges with
`lo ≤ hi < 2 ^ 64 - 1` it returns at most as many ranges, in ascending order, pairwise
disjoint and not adjacent, and covering exactly the values the input ranges cover. -/
theorem merge_ranges_spec_below_max (r : List Range) (hne : r ≠ [])
    (hvalid : ∀ x ∈ r, x.lo ≤ x.hi ∧ x.hi < U64_MAX) :
    (merge_ranges r).length ≤ r.length ∧ merge_ranges r ≠ [] ∧
      (merge_ranges r).Pairwise (fun a b => a.hi + 1 < b.lo) ∧
      (∀ x ∈ merge_ranges r, x.lo ≤ x.hi) ∧
      ∀ v, InRanges (merge_ranges r) v ↔ InRanges r v := by
  have hperm := List.perm_insertionSort range_le r
  have hsort := sorted_lo r
  unfold merge_ranges
  cases hs : r.insertionSort range_le with
  | nil =>
    rw [hs] at hperm
    exact absurd (List.Perm.nil_eq hperm).symm hne
  | cons r0 rest =>
    rw [hs] at hperm hsort
    simp only []
    obtain ⟨h0, hrr⟩ := List.pairwise_cons.mp hsort
    obtain ⟨⟨h1, h2⟩, h3, h4⟩ := merge_loop_spec rest r0 [] h0 hrr
      (fun x hx => hvalid x (hperm.subset hx)) ⟨List.Pairwise.nil, fun x hx => by simp at hx⟩
      (fun x hx => by simp at hx)
    refine ⟨?_, ?_, h1, h2, ?_⟩
    · have := hperm.length_eq
      simp only [List.length_cons, List.length_nil] at this h4
      omega
    · intro he
      have := (h3 r0.lo).mpr ⟨r0, by simp, le_refl _, (hvalid r0 (hperm.subset (by simp))).1⟩
      rw [he] at this
      obtain ⟨x, hx, _⟩ := this
      simp at hx
    · intro v
      rw [h3 v, List.nil_append]
      exact inRanges_perm _ _ hperm v

end Day05
